import Mathlib

/-!
# Banjo: constraint subsumption, hash-consing and structural equivalence

A shallow embedding of the constraint prover of `banjo/subsumption.cpp`, of the
hash functions of `banjo/hash.cpp`, of the substitution of
`banjo/substitution.cpp`, of the makers and the hash-consing factory of
`banjo/builder.cpp` and of the constructors of the expression classes of
`banjo/ast.hpp`.

Conventions of the embedding

* Terms are values (trees).  A reference to a declaration is the identity of
  that declaration, a natural number standing for its address.  The value of
  a term is what hashing, equivalence, normalization and the prover read.
* A fatal exit of the program (`lingo_unimplemented`, `lingo_unreachable`, an
  operation on an iterator that designates no element) is a value of `Fatal`;
  every function that can reach one returns `Except Fatal _`.
* An iterator of a `std::list` is the position (index) of the element it
  designates; `end()` is the length of the list.  The cursor `cur` of a
  `Prop_list` is not reassigned by a replacement, which erases the node it
  designates.  When the replacement inserts a constraint, the new node is
  allocated where the erased one was freed, and the cursor designates the first
  constraint inserted, at the position it held.  When the replacement inserts
  nothing, the cursor designates no node: the next `++cur`, or `erase` at
  `cur`, is a fatal exit (`undefined`).  A flatten pass carries whether the
  cursor designates a node (`live`); the member keeps the position.
* Hash codes are kept symbolic (`Hash_code`): `typeid(t).hash_code()`, the hash
  of an address and `boost::hash_combine` are platform-defined functions, and
  two equal symbolic codes denote equal machine codes on every platform.
* Where the identity of an object or a change of one of its fields is at
  stake, the objects are the entries of a list in the order of their creation
  (the arena of the type objects, the store of the declarations), the position
  of an object is its identity, and a call returns the list it leaves.  The
  substitution is given by value and on these objects: `get_qualified_type`
  adds qualifiers in place to a qualified type it is given, which every term
  that shares the type object sees, and which the functions by value do not
  show.
-/

set_option linter.unnecessarySeqFocus false
set_option linter.unusedVariables false

namespace banjo

/-- The identity of a declaration.  Declarations are never canonicalized:
two declarations are the same iff they are the same object. -/
abbrev Decl := Nat

/-- The ways in which a call can end without returning a value. -/
inductive Fatal where
  /-- The call reached `lingo_unimplemented()`. -/
  | unimplemented
  /-- The call reached `lingo_unreachable()`. -/
  | unreachable
  /-- The call used an iterator that designates no element, or failed an
  assertion or a cast. -/
  | undefined
  /-- The step budget of a loop of the embedding ran out. -/
  | nontermination
  deriving DecidableEq, Repr

/-- The unary expression classes derived from `Unary_expr`. -/
inductive Unary_op where
  | Neg_expr | Pos_expr | Not_expr
  deriving DecidableEq, Repr

/-- The binary expression classes derived from `Binary_expr`. -/
inductive Binary_op where
  | Add_expr | Sub_expr | Mul_expr | Div_expr | Rem_expr
  | Eq_expr | Ne_expr | Lt_expr | Gt_expr | Le_expr | Ge_expr
  | And_expr | Or_expr | Assign_expr
  deriving DecidableEq, Repr

/-- The conversion classes derived from `Conv`. -/
inductive Conv_kind where
  | Value_conv | Qualification_conv | Boolean_conv | Integer_conv
  | Float_conv | Numeric_conv | Ellipsis_conv
  deriving DecidableEq, Repr

mutual
/-- Types (`struct Type` and its derived classes in `ast.hpp`).  A qualifier
set is the bit set of `enum Qualifier_set`. -/
inductive Type_ where
  | Void_type : Type_
  | Boolean_type : Type_
  | Integer_type (sgn : Bool) (prec : Int) : Type_
  | Float_type (prec : Int) : Type_
  | Auto_type : Type_
  | Decltype_type : Type_
  | Declauto_type : Type_
  | Function_type (parms : List Type_) (ret : Type_) : Type_
  | Qualified_type (ty : Type_) (qual : Nat) : Type_
  | Pointer_type (ty : Type_) : Type_
  | Reference_type (ty : Type_) : Type_
  | Array_type (first : Type_) (second : Expr) : Type_
  | Sequence_type (ty : Type_) : Type_
  | Class_type (decl : Decl) : Type_
  | Union_type (decl : Decl) : Type_
  | Enum_type (decl : Decl) : Type_
  | Typename_type (decl : Decl) : Type_
  | Synthetic_type (decl : Decl) : Type_
/-- Expressions (`struct Expr` and its derived classes).  Every expression
carries its type.  Real literals and initializers are not part of the
embedding. -/
inductive Expr where
  | Boolean_expr (ty : Type_) (value : Bool) : Expr
  | Integer_expr (ty : Type_) (value : Int) : Expr
  | Reference_expr (ty : Type_) (decl : Decl) : Expr
  | Unary_expr (op : Unary_op) (ty : Type_) (first : Expr) : Expr
  | Binary_expr (op : Binary_op) (ty : Type_) (first : Expr) (second : Expr) : Expr
  | Call_expr (ty : Type_) (fn : Expr) (args : List Expr) : Expr
  | Conv (kind : Conv_kind) (ty : Type_) (expr : Expr) : Expr
  | Check_expr (ty : Type_) (decl : Decl) (args : List Term) : Expr
  | Requires_expr (ty : Type_) (parms : List Decl) (body : Expr) : Expr
  | Synthetic_expr (ty : Type_) (decl : Decl) : Expr
/-- The elements of a `Term_list` by value: the arguments of a concept check,
each a type or an expression.  A term that is a declaration has no value other
than its identity; the substitution into it is that of `Term_obj`, on the
objects of the store. -/
inductive Term where
  | type (t : Type_) : Term
  | expr (e : Expr) : Term
end

/-- Modelled from the spec: the constraint classes (`Cons` and its derived
classes), whose declarations are missing from `ast.hpp`.  Section 3.1: atomic
predicate, concept (declaration and arguments), parameterized (parameter
declarations over a sub-constraint), conjunction and disjunction. -/
inductive Cons where
  | Concept_cons (decl : Decl) (args : List Term) : Cons
  | Predicate_cons (expr : Expr) : Cons
  | Parameterized_cons (parms : List Decl) (cons : Cons) : Cons
  | Conjunction_cons (left : Cons) (right : Cons) : Cons
  | Disjunction_cons (left : Cons) (right : Cons) : Cons

/-! ## Structural equivalence -/

mutual
/-- Modelled from the spec: `is_equivalent` on types (`equivalence.cpp` is
missing).  Section 4.B: same variant, then field-wise recursion; integer types
compare sign and precision, float types precision, function types their
parameter sequences in order and return type, qualified types qualifier set
and inner type, user-defined types the identity of the declaration. -/
def is_equivalent_type : Type_ → Type_ → Bool
  | .Void_type, b => match b with
      | .Void_type => true
      | _ => false
  | .Boolean_type, b => match b with
      | .Boolean_type => true
      | _ => false
  | .Integer_type s1 p1, b => match b with
      | .Integer_type s2 p2 => s1 == s2 && p1 == p2
      | _ => false
  | .Float_type p1, b => match b with
      | .Float_type p2 => p1 == p2
      | _ => false
  | .Auto_type, b => match b with
      | .Auto_type => true
      | _ => false
  | .Decltype_type, b => match b with
      | .Decltype_type => true
      | _ => false
  | .Declauto_type, b => match b with
      | .Declauto_type => true
      | _ => false
  | .Function_type ps1 r1, b => match b with
      | .Function_type ps2 r2 => is_equivalent_type_list ps1 ps2 && is_equivalent_type r1 r2
      | _ => false
  | .Qualified_type t1 q1, b => match b with
      | .Qualified_type t2 q2 => q1 == q2 && is_equivalent_type t1 t2
      | _ => false
  | .Pointer_type t1, b => match b with
      | .Pointer_type t2 => is_equivalent_type t1 t2
      | _ => false
  | .Reference_type t1, b => match b with
      | .Reference_type t2 => is_equivalent_type t1 t2
      | _ => false
  | .Array_type t1 e1, b => match b with
      | .Array_type t2 e2 => is_equivalent_type t1 t2 && is_equivalent_expr e1 e2
      | _ => false
  | .Sequence_type t1, b => match b with
      | .Sequence_type t2 => is_equivalent_type t1 t2
      | _ => false
  | .Class_type d1, b => match b with
      | .Class_type d2 => d1 == d2
      | _ => false
  | .Union_type d1, b => match b with
      | .Union_type d2 => d1 == d2
      | _ => false
  | .Enum_type d1, b => match b with
      | .Enum_type d2 => d1 == d2
      | _ => false
  | .Typename_type d1, b => match b with
      | .Typename_type d2 => d1 == d2
      | _ => false
  | .Synthetic_type d1, b => match b with
      | .Synthetic_type d2 => d1 == d2
      | _ => false
termination_by structural x => x
/-- Modelled from the spec: `is_equivalent` on type lists, element by element
and in order. -/
def is_equivalent_type_list : List Type_ → List Type_ → Bool
  | [], bs => match bs with
      | [] => true
      | _ => false
  | a :: as, bs => match bs with
      | b :: bs => is_equivalent_type a b && is_equivalent_type_list as bs
      | _ => false
termination_by structural x => x
/-- Modelled from the spec: `is_equivalent` on expressions.  Section 4.B: same
variant; literals compare by stored value, reference expressions by the
identity of the referenced declaration, unary and binary expressions by
operand equivalence, calls by callee and argument sequence.  The variants the
section does not list are compared field by field in the same way. -/
def is_equivalent_expr : Expr → Expr → Bool
  | .Boolean_expr _ v1, b => match b with
      | .Boolean_expr _ v2 => v1 == v2
      | _ => false
  | .Integer_expr _ v1, b => match b with
      | .Integer_expr _ v2 => v1 == v2
      | _ => false
  | .Reference_expr _ d1, b => match b with
      | .Reference_expr _ d2 => d1 == d2
      | _ => false
  | .Unary_expr o1 _ a1, b => match b with
      | .Unary_expr o2 _ a2 => o1 == o2 && is_equivalent_expr a1 a2
      | _ => false
  | .Binary_expr o1 _ a1 b1, b => match b with
      | .Binary_expr o2 _ a2 b2 =>
          o1 == o2 && is_equivalent_expr a1 a2 && is_equivalent_expr b1 b2
      | _ => false
  | .Call_expr _ f1 as1, b => match b with
      | .Call_expr _ f2 as2 => is_equivalent_expr f1 f2 && is_equivalent_expr_list as1 as2
      | _ => false
  | .Conv k1 _ a1, b => match b with
      | .Conv k2 _ a2 => k1 == k2 && is_equivalent_expr a1 a2
      | _ => false
  | .Check_expr _ d1 as1, b => match b with
      | .Check_expr _ d2 as2 => d1 == d2 && is_equivalent_term_list as1 as2
      | _ => false
  | .Requires_expr _ ps1 b1, b => match b with
      | .Requires_expr _ ps2 b2 => ps1 == ps2 && is_equivalent_expr b1 b2
      | _ => false
  | .Synthetic_expr _ d1, b => match b with
      | .Synthetic_expr _ d2 => d1 == d2
      | _ => false
termination_by structural x => x
/-- Modelled from the spec: `is_equivalent` on expression lists. -/
def is_equivalent_expr_list : List Expr → List Expr → Bool
  | [], bs => match bs with
      | [] => true
      | _ => false
  | a :: as, bs => match bs with
      | b :: bs => is_equivalent_expr a b && is_equivalent_expr_list as bs
      | _ => false
termination_by structural x => x
/-- Modelled from the spec: `is_equivalent` on terms: same sort, then the
equivalence of that sort. -/
def is_equivalent_term : Term → Term → Bool
  | .type a, b => match b with
      | .type b => is_equivalent_type a b
      | _ => false
  | .expr a, b => match b with
      | .expr b => is_equivalent_expr a b
      | _ => false
termination_by structural x => x
/-- Modelled from the spec: `is_equivalent` on term lists. -/
def is_equivalent_term_list : List Term → List Term → Bool
  | [], bs => match bs with
      | [] => true
      | _ => false
  | a :: as, bs => match bs with
      | b :: bs => is_equivalent_term a b && is_equivalent_term_list as bs
      | _ => false
termination_by structural x => x
end

/-- Modelled from the spec: `is_equivalent` on constraints (`equivalence.cpp`
is missing).  Section 4.B: same variant; concept by declaration identity and
argument equivalence, predicate by expression equivalence, binary by operand
equivalence, parameterized by the sequence of parameter identities and the
inner constraint. -/
def is_equivalent : Cons → Cons → Bool
  | .Concept_cons d1 as1, b => match b with
      | .Concept_cons d2 as2 => d1 == d2 && is_equivalent_term_list as1 as2
      | _ => false
  | .Predicate_cons e1, b => match b with
      | .Predicate_cons e2 => is_equivalent_expr e1 e2
      | _ => false
  | .Parameterized_cons ps1 c1, b => match b with
      | .Parameterized_cons ps2 c2 => ps1 == ps2 && is_equivalent c1 c2
      | _ => false
  | .Conjunction_cons l1 r1, b => match b with
      | .Conjunction_cons l2 r2 => is_equivalent l1 l2 && is_equivalent r1 r2
      | _ => false
  | .Disjunction_cons l1 r1, b => match b with
      | .Disjunction_cons l2 r2 => is_equivalent l1 l2 && is_equivalent r1 r2
      | _ => false

/-! ## Hashing (`hash.cpp`) -/

/-- The dynamic class of a term, the argument of `typeid` in `hash_type`. -/
inductive Class_id where
  | Simple_id | Global_id
  | Void_type | Boolean_type | Integer_type | Float_type | Function_type
  | Boolean_expr | Integer_expr | Reference_expr
  | Unary_expr (op : Unary_op)
  | Binary_expr (op : Binary_op)
  | Call_expr
  | Concept_cons | Predicate_cons | Conjunction_cons | Disjunction_cons
  deriving DecidableEq, Repr

/-- Symbolic hash codes: the platform-defined ingredients of `hash.cpp`. -/
inductive Hash_code where
  /-- The code `typeid(t).hash_code()` of a class. -/
  | type_id (c : Class_id)
  /-- The code `std::hash<Decl const*>` gives to the address of a declaration. -/
  | of_decl (d : Decl)
  /-- The code of the address of a symbol. -/
  | of_symbol (s : Nat)
  /-- The code of a `bool`. -/
  | of_bool (b : Bool)
  /-- The code of an integer. -/
  | of_int (i : Int)
  /-- The seed after `boost::hash_combine(seed, v)`, `v` having the code `v`. -/
  | combine (seed : Hash_code) (v : Hash_code)
  deriving DecidableEq, Repr

/-- The function `hash_type`: an initial hash value based on the dynamic type. -/
def hash_type (c : Class_id) : Hash_code := .type_id c

/-- The function `boost::hash_combine(h, v)` applied to the code of `v`. -/
def hash_combine (h : Hash_code) (v : Hash_code) : Hash_code := .combine h v

/-- The function `hash_value(Decl const&)`: derived from the identity of the
declaration. -/
def hash_value_decl (d : Decl) : Hash_code := .of_decl d

mutual
/-- The function `hash_value(Type const&)` with the per-class overloads it
dispatches to. -/
def hash_value_type : Type_ → Except Fatal Hash_code
  | .Void_type => .ok (hash_type .Void_type)
  | .Boolean_type => .ok (hash_type .Boolean_type)
  | .Integer_type s p =>
      .ok (hash_combine (hash_combine (hash_type .Integer_type) (.of_bool s)) (.of_int p))
  | .Float_type p => .ok (hash_combine (hash_type .Float_type) (.of_int p))
  | .Auto_type => .error .unreachable
  | .Decltype_type => .error .unreachable
  | .Declauto_type => .error .unreachable
  | .Function_type ps r =>
      match hash_value_type_list ps (.of_int ps.length) with
      | .error e => .error e
      | .ok hp =>
        match hash_value_type r with
        | .error e => .error e
        | .ok hr => .ok (hash_combine (hash_combine (hash_type .Function_type) hp) hr)
  | .Qualified_type _ _ => .error .unimplemented
  | .Pointer_type _ => .error .unimplemented
  | .Reference_type _ => .error .unimplemented
  | .Array_type _ _ => .error .unimplemented
  | .Sequence_type _ => .error .unimplemented
  | .Class_type _ => .error .unimplemented
  | .Union_type _ => .error .unimplemented
  | .Enum_type _ => .error .unimplemented
  | .Typename_type _ => .error .unimplemented
  | .Synthetic_type _ => .error .unimplemented
termination_by structural x => x
/-- Modelled from the spec: `hash_value` of a `Type_list` (declared in the
missing `hash.hpp`).  Section 4.B: lists hash by sequence, the length and then
the hash of each element. -/
def hash_value_type_list : List Type_ → Hash_code → Except Fatal Hash_code
  | [], h => .ok h
  | t :: ts, h =>
      match hash_value_type t with
      | .error e => .error e
      | .ok ht => hash_value_type_list ts (hash_combine h ht)
termination_by structural x => x
end

mutual
/-- The function `hash_value(Expr const&)` with the overloads it dispatches
to: literals, references, `Unary_expr`, `Binary_expr` and `Call_expr`; every
other expression class selects the `Expr const&` overload. -/
def hash_value_expr : Expr → Except Fatal Hash_code
  | .Boolean_expr _ v => .ok (hash_combine (hash_type .Boolean_expr) (.of_bool v))
  | .Integer_expr _ v => .ok (hash_combine (hash_type .Integer_expr) (.of_int v))
  | .Reference_expr _ d => .ok (hash_combine (hash_type .Reference_expr) (hash_value_decl d))
  | .Unary_expr op _ a =>
      match hash_value_expr a with
      | .error e => .error e
      | .ok ha => .ok (hash_combine (hash_type (.Unary_expr op)) ha)
  | .Binary_expr op _ a b =>
      match hash_value_expr a with
      | .error e => .error e
      | .ok ha =>
        match hash_value_expr b with
        | .error e => .error e
        | .ok hb => .ok (hash_combine (hash_combine (hash_type (.Binary_expr op)) ha) hb)
  | .Call_expr _ f as =>
      match hash_value_expr f with
      | .error e => .error e
      | .ok hf =>
        match hash_value_expr_list as (.of_int as.length) with
        | .error e => .error e
        | .ok ha => .ok (hash_combine (hash_combine (hash_type .Call_expr) hf) ha)
  | .Conv _ _ _ => .error .unimplemented
  | .Check_expr _ _ _ => .error .unimplemented
  | .Requires_expr _ _ _ => .error .unimplemented
  | .Synthetic_expr _ _ => .error .unimplemented
termination_by structural x => x
/-- Modelled from the spec: `hash_value` of an `Expr_list`, the length and then
the hash of each element. -/
def hash_value_expr_list : List Expr → Hash_code → Except Fatal Hash_code
  | [], h => .ok h
  | a :: as, h =>
      match hash_value_expr a with
      | .error e => .error e
      | .ok ha => hash_value_expr_list as (hash_combine h ha)
termination_by structural x => x
end

/-- Modelled from the spec: `hash_value` of a term of a `Term_list`, the hash
of the type or of the expression it is. -/
def hash_value_term : Term → Except Fatal Hash_code
  | .type t => hash_value_type t
  | .expr e => hash_value_expr e

/-- Modelled from the spec: `hash_value` of a `Term_list`, the length and then
the hash of each element. -/
def hash_value_term_list : List Term → Hash_code → Except Fatal Hash_code
  | [], h => .ok h
  | a :: as, h =>
      match hash_value_term a with
      | .error e => .error e
      | .ok ha => hash_value_term_list as (hash_combine h ha)

/-- The function `hash_value(Cons const&)`: concept, predicate and binary
constraints have an overload; a parameterized constraint selects the
`Cons const&` overload, which is `lingo_unimplemented()`. -/
def hash_value : Cons → Except Fatal Hash_code
  | .Concept_cons d as =>
      match hash_value_term_list as (.of_int as.length) with
      | .error e => .error e
      | .ok ha =>
          .ok (hash_combine (hash_combine (hash_type .Concept_cons) (hash_value_decl d)) ha)
  | .Predicate_cons e =>
      match hash_value_expr e with
      | .error e => .error e
      | .ok he => .ok (hash_combine (hash_type .Predicate_cons) he)
  | .Parameterized_cons _ _ => .error .unimplemented
  | .Conjunction_cons l r =>
      match hash_value l with
      | .error e => .error e
      | .ok hl =>
        match hash_value r with
        | .error e => .error e
        | .ok hr => .ok (hash_combine (hash_combine (hash_type .Conjunction_cons) hl) hr)
  | .Disjunction_cons l r =>
      match hash_value l with
      | .error e => .error e
      | .ok hl =>
        match hash_value r with
        | .error e => .error e
        | .ok hr => .ok (hash_combine (hash_combine (hash_type .Disjunction_cons) hl) hr)

/-! ## Proof structures (`subsumption.cpp`) -/

/-- The list with `c` inserted before position `pos` (`std::list::insert`). -/
def list_insert (l : List Cons) (pos : Nat) (c : Cons) : List Cons :=
  l.take pos ++ c :: l.drop pos

/-- The list without the element at position `pos` (`std::list::erase`). -/
def list_erase (l : List Cons) (pos : Nat) : List Cons :=
  l.take pos ++ l.drop (pos + 1)

/-- The key comparison of the side table `Map`, an `unordered_map` with
`Cons_hash` and `Cons_eq`: a stored key `k` answers a lookup of `c`, whose hash
code is `h`, when it has the same hash code and `Cons_eq` holds. -/
def key_equal (h : Hash_code) (c k : Cons) : Bool :=
  match hash_value k with
  | .ok hk => decide (hk = h) && is_equivalent c k
  | .error _ => false

/-- A list of propositions (`struct Prop_list`): the sequence `seq`, the keys
of the side table `map`, and the cursor `cur`. -/
structure Prop_list where
  map : List Cons
  seq : List Cons
  cur : Nat

/-- A default-constructed `Prop_list`. -/
def Prop_list.empty : Prop_list := { map := [], seq := [], cur := 0 }

/-- The function `Prop_list::contains`: `map.count(&c) != 0`.  The lookup
hashes `c`. -/
def Prop_list.contains (ps : Prop_list) (c : Cons) : Except Fatal Bool :=
  match hash_value c with
  | .error e => .error e
  | .ok h => .ok (ps.map.any (key_equal h c))

/-- The function `Prop_list::insert(Cons const&)`: no action if the constraint
is in the table; otherwise it is appended.  The result is the list, the
position of the constraint and whether it was inserted. -/
def Prop_list.insert (ps : Prop_list) (c : Cons) : Except Fatal (Prop_list × Nat × Bool) :=
  match hash_value c with
  | .error e => .error e
  | .ok h =>
    if ps.map.any (key_equal h c) then
      .ok (ps, ps.seq.findIdx (key_equal h c), false)
    else
      .ok ({ ps with seq := list_insert ps.seq ps.seq.length c, map := c :: ps.map },
           ps.seq.length, true)

/-- The function `Prop_list::insert(iterator, Cons const&)`: insert `c` before
`pos` unless it is in the table. -/
def Prop_list.insert_at (ps : Prop_list) (pos : Nat) (c : Cons) :
    Except Fatal (Prop_list × Nat × Bool) :=
  match hash_value c with
  | .error e => .error e
  | .ok h =>
    if ps.map.any (key_equal h c) then
      .ok (ps, pos, false)
    else
      .ok ({ ps with seq := list_insert ps.seq pos c, map := c :: ps.map }, pos, true)

/-- The function `Prop_list::erase`: `map.erase(*pos)` and `seq.erase(pos)`.
The result is the list and the position past the erased element, which is the
position `pos` in the new sequence. -/
def Prop_list.erase (ps : Prop_list) (pos : Nat) : Except Fatal (Prop_list × Nat) :=
  match ps.seq.get? pos with
  | none => .error .undefined
  | some x =>
    match hash_value x with
    | .error e => .error e
    | .ok h =>
      .ok ({ ps with map := ps.map.filter (fun k => !key_equal h x k),
                     seq := list_erase ps.seq pos }, pos)

/-- The function `Prop_list::replace(iterator, Cons const&)`. -/
def Prop_list.replace (ps : Prop_list) (pos : Nat) (c : Cons) :
    Except Fatal (Prop_list × Nat × Bool) :=
  match ps.erase pos with
  | .error e => .error e
  | .ok (ps1, pos1) =>
    match ps1.insert_at pos1 c with
    | .error e => .error e
    | .ok (ps2, i, b) => if b then .ok (ps2, i, true) else .ok (ps2, pos1, false)

/-- The function `Prop_list::replace(iterator, Cons const&, Cons const&)`.
Both insertions are made before the element that followed the erased one, so
that `c2` comes after `c1`: once `c1` is inserted that element is one position
further. -/
def Prop_list.replace2 (ps : Prop_list) (pos : Nat) (c1 c2 : Cons) :
    Except Fatal (Prop_list × Nat × Bool) :=
  match ps.erase pos with
  | .error e => .error e
  | .ok (ps1, pos1) =>
    match ps1.insert_at pos1 c1 with
    | .error e => .error e
    | .ok (ps2, i1, b1) =>
      let pos2 := if b1 then pos1 + 1 else pos1
      match ps2.insert_at pos2 c2 with
      | .error e => .error e
      | .ok (ps3, i2, b2) =>
        if b1 then .ok (ps3, i1, true)
        else if b2 then .ok (ps3, i2, true)
        else .ok (ps3, pos2, false)

/-- The function `Prop_list::start`. -/
def Prop_list.start (ps : Prop_list) : Prop_list × Nat := ({ ps with cur := 0 }, 0)

/-- The function `Prop_list::advance`: `++cur`.  The increment is defined when
the cursor designates an element of the sequence: `live` tells whether it
designates a node of the list at all, which it does not after a replacement
that erased its node and inserted nothing (see `replace`). -/
def Prop_list.advance (ps : Prop_list) (live : Bool) : Except Fatal (Prop_list × Nat) :=
  if live = true ∧ ps.cur < ps.seq.length then .ok ({ ps with cur := ps.cur + 1 }, ps.cur + 1)
  else .error .undefined

/-- The function `Prop_list::current`. -/
def Prop_list.current (ps : Prop_list) : Nat := ps.cur

/-- A sequent (`struct Sequent`): antecedents and consequents. -/
structure Sequent where
  ants : Prop_list
  cons : Prop_list

/-- The constructor `Sequent::Sequent(a, c)`. -/
def Sequent.make (a c : Cons) : Except Fatal Sequent :=
  match Prop_list.empty.insert a with
  | .error e => .error e
  | .ok (as, _) =>
    match Prop_list.empty.insert c with
    | .error e => .error e
    | .ok (cs, _) => .ok { ants := as, cons := cs }

/-- The goal list (`struct Goal_list`).  The current goal of the `Proof` that
`subsumes` builds is `goals.begin()`, the head of the list. -/
abbrev Goal_list := List Sequent

/-! ## Proof validation -/

/-- The result of a validation (`enum Validation`). -/
inductive Validation where
  | valid_proof
  | invalid_proof
  | incomplete_proof
  deriving DecidableEq, Repr

/-- The function `is_atomic`: true on the `Cons const&` overload, which only
predicates select. -/
def is_atomic : Cons → Bool
  | .Concept_cons _ _ => false
  | .Predicate_cons _ => true
  | .Parameterized_cons _ _ => false
  | .Conjunction_cons _ _ => false
  | .Disjunction_cons _ _ => false

/-- The function `validate_non_matching(Context&, Cons const&, Cons const&)`. -/
def validate_non_matching (a c : Cons) : Validation :=
  if is_atomic a && is_atomic c then .invalid_proof else .incomplete_proof

/-- The loop of `validate_non_matching(Context&, Prop_list&, Cons const&)`,
`r` being the result so far. -/
def validate_non_matching_loop (c : Cons) : List Cons → Validation → Validation
  | [], r => r
  | a :: ants, r =>
    match validate_non_matching a c with
    | .valid_proof => .valid_proof
    | .incomplete_proof => validate_non_matching_loop c ants .incomplete_proof
    | .invalid_proof => validate_non_matching_loop c ants r

/-- The function `validate_non_matching(Context&, Prop_list&, Cons const&)`. -/
def validate_non_matching_list (ants : Prop_list) (c : Cons) : Validation :=
  validate_non_matching_loop c ants.seq .invalid_proof

/-- The function `validate_implication(Context&, Cons const&, Cons const&)`. -/
def validate_implication (a c : Cons) : Validation :=
  if is_equivalent a c then .valid_proof else validate_non_matching a c

/-- The function `validate_implication(Context&, Prop_list&, Cons const&)`. -/
def validate_implication_list (as : Prop_list) (c : Cons) : Except Fatal Validation :=
  match as.contains c with
  | .error e => .error e
  | .ok true => .ok .valid_proof
  | .ok false => .ok (validate_non_matching_list as c)

/-- The loop of `validate_obligation` over the consequents, `r` being the
result so far. -/
def validate_obligation_loop (as : Prop_list) : List Cons → Validation → Except Fatal Validation
  | [], r => .ok r
  | c :: cs, r =>
    match validate_implication_list as c with
    | .error e => .error e
    | .ok .valid_proof => .ok .valid_proof
    | .ok .incomplete_proof => validate_obligation_loop as cs .incomplete_proof
    | .ok .invalid_proof => validate_obligation_loop as cs r

/-- The function `validate_obligation`. -/
def validate_obligation (s : Sequent) : Except Fatal Validation :=
  validate_obligation_loop s.ants s.cons.seq .invalid_proof

/-- The iterator after `++iter` on a `std::list` of length `n`: the list is
circular through its end node, so the increment of `end()` is `begin()`. -/
def list_next (n : Nat) (iter : Nat) : Nat :=
  if iter < n then iter + 1 else 0

/-- The loop of `validate_proof`: a valid goal is discharged, `iter` becoming
the position past it, and `++iter` follows in every case that does not
return. -/
def validate_proof_loop :
    Nat → Goal_list → Nat → Except Fatal (Validation × Goal_list)
  | 0, _, _ => .error .nontermination
  | fuel + 1, goals, iter =>
    match goals.get? iter with
    | none =>
      if iter = goals.length then
        .ok (if goals.isEmpty then .valid_proof else .incomplete_proof, goals)
      else .error .undefined
    | some s =>
      match validate_obligation s with
      | .error e => .error e
      | .ok .valid_proof =>
        let goals1 := goals.eraseIdx iter
        validate_proof_loop fuel goals1 (list_next goals1.length iter)
      | .ok .invalid_proof => .ok (.invalid_proof, goals)
      | .ok .incomplete_proof => validate_proof_loop fuel goals (list_next goals.length iter)

/-- The function `validate_proof`: the validation and the goals that remain.
The step budget covers every run of the loop. -/
def validate_proof (goals : Goal_list) : Except Fatal (Validation × Goal_list) :=
  validate_proof_loop ((goals.length + 1) * (goals.length + 1) + 1) goals 0

/-! ## Flattening -/

/-- The number of nodes of a constraint. -/
def Cons.size : Cons → Nat
  | .Concept_cons _ _ => 1
  | .Predicate_cons _ => 1
  | .Parameterized_cons _ c => c.size + 1
  | .Conjunction_cons l r => l.size + r.size + 1
  | .Disjunction_cons l r => l.size + r.size + 1

/-- The number of constraint nodes in a list of propositions. -/
def prop_weight : List Cons → Nat
  | [] => 0
  | c :: cs => c.size + prop_weight cs

/-- The free function `advance(Prop_list&)`: the list, the iterator the call
returns, and whether the cursor designates a node of the list after the call
(it does after an increment). -/
def advance (ps : Prop_list) (live : Bool) : Except Fatal (Prop_list × Nat × Bool) :=
  match ps.advance live with
  | .error e => .error e
  | .ok (ps1, i) => .ok (ps1, i, true)

/-- The free function `replace(Prop_list&, Cons const&)`: replace the current
proposition, `ps.replace(ps.current(), c)`.  The member `cur` is not reassigned
by the call and stays on the node that `erase` removed.  When the call inserts
the constraint, the node of the constraint is allocated where the erased node
was freed and the cursor designates the inserted constraint, which is at the
position the cursor held and is the iterator the call returns.  When the call
inserts nothing, the cursor designates no node of the list any more, and the
call returns the iterator past the erased element.  The third component of the
result tells which of the two is the case.  A call with a cursor that
designates no node erases at an iterator that designates no element. -/
def replace (ps : Prop_list) (live : Bool) (c : Cons) : Except Fatal (Prop_list × Nat × Bool) :=
  if live then ps.replace ps.current c else .error .undefined

/-- The free function `replace(Prop_list&, Cons const&, Cons const&)`,
`ps.replace(ps.current(), c1, c2)`.  As for `replace`, the cursor stays on the
erased node: it designates the first constraint the call inserts, and no node
of the list when the call inserts nothing. -/
def replace2 (ps : Prop_list) (live : Bool) (c1 c2 : Cons) :
    Except Fatal (Prop_list × Nat × Bool) :=
  if live then ps.replace2 ps.current c1 c2 else .error .undefined

/-- The function `flatten_left_atom`. -/
def flatten_left_atom (as : Prop_list) (live : Bool) : Except Fatal (Prop_list × Nat × Bool) :=
  advance as live

/-- The function `flatten_left_lambda`, `c1` being `c.constraint()`. -/
def flatten_left_lambda (as : Prop_list) (live : Bool) (c1 : Cons) :
    Except Fatal (Prop_list × Nat × Bool) :=
  replace as live c1

/-- The function `flatten_left_conjunction`, on the operands of `c`. -/
def flatten_left_conjunction (as : Prop_list) (live : Bool) (c1 c2 : Cons) :
    Except Fatal (Prop_list × Nat × Bool) :=
  replace2 as live c1 c2

/-- The function `flatten_left_disjunction`. -/
def flatten_left_disjunction (as : Prop_list) (live : Bool) :
    Except Fatal (Prop_list × Nat × Bool) :=
  advance as live

/-- The function `flatten_left(Proof, Cons const&)`: concepts and predicates
select the `Cons const&` overload.  Every tactic works at the cursor of the
list, not at the iterator of the loop that calls it. -/
def flatten_left_prop (as : Prop_list) (live : Bool) : Cons → Except Fatal (Prop_list × Nat × Bool)
  | .Concept_cons _ _ => flatten_left_atom as live
  | .Predicate_cons _ => flatten_left_atom as live
  | .Parameterized_cons _ c1 => flatten_left_lambda as live c1
  | .Conjunction_cons c1 c2 => flatten_left_conjunction as live c1 c2
  | .Disjunction_cons _ _ => flatten_left_disjunction as live

/-- The loop of `flatten_left(Proof, Sequent&)`:
`while (ai != as.end()) ai = flatten_left(p, **ai)`, with the iterator `ai` of
the loop and whether the cursor of the list designates a node. -/
def flatten_left_loop : Nat → Prop_list → Nat → Bool → Except Fatal Prop_list
  | 0, _, _, _ => .error .nontermination
  | fuel + 1, as, ai, live =>
    if ai = as.seq.length then .ok as
    else
      match as.seq.get? ai with
      | none => .error .undefined
      | some c =>
        match flatten_left_prop as live c with
        | .error e => .error e
        | .ok (as1, ai1, live1) => flatten_left_loop fuel as1 ai1 live1

/-- The function `flatten_left(Proof, Sequent&)` on the current goal:
`as.start()` puts the cursor on the first antecedent. -/
def flatten_left (s : Sequent) : Except Fatal Sequent :=
  match flatten_left_loop (prop_weight s.ants.seq + 1) s.ants.start.1 s.ants.start.2 true with
  | .error e => .error e
  | .ok as => .ok { s with ants := as }

/-- The function `flatten_right_atom`. -/
def flatten_right_atom (cs : Prop_list) (live : Bool) : Except Fatal (Prop_list × Nat × Bool) :=
  advance cs live

/-- The function `flatten_right_lambda`, `c1` being `c.constraint()`. -/
def flatten_right_lambda (cs : Prop_list) (live : Bool) (c1 : Cons) :
    Except Fatal (Prop_list × Nat × Bool) :=
  replace cs live c1

/-- The function `flatten_right_conjunction`. -/
def flatten_right_conjunction (cs : Prop_list) (live : Bool) :
    Except Fatal (Prop_list × Nat × Bool) :=
  advance cs live

/-- The function `flatten_right_disjunction`, on the operands of `c`. -/
def flatten_right_disjunction (cs : Prop_list) (live : Bool) (c1 c2 : Cons) :
    Except Fatal (Prop_list × Nat × Bool) :=
  replace2 cs live c1 c2

/-- The function `flatten_right(Proof, Cons const&)`. -/
def flatten_right_prop (cs : Prop_list) (live : Bool) :
    Cons → Except Fatal (Prop_list × Nat × Bool)
  | .Concept_cons _ _ => flatten_right_atom cs live
  | .Predicate_cons _ => flatten_right_atom cs live
  | .Parameterized_cons _ c1 => flatten_right_lambda cs live c1
  | .Conjunction_cons _ _ => flatten_right_conjunction cs live
  | .Disjunction_cons c1 c2 => flatten_right_disjunction cs live c1 c2

/-- The loop of `flatten_right(Proof, Sequent&)`. -/
def flatten_right_loop : Nat → Prop_list → Nat → Bool → Except Fatal Prop_list
  | 0, _, _, _ => .error .nontermination
  | fuel + 1, cs, ci, live =>
    if ci = cs.seq.length then .ok cs
    else
      match cs.seq.get? ci with
      | none => .error .undefined
      | some c =>
        match flatten_right_prop cs live c with
        | .error e => .error e
        | .ok (cs1, ci1, live1) => flatten_right_loop fuel cs1 ci1 live1

/-- The function `flatten_right(Proof, Sequent&)` on the current goal. -/
def flatten_right (s : Sequent) : Except Fatal Sequent :=
  match flatten_right_loop (prop_weight s.cons.seq + 1) s.cons.start.1 s.cons.start.2 true with
  | .error e => .error e
  | .ok cs => .ok { s with cons := cs }

/-- The body of `flatten(Proof)` for a goal `s` that is not the current goal of
the proof: the loops walk `s` while the tactics rewrite `p.sequent()`, so that
a non-empty side of `s` is walked with iterators of another list. -/
def flatten_other (s : Sequent) : Except Fatal Sequent :=
  if s.ants.seq.isEmpty && s.cons.seq.isEmpty then
    .ok { ants := s.ants.start.1, cons := s.cons.start.1 }
  else .error .undefined

/-- The goals after the current one, flattened in order. -/
def flatten_rest : Goal_list → Except Fatal Goal_list
  | [] => .ok []
  | s :: rest =>
    match flatten_other s with
    | .error e => .error e
    | .ok s1 =>
      match flatten_rest rest with
      | .error e => .error e
      | .ok rest1 => .ok (s1 :: rest1)

/-- The function `flatten(Proof)`: `flatten_left` then `flatten_right` on each
goal, the current goal being the first. -/
def flatten : Goal_list → Except Fatal Goal_list
  | [] => .ok []
  | s :: rest =>
    match flatten_left s with
    | .error e => .error e
    | .ok s1 =>
      match flatten_right s1 with
      | .error e => .error e
      | .ok s2 =>
        match flatten_rest rest with
        | .error e => .error e
        | .ok rest1 => .ok (s2 :: rest1)

/-! ## Substitution (`substitution.cpp`) and normalization -/

/-- Modelled from the spec: the class `Substitution` (declared in the missing
`substitution.hpp`), an ordered map from parameter declarations to terms. -/
abbrev Substitution := List (Decl × Term)

/-- Modelled from the spec: the constructor `Substitution(parms, args)`, which
maps each parameter to the argument at its position. -/
def Substitution.make (parms : List Decl) (args : List Term) : Substitution :=
  parms.zip args

/-- Modelled from the spec: `Substitution::get_mapping`. -/
def Substitution.get_mapping (sub : Substitution) (d : Decl) : Option Term :=
  match sub with
  | [] => none
  | (p, t) :: rest => if p = d then some t else Substitution.get_mapping rest d

/-- Modelled from the spec: `Substitution::has_mapping`. -/
def Substitution.has_mapping (sub : Substitution) (d : Decl) : Bool :=
  (sub.get_mapping d).isSome

/-- The function `Builder::get_qualified_type`, by value: the qualifiers are
added to a type that is qualified already; otherwise the constructor of
`Qualified_type` asserts that the set is not empty.  The value returned is the
value of the object the call returns; that the object it is given is the one
changed is shown by `Builder.get_qualified_type` on the arena. -/
def get_qualified_type (t : Type_) (qual : Nat) : Except Fatal Type_ :=
  match t with
  | .Qualified_type ty q => .ok (.Qualified_type ty (q ||| qual))
  | _ => if qual = 0 then .error .undefined else .ok (.Qualified_type t qual)

mutual
/-- The function `substitute(Context&, Type&, Substitution&)` with the
`substitute_type` overloads it dispatches to, by value: the value of the type
the call returns, for a type no component of which shares a qualified type
object with a type the substitution maps to.  The shared objects are those of
`substitute_obj`, on the arena. -/
def substitute_type (sub : Substitution) : Type_ → Except Fatal Type_
  | .Void_type => .ok .Void_type
  | .Boolean_type => .ok .Boolean_type
  | .Integer_type s p => .ok (.Integer_type s p)
  | .Float_type p => .ok (.Float_type p)
  | .Auto_type => .error .unimplemented
  | .Decltype_type => .error .unimplemented
  | .Declauto_type => .error .unimplemented
  | .Function_type ps r =>
      match substitute_type_list sub ps with
      | .error e => .error e
      | .ok ps1 =>
        match substitute_type sub r with
        | .error e => .error e
        | .ok r1 => .ok (.Function_type ps1 r1)
  | .Qualified_type t q =>
      match substitute_type sub t with
      | .error e => .error e
      | .ok t1 => get_qualified_type t1 q
  | .Pointer_type t =>
      match substitute_type sub t with
      | .error e => .error e
      | .ok t1 => .ok (.Pointer_type t1)
  | .Reference_type t =>
      match substitute_type sub t with
      | .error e => .error e
      | .ok t1 => .ok (.Reference_type t1)
  | .Array_type _ _ => .error .unimplemented
  | .Sequence_type t =>
      match substitute_type sub t with
      | .error e => .error e
      | .ok t1 => .ok (.Sequence_type t1)
  | .Class_type d => .ok (.Class_type d)
  | .Union_type d => .ok (.Union_type d)
  | .Enum_type d => .ok (.Enum_type d)
  | .Typename_type d =>
      match sub.get_mapping d with
      | some (.type t) => .ok t
      | some (.expr _) => .error .undefined
      | none => .ok (.Typename_type d)
  | .Synthetic_type d => .ok (.Synthetic_type d)
termination_by structural x => x
/-- The function `substitute(Context&, List<T>&, Substitution&)` on a list of
types. -/
def substitute_type_list (sub : Substitution) : List Type_ → Except Fatal (List Type_)
  | [] => .ok []
  | t :: ts =>
      match substitute_type sub t with
      | .error e => .error e
      | .ok t1 =>
        match substitute_type_list sub ts with
        | .error e => .error e
        | .ok ts1 => .ok (t1 :: ts1)
termination_by structural x => x
end

mutual
/-- The function `substitute(Context&, Expr&, Substitution&)` with the
`subst_` functions it dispatches to.  The builder calls are `make_check`
(type bool), `make_call` (type void), `make_and`, `make_or` and `make_not`. -/
def substitute_expr (sub : Substitution) : Expr → Except Fatal Expr
  | .Boolean_expr ty v => .ok (.Boolean_expr ty v)
  | .Integer_expr ty v => .ok (.Integer_expr ty v)
  | .Reference_expr ty d => .ok (.Reference_expr ty d)
  | .Unary_expr op ty a =>
      match op with
      | .Not_expr =>
        match substitute_expr sub a with
        | .error e => .error e
        | .ok a1 => .ok (.Unary_expr .Not_expr ty a1)
      | _ => .error .unimplemented
  | .Binary_expr op ty a b =>
      match op with
      | .And_expr =>
        match substitute_expr sub a with
        | .error e => .error e
        | .ok a1 =>
          match substitute_expr sub b with
          | .error e => .error e
          | .ok b1 => .ok (.Binary_expr .And_expr ty a1 b1)
      | .Or_expr =>
        match substitute_expr sub a with
        | .error e => .error e
        | .ok a1 =>
          match substitute_expr sub b with
          | .error e => .error e
          | .ok b1 => .ok (.Binary_expr .Or_expr ty a1 b1)
      | _ => .error .unimplemented
  | .Call_expr _ f as =>
      match substitute_expr sub f with
      | .error e => .error e
      | .ok f1 =>
        match substitute_expr_list sub as with
        | .error e => .error e
        | .ok as1 => .ok (.Call_expr .Void_type f1 as1)
  | .Conv _ _ _ => .error .unimplemented
  | .Check_expr _ d as =>
      match substitute_term_list sub as with
      | .error e => .error e
      | .ok as1 => .ok (.Check_expr .Boolean_type d as1)
  | .Requires_expr _ _ _ => .error .unimplemented
  | .Synthetic_expr _ _ => .error .unimplemented
termination_by structural x => x
/-- The function `substitute(Context&, List<T>&, Substitution&)` on a list of
expressions. -/
def substitute_expr_list (sub : Substitution) : List Expr → Except Fatal (List Expr)
  | [] => .ok []
  | a :: as =>
      match substitute_expr sub a with
      | .error e => .error e
      | .ok a1 =>
        match substitute_expr_list sub as with
        | .error e => .error e
        | .ok as1 => .ok (a1 :: as1)
termination_by structural x => x
/-- The function `substitute(Context&, Term&, Substitution&)`: by the sort of
the term. -/
def substitute_term (sub : Substitution) : Term → Except Fatal Term
  | .type t =>
      match substitute_type sub t with
      | .error e => .error e
      | .ok t1 => .ok (.type t1)
  | .expr a =>
      match substitute_expr sub a with
      | .error e => .error e
      | .ok a1 => .ok (.expr a1)
termination_by structural x => x
/-- The function `substitute(Context&, List<T>&, Substitution&)` on a list of
terms. -/
def substitute_term_list (sub : Substitution) : List Term → Except Fatal (List Term)
  | [] => .ok []
  | a :: as =>
      match substitute_term sub a with
      | .error e => .error e
      | .ok a1 =>
        match substitute_term_list sub as with
        | .error e => .error e
        | .ok as1 => .ok (a1 :: as1)
termination_by structural x => x
end

/-- Modelled from the spec: `normalize` (`normalization.cpp` is missing).
Section 4.E: a logical and becomes the conjunction of the normalized operands,
a logical or their disjunction, a concept check the concept constraint of the
same declaration and arguments, a requires expression the parameterized
constraint of its normalized body, and any other expression a predicate. -/
def normalize : Expr → Cons
  | .Binary_expr .And_expr _ l r => .Conjunction_cons (normalize l) (normalize r)
  | .Binary_expr .Or_expr _ l r => .Disjunction_cons (normalize l) (normalize r)
  | .Check_expr _ d as => .Concept_cons d as
  | .Requires_expr _ ps b => .Parameterized_cons ps (normalize b)
  | e => .Predicate_cons e

/-! ## Expansion -/

/-- Modelled from the spec: a concept declaration (`Concept_decl`, missing from
`ast.hpp`): parameters and definition. -/
structure Concept_decl where
  parameters : List Decl
  definition : Expr

/-- The part of `Context` the prover reads: the concept a declaration is, if
it is one. -/
structure Context where
  concepts : Decl → Option Concept_decl

/-- The function `is_better_expansion`. -/
def is_better_expansion (a b : Cons) : Bool :=
  match a with
  | .Concept_cons _ _ =>
    match b with
    | .Concept_cons _ _ => false
    | _ => true
  | .Disjunction_cons _ _ => is_atomic b
  | _ => false

/-- The function `expand(Context&, Concept_cons const&)`: substitute the
arguments through the definition of the concept and normalize the result.  A
declaration that is no concept fails the cast in `declaration()`. -/
def expand_concept (cxt : Context) (d : Decl) (args : List Term) : Except Fatal Cons :=
  match cxt.concepts d with
  | none => .error .undefined
  | some decl =>
    match substitute_expr (Substitution.make decl.parameters args) decl.definition with
    | .error e => .error e
    | .ok e => .ok (normalize e)

/-- The loop of `std::min_element` with `is_better_expansion`: the rest of the
range, the position of its first element, and the smallest element so far with
its position. -/
def min_element_loop : List Cons → Nat → Cons → Nat → Nat
  | [], _, _, si => si
  | x :: xs, i, sm, si =>
    if is_better_expansion x sm then min_element_loop xs (i + 1) x i
    else min_element_loop xs (i + 1) sm si

/-- The call `std::min_element(ps.begin(), ps.end(), is_better_expansion)`; on
an empty range it is `end()`. -/
def min_element (l : List Cons) : Nat :=
  match l with
  | [] => 0
  | x :: xs => min_element_loop xs 1 x 0

/-- The function `expand_left`. -/
def expand_left (cxt : Context) (s : Sequent) : Except Fatal Sequent :=
  let best := min_element s.ants.seq
  match s.ants.seq.get? best with
  | none => .error .undefined
  | some (.Concept_cons d args) =>
    match expand_concept cxt d args with
    | .error e => .error e
    | .ok r =>
      match s.ants.replace best r with
      | .error e => .error e
      | .ok (ps, _) => .ok { s with ants := ps }
  | some (.Disjunction_cons l r) =>
    match s.ants.replace2 best l r with
    | .error e => .error e
    | .ok (ps, _) => .ok { s with ants := ps }
  | some _ => .ok s

/-- The function `expand(Proof)`: `expand_left` on each goal. -/
def expand (cxt : Context) : Goal_list → Except Fatal Goal_list
  | [] => .ok []
  | s :: rest =>
    match expand_left cxt s with
    | .error e => .error e
    | .ok s1 =>
      match expand cxt rest with
      | .error e => .error e
      | .ok rest1 => .ok (s1 :: rest1)

/-! ## Subsumption -/

/-- The loop of `subsumes` with `k` rounds left before `n` exceeds the
implementation limit: flatten, validate, expand, `++n`, and
`lingo_unimplemented()` once `n` exceeds the limit. -/
def subsumes_loop (cxt : Context) : Nat → Goal_list → Except Fatal Bool
  | 0, _ => .error .unimplemented
  | k + 1, goals =>
    match flatten goals with
    | .error e => .error e
    | .ok goals1 =>
      match validate_proof goals1 with
      | .error e => .error e
      | .ok (.valid_proof, _) => .ok true
      | .ok (.invalid_proof, _) => .ok false
      | .ok (.incomplete_proof, goals2) =>
        match expand cxt goals2 with
        | .error e => .error e
        | .ok goals3 => subsumes_loop cxt k goals3

/-- The function `subsumes` with the implementation limit as a parameter: the
loop gives up when `n > limit`. -/
def subsumes_within (limit : Nat) (cxt : Context) (a c : Cons) : Except Fatal Bool :=
  match validate_implication a c with
  | .valid_proof => .ok true
  | .invalid_proof => .ok false
  | .incomplete_proof =>
    match Sequent.make a c with
    | .error e => .error e
    | .ok s => subsumes_loop cxt limit [s]

/-- The function `subsumes`: the implementation limit is 20. -/
def subsumes (cxt : Context) (a c : Cons) : Except Fatal Bool :=
  subsumes_within 20 cxt a c

/-! ## The hash-consing factory (`builder.cpp`) -/

/-- The function `Hashed_unique_factory::make`: `emplace` into the
`unordered_set`, which keeps the new object only if no stored object has the
same hash code and is equivalent.  The set is the list of its objects in the
order of their creation; the result is the position of the object returned,
which is its identity, and the set after the call. -/
def Hashed_unique_factory.make (f : List Cons) (c : Cons) : Except Fatal (Nat × List Cons) :=
  match hash_value c with
  | .error e => .error e
  | .ok h =>
    if f.any (key_equal h c) then .ok (f.findIdx (key_equal h c), f)
    else .ok (f.length, f ++ [c])

/-- The four function-local static factories of the constraint makers. -/
structure Cons_factories where
  concepts : List Cons
  predicates : List Cons
  conjunctions : List Cons
  disjunctions : List Cons

/-- The constraint makers of the builder. -/
inductive Maker where
  | get_concept_constraint (d : Decl) (ts : List Term)
  | get_predicate_constraint (e : Expr)
  | get_conjunction_constraint (c1 c2 : Cons)
  | get_disjunction_constraint (c1 c2 : Cons)

/-- The constraint a maker call describes: the object it constructs from its
arguments. -/
def Maker.cons : Maker → Cons
  | .get_concept_constraint d ts => .Concept_cons d ts
  | .get_predicate_constraint e => .Predicate_cons e
  | .get_conjunction_constraint c1 c2 => .Conjunction_cons c1 c2
  | .get_disjunction_constraint c1 c2 => .Disjunction_cons c1 c2

/-- An interned object: the factory that holds it and its position there. -/
structure Interned where
  factory : Nat
  index : Nat
  deriving DecidableEq, Repr

/-- The function `Builder::get_concept_constraint`. -/
def get_concept_constraint (st : Cons_factories) (d : Decl) (ts : List Term) :
    Except Fatal (Interned × Cons_factories) :=
  match Hashed_unique_factory.make st.concepts (.Concept_cons d ts) with
  | .error e => .error e
  | .ok (i, f) => .ok (⟨0, i⟩, { st with concepts := f })

/-- The function `Builder::get_predicate_constraint`. -/
def get_predicate_constraint (st : Cons_factories) (e : Expr) :
    Except Fatal (Interned × Cons_factories) :=
  match Hashed_unique_factory.make st.predicates (.Predicate_cons e) with
  | .error e => .error e
  | .ok (i, f) => .ok (⟨1, i⟩, { st with predicates := f })

/-- The function `Builder::get_conjunction_constraint`. -/
def get_conjunction_constraint (st : Cons_factories) (c1 c2 : Cons) :
    Except Fatal (Interned × Cons_factories) :=
  match Hashed_unique_factory.make st.conjunctions (.Conjunction_cons c1 c2) with
  | .error e => .error e
  | .ok (i, f) => .ok (⟨2, i⟩, { st with conjunctions := f })

/-- The function `Builder::get_disjunction_constraint`. -/
def get_disjunction_constraint (st : Cons_factories) (c1 c2 : Cons) :
    Except Fatal (Interned × Cons_factories) :=
  match Hashed_unique_factory.make st.disjunctions (.Disjunction_cons c1 c2) with
  | .error e => .error e
  | .ok (i, f) => .ok (⟨3, i⟩, { st with disjunctions := f })

/-- A call of a constraint maker. -/
def Maker.call (st : Cons_factories) : Maker → Except Fatal (Interned × Cons_factories)
  | .get_concept_constraint d ts => banjo.get_concept_constraint st d ts
  | .get_predicate_constraint e => banjo.get_predicate_constraint st e
  | .get_conjunction_constraint c1 c2 => banjo.get_conjunction_constraint st c1 c2
  | .get_disjunction_constraint c1 c2 => banjo.get_disjunction_constraint st c1 c2

/-! ## Observers and sample data for the statements below -/

/-- The first `k` rounds of the loop of `subsumes` from `goals` all end with an
incomplete validation followed by an expansion: no flatten pass, validation or
expansion of these rounds is fatal and no validation answers valid or
invalid. -/
def incomplete_rounds (cxt : Context) : Nat → Goal_list → Bool
  | 0, _ => true
  | k + 1, goals =>
    match flatten goals with
    | .error _ => false
    | .ok goals1 =>
      match validate_proof goals1 with
      | .ok (.incomplete_proof, goals2) =>
        match expand cxt goals2 with
        | .error _ => false
        | .ok goals3 => incomplete_rounds cxt k goals3
      | _ => false

/-- The truth value of a constraint of the propositional fragment under an
assignment of truth values to the atoms.  Concept and parameterized
constraints, which are outside the fragment, count as false. -/
def holds (v : Expr → Bool) : Cons → Bool
  | .Predicate_cons e => v e
  | .Conjunction_cons l r => holds v l && holds v r
  | .Disjunction_cons l r => holds v l || holds v r
  | .Concept_cons _ _ => false
  | .Parameterized_cons _ _ => false

/-- A constraint built only from predicate, conjunction and disjunction nodes. -/
def propositional : Cons → Bool
  | .Predicate_cons _ => true
  | .Conjunction_cons l r => propositional l && propositional r
  | .Disjunction_cons l r => propositional l && propositional r
  | .Concept_cons _ _ => false
  | .Parameterized_cons _ _ => false

/-- The type `bool`. -/
def bool_type : Type_ := .Boolean_type

/-- The type `int`: `get_integer_type(true, 32)`. -/
def int_type : Type_ := .Integer_type true 32

/-- An atomic predicate: the reference to the boolean declaration `d`. -/
def atom (d : Decl) : Cons := .Predicate_cons (.Reference_expr bool_type d)

/-- A context without concepts. -/
def no_concepts : Context := { concepts := fun _ => none }

/-- A context with two concepts: declaration 100 is `D<T> = P ∧ Q` with `T` the
parameter 7 and `P`, `Q` the references to the declarations 1 and 2;
declaration 101 is `E<> = P`. -/
def sample_context : Context :=
  { concepts := fun d =>
      if d = 100 then
        some { parameters := [7],
               definition := .Binary_expr .And_expr bool_type
                 (.Reference_expr bool_type 1) (.Reference_expr bool_type 2) }
      else if d = 101 then
        some { parameters := [], definition := .Reference_expr bool_type 1 }
      else none }

/-- The constraint has a hash code: `hash_value` returns on it. -/
def hashable (c : Cons) : Bool :=
  match hash_value c with
  | .ok _ => true
  | .error _ => false

/-- The constraints `flatten_left` steps over: predicates, concepts and
disjunctions. -/
def left_flat : Cons → Bool
  | .Concept_cons _ _ => true
  | .Predicate_cons _ => true
  | .Disjunction_cons _ _ => true
  | _ => false

/-- The constraints `flatten_right` steps over: predicates, concepts and
conjunctions. -/
def right_flat : Cons → Bool
  | .Concept_cons _ _ => true
  | .Predicate_cons _ => true
  | .Conjunction_cons _ _ => true
  | _ => false

/-- The constraint is a predicate or a concept: both flatten passes step over
it. -/
def is_leaf : Cons → Bool
  | .Concept_cons _ _ => true
  | .Predicate_cons _ => true
  | _ => false

/-- Every key of the side table is an element of the sequence. -/
def Prop_list.keys_in_seq (ps : Prop_list) : Prop := ∀ k ∈ ps.map, k ∈ ps.seq

/-- The table of the list holds a key for `c`: `contains(c)` returns true. -/
def Prop_list.has (ps : Prop_list) (c : Cons) : Prop := ps.contains c = .ok true

/-- The keys and the elements of `ps` that satisfy `flat` are keys and
elements of `ps1`. -/
def flat_kept (flat : Cons → Bool) (ps ps1 : Prop_list) : Prop :=
  (∀ k ∈ ps.map, flat k = true → k ∈ ps1.map) ∧ (∀ x ∈ ps.seq, flat x = true → x ∈ ps1.seq)

/-- The call `subsumes(a, c)`, under the limit `limit`, runs its loop to the
limit: the initial check is incomplete, the proof state is built, and each of
the `limit` rounds ends with an incomplete validation. -/
def exceeds_limit (limit : Nat) (cxt : Context) (a c : Cons) : Bool :=
  match validate_implication a c with
  | .incomplete_proof =>
    match Sequent.make a c with
    | .ok s => incomplete_rounds cxt limit [s]
    | .error _ => false
  | _ => false

/-- The truth assignment that makes exactly the expressions equivalent to the
reference to the declaration `d` true. -/
def only_true (d : Decl) (e : Expr) : Bool := is_equivalent_expr e (.Reference_expr bool_type d)

/-- The state of the factories before any constraint is made. -/
def Cons_factories.initial : Cons_factories :=
  { concepts := [], predicates := [], conjunctions := [], disjunctions := [] }

/-- The objects of the factory numbered `f`, in the order of their creation. -/
def Cons_factories.factory (st : Cons_factories) (f : Nat) : List Cons :=
  match f with
  | 0 => st.concepts
  | 1 => st.predicates
  | 2 => st.conjunctions
  | _ => st.disjunctions

/-- The number of the factory that holds the constraints of the variant of
`c` (parameterized constraints have no maker). -/
def Cons.kind : Cons → Nat
  | .Concept_cons _ _ => 0
  | .Predicate_cons _ => 1
  | .Conjunction_cons _ _ => 2
  | .Disjunction_cons _ _ => 3
  | .Parameterized_cons _ _ => 4

/-- A sequence of calls of the constraint makers: the objects returned, in the
order of the calls, and the state of the factories after the last call. -/
def call_all : Cons_factories → List Maker → Except Fatal (List Interned × Cons_factories)
  | st, [] => .ok ([], st)
  | st, m :: ms =>
    match m.call st with
    | .error e => .error e
    | .ok (r, st1) =>
      match call_all st1 ms with
      | .error e => .error e
      | .ok (rs, st2) => .ok (r :: rs, st2)

/-- No two distinct objects of the list are equivalent. -/
def distinct_objects (f : List Cons) : Prop :=
  ∀ i j x y, f.get? i = some x → f.get? j = some y → is_equivalent x y = true → i = j

/-- Every object of `f` is an object of `f1`, at the same position. -/
def objects_kept (f f1 : List Cons) : Prop :=
  ∀ i x, f.get? i = some x → f1.get? i = some x

/-! ## Qualified types and the type makers of the builder, by value -/

/-- The enumeration `Qualifier_set`, a bit set; `operator|=` is the bitwise
or. -/
abbrev Qualifier_set := Nat

/-- The enumerator `empty_qual`. -/
def empty_qual : Qualifier_set := 0

/-- The enumerator `const_qual`. -/
def const_qual : Qualifier_set := 1

/-- The enumerator `volatile_qual`. -/
def volatile_qual : Qualifier_set := 2

/-- The enumerator `total_qual`. -/
def total_qual : Qualifier_set := const_qual ||| volatile_qual

/-- The test `is<Qualified_type>(&t)`. -/
def is_Qualified_type : Type_ → Bool
  | .Qualified_type _ _ => true
  | _ => false

/-- The function `Type::qualifier`, overridden by `Qualified_type`. -/
def qualifier : Type_ → Qualifier_set
  | .Qualified_type _ q => q
  | _ => empty_qual

/-- The function `Type::unqualified_type`, overridden by `Qualified_type`. -/
def unqualified_type : Type_ → Type_
  | .Qualified_type t _ => t
  | t => t

/-- The function `Builder::get_const_type`, by value. -/
def get_const_type (t : Type_) : Except Fatal Type_ := get_qualified_type t const_qual

/-- The function `Builder::get_volatile_type`, by value. -/
def get_volatile_type (t : Type_) : Except Fatal Type_ := get_qualified_type t volatile_qual

mutual
/-- No qualified type of `t`, at any depth, directly wraps a qualified type.
The extent expression of an array type is not a component type. -/
def no_nested_qualified : Type_ → Bool
  | .Void_type => true
  | .Boolean_type => true
  | .Integer_type _ _ => true
  | .Float_type _ => true
  | .Auto_type => true
  | .Decltype_type => true
  | .Declauto_type => true
  | .Function_type ps r => no_nested_qualified_list ps && no_nested_qualified r
  | .Qualified_type t _ => !is_Qualified_type t && no_nested_qualified t
  | .Pointer_type t => no_nested_qualified t
  | .Reference_type t => no_nested_qualified t
  | .Array_type t _ => no_nested_qualified t
  | .Sequence_type t => no_nested_qualified t
  | .Class_type _ => true
  | .Union_type _ => true
  | .Enum_type _ => true
  | .Typename_type _ => true
  | .Synthetic_type _ => true
termination_by structural x => x
/-- No type of the list has a qualified type that directly wraps a qualified
type. -/
def no_nested_qualified_list : List Type_ → Bool
  | [] => true
  | t :: ts => no_nested_qualified t && no_nested_qualified_list ts
termination_by structural x => x
end

/-- The types every mapping of `sub` to a type maps to have no qualified type
directly inside a qualified type. -/
def Substitution.no_nested_qualified (sub : Substitution) : Prop :=
  ∀ d a, sub.get_mapping d = some (.type a) → banjo.no_nested_qualified a = true

/-- A type built through the builder: the tree of the calls of the type
makers of `builder.cpp` that built it, each argument of a call being the type
an earlier call returned.  (`get_byte_type` is left out, `ast.hpp` declares no
`Byte_type`; the overload of `get_function_type` on a declaration list calls
the one on a type list with the types of the parameters.) -/
inductive Type_maker where
  | get_void_type : Type_maker
  | get_bool_type : Type_maker
  | get_integer_type (s : Bool) (p : Int) : Type_maker
  | get_int_type : Type_maker
  | get_uint_type : Type_maker
  | get_float_type : Type_maker
  | get_auto_type : Type_maker
  | get_decltype_type (e : Expr) : Type_maker
  | get_declauto_type : Type_maker
  | get_function_type (ts : List Type_maker) (r : Type_maker) : Type_maker
  | get_qualified_type (t : Type_maker) (qual : Qualifier_set) : Type_maker
  | get_const_type (t : Type_maker) : Type_maker
  | get_volatile_type (t : Type_maker) : Type_maker
  | get_pointer_type (t : Type_maker) : Type_maker
  | get_reference_type (t : Type_maker) : Type_maker
  | get_array_type (t : Type_maker) (e : Expr) : Type_maker
  | get_sequence_type (t : Type_maker) : Type_maker
  | get_class_type (d : Decl) : Type_maker
  | get_union_type (d : Decl) : Type_maker
  | get_enum_type (d : Decl) : Type_maker
  | get_typename_type (d : Decl) : Type_maker
  | synthesize_type (d : Decl) : Type_maker

mutual
/-- The type the calls of the type makers of `builder.cpp` build, by value.
The default arguments of the constructors are those of `ast.hpp`
(`Float_type(int p = 64)`). -/
def Type_maker.build : Type_maker → Except Fatal Type_
  | .get_void_type => .ok .Void_type
  | .get_bool_type => .ok .Boolean_type
  | .get_integer_type s p => .ok (.Integer_type s p)
  | .get_int_type => .ok (.Integer_type true 32)
  | .get_uint_type => .ok (.Integer_type false 32)
  | .get_float_type => .ok (.Float_type 64)
  | .get_auto_type => .ok .Auto_type
  | .get_decltype_type _ => .error .unimplemented
  | .get_declauto_type => .ok .Declauto_type
  | .get_function_type ts r =>
      match Type_maker.build_list ts with
      | .error e => .error e
      | .ok ts1 =>
        match Type_maker.build r with
        | .error e => .error e
        | .ok r1 => .ok (.Function_type ts1 r1)
  | .get_qualified_type t qual =>
      match Type_maker.build t with
      | .error e => .error e
      | .ok t1 => banjo.get_qualified_type t1 qual
  | .get_const_type t =>
      match Type_maker.build t with
      | .error e => .error e
      | .ok t1 => banjo.get_const_type t1
  | .get_volatile_type t =>
      match Type_maker.build t with
      | .error e => .error e
      | .ok t1 => banjo.get_volatile_type t1
  | .get_pointer_type t =>
      match Type_maker.build t with
      | .error e => .error e
      | .ok t1 => .ok (.Pointer_type t1)
  | .get_reference_type t =>
      match Type_maker.build t with
      | .error e => .error e
      | .ok t1 => .ok (.Reference_type t1)
  | .get_array_type _ _ => .error .unimplemented
  | .get_sequence_type t =>
      match Type_maker.build t with
      | .error e => .error e
      | .ok t1 => .ok (.Sequence_type t1)
  | .get_class_type d => .ok (.Class_type d)
  | .get_union_type _ => .error .unimplemented
  | .get_enum_type _ => .error .unimplemented
  | .get_typename_type d => .ok (.Typename_type d)
  | .synthesize_type d => .ok (.Synthetic_type d)
termination_by structural x => x
/-- The types a list of maker calls builds, in order. -/
def Type_maker.build_list : List Type_maker → Except Fatal (List Type_)
  | [] => .ok []
  | t :: ts =>
      match Type_maker.build t with
      | .error e => .error e
      | .ok t1 =>
        match Type_maker.build_list ts with
        | .error e => .error e
        | .ok ts1 => .ok (t1 :: ts1)
termination_by structural x => x
end

/-! ## Substitution into compound types, as the specification reads it -/

mutual
/-- The reading of the substitution `{T ↦ a}` the specification gives: the
type `t` with every occurrence of the typename-type of `T` replaced by `a` and
every other constructor, the order of the parameters and the return type
kept. -/
def replace_typename (T : Decl) (a : Type_) : Type_ → Type_
  | .Void_type => .Void_type
  | .Boolean_type => .Boolean_type
  | .Integer_type s p => .Integer_type s p
  | .Float_type p => .Float_type p
  | .Auto_type => .Auto_type
  | .Decltype_type => .Decltype_type
  | .Declauto_type => .Declauto_type
  | .Function_type ps r => .Function_type (replace_typename_list T a ps) (replace_typename T a r)
  | .Qualified_type t q => .Qualified_type (replace_typename T a t) q
  | .Pointer_type t => .Pointer_type (replace_typename T a t)
  | .Reference_type t => .Reference_type (replace_typename T a t)
  | .Array_type t e => .Array_type (replace_typename T a t) e
  | .Sequence_type t => .Sequence_type (replace_typename T a t)
  | .Class_type d => .Class_type d
  | .Union_type d => .Union_type d
  | .Enum_type d => .Enum_type d
  | .Typename_type d => if d = T then a else .Typename_type d
  | .Synthetic_type d => .Synthetic_type d
termination_by structural x => x
/-- The replacement in every type of a list, in order. -/
def replace_typename_list (T : Decl) (a : Type_) : List Type_ → List Type_
  | [] => []
  | t :: ts => replace_typename T a t :: replace_typename_list T a ts
termination_by structural x => x
end

mutual
/-- The types built from typename-types, scalar types, pointer, reference,
sequence and function types. -/
def is_compound_of_typenames : Type_ → Bool
  | .Void_type => true
  | .Boolean_type => true
  | .Integer_type _ _ => true
  | .Float_type _ => true
  | .Auto_type => false
  | .Decltype_type => false
  | .Declauto_type => false
  | .Function_type ps r => is_compound_of_typenames_list ps && is_compound_of_typenames r
  | .Qualified_type _ _ => false
  | .Pointer_type t => is_compound_of_typenames t
  | .Reference_type t => is_compound_of_typenames t
  | .Array_type _ _ => false
  | .Sequence_type t => is_compound_of_typenames t
  | .Class_type _ => false
  | .Union_type _ => false
  | .Enum_type _ => false
  | .Typename_type _ => true
  | .Synthetic_type _ => false
termination_by structural x => x
/-- Every type of the list is built from typename-types, scalar types,
pointer, reference, sequence and function types. -/
def is_compound_of_typenames_list : List Type_ → Bool
  | [] => true
  | t :: ts => is_compound_of_typenames t && is_compound_of_typenames_list ts
termination_by structural x => x
end

/-- The substitution `{T ↦ a}` of a type parameter by a type. -/
def Substitution.single (T : Decl) (a : Type_) : Substitution := [(T, .type a)]

/-! ## Names and declarations: equivalence and hashing -/

/-- The identity of a symbol of the symbol table: a `Simple_id` holds the
address of its symbol. -/
abbrev Symbol := Nat

/-- Names (`struct Name` and its derived classes in `ast.hpp`; `Concept_id`,
which `builder.cpp` and `hash.cpp` use, has the fields of its constructor
call). -/
inductive Name where
  | Simple_id (first : Symbol) : Name
  | Global_id : Name
  | Placeholder_id : Name
  | Operator_id : Name
  | Conversion_id : Name
  | Literal_id : Name
  | Destructor_id (first : Type_) : Name
  | Template_id (decl : Decl) (args : List Term) : Name
  | Concept_id (decl : Decl) (args : List Term) : Name
  | Qualified_id (decl : Decl) (first : Name) : Name

/-- Modelled from the spec: `is_equivalent` on names (`equivalence.cpp` is
missing).  Section 4.B: simple-ids compare by the identity of the symbol,
template-ids by the identity of the declaration and the equivalence of the
argument lists, qualified-ids by the identity of the scope and the equivalence
of the names.  The variants the section does not list are compared in the same
way: same variant, then field by field. -/
def is_equivalent_name : Name → Name → Bool
  | .Simple_id s1, b => match b with
      | .Simple_id s2 => s1 == s2
      | _ => false
  | .Global_id, b => match b with
      | .Global_id => true
      | _ => false
  | .Placeholder_id, b => match b with
      | .Placeholder_id => true
      | _ => false
  | .Operator_id, b => match b with
      | .Operator_id => true
      | _ => false
  | .Conversion_id, b => match b with
      | .Conversion_id => true
      | _ => false
  | .Literal_id, b => match b with
      | .Literal_id => true
      | _ => false
  | .Destructor_id t1, b => match b with
      | .Destructor_id t2 => is_equivalent_type t1 t2
      | _ => false
  | .Template_id d1 as1, b => match b with
      | .Template_id d2 as2 => d1 == d2 && is_equivalent_term_list as1 as2
      | _ => false
  | .Concept_id d1 as1, b => match b with
      | .Concept_id d2 as2 => d1 == d2 && is_equivalent_term_list as1 as2
      | _ => false
  | .Qualified_id d1 n1, b => match b with
      | .Qualified_id d2 n2 => d1 == d2 && is_equivalent_name n1 n2
      | _ => false

/-- Modelled from the spec: `is_equivalent` on declarations.  Section 4.B:
identity only, two declarations are equivalent iff they are the same
object. -/
def is_equivalent_decl (a b : Decl) : Bool := a == b

/-- The function `hash_value(Name const&)` with the per-class overloads it
dispatches to: a simple-id combines its class with the address of its symbol,
the global-id has the code of its class, and every other overload is
`lingo_unimplemented()`. -/
def hash_value_name : Name → Except Fatal Hash_code
  | .Simple_id s => .ok (hash_combine (hash_type .Simple_id) (.of_symbol s))
  | .Global_id => .ok (hash_type .Global_id)
  | .Placeholder_id => .error .unimplemented
  | .Operator_id => .error .unimplemented
  | .Conversion_id => .error .unimplemented
  | .Literal_id => .error .unimplemented
  | .Destructor_id _ => .error .unimplemented
  | .Template_id _ _ => .error .unimplemented
  | .Concept_id _ _ => .error .unimplemented
  | .Qualified_id _ _ => .error .unimplemented

/-! ## Declaration objects and substitution into declarations -/

/-- The fields of `Decl` and `Object_decl` (`ast.hpp`): specifiers, context,
name, type and initializer of a declaration of an object. -/
structure Object_decl where
  spec : Nat
  cxt : Option Decl
  first : Name
  ty : Type_
  init : Option Expr

/-- The constructor `Object_decl(Name& n, Type& t)`, on `Decl(n)`: no
specifier, no context and no initializer. -/
def Object_decl.make (n : Name) (t : Type_) : Object_decl :=
  { spec := 0, cxt := none, first := n, ty := t, init := none }

/-- The classes derived from `Decl`. -/
inductive Decl_class where
  | Variable_decl | Constant_decl | Function_decl | Class_decl | Union_decl | Enum_decl
  | Namespace_decl | Template_decl | Concept_decl | Object_parm | Value_parm | Type_parm
  | Template_parm | Variadic_parm
  deriving DecidableEq, Repr

/-- A declaration object.  The four classes derived from `Object_decl` carry
its fields, and a function declaration its name, its type and its parameters
(`Decl(n), ty(&t), parms(p), def()`); of the other classes substitution reads
the class only, and the embedding keeps the name. -/
inductive Decl_object where
  | Variable_decl (d : Object_decl) : Decl_object
  | Constant_decl (d : Object_decl) : Decl_object
  | Object_parm (d : Object_decl) : Decl_object
  | Value_parm (d : Object_decl) : Decl_object
  | Function_decl (first : Name) (ty : Type_) (parms : List Decl) : Decl_object
  | Class_decl (first : Name) : Decl_object
  | Union_decl (first : Name) : Decl_object
  | Enum_decl (first : Name) : Decl_object
  | Namespace_decl (first : Name) : Decl_object
  | Template_decl (first : Name) : Decl_object
  | Concept_decl (first : Name) : Decl_object
  | Type_parm (first : Name) : Decl_object
  | Template_parm (first : Name) : Decl_object
  | Variadic_parm (first : Name) : Decl_object

/-- The dynamic class of a declaration object. -/
def Decl_object.cls : Decl_object → Decl_class
  | .Variable_decl _ => .Variable_decl
  | .Constant_decl _ => .Constant_decl
  | .Object_parm _ => .Object_parm
  | .Value_parm _ => .Value_parm
  | .Function_decl _ _ _ => .Function_decl
  | .Class_decl _ => .Class_decl
  | .Union_decl _ => .Union_decl
  | .Enum_decl _ => .Enum_decl
  | .Namespace_decl _ => .Namespace_decl
  | .Template_decl _ => .Template_decl
  | .Concept_decl _ => .Concept_decl
  | .Type_parm _ => .Type_parm
  | .Template_parm _ => .Template_parm
  | .Variadic_parm _ => .Variadic_parm

/-- The function `Decl::name`. -/
def Decl_object.name : Decl_object → Name
  | .Variable_decl d => d.first
  | .Constant_decl d => d.first
  | .Object_parm d => d.first
  | .Value_parm d => d.first
  | .Function_decl n _ _ => n
  | .Class_decl n => n
  | .Union_decl n => n
  | .Enum_decl n => n
  | .Namespace_decl n => n
  | .Template_decl n => n
  | .Concept_decl n => n
  | .Type_parm n => n
  | .Template_parm n => n
  | .Variadic_parm n => n

/-- The function `Object_decl::type`, on the classes that have it. -/
def Decl_object.type : Decl_object → Option Type_
  | .Variable_decl d => some d.ty
  | .Constant_decl d => some d.ty
  | .Object_parm d => some d.ty
  | .Value_parm d => some d.ty
  | _ => none

/-- The declarations that exist, in the order of their creation.  The position
of a declaration is its identity. -/
abbrev Decl_store := List Decl_object

/-- Modelled from the spec: `Builder::make<T>` for a declaration class `T`
(the template is declared in the missing `builder.hpp`).  Section 4.C: for
identity-like sorts (declarations) the builder allocates unconditionally.  The
result is the identity of the new object and the store that holds it. -/
def Builder.make_decl (st : Decl_store) (o : Decl_object) : Decl × Decl_store :=
  (st.length, st ++ [o])

/-- The function `Builder::make_variable(Name&, Type&)`. -/
def make_variable (st : Decl_store) (n : Name) (t : Type_) : Decl × Decl_store :=
  Builder.make_decl st (.Variable_decl (Object_decl.make n t))

/-- The function `Builder::make_object_parm(Name&, Type&)`. -/
def make_object_parm (st : Decl_store) (n : Name) (t : Type_) : Decl × Decl_store :=
  Builder.make_decl st (.Object_parm (Object_decl.make n t))

/-- The function `substitute(Context&, Decl&, Substitution&)` with the
`substitute_decl` overloads it dispatches to: a variable and an object
parameter are rebuilt from the name and the substituted type; every other
class selects the `Decl&` overload, which is `lingo_unimplemented()`. -/
def substitute_decl (sub : Substitution) (st : Decl_store) (d : Decl) :
    Except Fatal (Decl × Decl_store) :=
  match st.get? d with
  | none => .error .undefined
  | some (.Variable_decl o) =>
      match substitute_type sub o.ty with
      | .error e => .error e
      | .ok t => .ok (make_variable st o.first t)
  | some (.Object_parm o) =>
      match substitute_type sub o.ty with
      | .error e => .error e
      | .ok t => .ok (make_object_parm st o.first t)
  | some _ => .error .unimplemented

/-! ## Closed terms -/

mutual
/-- A parameter of `sub` occurs in the type: some declaration `sub` maps is
referred to by the type or by one of its components. -/
def occurs_in_type (sub : Substitution) : Type_ → Bool
  | .Void_type => false
  | .Boolean_type => false
  | .Integer_type _ _ => false
  | .Float_type _ => false
  | .Auto_type => false
  | .Decltype_type => false
  | .Declauto_type => false
  | .Function_type ps r => occurs_in_type_list sub ps || occurs_in_type sub r
  | .Qualified_type t _ => occurs_in_type sub t
  | .Pointer_type t => occurs_in_type sub t
  | .Reference_type t => occurs_in_type sub t
  | .Array_type t e => occurs_in_type sub t || occurs_in_expr sub e
  | .Sequence_type t => occurs_in_type sub t
  | .Class_type d => sub.has_mapping d
  | .Union_type d => sub.has_mapping d
  | .Enum_type d => sub.has_mapping d
  | .Typename_type d => sub.has_mapping d
  | .Synthetic_type d => sub.has_mapping d
termination_by structural x => x
/-- A parameter of `sub` occurs in a type of the list. -/
def occurs_in_type_list (sub : Substitution) : List Type_ → Bool
  | [] => false
  | t :: ts => occurs_in_type sub t || occurs_in_type_list sub ts
termination_by structural x => x
/-- A parameter of `sub` occurs in the expression: in its type, in a
declaration it refers to or in one of its operands. -/
def occurs_in_expr (sub : Substitution) : Expr → Bool
  | .Boolean_expr ty _ => occurs_in_type sub ty
  | .Integer_expr ty _ => occurs_in_type sub ty
  | .Reference_expr ty d => occurs_in_type sub ty || sub.has_mapping d
  | .Unary_expr _ ty a => occurs_in_type sub ty || occurs_in_expr sub a
  | .Binary_expr _ ty a b => occurs_in_type sub ty || occurs_in_expr sub a || occurs_in_expr sub b
  | .Call_expr ty f as =>
      occurs_in_type sub ty || occurs_in_expr sub f || occurs_in_expr_list sub as
  | .Conv _ ty a => occurs_in_type sub ty || occurs_in_expr sub a
  | .Check_expr ty d as =>
      occurs_in_type sub ty || sub.has_mapping d || occurs_in_term_list sub as
  | .Requires_expr ty ps b =>
      occurs_in_type sub ty || ps.any (fun p => sub.has_mapping p) || occurs_in_expr sub b
  | .Synthetic_expr ty d => occurs_in_type sub ty || sub.has_mapping d
termination_by structural x => x
/-- A parameter of `sub` occurs in an expression of the list. -/
def occurs_in_expr_list (sub : Substitution) : List Expr → Bool
  | [] => false
  | a :: as => occurs_in_expr sub a || occurs_in_expr_list sub as
termination_by structural x => x
/-- A parameter of `sub` occurs in the term. -/
def occurs_in_term (sub : Substitution) : Term → Bool
  | .type t => occurs_in_type sub t
  | .expr e => occurs_in_expr sub e
termination_by structural x => x
/-- A parameter of `sub` occurs in a term of the list. -/
def occurs_in_term_list (sub : Substitution) : List Term → Bool
  | [] => false
  | a :: as => occurs_in_term sub a || occurs_in_term_list sub as
termination_by structural x => x
end

mutual
/-- The types substitution is implemented on: no component is an auto,
decltype, declauto or array type, and every qualified component meets the
assertions of the constructor of `Qualified_type` (a non-empty qualifier set
over a type that is not qualified). -/
def is_substitutable_type : Type_ → Bool
  | .Void_type => true
  | .Boolean_type => true
  | .Integer_type _ _ => true
  | .Float_type _ => true
  | .Auto_type => false
  | .Decltype_type => false
  | .Declauto_type => false
  | .Function_type ps r => is_substitutable_type_list ps && is_substitutable_type r
  | .Qualified_type t q => q != empty_qual && !is_Qualified_type t && is_substitutable_type t
  | .Pointer_type t => is_substitutable_type t
  | .Reference_type t => is_substitutable_type t
  | .Array_type _ _ => false
  | .Sequence_type t => is_substitutable_type t
  | .Class_type _ => true
  | .Union_type _ => true
  | .Enum_type _ => true
  | .Typename_type _ => true
  | .Synthetic_type _ => true
termination_by structural x => x
/-- Substitution is implemented on every type of the list. -/
def is_substitutable_type_list : List Type_ → Bool
  | [] => true
  | t :: ts => is_substitutable_type t && is_substitutable_type_list ts
termination_by structural x => x
end

mutual
/-- The expressions substitution is implemented on: literals, references,
logical not, and, or, calls and concept checks, over operands and arguments
it is implemented on. -/
def is_substitutable_expr : Expr → Bool
  | .Boolean_expr _ _ => true
  | .Integer_expr _ _ => true
  | .Reference_expr _ _ => true
  | .Unary_expr op _ a =>
      match op with
      | .Not_expr => is_substitutable_expr a
      | _ => false
  | .Binary_expr op _ a b =>
      match op with
      | .And_expr => is_substitutable_expr a && is_substitutable_expr b
      | .Or_expr => is_substitutable_expr a && is_substitutable_expr b
      | _ => false
  | .Call_expr _ f as => is_substitutable_expr f && is_substitutable_expr_list as
  | .Conv _ _ _ => false
  | .Check_expr _ _ as => is_substitutable_term_list as
  | .Requires_expr _ _ _ => false
  | .Synthetic_expr _ _ => false
termination_by structural x => x
/-- Substitution is implemented on every expression of the list. -/
def is_substitutable_expr_list : List Expr → Bool
  | [] => true
  | a :: as => is_substitutable_expr a && is_substitutable_expr_list as
termination_by structural x => x
/-- Substitution is implemented on the term. -/
def is_substitutable_term : Term → Bool
  | .type t => is_substitutable_type t
  | .expr e => is_substitutable_expr e
termination_by structural x => x
/-- Substitution is implemented on every term of the list. -/
def is_substitutable_term_list : List Term → Bool
  | [] => true
  | a :: as => is_substitutable_term a && is_substitutable_term_list as
termination_by structural x => x
end

/-- The store of the scenario S3: the type parameter `T`, then the variables
`v1 : T` and `v2 : ptr(T)`, then an object parameter `p : T`.  The symbols
`T`, `v1`, `v2` and `p` have the identities 0 to 3. -/
def sample_store : Decl_store :=
  [.Type_parm (.Simple_id 0),
   .Variable_decl (Object_decl.make (.Simple_id 1) (.Typename_type 0)),
   .Variable_decl (Object_decl.make (.Simple_id 2) (.Pointer_type (.Typename_type 0))),
   .Object_parm (Object_decl.make (.Simple_id 3) (.Typename_type 0))]

/-! ## Type objects: identity and mutation

The sections above take a type by value.  The identity of a type object and a
change of one of its fields are observed on the arena: the list of the type
objects that exist, in the order of their creation, the position of an object
being its identity. -/

/-- The identity of a type object: its position in the arena. -/
abbrev Type_ref := Nat

/-- The class and the fields of a type object (`ast.hpp`).  A field that
refers to a type holds the identity of that type.  The expressions of a
decltype type and of an array type are not objects of the arena and are left
out. -/
inductive Type_node where
  | Void_type : Type_node
  | Boolean_type : Type_node
  | Integer_type (sgn : Bool) (prec : Int) : Type_node
  | Float_type (prec : Int) : Type_node
  | Auto_type : Type_node
  | Decltype_type : Type_node
  | Declauto_type : Type_node
  | Function_type (parms : List Type_ref) (ret : Type_ref) : Type_node
  | Qualified_type (ty : Type_ref) (qual : Qualifier_set) : Type_node
  | Pointer_type (ty : Type_ref) : Type_node
  | Reference_type (ty : Type_ref) : Type_node
  | Array_type (first : Type_ref) : Type_node
  | Sequence_type (ty : Type_ref) : Type_node
  | Class_type (decl : Decl) : Type_node
  | Union_type (decl : Decl) : Type_node
  | Enum_type (decl : Decl) : Type_node
  | Typename_type (decl : Decl) : Type_node
  | Synthetic_type (decl : Decl) : Type_node
  deriving DecidableEq, Repr

/-- The type objects that exist, in the order of their creation. -/
abbrev Arena := List Type_node

/-- The function `Type::qualifier` of the object `t`. -/
def Arena.qualifier (ar : Arena) (t : Type_ref) : Option Qualifier_set :=
  match ar.get? t with
  | none => none
  | some (.Qualified_type _ q) => some q
  | some _ => some empty_qual

/-- Modelled from the spec: `Builder::make<T>` for a type class `T` (the
template is declared in the missing `builder.hpp`).  Section 4.C: for the
value-like sorts (types) the builder keeps an interning set; `make` computes a
candidate, looks it up and returns the interned representative, creating a new
arena entry only on a miss.  The candidate matches an object of its class with
the same fields, a field that refers to a type being the same when it refers
to the same object.  The result is the identity of the object returned and the
arena after the call. -/
def Builder.make_type (ar : Arena) (n : Type_node) : Type_ref × Arena :=
  if n ∈ ar then (ar.indexOf n, ar) else (ar.length, ar ++ [n])

/-- The function `Builder::get_void_type`. -/
def Builder.get_void_type (ar : Arena) : Type_ref × Arena :=
  Builder.make_type ar .Void_type

/-- The function `Builder::get_bool_type`. -/
def Builder.get_bool_type (ar : Arena) : Type_ref × Arena :=
  Builder.make_type ar .Boolean_type

/-- The function `Builder::get_integer_type`. -/
def Builder.get_integer_type (ar : Arena) (s : Bool) (p : Int) : Type_ref × Arena :=
  Builder.make_type ar (.Integer_type s p)

/-- The function `Builder::get_int_type`. -/
def Builder.get_int_type (ar : Arena) : Type_ref × Arena :=
  Builder.get_integer_type ar true 32

/-- The function `Builder::get_uint_type`. -/
def Builder.get_uint_type (ar : Arena) : Type_ref × Arena :=
  Builder.get_integer_type ar false 32

/-- The function `Builder::get_float_type`, with the default precision of the
constructor `Float_type(int p = 64)`. -/
def Builder.get_float_type (ar : Arena) : Type_ref × Arena :=
  Builder.make_type ar (.Float_type 64)

/-- The function `Builder::get_auto_type`. -/
def Builder.get_auto_type (ar : Arena) : Type_ref × Arena :=
  Builder.make_type ar .Auto_type

/-- The function `Builder::get_declauto_type`. -/
def Builder.get_declauto_type (ar : Arena) : Type_ref × Arena :=
  Builder.make_type ar .Declauto_type

/-- The function `Builder::get_function_type(Type_list const&, Type&)`. -/
def Builder.get_function_type (ar : Arena) (ts : List Type_ref) (r : Type_ref) :
    Type_ref × Arena :=
  Builder.make_type ar (.Function_type ts r)

/-- The function `Builder::get_qualified_type`: the qualifiers are added in
place to the qualifier set of an object that is a qualified type, and that
object is returned; otherwise a qualified type is made, whose constructor
asserts that the set is not empty. -/
def Builder.get_qualified_type (ar : Arena) (t : Type_ref) (qual : Qualifier_set) :
    Except Fatal (Type_ref × Arena) :=
  match ar.get? t with
  | none => .error .undefined
  | some (.Qualified_type ty q) => .ok (t, ar.set t (.Qualified_type ty (q ||| qual)))
  | some _ =>
      if qual = empty_qual then .error .undefined
      else .ok (Builder.make_type ar (.Qualified_type t qual))

/-- The function `Builder::get_const_type`. -/
def Builder.get_const_type (ar : Arena) (t : Type_ref) : Except Fatal (Type_ref × Arena) :=
  Builder.get_qualified_type ar t const_qual

/-- The function `Builder::get_volatile_type`. -/
def Builder.get_volatile_type (ar : Arena) (t : Type_ref) : Except Fatal (Type_ref × Arena) :=
  Builder.get_qualified_type ar t volatile_qual

/-- The function `Builder::get_pointer_type`. -/
def Builder.get_pointer_type (ar : Arena) (t : Type_ref) : Type_ref × Arena :=
  Builder.make_type ar (.Pointer_type t)

/-- The function `Builder::get_reference_type`. -/
def Builder.get_reference_type (ar : Arena) (t : Type_ref) : Type_ref × Arena :=
  Builder.make_type ar (.Reference_type t)

/-- The function `Builder::get_sequence_type`. -/
def Builder.get_sequence_type (ar : Arena) (t : Type_ref) : Type_ref × Arena :=
  Builder.make_type ar (.Sequence_type t)

/-- The function `Builder::get_class_type`. -/
def Builder.get_class_type (ar : Arena) (d : Decl) : Type_ref × Arena :=
  Builder.make_type ar (.Class_type d)

/-- The function `Builder::get_typename_type`. -/
def Builder.get_typename_type (ar : Arena) (d : Decl) : Type_ref × Arena :=
  Builder.make_type ar (.Typename_type d)

/-- The function `Builder::synthesize_type`. -/
def Builder.synthesize_type (ar : Arena) (d : Decl) : Type_ref × Arena :=
  Builder.make_type ar (.Synthetic_type d)

/-- A call of a type maker of the builder on type objects that exist. -/
inductive Type_call where
  | get_void_type : Type_call
  | get_bool_type : Type_call
  | get_integer_type (s : Bool) (p : Int) : Type_call
  | get_int_type : Type_call
  | get_uint_type : Type_call
  | get_float_type : Type_call
  | get_auto_type : Type_call
  | get_decltype_type : Type_call
  | get_declauto_type : Type_call
  | get_function_type (ts : List Type_ref) (r : Type_ref) : Type_call
  | get_qualified_type (t : Type_ref) (qual : Qualifier_set) : Type_call
  | get_const_type (t : Type_ref) : Type_call
  | get_volatile_type (t : Type_ref) : Type_call
  | get_pointer_type (t : Type_ref) : Type_call
  | get_reference_type (t : Type_ref) : Type_call
  | get_array_type (t : Type_ref) : Type_call
  | get_sequence_type (t : Type_ref) : Type_call
  | get_class_type (d : Decl) : Type_call
  | get_union_type (d : Decl) : Type_call
  | get_enum_type (d : Decl) : Type_call
  | get_typename_type (d : Decl) : Type_call
  | synthesize_type (d : Decl) : Type_call

/-- The call of a type maker: the object it returns and the arena after the
call.  The makers of decltype, array, union and enum types are
`lingo_unimplemented()`. -/
def Type_call.run (ar : Arena) : Type_call → Except Fatal (Type_ref × Arena)
  | .get_void_type => .ok (Builder.get_void_type ar)
  | .get_bool_type => .ok (Builder.get_bool_type ar)
  | .get_integer_type s p => .ok (Builder.get_integer_type ar s p)
  | .get_int_type => .ok (Builder.get_int_type ar)
  | .get_uint_type => .ok (Builder.get_uint_type ar)
  | .get_float_type => .ok (Builder.get_float_type ar)
  | .get_auto_type => .ok (Builder.get_auto_type ar)
  | .get_decltype_type => .error .unimplemented
  | .get_declauto_type => .ok (Builder.get_declauto_type ar)
  | .get_function_type ts r => .ok (Builder.get_function_type ar ts r)
  | .get_qualified_type t qual => Builder.get_qualified_type ar t qual
  | .get_const_type t => Builder.get_const_type ar t
  | .get_volatile_type t => Builder.get_volatile_type ar t
  | .get_pointer_type t => .ok (Builder.get_pointer_type ar t)
  | .get_reference_type t => .ok (Builder.get_reference_type ar t)
  | .get_array_type _ => .error .unimplemented
  | .get_sequence_type t => .ok (Builder.get_sequence_type ar t)
  | .get_class_type d => .ok (Builder.get_class_type ar d)
  | .get_union_type _ => .error .unimplemented
  | .get_enum_type _ => .error .unimplemented
  | .get_typename_type d => .ok (Builder.get_typename_type ar d)
  | .synthesize_type d => .ok (Builder.synthesize_type ar d)

/-- The call is one of `get_qualified_type`, `get_const_type` and
`get_volatile_type`. -/
def Type_call.qualifies : Type_call → Bool
  | .get_qualified_type _ _ => true
  | .get_const_type _ => true
  | .get_volatile_type _ => true
  | _ => false

/-- The calls of the type makers one after the other, each on the arena the
call before it left: the objects returned, in order, and the last arena. -/
def Type_call.run_all : Arena → List Type_call → Except Fatal (List Type_ref × Arena)
  | ar, [] => .ok ([], ar)
  | ar, c :: cs =>
      match c.run ar with
      | .error e => .error e
      | .ok (r, ar1) =>
        match Type_call.run_all ar1 cs with
        | .error e => .error e
        | .ok (rs, ar2) => .ok (r :: rs, ar2)

/-- A substitution on type objects (`Substitution`, modelled from the spec as
above): each parameter is mapped to a type object, or to a term that is not a
type (`none`). -/
abbrev Substitution_obj := List (Decl × Option Type_ref)

/-- Modelled from the spec: `Substitution::get_mapping`, on type objects. -/
def Substitution_obj.get_mapping (sub : Substitution_obj) (d : Decl) :
    Option (Option Type_ref) :=
  match sub with
  | [] => none
  | (p, t) :: rest => if p = d then some t else Substitution_obj.get_mapping rest d

/-- The function `substitute(Context&, List<T>&, Substitution&)` on a list of
type objects, `f` being the substitution into one object. -/
def substitute_obj_list (f : Arena → Type_ref → Except Fatal (Type_ref × Arena)) :
    Arena → List Type_ref → Except Fatal (List Type_ref × Arena)
  | ar, [] => .ok ([], ar)
  | ar, t :: ts =>
      match f ar t with
      | .error e => .error e
      | .ok (t1, ar1) =>
        match substitute_obj_list f ar1 ts with
        | .error e => .error e
        | .ok (ts1, ar2) => .ok (t1 :: ts1, ar2)

/-- The function `substitute(Context&, Type&, Substitution&)` with the
`substitute_type` overloads it dispatches to, on type objects.  The recursion
follows the references of the arena and has a step budget; the qualifier set
of a qualified type is read after the substitution into its inner type, as
the source does. -/
def substitute_obj (sub : Substitution_obj) :
    Nat → Arena → Type_ref → Except Fatal (Type_ref × Arena)
  | 0, _, _ => .error .nontermination
  | fuel + 1, ar, t =>
    match ar.get? t with
    | none => .error .undefined
    | some (.Auto_type) => .error .unimplemented
    | some (.Decltype_type) => .error .unimplemented
    | some (.Declauto_type) => .error .unimplemented
    | some (.Function_type ps r) =>
        match substitute_obj_list (substitute_obj sub fuel) ar ps with
        | .error e => .error e
        | .ok (ps1, ar1) =>
          match substitute_obj sub fuel ar1 r with
          | .error e => .error e
          | .ok (r1, ar2) => .ok (Builder.get_function_type ar2 ps1 r1)
    | some (.Reference_type x) =>
        match substitute_obj sub fuel ar x with
        | .error e => .error e
        | .ok (s, ar1) => .ok (Builder.get_reference_type ar1 s)
    | some (.Qualified_type x _) =>
        match substitute_obj sub fuel ar x with
        | .error e => .error e
        | .ok (s, ar1) =>
          match ar1.qualifier t with
          | none => .error .undefined
          | some q => Builder.get_qualified_type ar1 s q
    | some (.Pointer_type x) =>
        match substitute_obj sub fuel ar x with
        | .error e => .error e
        | .ok (s, ar1) => .ok (Builder.get_pointer_type ar1 s)
    | some (.Array_type _) => .error .unimplemented
    | some (.Sequence_type x) =>
        match substitute_obj sub fuel ar x with
        | .error e => .error e
        | .ok (s, ar1) => .ok (Builder.get_sequence_type ar1 s)
    | some (.Typename_type d) =>
        match sub.get_mapping d with
        | some (some a) => .ok (a, ar)
        | some none => .error .undefined
        | none => .ok (t, ar)
    | some _ => .ok (t, ar)

/-- The object `n1` is the object `n`, or `n` with more qualifiers: the class
and every field of `n` other than the qualifier set of a qualified type are
those of `n1`. -/
def Type_node.widened (n n1 : Type_node) : Prop :=
  n1 = n ∨ ∃ ty q q1, n = .Qualified_type ty q ∧ n1 = .Qualified_type ty (q ||| q1)

/-- Every object of the arena `ar` is an object of `ar1`, with the same
identity, class and fields, but for the qualifier set of a qualified type,
which may have grown. -/
def Arena.kept (ar ar1 : Arena) : Prop :=
  ar.length ≤ ar1.length ∧
  ∀ i n, ar.get? i = some n → ∃ n1, ar1.get? i = some n1 ∧ n.widened n1

/-- Every object of the arena `ar` is an object of `ar1`, unchanged. -/
def Arena.unchanged (ar ar1 : Arena) : Prop :=
  ∀ i n, ar.get? i = some n → ar1.get? i = some n

/-- The arena of the examples: `int`, `const int` built on it, the
typename-type of the parameter `T`, which is the declaration 7, and
`volatile T`. -/
def sample_arena : Arena :=
  [.Integer_type true 32, .Qualified_type 0 const_qual, .Typename_type 7,
   .Qualified_type 2 volatile_qual]

/-- The arena `sample_arena` once `const int` has become `const volatile
int`. -/
def sample_arena_widened : Arena :=
  [.Integer_type true 32, .Qualified_type 0 total_qual, .Typename_type 7,
   .Qualified_type 2 volatile_qual]

/-- The types the fields of a type object refer to. -/
def Type_node.refs : Type_node → List Type_ref
  | .Function_type ps r => r :: ps
  | .Qualified_type t _ => [t]
  | .Pointer_type t => [t]
  | .Reference_type t => [t]
  | .Array_type t => [t]
  | .Sequence_type t => [t]
  | _ => []

/-- Every object of the arena refers to objects created before it, as every
object the makers create does. -/
def Arena.ordered (ar : Arena) : Prop :=
  ∀ i n, ar.get? i = some n → ∀ c ∈ n.refs, c < i

/-- Every type the substitution maps to is an object of the arena. -/
def Substitution_obj.within (sub : Substitution_obj) (ar : Arena) : Prop :=
  ∀ d a, sub.get_mapping d = some (some a) → a < ar.length

/-- What a call of the substitution into a type object gives when its budget
exceeds the identity of the object: no exhaustion of the budget, and a
result that is an object of an arena that is still in order. -/
def substitute_obj_spec (sub : Substitution_obj) (fuel : Nat) : Prop :=
  ∀ (ar : Arena) (t : Type_ref), ar.ordered → sub.within ar → t < fuel →
    substitute_obj sub fuel ar t ≠ .error .nontermination ∧
    ∀ r ar1, substitute_obj sub fuel ar t = .ok (r, ar1) → ar1.ordered ∧ r < ar1.length

/-- No qualified type of the arena directly wraps a qualified type: the inner
type of each qualified type is an object that is not a qualified type. -/
def Arena.no_nested_qualified (ar : Arena) : Prop :=
  ∀ i ty q, ar.get? i = some (.Qualified_type ty q) →
    ∃ n, ar.get? ty = some n ∧ ∀ ty2 q2, n ≠ .Qualified_type ty2 q2

/-! ## Function declarations -/

/-- The loop of `Builder::get_function_type(Decl_list const&, Type&)`: each
declaration is cast to `Object_parm` and its declared type is pushed to the
back of the list.  The cast of a declaration of another class fails. -/
def parm_types (st : Decl_store) : List Decl → Except Fatal (List Type_)
  | [] => .ok []
  | d :: ds =>
    match st.get? d with
    | some (.Object_parm p) =>
      match parm_types st ds with
      | .error e => .error e
      | .ok ts => .ok (p.ty :: ts)
    | _ => .error .undefined

/-- The function `Builder::get_function_type(Decl_list const&, Type&)`, by
value: the overload on a type list is called with the types of the
parameters. -/
def get_function_type_of_parms (st : Decl_store) (ps : List Decl) (r : Type_) :
    Except Fatal Type_ :=
  match parm_types st ps with
  | .error e => .error e
  | .ok ts => .ok (.Function_type ts r)

/-- The function `Builder::make_function(Name&, Decl_list const&, Type&)`. -/
def make_function (st : Decl_store) (n : Name) (ps : List Decl) (r : Type_) :
    Except Fatal (Decl × Decl_store) :=
  match get_function_type_of_parms st ps r with
  | .error e => .error e
  | .ok t => .ok (Builder.make_decl st (.Function_decl n t ps))

/-- The function `Function_decl::type`, `cast<Function_type>(ty)`, with the
parameter types and the return type of the function type it returns. -/
def Decl_object.function_type : Decl_object → Option (List Type_ × Type_)
  | .Function_decl _ (.Function_type ts r) _ => some (ts, r)
  | _ => none

/-- Two object parameters, `a : int` and `b : bool`. -/
def sample_parms : Decl_store :=
  [.Object_parm (Object_decl.make (.Simple_id 1) int_type),
   .Object_parm (Object_decl.make (.Simple_id 2) bool_type)]

/-! ## The type field of an expression -/

/-- The constructor calls of the concrete expression classes of `ast.hpp`,
with their arguments.  A class that inherits the constructors of its base
(`using Copy_init::Copy_init`) has one call for each of them; `_typed` marks the
overload that takes a `Type&`. -/
inductive Expr_ctor where
  | Boolean_expr (t : Type_) (s : Symbol) : Expr_ctor
  | Integer_expr (t : Type_) (s : Symbol) : Expr_ctor
  | Real_expr (t : Type_) (s : Symbol) : Expr_ctor
  | Reference_expr (t : Type_) (d : Decl) : Expr_ctor
  | Unary_expr (op : Unary_op) (t : Type_) (e : Expr) : Expr_ctor
  | Binary_expr (op : Binary_op) (t : Type_) (e1 e2 : Expr) : Expr_ctor
  | Call_expr (t : Type_) (e : Expr) (a : List Expr) : Expr_ctor
  | Conv (k : Conv_kind) (t : Type_) (e : Expr) : Expr_ctor
  | Equal_init (e : Expr) : Expr_ctor
  | Equal_init_typed (t : Type_) (e : Expr) : Expr_ctor
  | Paren_init (a : List Expr) : Expr_ctor
  | Paren_init_typed (t : Type_) (a : List Expr) : Expr_ctor
  | Brace_init (a : List Expr) : Expr_ctor
  | Brace_init_typed (t : Type_) (a : List Expr) : Expr_ctor
  | Structural_init (t : Type_) (i : List Expr) : Expr_ctor
  | Trivial_init : Expr_ctor
  | Trivial_init_typed (t : Type_) : Expr_ctor
  | Zero_init (t : Type_) (e : Expr) : Expr_ctor
  | Constructor_init (t : Type_) (d : Decl) (e : List Expr) : Expr_ctor
  | Object_init (e : Expr) : Expr_ctor
  | Object_init_typed (t : Type_) (e : Expr) : Expr_ctor
  | Reference_init (e : Expr) : Expr_ctor
  | Reference_init_typed (t : Type_) (e : Expr) : Expr_ctor
  | Aggregate_init (t : Type_) (i : List Expr) : Expr_ctor

/-- The member `Expr::ty` after `Expr::Expr()`: `ty(nullptr)`. -/
def Expr_ty_default : Option Type_ := none

/-- The member `Expr::ty` after `Expr::Expr(Type& t)`: `ty(&t)`. -/
def Expr_ty_of (t : Type_) : Option Type_ := some t

/-- The member `Expr::ty` after the constructor call, `none` being the null
pointer.  `Init()` calls `Expr()` and `Init(Type& t)` calls `Expr(t)`;
`Copy_init(Expr&)` and `Direct_init(Expr_list const&)` call `Init()`, their
overloads with a type call `Init(t)`. -/
def Expr_ctor.ty : Expr_ctor → Option Type_
  | .Boolean_expr t _ => Expr_ty_of t
  | .Integer_expr t _ => Expr_ty_of t
  | .Real_expr t _ => Expr_ty_of t
  | .Reference_expr t _ => Expr_ty_of t
  | .Unary_expr _ t _ => Expr_ty_of t
  | .Binary_expr _ t _ _ => Expr_ty_of t
  | .Call_expr t _ _ => Expr_ty_of t
  | .Conv _ t _ => Expr_ty_of t
  | .Equal_init _ => Expr_ty_default
  | .Equal_init_typed t _ => Expr_ty_of t
  | .Paren_init _ => Expr_ty_default
  | .Paren_init_typed t _ => Expr_ty_of t
  | .Brace_init _ => Expr_ty_default
  | .Brace_init_typed t _ => Expr_ty_of t
  | .Structural_init t _ => Expr_ty_of t
  | .Trivial_init => Expr_ty_default
  | .Trivial_init_typed t => Expr_ty_of t
  | .Zero_init t _ => Expr_ty_of t
  | .Constructor_init t _ _ => Expr_ty_of t
  | .Object_init _ => Expr_ty_default
  | .Object_init_typed t _ => Expr_ty_of t
  | .Reference_init _ => Expr_ty_default
  | .Reference_init_typed t _ => Expr_ty_of t
  | .Aggregate_init t _ => Expr_ty_of t

/-- The test `is<Init>(&e)` on the constructed expression: its class derives
from `Init`. -/
def Expr_ctor.is_Init : Expr_ctor → Bool
  | .Boolean_expr _ _ => false
  | .Integer_expr _ _ => false
  | .Real_expr _ _ => false
  | .Reference_expr _ _ => false
  | .Unary_expr _ _ _ => false
  | .Binary_expr _ _ _ _ => false
  | .Call_expr _ _ _ => false
  | .Conv _ _ _ => false
  | _ => true

/-- The `Type&` argument of the constructor call, if the overload has one. -/
def Expr_ctor.type_argument : Expr_ctor → Option Type_
  | .Boolean_expr t _ => some t
  | .Integer_expr t _ => some t
  | .Real_expr t _ => some t
  | .Reference_expr t _ => some t
  | .Unary_expr _ t _ => some t
  | .Binary_expr _ t _ _ => some t
  | .Call_expr t _ _ => some t
  | .Conv _ t _ => some t
  | .Equal_init_typed t _ => some t
  | .Paren_init_typed t _ => some t
  | .Brace_init_typed t _ => some t
  | .Structural_init t _ => some t
  | .Trivial_init_typed t => some t
  | .Zero_init t _ => some t
  | .Constructor_init t _ _ => some t
  | .Object_init_typed t _ => some t
  | .Reference_init_typed t _ => some t
  | .Aggregate_init t _ => some t
  | _ => none

/-! ## Constraints with a parameterized part -/

/-- The constraint is a parameterized constraint or has one among the operands
of its conjunctions and disjunctions. -/
def has_parameterized : Cons → Bool
  | .Concept_cons _ _ => false
  | .Predicate_cons _ => false
  | .Parameterized_cons _ _ => true
  | .Conjunction_cons l r => has_parameterized l || has_parameterized r
  | .Disjunction_cons l r => has_parameterized l || has_parameterized r

/-! ## The invariant of a list of propositions -/

/-- No two elements of the list, at different positions, are structurally
equivalent. -/
def distinct_props (l : List Cons) : Prop :=
  l.Pairwise (fun a b => is_equivalent a b = false)

/-- The invariant of `Prop_list`: no two elements of the sequence are
equivalent, the side table holds exactly the elements of the sequence, each
once, and every element has a hash code (it was looked up in the table when it
was inserted). -/
def Prop_list.wf (ps : Prop_list) : Prop :=
  distinct_props ps.seq ∧ ps.map.Perm ps.seq ∧ ∀ x ∈ ps.seq, hashable x = true

/-- The list of the predicates on the declarations 1 and 2, inserted in this
order. -/
def sample_props : Prop_list :=
  { map := [atom 2, atom 1], seq := [atom 1, atom 2], cur := 0 }

/-- The leaves of a constraint on the left of a sequent, as the specification
describes them: every conjunction is split into its two operands, recursively,
every parameterized constraint is unwrapped, and predicates, concepts and
disjunctions are kept whole. -/
def left_leaves : Cons → List Cons
  | .Conjunction_cons l r => left_leaves l ++ left_leaves r
  | .Parameterized_cons _ c => left_leaves c
  | c => [c]

/-- The leaves of a constraint on the right of a sequent, as the specification
describes them: every disjunction is split into its two operands, recursively,
every parameterized constraint is unwrapped, and predicates, concepts and
conjunctions are kept whole. -/
def right_leaves : Cons → List Cons
  | .Disjunction_cons l r => right_leaves l ++ right_leaves r
  | .Parameterized_cons _ c => right_leaves c
  | c => [c]

/-- The state of a flatten pass over the list `orig`, when the cursor of `as`
is past the elements `pre`: the invariant of the list holds, the elements the
pass has stepped over are flat, the leaves of every element are leaves of an
element of `orig`, and every leaf of an element of `orig` is equivalent to a
leaf of an element. -/
def flatten_inv (flat : Cons → Bool) (leaves : Cons → List Cons) (orig : List Cons)
    (as : Prop_list) (pre : List Cons) : Prop :=
  as.wf ∧ (∀ x ∈ pre, flat x = true) ∧
  (∀ x ∈ as.seq, ∀ y ∈ leaves x, ∃ o ∈ orig, y ∈ leaves o) ∧
  (∀ o ∈ orig, ∀ y ∈ leaves o, ∃ x ∈ as.seq, ∃ z ∈ leaves x, is_equivalent y z = true)

/-- A sequent whose only antecedent is `(P1 ∧ P2) ∧ P1` and whose only
consequent is `P1 ∨ (P2 ∨ P1)`, with `P1` and `P2` the predicates on the
declarations 1 and 2. -/
def sample_sequent : Sequent :=
  { ants := { map := [.Conjunction_cons (.Conjunction_cons (atom 1) (atom 2)) (atom 1)],
              seq := [.Conjunction_cons (.Conjunction_cons (atom 1) (atom 2)) (atom 1)],
              cur := 0 },
    cons := { map := [.Disjunction_cons (atom 1) (.Disjunction_cons (atom 2) (atom 1))],
              seq := [.Disjunction_cons (atom 1) (.Disjunction_cons (atom 2) (atom 1))],
              cur := 0 } }

/-! ## Observers of the proof state -/

/-- The test `is<Concept_cons>(c)`. -/
def is_Concept_cons : Cons → Bool
  | .Concept_cons _ _ => true
  | _ => false

/-- The test `is<Disjunction_cons>(c)`. -/
def is_Disjunction_cons : Cons → Bool
  | .Disjunction_cons _ _ => true
  | _ => false

/-- The invariant of a sequent: both lists satisfy the invariant of
`Prop_list` and neither is empty (the constructor inserts one antecedent and
one consequent). -/
def Sequent.wf (s : Sequent) : Prop :=
  s.ants.wf ∧ s.cons.wf ∧ s.ants.seq ≠ [] ∧ s.cons.seq ≠ []

/-- The sequent `P ⊢ Q` on the predicates on the declarations `p` and `q`, as
the constructor of `Sequent` builds it. -/
def atom_goal (p q : Decl) : Sequent :=
  { ants := { map := [atom p], seq := [atom p], cur := 0 },
    cons := { map := [atom q], seq := [atom q], cur := 0 } }

/-- The goal `s1` is the goal of the proof after the flatten pass of one of the
first `k` rounds of the loop of `subsumes` from the goals `goals`, every
earlier round having ended with an incomplete validation and an expansion. -/
def flattened_goal (cxt : Context) : Nat → Goal_list → Sequent → Prop
  | 0, _, _ => False
  | k + 1, goals, s1 =>
    match flatten goals with
    | .error _ => False
    | .ok goals1 =>
      goals1 = [s1] ∨
      match validate_proof goals1 with
      | .ok (.incomplete_proof, goals2) =>
        match expand cxt goals2 with
        | .error _ => False
        | .ok goals3 => flattened_goal cxt k goals3 s1
      | _ => False

/-- The sequent is flattened: `flatten_left` steps over every antecedent,
`flatten_right` over every consequent, and both cursors are at the end of
their list, where a flatten pass leaves them. -/
def Sequent.flat (s : Sequent) : Prop :=
  (∀ x ∈ s.ants.seq, left_flat x = true) ∧ (∀ x ∈ s.cons.seq, right_flat x = true) ∧
  s.ants.cur = s.ants.seq.length ∧ s.cons.cur = s.cons.seq.length

/-- The loop `while (v == incomplete_proof)` of `subsumes` with the variable `v`
its condition reads.  The body declares a variable `Validation v` of its own for
the result of `validate_proof` and never assigns the one of the condition, so
the loop goes on with the same `v`.  The second component of the result tells
where the value was returned: `true` for a `return` of the body, `false` for the
`return false` after the loop.  `k` is the number of rounds left before `n`
exceeds the implementation limit. -/
def subsumes_while (cxt : Context) (v : Validation) : Nat → Goal_list → Except Fatal (Bool × Bool)
  | 0, _ => .error .unimplemented
  | k + 1, goals =>
    match v with
    | .incomplete_proof =>
      match flatten goals with
      | .error e => .error e
      | .ok goals1 =>
        match validate_proof goals1 with
        | .error e => .error e
        | .ok (.valid_proof, _) => .ok (true, true)
        | .ok (.invalid_proof, _) => .ok (false, true)
        | .ok (.incomplete_proof, goals2) =>
          match expand cxt goals2 with
          | .error e => .error e
          | .ok goals3 => subsumes_while cxt v k goals3
    | _ => .ok (false, false)

/-- A goal with the concept `D<int>` of the sample context on the left and the
conjunction `P1 ∧ P2` on the right. -/
def concept_goal : Sequent :=
  { ants := { map := [.Concept_cons 100 [.type int_type]],
              seq := [.Concept_cons 100 [.type int_type]], cur := 0 },
    cons := { map := [.Conjunction_cons (atom 1) (atom 2)],
              seq := [.Conjunction_cons (atom 1) (atom 2)], cur := 0 } }

/-! ## Observers of the flatten passes -/

/-- The leaves of the propositions of a list, in the order of the list. -/
def leaves_of (leaves : Cons → List Cons) : List Cons → List Cons
  | [] => []
  | c :: cs => leaves c ++ leaves_of leaves cs

/-! ## Declarations, expressions and terms as objects

The substitution into a declaration, an expression or a term reads and writes
the type objects of the arena: `get_qualified_type` adds the qualifiers in
place to a qualified type it is given, so that a type object that two terms
share changes for both.  The definitions of this section are the functions of
`substitution.cpp` on terms whose types are type objects.  An expression
object and a declaration object are not written to after their creation; an
expression is given by its class and fields, and a declaration by its position
in the list of the declarations that exist. -/

/-- A declaration object (`ast.hpp`): a variable and an object parameter carry
a name and a declared type, which is a type object; of the declarations of the
other classes the substitution reads the class only. -/
inductive Decl_node where
  | Variable_decl (first : Name) (ty : Type_ref) : Decl_node
  | Object_parm (first : Name) (ty : Type_ref) : Decl_node
  | other (cls : Decl_class) (first : Name) : Decl_node

/-- The dynamic class of a declaration object. -/
def Decl_node.cls : Decl_node → Decl_class
  | .Variable_decl _ _ => .Variable_decl
  | .Object_parm _ _ => .Object_parm
  | .other c _ => c

/-- The function `Decl::name`. -/
def Decl_node.name : Decl_node → Name
  | .Variable_decl n _ => n
  | .Object_parm n _ => n
  | .other _ n => n

/-- The function `Object_decl::type`, on the classes the substitution
rebuilds. -/
def Decl_node.type : Decl_node → Option Type_ref
  | .Variable_decl _ t => some t
  | .Object_parm _ t => some t
  | .other _ _ => none

/-- The objects that exist: the type objects of the arena and the declaration
objects, each in the order of their creation. -/
structure Store where
  types : Arena
  decls : List Decl_node

/-- Modelled from the spec: `Builder::make<T>` for a declaration class `T`, on
the store; section 4.C: the builder allocates a declaration unconditionally. -/
def Builder.make_decl_node (st : Store) (o : Decl_node) : Decl × Store :=
  (st.decls.length, { st with decls := st.decls ++ [o] })

/-- The function `substitute(Context&, Decl&, Substitution&)` with the
`substitute_decl` overloads, on the store: a variable and an object parameter
are rebuilt by `make_variable` and `make_object_parm` from the name and the
type object that the substitution into the declared type returns; every other
class selects the `Decl&` overload, which is `lingo_unimplemented()`. -/
def substitute_decl_obj (sub : Substitution_obj) (fuel : Nat) (st : Store) (d : Decl) :
    Except Fatal (Decl × Store) :=
  match st.decls.get? d with
  | none => .error .undefined
  | some (.Variable_decl n t) =>
      match substitute_obj sub fuel st.types t with
      | .error e => .error e
      | .ok (t1, ar1) =>
        .ok (Builder.make_decl_node { st with types := ar1 } (.Variable_decl n t1))
  | some (.Object_parm n t) =>
      match substitute_obj sub fuel st.types t with
      | .error e => .error e
      | .ok (t1, ar1) =>
        .ok (Builder.make_decl_node { st with types := ar1 } (.Object_parm n t1))
  | some (.other _ _) => .error .unimplemented

mutual
/-- An expression whose types are type objects: the classes of `Expr` with the
fields of the constructors of `ast.hpp`, the type of the expression being the
identity of a type object. -/
inductive Expr_obj where
  | Boolean_expr (ty : Type_ref) (value : Bool) : Expr_obj
  | Integer_expr (ty : Type_ref) (value : Int) : Expr_obj
  | Reference_expr (ty : Type_ref) (decl : Decl) : Expr_obj
  | Unary_expr (op : Unary_op) (ty : Type_ref) (first : Expr_obj) : Expr_obj
  | Binary_expr (op : Binary_op) (ty : Type_ref) (first : Expr_obj) (second : Expr_obj) : Expr_obj
  | Call_expr (ty : Type_ref) (fn : Expr_obj) (args : List Expr_obj) : Expr_obj
  | Conv (kind : Conv_kind) (ty : Type_ref) (expr : Expr_obj) : Expr_obj
  | Check_expr (ty : Type_ref) (decl : Decl) (args : List Term_obj) : Expr_obj
  | Requires_expr (ty : Type_ref) (parms : List Decl) (body : Expr_obj) : Expr_obj
  | Synthetic_expr (ty : Type_ref) (decl : Decl) : Expr_obj
/-- The elements of a `Term_list`: a type object, an expression or a
declaration object, the three sorts `substitute(Context&, Term&,
Substitution&)` tells apart. -/
inductive Term_obj where
  | type (t : Type_ref) : Term_obj
  | expr (e : Expr_obj) : Term_obj
  | decl (d : Decl) : Term_obj
end

/-- The function `Builder::make_check`: a check expression of the type object
`get_bool_type()` returns. -/
def Builder.make_check (st : Store) (d : Decl) (as : List Term_obj) : Expr_obj × Store :=
  (.Check_expr (Builder.get_bool_type st.types).1 d as,
    { st with types := (Builder.get_bool_type st.types).2 })

mutual
/-- The function `substitute(Context&, Expr&, Substitution&)` with the
`subst_` functions it dispatches to, on the store.  The builder calls are
`make_check`, `make_call` with the type object of `get_void_type()`, and
`make_and`, `make_or` and `make_not` with the type object of the original. -/
def substitute_expr_obj (sub : Substitution_obj) (fuel : Nat) :
    Expr_obj → Store → Except Fatal (Expr_obj × Store)
  | .Boolean_expr ty v, st => .ok (.Boolean_expr ty v, st)
  | .Integer_expr ty v, st => .ok (.Integer_expr ty v, st)
  | .Reference_expr ty d, st => .ok (.Reference_expr ty d, st)
  | .Unary_expr op ty a, st =>
      match op with
      | .Not_expr =>
        match substitute_expr_obj sub fuel a st with
        | .error e => .error e
        | .ok (a1, st1) => .ok (.Unary_expr .Not_expr ty a1, st1)
      | _ => .error .unimplemented
  | .Binary_expr op ty a b, st =>
      match op with
      | .And_expr =>
        match substitute_expr_obj sub fuel a st with
        | .error e => .error e
        | .ok (a1, st1) =>
          match substitute_expr_obj sub fuel b st1 with
          | .error e => .error e
          | .ok (b1, st2) => .ok (.Binary_expr .And_expr ty a1 b1, st2)
      | .Or_expr =>
        match substitute_expr_obj sub fuel a st with
        | .error e => .error e
        | .ok (a1, st1) =>
          match substitute_expr_obj sub fuel b st1 with
          | .error e => .error e
          | .ok (b1, st2) => .ok (.Binary_expr .Or_expr ty a1 b1, st2)
      | _ => .error .unimplemented
  | .Call_expr _ f as, st =>
      match substitute_expr_obj sub fuel f st with
      | .error e => .error e
      | .ok (f1, st1) =>
        match substitute_expr_list_obj sub fuel as st1 with
        | .error e => .error e
        | .ok (as1, st2) =>
          .ok (.Call_expr (Builder.get_void_type st2.types).1 f1 as1,
            { st2 with types := (Builder.get_void_type st2.types).2 })
  | .Conv _ _ _, _ => .error .unimplemented
  | .Check_expr _ d as, st =>
      match substitute_term_list_obj sub fuel as st with
      | .error e => .error e
      | .ok (as1, st1) => .ok (Builder.make_check st1 d as1)
  | .Requires_expr _ _ _, _ => .error .unimplemented
  | .Synthetic_expr _ _, _ => .error .unimplemented
termination_by structural x => x
/-- The function `substitute(Context&, List<T>&, Substitution&)` on a list of
expressions, on the store: the elements in their order, each on the store the
one before left. -/
def substitute_expr_list_obj (sub : Substitution_obj) (fuel : Nat) :
    List Expr_obj → Store → Except Fatal (List Expr_obj × Store)
  | [], st => .ok ([], st)
  | a :: as, st =>
      match substitute_expr_obj sub fuel a st with
      | .error e => .error e
      | .ok (a1, st1) =>
        match substitute_expr_list_obj sub fuel as st1 with
        | .error e => .error e
        | .ok (as1, st2) => .ok (a1 :: as1, st2)
termination_by structural x => x
/-- The function `substitute(Context&, Term&, Substitution&)`, on the store: by
the sort of the term. -/
def substitute_term_obj (sub : Substitution_obj) (fuel : Nat) :
    Term_obj → Store → Except Fatal (Term_obj × Store)
  | .type t, st =>
      match substitute_obj sub fuel st.types t with
      | .error e => .error e
      | .ok (t1, ar1) => .ok (.type t1, { st with types := ar1 })
  | .expr a, st =>
      match substitute_expr_obj sub fuel a st with
      | .error e => .error e
      | .ok (a1, st1) => .ok (.expr a1, st1)
  | .decl d, st =>
      match substitute_decl_obj sub fuel st d with
      | .error e => .error e
      | .ok (d1, st1) => .ok (.decl d1, st1)
termination_by structural x => x
/-- The function `substitute(Context&, List<T>&, Substitution&)` on a list of
terms, on the store: the elements in their order, each on the store the one
before left. -/
def substitute_term_list_obj (sub : Substitution_obj) (fuel : Nat) :
    List Term_obj → Store → Except Fatal (List Term_obj × Store)
  | [], st => .ok ([], st)
  | a :: as, st =>
      match substitute_term_obj sub fuel a st with
      | .error e => .error e
      | .ok (a1, st1) =>
        match substitute_term_list_obj sub fuel as st1 with
        | .error e => .error e
        | .ok (as1, st2) => .ok (a1 :: as1, st2)
termination_by structural x => x
end

/-- The terms of the list `as1` are the results of the substitution into the
terms of `as`, element by element in the same order, each on the store the
substitution into the one before left, from `st` to `st1`. -/
inductive Substituted_terms (sub : Substitution_obj) (fuel : Nat) :
    Store → List Term_obj → List Term_obj → Store → Prop where
  | nil (st : Store) : Substituted_terms sub fuel st [] [] st
  | cons (st st1 st2 : Store) (a a1 : Term_obj) (as as1 : List Term_obj) :
      substitute_term_obj sub fuel a st = .ok (a1, st1) →
      Substituted_terms sub fuel st1 as as1 st2 →
      Substituted_terms sub fuel st (a :: as) (a1 :: as1) st2

/-- The store `st1` holds every object of `st`: the declarations unchanged and
the types with their class and fields, but for the qualifier set of a
qualified type, which may have grown. -/
def Store.kept (st st1 : Store) : Prop :=
  st.types.kept st1.types ∧ ∀ i y, st.decls.get? i = some y → st1.decls.get? i = some y

/-- No type the substitution maps a parameter to is a qualified type. -/
def Substitution_obj.unqualified (sub : Substitution_obj) (ar : Arena) : Prop :=
  ∀ d a ty q, sub.get_mapping d = some (some a) → ar.get? a ≠ some (.Qualified_type ty q)

/-- The store is in order for the substitution `sub` into terms over the
declarations `ds`: every type object refers to objects created before it,
every type `sub` maps to is an object of the arena, and the declarations `ds`
are declarations of the store. -/
def Store.sound (st : Store) (sub : Substitution_obj) (ds : List Decl_node) : Prop :=
  st.types.ordered ∧ sub.within st.types ∧
  ∀ i y, ds.get? i = some y → st.decls.get? i = some y

/-- An arena on which the substitution writes to no existing object: no
qualified type wraps a qualified type, and every type the substitution maps to
is an object of the arena that is not a qualified type, so that
`get_qualified_type` is never given a qualified type. -/
def Arena.settled (ar : Arena) (sub : Substitution_obj) : Prop :=
  ar.no_nested_qualified ∧ sub.within ar ∧ sub.unqualified ar

mutual
/-- Every type object and declaration that the substitution into the
expression reads is below the bound: the type terms and, of the declaration
terms, which are among the declarations `ds`, the declared types. -/
def Expr_obj.bounded (n : Nat) (ds : List Decl_node) : Expr_obj → Bool
  | .Boolean_expr _ _ => true
  | .Integer_expr _ _ => true
  | .Reference_expr _ _ => true
  | .Unary_expr _ _ a => Expr_obj.bounded n ds a
  | .Binary_expr _ _ a b => Expr_obj.bounded n ds a && Expr_obj.bounded n ds b
  | .Call_expr _ f as => Expr_obj.bounded n ds f && Expr_obj.bounded_list n ds as
  | .Conv _ _ a => Expr_obj.bounded n ds a
  | .Check_expr _ _ as => Term_obj.bounded_list n ds as
  | .Requires_expr _ _ b => Expr_obj.bounded n ds b
  | .Synthetic_expr _ _ => true
termination_by structural x => x
/-- Every expression of the list is bounded. -/
def Expr_obj.bounded_list (n : Nat) (ds : List Decl_node) : List Expr_obj → Bool
  | [] => true
  | a :: as => Expr_obj.bounded n ds a && Expr_obj.bounded_list n ds as
termination_by structural x => x
/-- The type object of a type term and the declared type of a declaration
term are below the bound. -/
def Term_obj.bounded (n : Nat) (ds : List Decl_node) : Term_obj → Bool
  | .type t => decide (t < n)
  | .expr e => Expr_obj.bounded n ds e
  | .decl d =>
      match ds.get? d with
      | none => false
      | some x =>
        match x.type with
        | none => true
        | some t => decide (t < n)
termination_by structural x => x
/-- Every term of the list is bounded. -/
def Term_obj.bounded_list (n : Nat) (ds : List Decl_node) : List Term_obj → Bool
  | [] => true
  | a :: as => Term_obj.bounded n ds a && Term_obj.bounded_list n ds as
termination_by structural x => x
end

/-- The store of the scenario S3: the types `int`, `T`, with `T` the
declaration 0, and `ptr(T)`; the declarations `T`, `v1 : T` and
`v2 : ptr(T)`. -/
def sample_objects : Store :=
  { types := [.Integer_type true 32, .Typename_type 0, .Pointer_type 1],
    decls := [.other .Type_parm (.Simple_id 0), .Variable_decl (.Simple_id 1) 1,
              .Variable_decl (.Simple_id 2) 2] }

/-- The arena of the examples with the type `fn(volatile T) -> T`, and the
variable `f` of that type. -/
def shared_objects : Store :=
  { types := sample_arena ++ [.Function_type [3] 2],
    decls := [.Variable_decl (.Simple_id 9) 4] }

/-- A context with three concepts: declaration 101 is `E<> = P`, with `P` the
reference to the declaration 1, declaration 102 is `F<> = E<>`, and
declaration 103 is `G<> = E<int*>`. -/
def alias_context : Context :=
  { concepts := fun d =>
      if d = 101 then
        some { parameters := [], definition := .Reference_expr bool_type 1 }
      else if d = 102 then
        some { parameters := [], definition := .Check_expr bool_type 101 [] }
      else if d = 103 then
        some { parameters := [],
               definition := .Check_expr bool_type 101 [.type (.Pointer_type int_type)] }
      else none }

/-- The expressions that the first four rules of section 4.E rewrite: a
logical and, a logical or, a concept check and a requires-expression. -/
def is_connective : Expr → Bool
  | .Binary_expr .And_expr _ _ _ => true
  | .Binary_expr .Or_expr _ _ _ => true
  | .Check_expr _ _ _ => true
  | .Requires_expr _ _ _ => true
  | _ => false

/-- The invariant of section 3 on a normalized constraint: no predicate leaf
carries an expression that the first four rules of section 4.E rewrite. -/
def normal : Cons → Bool
  | .Concept_cons _ _ => true
  | .Predicate_cons e => !is_connective e
  | .Parameterized_cons _ c => normal c
  | .Conjunction_cons l r => normal l && normal r
  | .Disjunction_cons l r => normal l && normal r

mutual
theorem is_equivalent_type_refl : ∀ t : Type_, is_equivalent_type t t = true
  | .Void_type => by simp [is_equivalent_type]
  | .Boolean_type => by simp [is_equivalent_type]
  | .Integer_type _ _ => by simp [is_equivalent_type]
  | .Float_type _ => by simp [is_equivalent_type]
  | .Auto_type => by simp [is_equivalent_type]
  | .Decltype_type => by simp [is_equivalent_type]
  | .Declauto_type => by simp [is_equivalent_type]
  | .Function_type ps r => by
      simp [is_equivalent_type, is_equivalent_type_list_refl ps, is_equivalent_type_refl r]
  | .Qualified_type t _ => by simp [is_equivalent_type, is_equivalent_type_refl t]
  | .Pointer_type t => by simp [is_equivalent_type, is_equivalent_type_refl t]
  | .Reference_type t => by simp [is_equivalent_type, is_equivalent_type_refl t]
  | .Array_type t e => by
      simp [is_equivalent_type, is_equivalent_type_refl t, is_equivalent_expr_refl e]
  | .Sequence_type t => by simp [is_equivalent_type, is_equivalent_type_refl t]
  | .Class_type _ => by simp [is_equivalent_type]
  | .Union_type _ => by simp [is_equivalent_type]
  | .Enum_type _ => by simp [is_equivalent_type]
  | .Typename_type _ => by simp [is_equivalent_type]
  | .Synthetic_type _ => by simp [is_equivalent_type]
termination_by structural x => x
theorem is_equivalent_type_list_refl : ∀ ts : List Type_, is_equivalent_type_list ts ts = true
  | [] => by simp [is_equivalent_type_list]
  | t :: ts => by
      simp [is_equivalent_type_list, is_equivalent_type_refl t, is_equivalent_type_list_refl ts]
termination_by structural x => x
theorem is_equivalent_expr_refl : ∀ e : Expr, is_equivalent_expr e e = true
  | .Boolean_expr _ _ => by simp [is_equivalent_expr]
  | .Integer_expr _ _ => by simp [is_equivalent_expr]
  | .Reference_expr _ _ => by simp [is_equivalent_expr]
  | .Unary_expr _ _ a => by simp [is_equivalent_expr, is_equivalent_expr_refl a]
  | .Binary_expr _ _ a b => by
      simp [is_equivalent_expr, is_equivalent_expr_refl a, is_equivalent_expr_refl b]
  | .Call_expr _ f as => by
      simp [is_equivalent_expr, is_equivalent_expr_refl f, is_equivalent_expr_list_refl as]
  | .Conv _ _ a => by simp [is_equivalent_expr, is_equivalent_expr_refl a]
  | .Check_expr _ _ as => by simp [is_equivalent_expr, is_equivalent_term_list_refl as]
  | .Requires_expr _ _ b => by simp [is_equivalent_expr, is_equivalent_expr_refl b]
  | .Synthetic_expr _ _ => by simp [is_equivalent_expr]
termination_by structural x => x
theorem is_equivalent_expr_list_refl : ∀ es : List Expr, is_equivalent_expr_list es es = true
  | [] => by simp [is_equivalent_expr_list]
  | e :: es => by
      simp [is_equivalent_expr_list, is_equivalent_expr_refl e, is_equivalent_expr_list_refl es]
termination_by structural x => x
theorem is_equivalent_term_refl : ∀ t : Term, is_equivalent_term t t = true
  | .type t => by simp [is_equivalent_term, is_equivalent_type_refl t]
  | .expr e => by simp [is_equivalent_term, is_equivalent_expr_refl e]
termination_by structural x => x
theorem is_equivalent_term_list_refl : ∀ ts : List Term, is_equivalent_term_list ts ts = true
  | [] => by simp [is_equivalent_term_list]
  | t :: ts => by
      simp [is_equivalent_term_list, is_equivalent_term_refl t, is_equivalent_term_list_refl ts]
termination_by structural x => x
end

theorem is_equivalent_refl (c : Cons) : is_equivalent c c = true := by
  induction c with
  | Concept_cons d as => simp [is_equivalent, is_equivalent_term_list_refl]
  | Predicate_cons e => simp [is_equivalent, is_equivalent_expr_refl]
  | Parameterized_cons ps c ih => simp [is_equivalent, ih]
  | Conjunction_cons l r ihl ihr => simp [is_equivalent, ihl, ihr]
  | Disjunction_cons l r ihl ihr => simp [is_equivalent, ihl, ihr]

mutual
theorem is_equivalent_type_symm : ∀ a b : Type_, is_equivalent_type a b = is_equivalent_type b a
  | .Void_type, b => by cases b <;> simp [is_equivalent_type]
  | .Boolean_type, b => by cases b <;> simp [is_equivalent_type]
  | .Integer_type s p, b => by
      cases b with
      | Integer_type s2 p2 =>
        simp only [is_equivalent_type]
        rw [Bool.beq_comm (a := s), Bool.beq_comm (a := p)]
      | _ => simp [is_equivalent_type]
  | .Float_type _, b => by cases b <;> simp [is_equivalent_type, eq_comm]
  | .Auto_type, b => by cases b <;> simp [is_equivalent_type]
  | .Decltype_type, b => by cases b <;> simp [is_equivalent_type]
  | .Declauto_type, b => by cases b <;> simp [is_equivalent_type]
  | .Function_type ps r, b => by
      cases b with
      | Function_type ps2 r2 =>
        simp only [is_equivalent_type]
        rw [is_equivalent_type_list_symm ps ps2, is_equivalent_type_symm r r2]
      | _ => simp [is_equivalent_type]
  | .Qualified_type t q, b => by
      cases b with
      | Qualified_type t2 q2 =>
        simp only [is_equivalent_type]
        rw [is_equivalent_type_symm t t2, Bool.beq_comm]
      | _ => simp [is_equivalent_type]
  | .Pointer_type t, b => by
      cases b with
      | Pointer_type t2 => simp only [is_equivalent_type]; rw [is_equivalent_type_symm t t2]
      | _ => simp [is_equivalent_type]
  | .Reference_type t, b => by
      cases b with
      | Reference_type t2 => simp only [is_equivalent_type]; rw [is_equivalent_type_symm t t2]
      | _ => simp [is_equivalent_type]
  | .Array_type t e, b => by
      cases b with
      | Array_type t2 e2 =>
        simp only [is_equivalent_type]
        rw [is_equivalent_type_symm t t2, is_equivalent_expr_symm e e2]
      | _ => simp [is_equivalent_type]
  | .Sequence_type t, b => by
      cases b with
      | Sequence_type t2 => simp only [is_equivalent_type]; rw [is_equivalent_type_symm t t2]
      | _ => simp [is_equivalent_type]
  | .Class_type _, b => by cases b <;> simp [is_equivalent_type, eq_comm]
  | .Union_type _, b => by cases b <;> simp [is_equivalent_type, eq_comm]
  | .Enum_type _, b => by cases b <;> simp [is_equivalent_type, eq_comm]
  | .Typename_type _, b => by cases b <;> simp [is_equivalent_type, eq_comm]
  | .Synthetic_type _, b => by cases b <;> simp [is_equivalent_type, eq_comm]
termination_by structural x => x
theorem is_equivalent_type_list_symm :
    ∀ a b : List Type_, is_equivalent_type_list a b = is_equivalent_type_list b a
  | [], b => by cases b <;> simp [is_equivalent_type_list]
  | x :: xs, b => by
      cases b with
      | nil => simp [is_equivalent_type_list]
      | cons y ys =>
        simp only [is_equivalent_type_list]
        rw [is_equivalent_type_symm x y, is_equivalent_type_list_symm xs ys]
termination_by structural x => x
theorem is_equivalent_expr_symm : ∀ a b : Expr, is_equivalent_expr a b = is_equivalent_expr b a
  | .Boolean_expr _ _, b => by cases b <;> simp [is_equivalent_expr, eq_comm]
  | .Integer_expr _ _, b => by cases b <;> simp [is_equivalent_expr, eq_comm]
  | .Reference_expr _ _, b => by cases b <;> simp [is_equivalent_expr, eq_comm]
  | .Unary_expr o _ x, b => by
      cases b with
      | Unary_expr o2 _ x2 =>
        simp only [is_equivalent_expr]
        rw [is_equivalent_expr_symm x x2, Bool.beq_comm]
      | _ => simp [is_equivalent_expr]
  | .Binary_expr o _ x y, b => by
      cases b with
      | Binary_expr o2 _ x2 y2 =>
        simp only [is_equivalent_expr]
        rw [is_equivalent_expr_symm x x2, is_equivalent_expr_symm y y2, Bool.beq_comm]
      | _ => simp [is_equivalent_expr]
  | .Call_expr _ f as, b => by
      cases b with
      | Call_expr _ f2 as2 =>
        simp only [is_equivalent_expr]
        rw [is_equivalent_expr_symm f f2, is_equivalent_expr_list_symm as as2]
      | _ => simp [is_equivalent_expr]
  | .Conv k _ x, b => by
      cases b with
      | Conv k2 _ x2 =>
        simp only [is_equivalent_expr]
        rw [is_equivalent_expr_symm x x2, Bool.beq_comm]
      | _ => simp [is_equivalent_expr]
  | .Check_expr _ d as, b => by
      cases b with
      | Check_expr _ d2 as2 =>
        simp only [is_equivalent_expr]
        rw [is_equivalent_term_list_symm as as2, Bool.beq_comm]
      | _ => simp [is_equivalent_expr]
  | .Requires_expr _ ps x, b => by
      cases b with
      | Requires_expr _ ps2 x2 =>
        simp only [is_equivalent_expr]
        rw [is_equivalent_expr_symm x x2, Bool.beq_comm]
      | _ => simp [is_equivalent_expr]
  | .Synthetic_expr _ _, b => by cases b <;> simp [is_equivalent_expr, eq_comm]
termination_by structural x => x
theorem is_equivalent_expr_list_symm :
    ∀ a b : List Expr, is_equivalent_expr_list a b = is_equivalent_expr_list b a
  | [], b => by cases b <;> simp [is_equivalent_expr_list]
  | x :: xs, b => by
      cases b with
      | nil => simp [is_equivalent_expr_list]
      | cons y ys =>
        simp only [is_equivalent_expr_list]
        rw [is_equivalent_expr_symm x y, is_equivalent_expr_list_symm xs ys]
termination_by structural x => x
theorem is_equivalent_term_symm : ∀ a b : Term, is_equivalent_term a b = is_equivalent_term b a
  | .type x, b => by
      cases b with
      | type y => simp only [is_equivalent_term]; rw [is_equivalent_type_symm x y]
      | expr _ => simp [is_equivalent_term]
  | .expr x, b => by
      cases b with
      | type _ => simp [is_equivalent_term]
      | expr y => simp only [is_equivalent_term]; rw [is_equivalent_expr_symm x y]
termination_by structural x => x
theorem is_equivalent_term_list_symm :
    ∀ a b : List Term, is_equivalent_term_list a b = is_equivalent_term_list b a
  | [], b => by cases b <;> simp [is_equivalent_term_list]
  | x :: xs, b => by
      cases b with
      | nil => simp [is_equivalent_term_list]
      | cons y ys =>
        simp only [is_equivalent_term_list]
        rw [is_equivalent_term_symm x y, is_equivalent_term_list_symm xs ys]
termination_by structural x => x
end

theorem is_equivalent_symm (a b : Cons) : is_equivalent a b = is_equivalent b a := by
  induction a generalizing b with
  | Concept_cons d as =>
    cases b with
    | Concept_cons d2 as2 =>
      simp only [is_equivalent]; rw [is_equivalent_term_list_symm as as2, Bool.beq_comm]
    | _ => simp [is_equivalent]
  | Predicate_cons e =>
    cases b with
    | Predicate_cons e2 => simp only [is_equivalent]; rw [is_equivalent_expr_symm e e2]
    | _ => simp [is_equivalent]
  | Parameterized_cons ps c ih =>
    cases b with
    | Parameterized_cons ps2 c2 => simp only [is_equivalent]; rw [ih c2, Bool.beq_comm]
    | _ => simp [is_equivalent]
  | Conjunction_cons l r ihl ihr =>
    cases b with
    | Conjunction_cons l2 r2 => simp only [is_equivalent]; rw [ihl l2, ihr r2]
    | _ => simp [is_equivalent]
  | Disjunction_cons l r ihl ihr =>
    cases b with
    | Disjunction_cons l2 r2 => simp only [is_equivalent]; rw [ihl l2, ihr r2]
    | _ => simp [is_equivalent]

mutual
theorem is_equivalent_type_trans : ∀ a b c : Type_,
    is_equivalent_type a b = true → is_equivalent_type b c = true →
    is_equivalent_type a c = true
  | .Void_type, b, c, h1, h2 => by
      cases b <;> simp [is_equivalent_type] at h1 <;> cases c <;> simp_all [is_equivalent_type]
  | .Boolean_type, b, c, h1, h2 => by
      cases b <;> simp [is_equivalent_type] at h1 <;> cases c <;> simp_all [is_equivalent_type]
  | .Integer_type _ _, b, c, h1, h2 => by
      cases b <;> simp [is_equivalent_type] at h1 <;> cases c <;> simp_all [is_equivalent_type]
  | .Float_type _, b, c, h1, h2 => by
      cases b <;> simp [is_equivalent_type] at h1 <;> cases c <;> simp_all [is_equivalent_type]
  | .Auto_type, b, c, h1, h2 => by
      cases b <;> simp [is_equivalent_type] at h1 <;> cases c <;> simp_all [is_equivalent_type]
  | .Decltype_type, b, c, h1, h2 => by
      cases b <;> simp [is_equivalent_type] at h1 <;> cases c <;> simp_all [is_equivalent_type]
  | .Declauto_type, b, c, h1, h2 => by
      cases b <;> simp [is_equivalent_type] at h1 <;> cases c <;> simp_all [is_equivalent_type]
  | .Function_type ps r, b, c, h1, h2 => by
      cases b with
      | Function_type ps2 r2 =>
        cases c with
        | Function_type ps3 r3 =>
          simp only [is_equivalent_type, Bool.and_eq_true] at h1 h2 ⊢
          exact ⟨is_equivalent_type_list_trans ps ps2 ps3 h1.1 h2.1,
            is_equivalent_type_trans r r2 r3 h1.2 h2.2⟩
        | _ => simp [is_equivalent_type] at h2
      | _ => simp [is_equivalent_type] at h1
  | .Qualified_type t q, b, c, h1, h2 => by
      cases b with
      | Qualified_type t2 q2 =>
        cases c with
        | Qualified_type t3 q3 =>
          simp only [is_equivalent_type, Bool.and_eq_true, beq_iff_eq] at h1 h2 ⊢
          exact ⟨h1.1.trans h2.1, is_equivalent_type_trans t t2 t3 h1.2 h2.2⟩
        | _ => simp [is_equivalent_type] at h2
      | _ => simp [is_equivalent_type] at h1
  | .Pointer_type t, b, c, h1, h2 => by
      cases b with
      | Pointer_type t2 =>
        cases c with
        | Pointer_type t3 =>
          simp only [is_equivalent_type] at h1 h2 ⊢
          exact is_equivalent_type_trans t t2 t3 h1 h2
        | _ => simp [is_equivalent_type] at h2
      | _ => simp [is_equivalent_type] at h1
  | .Reference_type t, b, c, h1, h2 => by
      cases b with
      | Reference_type t2 =>
        cases c with
        | Reference_type t3 =>
          simp only [is_equivalent_type] at h1 h2 ⊢
          exact is_equivalent_type_trans t t2 t3 h1 h2
        | _ => simp [is_equivalent_type] at h2
      | _ => simp [is_equivalent_type] at h1
  | .Array_type t e, b, c, h1, h2 => by
      cases b with
      | Array_type t2 e2 =>
        cases c with
        | Array_type t3 e3 =>
          simp only [is_equivalent_type, Bool.and_eq_true] at h1 h2 ⊢
          exact ⟨is_equivalent_type_trans t t2 t3 h1.1 h2.1,
            is_equivalent_expr_trans e e2 e3 h1.2 h2.2⟩
        | _ => simp [is_equivalent_type] at h2
      | _ => simp [is_equivalent_type] at h1
  | .Sequence_type t, b, c, h1, h2 => by
      cases b with
      | Sequence_type t2 =>
        cases c with
        | Sequence_type t3 =>
          simp only [is_equivalent_type] at h1 h2 ⊢
          exact is_equivalent_type_trans t t2 t3 h1 h2
        | _ => simp [is_equivalent_type] at h2
      | _ => simp [is_equivalent_type] at h1
  | .Class_type _, b, c, h1, h2 => by
      cases b <;> simp [is_equivalent_type] at h1 <;> cases c <;> simp_all [is_equivalent_type]
  | .Union_type _, b, c, h1, h2 => by
      cases b <;> simp [is_equivalent_type] at h1 <;> cases c <;> simp_all [is_equivalent_type]
  | .Enum_type _, b, c, h1, h2 => by
      cases b <;> simp [is_equivalent_type] at h1 <;> cases c <;> simp_all [is_equivalent_type]
  | .Typename_type _, b, c, h1, h2 => by
      cases b <;> simp [is_equivalent_type] at h1 <;> cases c <;> simp_all [is_equivalent_type]
  | .Synthetic_type _, b, c, h1, h2 => by
      cases b <;> simp [is_equivalent_type] at h1 <;> cases c <;> simp_all [is_equivalent_type]
termination_by structural x => x
theorem is_equivalent_type_list_trans : ∀ a b c : List Type_,
    is_equivalent_type_list a b = true → is_equivalent_type_list b c = true →
    is_equivalent_type_list a c = true
  | [], b, c, h1, h2 => by
      cases b <;> simp [is_equivalent_type_list] at h1 <;> cases c <;>
        simp_all [is_equivalent_type_list]
  | x :: xs, b, c, h1, h2 => by
      cases b with
      | nil => simp [is_equivalent_type_list] at h1
      | cons y ys =>
        cases c with
        | nil => simp [is_equivalent_type_list] at h2
        | cons z zs =>
          simp only [is_equivalent_type_list, Bool.and_eq_true] at h1 h2 ⊢
          exact ⟨is_equivalent_type_trans x y z h1.1 h2.1,
            is_equivalent_type_list_trans xs ys zs h1.2 h2.2⟩
termination_by structural x => x
theorem is_equivalent_expr_trans : ∀ a b c : Expr,
    is_equivalent_expr a b = true → is_equivalent_expr b c = true →
    is_equivalent_expr a c = true
  | .Boolean_expr _ _, b, c, h1, h2 => by
      cases b <;> simp [is_equivalent_expr] at h1 <;> cases c <;> simp_all [is_equivalent_expr]
  | .Integer_expr _ _, b, c, h1, h2 => by
      cases b <;> simp [is_equivalent_expr] at h1 <;> cases c <;> simp_all [is_equivalent_expr]
  | .Reference_expr _ _, b, c, h1, h2 => by
      cases b <;> simp [is_equivalent_expr] at h1 <;> cases c <;> simp_all [is_equivalent_expr]
  | .Unary_expr o _ x, b, c, h1, h2 => by
      cases b with
      | Unary_expr o2 _ x2 =>
        cases c with
        | Unary_expr o3 _ x3 =>
          simp only [is_equivalent_expr, Bool.and_eq_true, beq_iff_eq] at h1 h2 ⊢
          exact ⟨h1.1.trans h2.1, is_equivalent_expr_trans x x2 x3 h1.2 h2.2⟩
        | _ => simp [is_equivalent_expr] at h2
      | _ => simp [is_equivalent_expr] at h1
  | .Binary_expr o _ x y, b, c, h1, h2 => by
      cases b with
      | Binary_expr o2 _ x2 y2 =>
        cases c with
        | Binary_expr o3 _ x3 y3 =>
          simp only [is_equivalent_expr, Bool.and_eq_true, beq_iff_eq] at h1 h2 ⊢
          exact ⟨⟨h1.1.1.trans h2.1.1, is_equivalent_expr_trans x x2 x3 h1.1.2 h2.1.2⟩,
            is_equivalent_expr_trans y y2 y3 h1.2 h2.2⟩
        | _ => simp [is_equivalent_expr] at h2
      | _ => simp [is_equivalent_expr] at h1
  | .Call_expr _ f as, b, c, h1, h2 => by
      cases b with
      | Call_expr _ f2 as2 =>
        cases c with
        | Call_expr _ f3 as3 =>
          simp only [is_equivalent_expr, Bool.and_eq_true] at h1 h2 ⊢
          exact ⟨is_equivalent_expr_trans f f2 f3 h1.1 h2.1,
            is_equivalent_expr_list_trans as as2 as3 h1.2 h2.2⟩
        | _ => simp [is_equivalent_expr] at h2
      | _ => simp [is_equivalent_expr] at h1
  | .Conv k _ x, b, c, h1, h2 => by
      cases b with
      | Conv k2 _ x2 =>
        cases c with
        | Conv k3 _ x3 =>
          simp only [is_equivalent_expr, Bool.and_eq_true, beq_iff_eq] at h1 h2 ⊢
          exact ⟨h1.1.trans h2.1, is_equivalent_expr_trans x x2 x3 h1.2 h2.2⟩
        | _ => simp [is_equivalent_expr] at h2
      | _ => simp [is_equivalent_expr] at h1
  | .Check_expr _ d as, b, c, h1, h2 => by
      cases b with
      | Check_expr _ d2 as2 =>
        cases c with
        | Check_expr _ d3 as3 =>
          simp only [is_equivalent_expr, Bool.and_eq_true, beq_iff_eq] at h1 h2 ⊢
          exact ⟨h1.1.trans h2.1, is_equivalent_term_list_trans as as2 as3 h1.2 h2.2⟩
        | _ => simp [is_equivalent_expr] at h2
      | _ => simp [is_equivalent_expr] at h1
  | .Requires_expr _ ps x, b, c, h1, h2 => by
      cases b with
      | Requires_expr _ ps2 x2 =>
        cases c with
        | Requires_expr _ ps3 x3 =>
          simp only [is_equivalent_expr, Bool.and_eq_true, beq_iff_eq] at h1 h2 ⊢
          exact ⟨h1.1.trans h2.1, is_equivalent_expr_trans x x2 x3 h1.2 h2.2⟩
        | _ => simp [is_equivalent_expr] at h2
      | _ => simp [is_equivalent_expr] at h1
  | .Synthetic_expr _ _, b, c, h1, h2 => by
      cases b <;> simp [is_equivalent_expr] at h1 <;> cases c <;> simp_all [is_equivalent_expr]
termination_by structural x => x
theorem is_equivalent_expr_list_trans : ∀ a b c : List Expr,
    is_equivalent_expr_list a b = true → is_equivalent_expr_list b c = true →
    is_equivalent_expr_list a c = true
  | [], b, c, h1, h2 => by
      cases b <;> simp [is_equivalent_expr_list] at h1 <;> cases c <;>
        simp_all [is_equivalent_expr_list]
  | x :: xs, b, c, h1, h2 => by
      cases b with
      | nil => simp [is_equivalent_expr_list] at h1
      | cons y ys =>
        cases c with
        | nil => simp [is_equivalent_expr_list] at h2
        | cons z zs =>
          simp only [is_equivalent_expr_list, Bool.and_eq_true] at h1 h2 ⊢
          exact ⟨is_equivalent_expr_trans x y z h1.1 h2.1,
            is_equivalent_expr_list_trans xs ys zs h1.2 h2.2⟩
termination_by structural x => x
theorem is_equivalent_term_trans : ∀ a b c : Term,
    is_equivalent_term a b = true → is_equivalent_term b c = true →
    is_equivalent_term a c = true
  | .type x, b, c, h1, h2 => by
      cases b with
      | type y =>
        cases c with
        | type z =>
          simp only [is_equivalent_term] at h1 h2 ⊢
          exact is_equivalent_type_trans x y z h1 h2
        | expr _ => simp [is_equivalent_term] at h2
      | expr _ => simp [is_equivalent_term] at h1
  | .expr x, b, c, h1, h2 => by
      cases b with
      | type _ => simp [is_equivalent_term] at h1
      | expr y =>
        cases c with
        | type _ => simp [is_equivalent_term] at h2
        | expr z =>
          simp only [is_equivalent_term] at h1 h2 ⊢
          exact is_equivalent_expr_trans x y z h1 h2
termination_by structural x => x
theorem is_equivalent_term_list_trans : ∀ a b c : List Term,
    is_equivalent_term_list a b = true → is_equivalent_term_list b c = true →
    is_equivalent_term_list a c = true
  | [], b, c, h1, h2 => by
      cases b <;> simp [is_equivalent_term_list] at h1 <;> cases c <;>
        simp_all [is_equivalent_term_list]
  | x :: xs, b, c, h1, h2 => by
      cases b with
      | nil => simp [is_equivalent_term_list] at h1
      | cons y ys =>
        cases c with
        | nil => simp [is_equivalent_term_list] at h2
        | cons z zs =>
          simp only [is_equivalent_term_list, Bool.and_eq_true] at h1 h2 ⊢
          exact ⟨is_equivalent_term_trans x y z h1.1 h2.1,
            is_equivalent_term_list_trans xs ys zs h1.2 h2.2⟩
termination_by structural x => x
end

theorem is_equivalent_trans (a b c : Cons) (h1 : is_equivalent a b = true)
    (h2 : is_equivalent b c = true) : is_equivalent a c = true := by
  induction a generalizing b c with
  | Concept_cons d as =>
    cases b <;> simp [is_equivalent] at h1
    cases c <;> simp [is_equivalent] at h2
    simp only [is_equivalent, Bool.and_eq_true, beq_iff_eq]
    exact ⟨h1.1.trans h2.1, is_equivalent_term_list_trans _ _ _ h1.2 h2.2⟩
  | Predicate_cons e =>
    cases b <;> simp [is_equivalent] at h1
    cases c <;> simp [is_equivalent] at h2
    simp only [is_equivalent]
    exact is_equivalent_expr_trans _ _ _ h1 h2
  | Parameterized_cons ps x ih =>
    cases b <;> simp [is_equivalent] at h1
    cases c <;> simp [is_equivalent] at h2
    simp only [is_equivalent, Bool.and_eq_true, beq_iff_eq]
    exact ⟨h1.1.trans h2.1, ih _ _ h1.2 h2.2⟩
  | Conjunction_cons l r ihl ihr =>
    cases b <;> simp [is_equivalent] at h1
    cases c <;> simp [is_equivalent] at h2
    simp only [is_equivalent, Bool.and_eq_true]
    exact ⟨ihl _ _ h1.1 h2.1, ihr _ _ h1.2 h2.2⟩
  | Disjunction_cons l r ihl ihr =>
    cases b <;> simp [is_equivalent] at h1
    cases c <;> simp [is_equivalent] at h2
    simp only [is_equivalent, Bool.and_eq_true]
    exact ⟨ihl _ _ h1.1 h2.1, ihr _ _ h1.2 h2.2⟩

/-! ## Hashing respects equivalence -/

mutual
theorem hash_value_type_respects : ∀ a b : Type_,
    is_equivalent_type a b = true → hash_value_type a = hash_value_type b
  | .Void_type, b, h => by cases b <;> simp_all [is_equivalent_type, hash_value_type]
  | .Boolean_type, b, h => by cases b <;> simp_all [is_equivalent_type, hash_value_type]
  | .Integer_type _ _, b, h => by cases b <;> simp_all [is_equivalent_type, hash_value_type]
  | .Float_type _, b, h => by cases b <;> simp_all [is_equivalent_type, hash_value_type]
  | .Auto_type, b, h => by cases b <;> simp_all [is_equivalent_type, hash_value_type]
  | .Decltype_type, b, h => by cases b <;> simp_all [is_equivalent_type, hash_value_type]
  | .Declauto_type, b, h => by cases b <;> simp_all [is_equivalent_type, hash_value_type]
  | .Function_type ps r, b, h => by
      cases b with
      | Function_type ps2 r2 =>
        simp only [is_equivalent_type, Bool.and_eq_true] at h
        have h1 := hash_value_type_list_respects ps ps2 h.1
        have h2 := hash_value_type_respects r r2 h.2
        simp only [hash_value_type, h1.1, h1.2, h2]
      | _ => simp [is_equivalent_type] at h
  | .Qualified_type _ _, b, h => by cases b <;> simp_all [is_equivalent_type, hash_value_type]
  | .Pointer_type _, b, h => by cases b <;> simp_all [is_equivalent_type, hash_value_type]
  | .Reference_type _, b, h => by cases b <;> simp_all [is_equivalent_type, hash_value_type]
  | .Array_type _ _, b, h => by cases b <;> simp_all [is_equivalent_type, hash_value_type]
  | .Sequence_type _, b, h => by cases b <;> simp_all [is_equivalent_type, hash_value_type]
  | .Class_type _, b, h => by cases b <;> simp_all [is_equivalent_type, hash_value_type]
  | .Union_type _, b, h => by cases b <;> simp_all [is_equivalent_type, hash_value_type]
  | .Enum_type _, b, h => by cases b <;> simp_all [is_equivalent_type, hash_value_type]
  | .Typename_type _, b, h => by cases b <;> simp_all [is_equivalent_type, hash_value_type]
  | .Synthetic_type _, b, h => by cases b <;> simp_all [is_equivalent_type, hash_value_type]
termination_by structural x => x
theorem hash_value_type_list_respects : ∀ a b : List Type_,
    is_equivalent_type_list a b = true →
    a.length = b.length ∧ ∀ h, hash_value_type_list a h = hash_value_type_list b h
  | [], b, h => by cases b <;> simp_all [is_equivalent_type_list]
  | x :: xs, b, h => by
      cases b with
      | nil => simp [is_equivalent_type_list] at h
      | cons y ys =>
        simp only [is_equivalent_type_list, Bool.and_eq_true] at h
        have h1 := hash_value_type_respects x y h.1
        have h2 := hash_value_type_list_respects xs ys h.2
        refine ⟨by simp [h2.1], fun s => ?_⟩
        simp only [hash_value_type_list, h1]
        cases hash_value_type y with
        | error e => rfl
        | ok hy => exact h2.2 _
termination_by structural x => x
end

mutual
theorem hash_value_expr_respects : ∀ a b : Expr,
    is_equivalent_expr a b = true → hash_value_expr a = hash_value_expr b
  | .Boolean_expr _ _, b, h => by cases b <;> simp_all [is_equivalent_expr, hash_value_expr]
  | .Integer_expr _ _, b, h => by cases b <;> simp_all [is_equivalent_expr, hash_value_expr]
  | .Reference_expr _ _, b, h => by cases b <;> simp_all [is_equivalent_expr, hash_value_expr]
  | .Unary_expr o _ x, b, h => by
      cases b with
      | Unary_expr o2 _ x2 =>
        simp only [is_equivalent_expr, Bool.and_eq_true, beq_iff_eq] at h
        have h1 := hash_value_expr_respects x x2 h.2
        simp only [hash_value_expr, h1, h.1]
      | _ => simp [is_equivalent_expr] at h
  | .Binary_expr o _ x y, b, h => by
      cases b with
      | Binary_expr o2 _ x2 y2 =>
        simp only [is_equivalent_expr, Bool.and_eq_true, beq_iff_eq] at h
        have h1 := hash_value_expr_respects x x2 h.1.2
        have h2 := hash_value_expr_respects y y2 h.2
        simp only [hash_value_expr, h1, h2, h.1.1]
      | _ => simp [is_equivalent_expr] at h
  | .Call_expr _ f as, b, h => by
      cases b with
      | Call_expr _ f2 as2 =>
        simp only [is_equivalent_expr, Bool.and_eq_true] at h
        have h1 := hash_value_expr_respects f f2 h.1
        have h2 := hash_value_expr_list_respects as as2 h.2
        simp only [hash_value_expr, h1, h2.1, h2.2]
      | _ => simp [is_equivalent_expr] at h
  | .Conv _ _ _, b, h => by cases b <;> simp_all [is_equivalent_expr, hash_value_expr]
  | .Check_expr _ _ _, b, h => by cases b <;> simp_all [is_equivalent_expr, hash_value_expr]
  | .Requires_expr _ _ _, b, h => by cases b <;> simp_all [is_equivalent_expr, hash_value_expr]
  | .Synthetic_expr _ _, b, h => by cases b <;> simp_all [is_equivalent_expr, hash_value_expr]
termination_by structural x => x
theorem hash_value_expr_list_respects : ∀ a b : List Expr,
    is_equivalent_expr_list a b = true →
    a.length = b.length ∧ ∀ h, hash_value_expr_list a h = hash_value_expr_list b h
  | [], b, h => by cases b <;> simp_all [is_equivalent_expr_list]
  | x :: xs, b, h => by
      cases b with
      | nil => simp [is_equivalent_expr_list] at h
      | cons y ys =>
        simp only [is_equivalent_expr_list, Bool.and_eq_true] at h
        have h1 := hash_value_expr_respects x y h.1
        have h2 := hash_value_expr_list_respects xs ys h.2
        refine ⟨by simp [h2.1], fun s => ?_⟩
        simp only [hash_value_expr_list, h1]
        cases hash_value_expr y with
        | error e => rfl
        | ok hy => exact h2.2 _
termination_by structural x => x
end

theorem hash_value_term_respects (a b : Term) (h : is_equivalent_term a b = true) :
    hash_value_term a = hash_value_term b := by
  cases a <;> cases b <;> simp [is_equivalent_term] at h
  · exact hash_value_type_respects _ _ h
  · exact hash_value_expr_respects _ _ h

theorem hash_value_term_list_respects : ∀ a b : List Term,
    is_equivalent_term_list a b = true →
    a.length = b.length ∧ ∀ h, hash_value_term_list a h = hash_value_term_list b h
  | [], b, h => by cases b <;> simp_all [is_equivalent_term_list]
  | x :: xs, b, h => by
      cases b with
      | nil => simp [is_equivalent_term_list] at h
      | cons y ys =>
        simp only [is_equivalent_term_list, Bool.and_eq_true] at h
        have h1 := hash_value_term_respects x y h.1
        have h2 := hash_value_term_list_respects xs ys h.2
        refine ⟨by simp [h2.1], fun s => ?_⟩
        simp only [hash_value_term_list, h1]
        cases hash_value_term y with
        | error e => rfl
        | ok hy => exact h2.2 _

theorem hash_value_respects (a b : Cons) (h : is_equivalent a b = true) :
    hash_value a = hash_value b := by
  induction a generalizing b with
  | Concept_cons d as =>
    cases b <;> simp [is_equivalent] at h
    have h2 := hash_value_term_list_respects _ _ h.2
    simp only [hash_value, h.1, h2.1, h2.2]
  | Predicate_cons e =>
    cases b <;> simp [is_equivalent] at h
    simp only [hash_value, hash_value_expr_respects _ _ h]
  | Parameterized_cons ps x ih =>
    cases b <;> simp [is_equivalent] at h
    simp only [hash_value]
  | Conjunction_cons l r ihl ihr =>
    cases b <;> simp [is_equivalent] at h
    simp only [hash_value, ihl _ h.1, ihr _ h.2]
  | Disjunction_cons l r ihl ihr =>
    cases b <;> simp [is_equivalent] at h
    simp only [hash_value, ihl _ h.1, ihr _ h.2]

theorem key_equal_eq (h : Hash_code) (c k : Cons) (hc : hash_value c = .ok h) :
    key_equal h c k = is_equivalent c k := by
  unfold key_equal
  cases hk : is_equivalent c k with
  | false => cases hash_value k <;> simp
  | true =>
    have := hash_value_respects c k hk
    rw [← this, hc]; simp

/-! ## The initial check of `subsumes` -/

/-- C1: for every constraint `C`, `subsumes(C, C)` returns true, and the
answer comes from the initial equivalence check: `validate_implication` is
valid, so that the result does not depend on the rounds the loop may run
(it is the same with no round at all) and no proof state is built. -/
theorem subsumes_reflexive (cxt : Context) (c : Cons) :
    validate_implication c c = .valid_proof ∧
    subsumes cxt c c = .ok true ∧
    ∀ limit, subsumes_within limit cxt c c = .ok true := by
  have h : validate_implication c c = .valid_proof := by
    simp [validate_implication, is_equivalent_refl]
  refine ⟨h, ?_, fun limit => ?_⟩ <;> simp [subsumes, subsumes_within, h]

/-- C8: for two atomic predicates `P1` and `P2` that are not structurally
equivalent, `subsumes(P1, P2)` returns false, decided by the initial check
(`validate_implication` is invalid) without a proof state: the answer is the
same whatever the number of rounds the loop may run, none included. -/
theorem subsumes_distinct_predicates (cxt : Context) (e1 e2 : Expr)
    (h : is_equivalent (.Predicate_cons e1) (.Predicate_cons e2) = false) :
    validate_implication (.Predicate_cons e1) (.Predicate_cons e2) = .invalid_proof ∧
    subsumes cxt (.Predicate_cons e1) (.Predicate_cons e2) = .ok false ∧
    ∀ limit, subsumes_within limit cxt (.Predicate_cons e1) (.Predicate_cons e2) = .ok false := by
  have hv : validate_implication (.Predicate_cons e1) (.Predicate_cons e2) = .invalid_proof := by
    simp [validate_implication, h, validate_non_matching, is_atomic]
  refine ⟨hv, ?_, fun limit => ?_⟩ <;> simp [subsumes, subsumes_within, hv]

/-- C8 at the predicates `P1` and `P2` of two different declarations. -/
theorem subsumes_distinct_predicates_witness :
    is_equivalent (atom 1) (atom 2) = false ∧
    subsumes no_concepts (atom 1) (atom 2) = .ok false :=
  ⟨rfl, (subsumes_distinct_predicates no_concepts
    (.Reference_expr bool_type 1) (.Reference_expr bool_type 2) rfl).2.1⟩

/-! ## Hash codes of sub-constraints and fatal exits of hashing -/

mutual
theorem hash_value_type_exit : ∀ t : Type_, hash_value_type t ≠ .error .nontermination
  | .Void_type => by simp [hash_value_type]
  | .Boolean_type => by simp [hash_value_type]
  | .Integer_type _ _ => by simp [hash_value_type]
  | .Float_type _ => by simp [hash_value_type]
  | .Auto_type => by simp [hash_value_type]
  | .Decltype_type => by simp [hash_value_type]
  | .Declauto_type => by simp [hash_value_type]
  | .Function_type ps r => by
      have h1 := hash_value_type_list_exit ps (.of_int ps.length)
      have h2 := hash_value_type_exit r
      simp only [hash_value_type]
      cases hp : hash_value_type_list ps (.of_int ps.length) with
      | error e => simp_all
      | ok hp => cases hr : hash_value_type r <;> simp_all
  | .Qualified_type _ _ => by simp [hash_value_type]
  | .Pointer_type _ => by simp [hash_value_type]
  | .Reference_type _ => by simp [hash_value_type]
  | .Array_type _ _ => by simp [hash_value_type]
  | .Sequence_type _ => by simp [hash_value_type]
  | .Class_type _ => by simp [hash_value_type]
  | .Union_type _ => by simp [hash_value_type]
  | .Enum_type _ => by simp [hash_value_type]
  | .Typename_type _ => by simp [hash_value_type]
  | .Synthetic_type _ => by simp [hash_value_type]
termination_by structural x => x
theorem hash_value_type_list_exit : ∀ (ts : List Type_) (h : Hash_code),
    hash_value_type_list ts h ≠ .error .nontermination
  | [], h => by simp [hash_value_type_list]
  | t :: ts, h => by
      have h1 := hash_value_type_exit t
      simp only [hash_value_type_list]
      cases ht : hash_value_type t with
      | error e => simp_all
      | ok v => exact hash_value_type_list_exit ts _
termination_by structural x => x
end

mutual
theorem hash_value_expr_exit : ∀ e : Expr, hash_value_expr e ≠ .error .nontermination
  | .Boolean_expr _ _ => by simp [hash_value_expr]
  | .Integer_expr _ _ => by simp [hash_value_expr]
  | .Reference_expr _ _ => by simp [hash_value_expr]
  | .Unary_expr _ _ a => by
      have h1 := hash_value_expr_exit a
      simp only [hash_value_expr]
      cases ha : hash_value_expr a <;> simp_all
  | .Binary_expr _ _ a b => by
      have h1 := hash_value_expr_exit a
      have h2 := hash_value_expr_exit b
      simp only [hash_value_expr]
      cases ha : hash_value_expr a with
      | error e => simp_all
      | ok va => cases hb : hash_value_expr b <;> simp_all
  | .Call_expr _ f as => by
      have h1 := hash_value_expr_exit f
      have h2 := hash_value_expr_list_exit as (.of_int as.length)
      simp only [hash_value_expr]
      cases hf : hash_value_expr f with
      | error e => simp_all
      | ok vf => cases ha : hash_value_expr_list as (.of_int as.length) <;> simp_all
  | .Conv _ _ _ => by simp [hash_value_expr]
  | .Check_expr _ _ _ => by simp [hash_value_expr]
  | .Requires_expr _ _ _ => by simp [hash_value_expr]
  | .Synthetic_expr _ _ => by simp [hash_value_expr]
termination_by structural x => x
theorem hash_value_expr_list_exit : ∀ (es : List Expr) (h : Hash_code),
    hash_value_expr_list es h ≠ .error .nontermination
  | [], h => by simp [hash_value_expr_list]
  | a :: as, h => by
      have h1 := hash_value_expr_exit a
      simp only [hash_value_expr_list]
      cases ha : hash_value_expr a with
      | error e => simp_all
      | ok v => exact hash_value_expr_list_exit as _
termination_by structural x => x
end

theorem hash_value_term_exit (t : Term) : hash_value_term t ≠ .error .nontermination := by
  cases t with
  | type t => exact hash_value_type_exit t
  | expr e => exact hash_value_expr_exit e

theorem hash_value_term_list_exit : ∀ (ts : List Term) (h : Hash_code),
    hash_value_term_list ts h ≠ .error .nontermination
  | [], h => by simp [hash_value_term_list]
  | a :: as, h => by
      have h1 := hash_value_term_exit a
      simp only [hash_value_term_list]
      cases ha : hash_value_term a with
      | error e => simp_all
      | ok v => exact hash_value_term_list_exit as _

theorem hash_value_exit (c : Cons) : hash_value c ≠ .error .nontermination := by
  induction c with
  | Concept_cons d as =>
    have h1 := hash_value_term_list_exit as (.of_int as.length)
    simp only [hash_value]
    cases ha : hash_value_term_list as (.of_int as.length) <;> simp_all
  | Predicate_cons e =>
    have h1 := hash_value_expr_exit e
    simp only [hash_value]
    cases he : hash_value_expr e <;> simp_all
  | Parameterized_cons ps c ih => simp [hash_value]
  | Conjunction_cons l r ihl ihr =>
    simp only [hash_value]
    cases hl : hash_value l with
    | error e => simp_all
    | ok vl => cases hr : hash_value r <;> simp_all
  | Disjunction_cons l r ihl ihr =>
    simp only [hash_value]
    cases hl : hash_value l with
    | error e => simp_all
    | ok vl => cases hr : hash_value r <;> simp_all

theorem hashable_iff (c : Cons) : hashable c = true ↔ ∃ h, hash_value c = .ok h := by
  unfold hashable
  cases hash_value c <;> simp

theorem hashable_conjunction (l r : Cons) :
    hashable (.Conjunction_cons l r) = (hashable l && hashable r) := by
  simp only [hashable, hash_value]
  cases hash_value l <;> cases hash_value r <;> simp

theorem hashable_disjunction (l r : Cons) :
    hashable (.Disjunction_cons l r) = (hashable l && hashable r) := by
  simp only [hashable, hash_value]
  cases hash_value l <;> cases hash_value r <;> simp

theorem hashable_parameterized (ps : List Decl) (c : Cons) :
    hashable (.Parameterized_cons ps c) = false := by
  simp [hashable, hash_value]

/-! ## Lists of propositions: positions, insertion and erasure -/

theorem list_get_at (pre post : List Cons) (c : Cons) :
    (pre ++ c :: post).get? pre.length = some c := by
  induction pre with
  | nil => rfl
  | cons x xs ih => simpa using ih

theorem list_erase_at (pre post : List Cons) (c : Cons) :
    list_erase (pre ++ c :: post) pre.length = pre ++ post := by
  simp [list_erase]

theorem list_insert_at (pre post : List Cons) (x : Cons) :
    list_insert (pre ++ post) pre.length x = pre ++ x :: post := by
  simp [list_insert]

theorem list_insert_after (pre post : List Cons) (x y : Cons) :
    list_insert (pre ++ x :: post) (pre.length + 1) y = pre ++ x :: y :: post := by
  have h : pre ++ x :: post = (pre ++ [x]) ++ post := by simp
  rw [h]
  have h2 : pre.length + 1 = (pre ++ [x]).length := by simp
  rw [h2, list_insert_at]
  simp

theorem prop_weight_append (a b : List Cons) :
    prop_weight (a ++ b) = prop_weight a + prop_weight b := by
  induction a with
  | nil => simp [prop_weight]
  | cons x xs ih => simp [prop_weight, ih, Nat.add_assoc]

theorem Cons.size_pos (c : Cons) : 0 < c.size := by
  cases c <;> simp [Cons.size]

theorem erase_at (as : Prop_list) (pre post : List Cons) (c : Cons)
    (hseq : as.seq = pre ++ c :: post) :
    as.erase pre.length =
      match hash_value c with
      | .error e => .error e
      | .ok h => .ok ({ as with map := as.map.filter (fun k => !key_equal h c k),
                                seq := pre ++ post }, pre.length) := by
  unfold Prop_list.erase
  rw [hseq, list_get_at, list_erase_at]

theorem has_iff (ps : Prop_list) (c : Cons) :
    ps.has c ↔ hashable c = true ∧ ∃ k ∈ ps.map, is_equivalent c k = true := by
  unfold Prop_list.has Prop_list.contains hashable
  cases hc : hash_value c with
  | error e => simp
  | ok h =>
    simp only [Except.ok.injEq, List.any_eq_true, true_and]
    constructor
    · rintro ⟨k, hk, he⟩
      exact ⟨k, hk, by rwa [key_equal_eq h c k hc] at he⟩
    · rintro ⟨k, hk, he⟩
      exact ⟨k, hk, by rwa [key_equal_eq h c k hc]⟩

theorem contains_of_hashable (ps : Prop_list) (c : Cons) (hc : hashable c = true) :
    ps.contains c = .ok (ps.map.any (is_equivalent c)) := by
  obtain ⟨h, hh⟩ := (hashable_iff c).1 hc
  unfold Prop_list.contains
  rw [hh]
  simp only [Except.ok.injEq]
  congr 1
  funext k
  exact key_equal_eq h c k hh

theorem insert_at_of_hashable (ps : Prop_list) (pos : Nat) (c : Cons) (hc : hashable c = true) :
    ps.insert_at pos c =
      if ps.map.any (is_equivalent c) then .ok (ps, pos, false)
      else .ok ({ ps with seq := list_insert ps.seq pos c, map := c :: ps.map }, pos, true) := by
  obtain ⟨h, hh⟩ := (hashable_iff c).1 hc
  unfold Prop_list.insert_at
  rw [hh]
  have : ps.map.any (key_equal h c) = ps.map.any (is_equivalent c) := by
    congr 1
    funext k
    exact key_equal_eq h c k hh
  simp only [this]

theorem insert_at_error (ps : Prop_list) (pos : Nat) (c : Cons) (e : Fatal)
    (h : ps.insert_at pos c = .error e) : e ≠ .nontermination ∧ hashable c = false := by
  unfold Prop_list.insert_at at h
  cases hc : hash_value c with
  | error e1 =>
    rw [hc] at h
    simp only [Except.error.injEq] at h
    subst h
    exact ⟨fun he => hash_value_exit c (by rw [hc, he]), by simp [hashable, hc]⟩
  | ok v =>
    simp only [hc] at h
    split at h <;> simp at h

theorem erase_error (as : Prop_list) (pre post : List Cons) (c : Cons)
    (hseq : as.seq = pre ++ c :: post) (e : Fatal)
    (h : as.erase pre.length = .error e) : e ≠ .nontermination ∧ hashable c = false := by
  rw [erase_at as pre post c hseq] at h
  cases hc : hash_value c with
  | error e1 =>
    rw [hc] at h
    simp only [Except.error.injEq] at h
    subst h
    exact ⟨fun he => hash_value_exit c (by rw [hc, he]), by simp [hashable, hc]⟩
  | ok v => rw [hc] at h; simp at h

theorem erase_of_hashable (as : Prop_list) (pre post : List Cons) (c : Cons)
    (hseq : as.seq = pre ++ c :: post) (hc : hashable c = true) :
    as.erase pre.length =
      .ok ({ as with map := as.map.filter (fun k => !is_equivalent c k),
                     seq := pre ++ post }, pre.length) := by
  obtain ⟨h, hh⟩ := (hashable_iff c).1 hc
  rw [erase_at as pre post c hseq, hh]
  have : (fun k => !key_equal h c k) = (fun k => !is_equivalent c k) := by
    funext k
    rw [key_equal_eq h c k hh]
  simp only [this]

/-! ## The replacement of the current proposition by two -/

theorem advance_stale (as : Prop_list) : advance as false = .error .undefined := by
  simp [advance, Prop_list.advance]

theorem replace_stale (as : Prop_list) (c : Cons) : replace as false c = .error .undefined := rfl

theorem replace2_stale (as : Prop_list) (l r : Cons) :
    replace2 as false l r = .error .undefined := rfl

theorem replace2_live (as : Prop_list) (l r : Cons) :
    replace2 as true l r = as.replace2 as.cur l r := rfl

theorem replace2_error (as : Prop_list) (pre post : List Cons) (c l r : Cons)
    (hseq : as.seq = pre ++ c :: post) (hcur : as.cur = pre.length) (e : Fatal)
    (h : replace2 as true l r = .error e) :
    e ≠ .nontermination ∧ (hashable c && hashable l && hashable r) = false := by
  rw [replace2_live] at h
  unfold Prop_list.replace2 at h
  rw [hcur] at h
  cases h1 : as.erase pre.length with
  | error e1 =>
    have := erase_error as pre post c hseq e1 h1
    simp only [h1] at h
    cases h
    simp [this.1, this.2]
  | ok x1 =>
    obtain ⟨as1, pos1⟩ := x1
    simp only [h1] at h
    cases h2 : as1.insert_at pos1 l with
    | error e2 =>
      have := insert_at_error as1 pos1 l e2 h2
      simp only [h2] at h
      cases h
      simp [this.1, this.2]
    | ok x2 =>
      obtain ⟨as2, i1, b1⟩ := x2
      simp only [h2] at h
      cases h3 : as2.insert_at (if b1 = true then pos1 + 1 else pos1) r with
      | error e3 =>
        have := insert_at_error as2 _ r e3 h3
        simp only [h3] at h
        cases h
        simp [this.1, this.2]
      | ok x3 =>
        obtain ⟨as3, i2, b2⟩ := x3
        simp only [h3] at h
        cases b1 <;> cases b2 <;> simp at h

theorem has_of_any (ps : Prop_list) (c : Cons) (hc : hashable c = true)
    (h : ps.map.any (is_equivalent c) = true) : ps.has c := by
  rw [has_iff]
  obtain ⟨k, hk, he⟩ := List.any_eq_true.1 h
  exact ⟨hc, k, hk, he⟩

theorem has_of_mem (ps : Prop_list) (c : Cons) (hc : hashable c = true)
    (h : c ∈ ps.map) : ps.has c := by
  rw [has_iff]
  exact ⟨hc, c, h, is_equivalent_refl c⟩

theorem has_mono (ps ps1 : Prop_list) (c : Cons) (h : ps.has c)
    (hm : ∀ k ∈ ps.map, k ∈ ps1.map) : ps1.has c := by
  rw [has_iff] at h ⊢
  obtain ⟨hc, k, hk, he⟩ := h
  exact ⟨hc, k, hm k hk, he⟩

/-- The replacement of the current proposition `c` by `l` and `r`, all three
with a hash code: the constraints `new` that are inserted take the place of
`c`, and the cursor designates a node afterwards exactly when one is
inserted. -/
theorem replace2_ok (as : Prop_list) (pre post : List Cons) (c l r : Cons)
    (hseq : as.seq = pre ++ c :: post) (hcur : as.cur = pre.length)
    (hc : hashable c = true) (hl : hashable l = true) (hr : hashable r = true) :
    ∃ as1 new, replace2 as true l r = .ok (as1, pre.length, !new.isEmpty) ∧
      as1.cur = pre.length ∧
      as1.seq = pre ++ new ++ post ∧ (∀ x ∈ new, x = l ∨ x = r) ∧
      prop_weight new ≤ l.size + r.size ∧
      (∀ k ∈ as.map, is_equivalent c k = false → k ∈ as1.map) ∧
      (∀ k ∈ as1.map, (k ∈ as.map ∧ is_equivalent c k = false) ∨ k ∈ new) ∧
      as1.has l ∧ as1.has r ∧
      (new = [] → ∃ k ∈ as.map, is_equivalent c k = false ∧ is_equivalent l k = true) := by
  rw [replace2_live]
  unfold Prop_list.replace2
  rw [hcur, erase_of_hashable as pre post c hseq hc]
  simp only
  rw [insert_at_of_hashable _ _ l hl]
  by_cases hb1 : (as.map.filter (fun k => !is_equivalent c k)).any (is_equivalent l) = true
  · -- `l` is in the table already
    simp only [hb1, if_true]
    simp only [Bool.false_eq_true, if_false]
    rw [insert_at_of_hashable _ _ r hr]
    by_cases hb2 : (as.map.filter (fun k => !is_equivalent c k)).any (is_equivalent r) = true
    · simp only [hb2, if_true]
      refine ⟨_, [], rfl, hcur, by simp, by simp, by simp [prop_weight], ?_, ?_, ?_, ?_, ?_⟩
      · intro k hk he; simp [List.mem_filter, hk, he]
      · intro k hk
        simp only [List.mem_filter, Bool.not_eq_true', Bool.not_eq_eq_eq_not, Bool.not_true] at hk
        exact Or.inl hk
      · exact has_of_any _ l hl hb1
      · exact has_of_any _ r hr hb2
      · intro _
        obtain ⟨k, hk, he⟩ := List.any_eq_true.1 hb1
        simp only [List.mem_filter, Bool.not_eq_true', Bool.not_eq_eq_eq_not, Bool.not_true] at hk
        exact ⟨k, hk.1, hk.2, he⟩
    · simp only [hb2, if_false]
      simp only [Bool.false_eq_true, if_false, if_true]
      refine ⟨_, [r], rfl, hcur, ?_, by simp, by simp [prop_weight], ?_, ?_, ?_, ?_, ?_⟩
      · simp [list_insert_at]
      · intro k hk he; simp [List.mem_filter, hk, he]
      · intro k hk
        simp only [List.mem_cons, List.mem_filter, Bool.not_eq_true', Bool.not_eq_eq_eq_not,
          Bool.not_true] at hk
        rcases hk with hk | hk
        · exact Or.inr (by simp [hk])
        · exact Or.inl hk
      · exact has_mono _ _ l (has_of_any ⟨_, pre ++ post, as.cur⟩ l hl hb1)
          (fun k hk => List.mem_cons_of_mem _ hk)
      · exact has_of_mem _ r hr (List.mem_cons_self _ _)
      · intro h; cases h
  · -- `l` is inserted before the element that followed `c`
    simp only [hb1, if_false]
    simp only [Bool.false_eq_true, if_false, if_true]
    rw [insert_at_of_hashable _ _ r hr]
    simp only [list_insert_at]
    by_cases hb2 : (l :: as.map.filter (fun k => !is_equivalent c k)).any (is_equivalent r) = true
    · simp only [hb2, if_true]
      refine ⟨_, [l], rfl, hcur, by simp, by simp, by simp [prop_weight], ?_, ?_, ?_, ?_, ?_⟩
      · intro k hk he; simp [List.mem_filter, hk, he]
      · intro k hk
        simp only [List.mem_cons, List.mem_filter, Bool.not_eq_true', Bool.not_eq_eq_eq_not,
          Bool.not_true] at hk
        rcases hk with hk | hk
        · exact Or.inr (by simp [hk])
        · exact Or.inl hk
      · exact has_of_mem _ l hl (List.mem_cons_self _ _)
      · exact has_of_any _ r hr hb2
      · intro h; cases h
    · simp only [hb2, if_false]
      refine ⟨_, [l, r], rfl, hcur, ?_, by simp, by simp [prop_weight], ?_, ?_, ?_, ?_, ?_⟩
      · simp [list_insert_after]
      · intro k hk he; simp [List.mem_filter, hk, he]
      · intro k hk
        simp only [List.mem_cons, List.mem_filter, Bool.not_eq_true', Bool.not_eq_eq_eq_not,
          Bool.not_true] at hk
        rcases hk with hk | hk | hk
        · exact Or.inr (by simp [hk])
        · exact Or.inr (by simp [hk])
        · exact Or.inl hk
      · exact has_of_mem _ l hl (List.mem_cons_of_mem _ (List.mem_cons_self _ _))
      · exact has_of_mem _ r hr (List.mem_cons_self _ _)
      · intro h; cases h

theorem insert_at_ok_hashable (ps : Prop_list) (pos : Nat) (x : Cons)
    (y : Prop_list × Nat × Bool) (h : ps.insert_at pos x = .ok y) : hashable x = true := by
  unfold Prop_list.insert_at at h
  unfold hashable
  cases hx : hash_value x with
  | error e => simp [hx] at h
  | ok v => rfl

theorem erase_ok_hashable (as : Prop_list) (pre post : List Cons) (c : Cons)
    (hseq : as.seq = pre ++ c :: post) (y : Prop_list × Nat)
    (h : as.erase pre.length = .ok y) : hashable c = true := by
  rw [erase_at as pre post c hseq] at h
  unfold hashable
  cases hx : hash_value c with
  | error e => simp [hx] at h
  | ok v => rfl

theorem replace2_cases (as : Prop_list) (pre post : List Cons) (c l r : Cons)
    (hseq : as.seq = pre ++ c :: post) (hcur : as.cur = pre.length) :
    (∃ e, replace2 as true l r = .error e ∧ e ≠ .nontermination) ∨
    (hashable c = true ∧ hashable l = true ∧ hashable r = true) := by
  cases h : replace2 as true l r with
  | error e => exact Or.inl ⟨e, rfl, (replace2_error as pre post c l r hseq hcur e h).1⟩
  | ok x =>
    right
    rw [replace2_live] at h
    unfold Prop_list.replace2 at h
    rw [hcur] at h
    cases h1 : as.erase pre.length with
    | error e1 => simp [h1] at h
    | ok x1 =>
      obtain ⟨as1, pos1⟩ := x1
      simp only [h1] at h
      cases h2 : as1.insert_at pos1 l with
      | error e2 => simp [h2] at h
      | ok x2 =>
        obtain ⟨as2, i1, b1⟩ := x2
        simp only [h2] at h
        cases h3 : as2.insert_at (if b1 = true then pos1 + 1 else pos1) r with
        | error e3 => simp [h3] at h
        | ok x3 =>
          exact ⟨erase_ok_hashable as pre post c hseq _ h1, insert_at_ok_hashable _ _ _ _ h2,
            insert_at_ok_hashable _ _ _ _ h3⟩

/-! ## The flatten passes -/

theorem flat_kept_refl (flat : Cons → Bool) (ps : Prop_list) : flat_kept flat ps ps :=
  ⟨fun _ hk _ => hk, fun _ hx _ => hx⟩

theorem flat_kept_trans (flat : Cons → Bool) (a b c : Prop_list)
    (h1 : flat_kept flat a b) (h2 : flat_kept flat b c) : flat_kept flat a c :=
  ⟨fun k hk hf => h2.1 k (h1.1 k hk hf) hf, fun x hx hf => h2.2 x (h1.2 x hx hf) hf⟩

theorem advance_at (as : Prop_list) (pre post : List Cons) (c : Cons)
    (hseq : as.seq = pre ++ c :: post) (hcur : as.cur = pre.length) :
    advance as true =
      .ok ({ as with cur := (pre ++ [c]).length }, (pre ++ [c]).length, true) := by
  unfold advance Prop_list.advance
  rw [hseq, hcur]
  simp

/-- The outcome of the replacement of the current proposition `c`, which is
not equivalent to any constraint that satisfies `flat`, by `l` and `r`. -/
theorem replace2_step (flat : Cons → Bool) (as : Prop_list) (pre post : List Cons) (c l r : Cons)
    (hseq : as.seq = pre ++ c :: post) (hcur : as.cur = pre.length)
    (hsize : l.size + r.size < c.size)
    (hsub : hashable c = (hashable l && hashable r))
    (hflat : ∀ k, flat k = true → is_equivalent c k = false) :
    (∃ e, replace2 as true l r = .error e ∧ e ≠ .nontermination ∧ hashable c = false) ∨
    (∃ as1 pre1 rest1 live1, replace2 as true l r = .ok (as1, pre1.length, live1) ∧
      as1.cur = pre1.length ∧ as1.seq = pre1 ++ rest1 ∧
      prop_weight rest1 < prop_weight (c :: post) ∧
      ((∀ x ∈ as.seq, hashable x = true) → ∀ x ∈ as1.seq, hashable x = true) ∧
      flat_kept flat as as1 ∧ (as.keys_in_seq → as1.keys_in_seq)) := by
  rcases replace2_cases as pre post c l r hseq hcur with ⟨e, he, hne⟩ | ⟨hc, hl, hr⟩
  · left
    refine ⟨e, he, hne, ?_⟩
    have := (replace2_error as pre post c l r hseq hcur e he).2
    rw [hsub] at this ⊢
    revert this
    cases hashable l <;> cases hashable r <;> simp
  · right
    obtain ⟨as1, new, hok, hcur1, hseq1, hnew, hw, hkeep, hmap, _, _, _⟩ :=
      replace2_ok as pre post c l r hseq hcur hc hl hr
    refine ⟨as1, pre, new ++ post, _, hok, hcur1, by simp [hseq1], ?_, ?_, ?_, ?_⟩
    · simp only [prop_weight_append, prop_weight]
      omega
    · intro hall x hx
      rw [hseq1] at hx
      simp only [List.mem_append] at hx
      rcases hx with (hx | hx) | hx
      · exact hall x (by simp [hseq, hx])
      · rcases hnew x hx with h | h <;> simp [h, hl, hr]
      · exact hall x (by simp [hseq, hx])
    · refine ⟨fun k hk hf => hkeep k hk (hflat k hf), fun x hx hf => ?_⟩
      rw [hseq] at hx
      rw [hseq1]
      simp only [List.mem_append, List.mem_cons] at hx ⊢
      rcases hx with hx | hx | hx
      · exact Or.inl (Or.inl hx)
      · subst hx
        have := hflat x hf
        rw [is_equivalent_refl] at this
        cases this
      · exact Or.inr hx
    · intro hkeys k hk
      rw [hseq1]
      rcases hmap k hk with ⟨hk1, hk2⟩ | hk1
      · have hin := hkeys k hk1
        rw [hseq] at hin
        simp only [List.mem_append, List.mem_cons] at hin ⊢
        rcases hin with hin | hin | hin
        · exact Or.inl (Or.inl hin)
        · subst hin
          rw [is_equivalent_refl] at hk2
          cases hk2
        · exact Or.inr hin
      · simp [hk1]

/-- The outcome of stepping over the current proposition. -/
theorem advance_step (flat : Cons → Bool) (as : Prop_list) (pre post : List Cons) (c : Cons)
    (hseq : as.seq = pre ++ c :: post) (hcur : as.cur = pre.length) :
    ∃ as1 pre1 rest1 live1, advance as true = .ok (as1, pre1.length, live1) ∧
      as1.cur = pre1.length ∧ as1.seq = pre1 ++ rest1 ∧
      prop_weight rest1 < prop_weight (c :: post) ∧
      ((∀ x ∈ as.seq, hashable x = true) → ∀ x ∈ as1.seq, hashable x = true) ∧
      flat_kept flat as as1 ∧ (as.keys_in_seq → as1.keys_in_seq) := by
  refine ⟨_, pre ++ [c], post, true, advance_at as pre post c hseq hcur, rfl, by simp [hseq], ?_,
    fun h => h, flat_kept_refl _ _, fun h => h⟩
  have := Cons.size_pos c
  simp only [prop_weight]
  omega

theorem replace_parameterized_error (as : Prop_list) (pre post : List Cons)
    (ps : List Decl) (c c1 : Cons)
    (hseq : as.seq = pre ++ .Parameterized_cons ps c :: post) (hcur : as.cur = pre.length) :
    replace as true c1 = .error .unimplemented := by
  unfold replace Prop_list.replace Prop_list.current
  rw [hcur, erase_at as pre post _ hseq]
  simp [hash_value]

/-- A tactic of a flatten pass that is called with a cursor that designates no
node is fatal. -/
theorem flatten_left_prop_stale (as : Prop_list) (c : Cons) :
    flatten_left_prop as false c = .error .undefined := by
  cases c <;>
    simp [flatten_left_prop, flatten_left_atom, flatten_left_lambda, flatten_left_conjunction,
      flatten_left_disjunction, advance_stale, replace_stale, replace2_stale]

theorem flatten_right_prop_stale (cs : Prop_list) (c : Cons) :
    flatten_right_prop cs false c = .error .undefined := by
  cases c <;>
    simp [flatten_right_prop, flatten_right_atom, flatten_right_lambda,
      flatten_right_conjunction, flatten_right_disjunction, advance_stale, replace_stale,
      replace2_stale]

theorem flatten_left_prop_step (as : Prop_list) (pre post : List Cons) (c : Cons)
    (hseq : as.seq = pre ++ c :: post) (hcur : as.cur = pre.length) :
    (∃ e, flatten_left_prop as true c = .error e ∧ e ≠ .nontermination ∧ hashable c = false) ∨
    (∃ as1 pre1 rest1 live1, flatten_left_prop as true c = .ok (as1, pre1.length, live1) ∧
      as1.cur = pre1.length ∧ as1.seq = pre1 ++ rest1 ∧
      prop_weight rest1 < prop_weight (c :: post) ∧
      ((∀ x ∈ as.seq, hashable x = true) → ∀ x ∈ as1.seq, hashable x = true) ∧
      flat_kept left_flat as as1 ∧ (as.keys_in_seq → as1.keys_in_seq)) := by
  cases c with
  | Concept_cons d args => exact Or.inr (advance_step _ as pre post _ hseq hcur)
  | Predicate_cons e => exact Or.inr (advance_step _ as pre post _ hseq hcur)
  | Disjunction_cons l r => exact Or.inr (advance_step _ as pre post _ hseq hcur)
  | Parameterized_cons ps c1 =>
    left
    exact ⟨.unimplemented, replace_parameterized_error as pre post ps c1 c1 hseq hcur,
      by simp, hashable_parameterized _ _⟩
  | Conjunction_cons l r =>
    exact replace2_step left_flat as pre post _ l r hseq hcur (by simp [Cons.size])
      (hashable_conjunction l r)
      (fun k hk => by cases k <;> simp_all [left_flat, is_equivalent])

theorem flatten_right_prop_step (cs : Prop_list) (pre post : List Cons) (c : Cons)
    (hseq : cs.seq = pre ++ c :: post) (hcur : cs.cur = pre.length) :
    (∃ e, flatten_right_prop cs true c = .error e ∧ e ≠ .nontermination ∧ hashable c = false) ∨
    (∃ cs1 pre1 rest1 live1, flatten_right_prop cs true c = .ok (cs1, pre1.length, live1) ∧
      cs1.cur = pre1.length ∧ cs1.seq = pre1 ++ rest1 ∧
      prop_weight rest1 < prop_weight (c :: post) ∧
      ((∀ x ∈ cs.seq, hashable x = true) → ∀ x ∈ cs1.seq, hashable x = true) ∧
      flat_kept right_flat cs cs1 ∧ (cs.keys_in_seq → cs1.keys_in_seq)) := by
  cases c with
  | Concept_cons d args => exact Or.inr (advance_step _ cs pre post _ hseq hcur)
  | Predicate_cons e => exact Or.inr (advance_step _ cs pre post _ hseq hcur)
  | Conjunction_cons l r => exact Or.inr (advance_step _ cs pre post _ hseq hcur)
  | Parameterized_cons ps c1 =>
    left
    exact ⟨.unimplemented, replace_parameterized_error cs pre post ps c1 c1 hseq hcur,
      by simp, hashable_parameterized _ _⟩
  | Disjunction_cons l r =>
    exact replace2_step right_flat cs pre post _ l r hseq hcur (by simp [Cons.size])
      (hashable_disjunction l r)
      (fun k hk => by cases k <;> simp_all [right_flat, is_equivalent])

theorem flatten_left_loop_unfold (fuel : Nat) (as : Prop_list) (pre post : List Cons) (c : Cons)
    (live : Bool) (hseq : as.seq = pre ++ c :: post) :
    flatten_left_loop (fuel + 1) as pre.length live =
      match flatten_left_prop as live c with
      | .error e => .error e
      | .ok (as1, ai1, live1) => flatten_left_loop fuel as1 ai1 live1 := by
  rw [flatten_left_loop]
  have hne : ¬ pre.length = as.seq.length := by rw [hseq]; simp
  rw [if_neg hne, hseq, list_get_at]

theorem flatten_left_loop_done (fuel : Nat) (as : Prop_list) (pre : List Cons) (live : Bool)
    (hseq : as.seq = pre) : flatten_left_loop (fuel + 1) as pre.length live = .ok as := by
  rw [flatten_left_loop, hseq]
  simp

/-- A step of a flatten-left pass from a cursor that designates no node is
fatal: the pass does not return when the iterator of the loop is not at the
end. -/
theorem flatten_left_loop_stale (fuel : Nat) (as : Prop_list) (pre post : List Cons) (c : Cons)
    (hseq : as.seq = pre ++ c :: post) :
    flatten_left_loop (fuel + 1) as pre.length false = .error .undefined := by
  rw [flatten_left_loop_unfold fuel as pre post c false hseq, flatten_left_prop_stale]

/-- A flatten-left pass that returns keeps the keys and elements it steps
over, and hashable elements only; its cursor is at the end. -/
theorem flatten_left_loop_ok : ∀ (fuel : Nat) (as : Prop_list) (pre rest : List Cons)
    (live : Bool) (as2 : Prop_list),
    as.seq = pre ++ rest → as.cur = pre.length →
    flatten_left_loop fuel as pre.length live = .ok as2 →
    ((∀ x ∈ as.seq, hashable x = true) → ∀ x ∈ as2.seq, hashable x = true) ∧
      flat_kept left_flat as as2 ∧ (as.keys_in_seq → as2.keys_in_seq) ∧
      as2.cur = as2.seq.length
  | 0, _, _, _, _, _, _, _, h => by simp [flatten_left_loop] at h
  | fuel + 1, as, pre, [], live, as2, hseq, hcur, h => by
      have hs : as.seq = pre := by simpa using hseq
      rw [flatten_left_loop_done fuel as pre live hs] at h
      cases h
      exact ⟨fun h => h, flat_kept_refl _ _, fun h => h, by rw [hcur, hs]⟩
  | fuel + 1, as, pre, c :: post, false, as2, hseq, hcur, h => by
      rw [flatten_left_loop_stale fuel as pre post c hseq] at h
      cases h
  | fuel + 1, as, pre, c :: post, true, as2, hseq, hcur, h => by
      rw [flatten_left_loop_unfold fuel as pre post c true hseq] at h
      rcases flatten_left_prop_step as pre post c hseq hcur with
        ⟨e, he, _, _⟩ | ⟨as1, pre1, rest1, live1, hok, hcur1, hseq1, hw1, hall1, hkept, hkeys⟩
      · rw [he] at h; cases h
      · rw [hok] at h
        obtain ⟨hall2, hkept2, hkeys2, hc2⟩ :=
          flatten_left_loop_ok fuel as1 pre1 rest1 live1 as2 hseq1 hcur1 h
        exact ⟨fun h => hall2 (hall1 h), flat_kept_trans _ _ _ _ hkept hkept2,
          fun h => hkeys2 (hkeys h), hc2⟩

theorem flatten_right_loop_unfold (fuel : Nat) (cs : Prop_list) (pre post : List Cons) (c : Cons)
    (live : Bool) (hseq : cs.seq = pre ++ c :: post) :
    flatten_right_loop (fuel + 1) cs pre.length live =
      match flatten_right_prop cs live c with
      | .error e => .error e
      | .ok (cs1, ci1, live1) => flatten_right_loop fuel cs1 ci1 live1 := by
  rw [flatten_right_loop]
  have hne : ¬ pre.length = cs.seq.length := by rw [hseq]; simp
  rw [if_neg hne, hseq, list_get_at]

theorem flatten_right_loop_done (fuel : Nat) (cs : Prop_list) (pre : List Cons) (live : Bool)
    (hseq : cs.seq = pre) : flatten_right_loop (fuel + 1) cs pre.length live = .ok cs := by
  rw [flatten_right_loop, hseq]
  simp

/-- A step of a flatten-right pass from a cursor that designates no node is
fatal. -/
theorem flatten_right_loop_stale (fuel : Nat) (cs : Prop_list) (pre post : List Cons) (c : Cons)
    (hseq : cs.seq = pre ++ c :: post) :
    flatten_right_loop (fuel + 1) cs pre.length false = .error .undefined := by
  rw [flatten_right_loop_unfold fuel cs pre post c false hseq, flatten_right_prop_stale]

/-- A flatten-right pass that returns keeps the keys and elements it steps
over, and hashable elements only; its cursor is at the end. -/
theorem flatten_right_loop_ok : ∀ (fuel : Nat) (cs : Prop_list) (pre rest : List Cons)
    (live : Bool) (cs2 : Prop_list),
    cs.seq = pre ++ rest → cs.cur = pre.length →
    flatten_right_loop fuel cs pre.length live = .ok cs2 →
    ((∀ x ∈ cs.seq, hashable x = true) → ∀ x ∈ cs2.seq, hashable x = true) ∧
      flat_kept right_flat cs cs2 ∧ (cs.keys_in_seq → cs2.keys_in_seq) ∧
      cs2.cur = cs2.seq.length
  | 0, _, _, _, _, _, _, _, h => by simp [flatten_right_loop] at h
  | fuel + 1, cs, pre, [], live, cs2, hseq, hcur, h => by
      have hs : cs.seq = pre := by simpa using hseq
      rw [flatten_right_loop_done fuel cs pre live hs] at h
      cases h
      exact ⟨fun h => h, flat_kept_refl _ _, fun h => h, by rw [hcur, hs]⟩
  | fuel + 1, cs, pre, c :: post, false, cs2, hseq, hcur, h => by
      rw [flatten_right_loop_stale fuel cs pre post c hseq] at h
      cases h
  | fuel + 1, cs, pre, c :: post, true, cs2, hseq, hcur, h => by
      rw [flatten_right_loop_unfold fuel cs pre post c true hseq] at h
      rcases flatten_right_prop_step cs pre post c hseq hcur with
        ⟨e, he, _, _⟩ | ⟨cs1, pre1, rest1, live1, hok, hcur1, hseq1, hw1, hall1, hkept, hkeys⟩
      · rw [he] at h; cases h
      · rw [hok] at h
        obtain ⟨hall2, hkept2, hkeys2, hc2⟩ :=
          flatten_right_loop_ok fuel cs1 pre1 rest1 live1 cs2 hseq1 hcur1 h
        exact ⟨fun h => hall2 (hall1 h), flat_kept_trans _ _ _ _ hkept hkept2,
          fun h => hkeys2 (hkeys h), hc2⟩

/-- The result of a flatten-left pass is the sequent with the antecedents the
loop leaves. -/
theorem flatten_left_eq (s s1 : Sequent) (h : flatten_left s = .ok s1) :
    flatten_left_loop (prop_weight s.ants.seq + 1) s.ants.start.1 ([] : List Cons).length true =
      .ok s1.ants ∧ s1.cons = s.cons := by
  unfold flatten_left at h
  have e : s.ants.start.2 = ([] : List Cons).length := rfl
  rw [e] at h
  cases hl : flatten_left_loop (prop_weight s.ants.seq + 1) s.ants.start.1
      ([] : List Cons).length true with
  | error e1 => rw [hl] at h; cases h
  | ok as1 => rw [hl] at h; cases h; exact ⟨rfl, rfl⟩

theorem flatten_right_eq (s s1 : Sequent) (h : flatten_right s = .ok s1) :
    flatten_right_loop (prop_weight s.cons.seq + 1) s.cons.start.1 ([] : List Cons).length true =
      .ok s1.cons ∧ s1.ants = s.ants := by
  unfold flatten_right at h
  have e : s.cons.start.2 = ([] : List Cons).length := rfl
  rw [e] at h
  cases hl : flatten_right_loop (prop_weight s.cons.seq + 1) s.cons.start.1
      ([] : List Cons).length true with
  | error e1 => rw [hl] at h; cases h
  | ok cs1 => rw [hl] at h; cases h; exact ⟨rfl, rfl⟩

/-- A flatten-left pass that returns leaves hashable antecedents, among them
the antecedents it steps over, and the consequents as they are. -/
theorem flatten_left_ok (s s1 : Sequent) (h : flatten_left s = .ok s1) :
    s1.cons = s.cons ∧
      ((∀ x ∈ s.ants.seq, hashable x = true) → ∀ x ∈ s1.ants.seq, hashable x = true) ∧
      flat_kept left_flat s.ants s1.ants ∧
      (s.ants.keys_in_seq → s1.ants.keys_in_seq) ∧ s1.ants.cur = s1.ants.seq.length := by
  obtain ⟨hl, hc⟩ := flatten_left_eq s s1 h
  obtain ⟨h1, h2, h3, h4⟩ :=
    flatten_left_loop_ok _ s.ants.start.1 [] s.ants.seq true s1.ants rfl rfl hl
  exact ⟨hc, h1, h2, h3, h4⟩

/-- A flatten-right pass that returns leaves hashable consequents, among them
the consequents it steps over, and the antecedents as they are. -/
theorem flatten_right_ok (s s1 : Sequent) (h : flatten_right s = .ok s1) :
    s1.ants = s.ants ∧
      ((∀ x ∈ s.cons.seq, hashable x = true) → ∀ x ∈ s1.cons.seq, hashable x = true) ∧
      flat_kept right_flat s.cons s1.cons ∧
      (s.cons.keys_in_seq → s1.cons.keys_in_seq) ∧ s1.cons.cur = s1.cons.seq.length := by
  obtain ⟨hl, hc⟩ := flatten_right_eq s s1 h
  obtain ⟨h1, h2, h3, h4⟩ :=
    flatten_right_loop_ok _ s.cons.start.1 [] s.cons.seq true s1.cons rfl rfl hl
  exact ⟨hc, h1, h2, h3, h4⟩

theorem flatten_left_prop_flat (as : Prop_list) (live : Bool) (c : Cons)
    (h : left_flat c = true) : flatten_left_prop as live c = advance as live := by
  cases c <;> simp [left_flat] at h <;> rfl

theorem flatten_right_prop_flat (cs : Prop_list) (live : Bool) (c : Cons)
    (h : right_flat c = true) : flatten_right_prop cs live c = advance cs live := by
  cases c <;> simp [right_flat] at h <;> rfl

/-- A flatten-left pass over propositions it steps over only moves the cursor
to the end. -/
theorem flatten_left_loop_flat : ∀ (rest : List Cons) (fuel : Nat) (as : Prop_list)
    (pre : List Cons), as.seq = pre ++ rest → as.cur = pre.length →
    (∀ x ∈ rest, left_flat x = true) → rest.length < fuel →
    flatten_left_loop fuel as pre.length true = .ok { as with cur := as.seq.length }
  | [], 0, _, _, _, _, _, h => by simp at h
  | [], fuel + 1, as, pre, hseq, hcur, _, _ => by
      have hs : as.seq = pre := by simpa using hseq
      rw [flatten_left_loop_done fuel as pre true hs]
      obtain ⟨m, sq, cu⟩ := as
      simp only at hs hcur ⊢
      subst hs
      subst hcur
      rfl
  | c :: post, 0, _, _, _, _, _, h => by simp at h
  | c :: post, fuel + 1, as, pre, hseq, hcur, hflat, hf => by
      rw [flatten_left_loop_unfold fuel as pre post c true hseq,
        flatten_left_prop_flat as true c (hflat c (List.mem_cons_self _ _)),
        advance_at as pre post c hseq hcur]
      simp only
      rw [flatten_left_loop_flat post fuel { as with cur := (pre ++ [c]).length } (pre ++ [c])
        (by simp [hseq]) rfl (fun x hx => hflat x (List.mem_cons_of_mem _ hx))
        (by simp only [List.length_cons] at hf; omega)]

/-- A flatten-right pass over propositions it steps over only moves the cursor
to the end. -/
theorem flatten_right_loop_flat : ∀ (rest : List Cons) (fuel : Nat) (cs : Prop_list)
    (pre : List Cons), cs.seq = pre ++ rest → cs.cur = pre.length →
    (∀ x ∈ rest, right_flat x = true) → rest.length < fuel →
    flatten_right_loop fuel cs pre.length true = .ok { cs with cur := cs.seq.length }
  | [], 0, _, _, _, _, _, h => by simp at h
  | [], fuel + 1, cs, pre, hseq, hcur, _, _ => by
      have hs : cs.seq = pre := by simpa using hseq
      rw [flatten_right_loop_done fuel cs pre true hs]
      obtain ⟨m, sq, cu⟩ := cs
      simp only at hs hcur ⊢
      subst hs
      subst hcur
      rfl
  | c :: post, 0, _, _, _, _, _, h => by simp at h
  | c :: post, fuel + 1, cs, pre, hseq, hcur, hflat, hf => by
      rw [flatten_right_loop_unfold fuel cs pre post c true hseq,
        flatten_right_prop_flat cs true c (hflat c (List.mem_cons_self _ _)),
        advance_at cs pre post c hseq hcur]
      simp only
      rw [flatten_right_loop_flat post fuel { cs with cur := (pre ++ [c]).length } (pre ++ [c])
        (by simp [hseq]) rfl (fun x hx => hflat x (List.mem_cons_of_mem _ hx))
        (by simp only [List.length_cons] at hf; omega)]

theorem length_le_prop_weight : ∀ l : List Cons, l.length ≤ prop_weight l
  | [] => Nat.le_refl _
  | c :: l => by
      have := Cons.size_pos c
      have := length_le_prop_weight l
      simp only [List.length_cons, prop_weight]
      omega

/-- A flatten pass over a single predicate or concept only moves the cursor. -/
theorem flatten_left_leaf (s : Sequent) (c : Cons) (hseq : s.ants.seq = [c])
    (hc : is_leaf c = true) :
    flatten_left s = .ok { s with ants := { s.ants with cur := 1 } } := by
  unfold flatten_left
  cases c <;> simp [is_leaf] at hc <;>
    simp [hseq, prop_weight, Cons.size, Prop_list.start, flatten_left_loop, flatten_left_prop,
      flatten_left_atom, advance, Prop_list.advance]

theorem flatten_right_leaf (s : Sequent) (c : Cons) (hseq : s.cons.seq = [c])
    (hc : is_leaf c = true) :
    flatten_right s = .ok { s with cons := { s.cons with cur := 1 } } := by
  unfold flatten_right
  cases c <;> simp [is_leaf] at hc <;>
    simp [hseq, prop_weight, Cons.size, Prop_list.start, flatten_right_loop, flatten_right_prop,
      flatten_right_atom, advance, Prop_list.advance]

/-! ## Validation -/

theorem validate_non_matching_loop_ne_valid (c : Cons) :
    ∀ (ants : List Cons) (r : Validation), r ≠ .valid_proof →
      validate_non_matching_loop c ants r ≠ .valid_proof
  | [], r, hr => by simpa [validate_non_matching_loop] using hr
  | a :: ants, r, hr => by
      rw [validate_non_matching_loop]
      unfold validate_non_matching
      by_cases h : (is_atomic a && is_atomic c) = true
      · rw [if_pos h]
        exact validate_non_matching_loop_ne_valid c ants _ hr
      · rw [if_neg h]
        exact validate_non_matching_loop_ne_valid c ants _ (by simp)

theorem validate_implication_list_has (as : Prop_list) (c : Cons) (h : as.has c) :
    validate_implication_list as c = .ok .valid_proof := by
  unfold validate_implication_list
  rw [h]

theorem validate_implication_list_hashable (as : Prop_list) (c : Cons)
    (hc : hashable c = true) :
    ∃ v, validate_implication_list as c = .ok v := by
  unfold validate_implication_list
  rw [contains_of_hashable as c hc]
  cases List.any as.map (is_equivalent c) <;> simp

/-- A sequent one of whose consequents is in the table of the antecedents
validates as valid. -/
theorem validate_obligation_loop_valid (as : Prop_list) :
    ∀ (cs : List Cons) (r : Validation), (∀ c ∈ cs, hashable c = true) →
      (∃ c ∈ cs, as.has c) → validate_obligation_loop as cs r = .ok .valid_proof
  | [], _, _, h => by simp at h
  | c :: cs, r, hall, hex => by
      rw [validate_obligation_loop]
      by_cases hc : as.has c
      · rw [validate_implication_list_has as c hc]
      · have hex1 : ∃ x ∈ cs, as.has x := by
          obtain ⟨x, hx, hh⟩ := hex
          rcases List.mem_cons.1 hx with h | h
          · subst h; exact absurd hh hc
          · exact ⟨x, h, hh⟩
        have hall1 : ∀ x ∈ cs, hashable x = true := fun x hx => hall x (List.mem_cons_of_mem _ hx)
        obtain ⟨v, hv⟩ := validate_implication_list_hashable as c (hall c (List.mem_cons_self _ _))
        rw [hv]
        cases v with
        | valid_proof => rfl
        | invalid_proof => exact validate_obligation_loop_valid as cs _ hall1 hex1
        | incomplete_proof => exact validate_obligation_loop_valid as cs _ hall1 hex1

/-- A single goal that validates as valid is discharged: the proof is valid and
the goal list empty. -/
theorem validate_proof_single_valid (s : Sequent)
    (h : validate_obligation s = .ok .valid_proof) :
    validate_proof [s] = .ok (.valid_proof, []) := by
  simp [validate_proof, validate_proof_loop, h, list_next]

/-- A single goal that validates as incomplete stays: the proof is
incomplete. -/
theorem validate_proof_single_incomplete (s : Sequent)
    (h : validate_obligation s = .ok .incomplete_proof) :
    validate_proof [s] = .ok (.incomplete_proof, [s]) := by
  simp [validate_proof, validate_proof_loop, h, list_next]

theorem Sequent_make_ok (a c : Cons) (ha : hashable a = true) (hc : hashable c = true) :
    Sequent.make a c = .ok { ants := ⟨[a], [a], 0⟩, cons := ⟨[c], [c], 0⟩ } := by
  obtain ⟨h1, hh1⟩ := (hashable_iff a).1 ha
  obtain ⟨h2, hh2⟩ := (hashable_iff c).1 hc
  simp [Sequent.make, Prop_list.insert, Prop_list.empty, hh1, hh2, list_insert]

theorem flatten_single (s : Sequent) :
    flatten [s] =
      match flatten_left s with
      | .error e => .error e
      | .ok s1 =>
        match flatten_right s1 with
        | .error e => .error e
        | .ok s2 => .ok [s2] := by
  simp only [flatten, flatten_rest]

/-- A round whose flatten pass leaves a single goal that validates as valid
ends the loop with the answer true. -/
theorem subsumes_loop_valid (cxt : Context) (k : Nat) (s s2 : Sequent)
    (hf : flatten [s] = .ok [s2]) (hv : validate_obligation s2 = .ok .valid_proof) :
    subsumes_loop cxt (k + 1) [s] = .ok true := by
  rw [subsumes_loop, hf]
  simp only
  rw [validate_proof_single_valid s2 hv]

/-- C2: `subsumes` is not sound on the propositional fragment.  At
`A = P1 ∨ P2` and `C = P1` it returns true: `expand_left` replaces the
antecedent `P1 ∨ P2` by the pair `P1, P2` without a new goal, and the next
round finds `P1` among the antecedents.  The truth assignment that makes
exactly `P2` true gives equivalent atoms equal values, satisfies `A` and does
not satisfy `C`. -/
theorem subsumes_unsound_left_disjunction :
    propositional (.Disjunction_cons (atom 1) (atom 2)) = true ∧
    propositional (atom 1) = true ∧
    subsumes no_concepts (.Disjunction_cons (atom 1) (atom 2)) (atom 1) = .ok true ∧
    (∀ e1 e2, is_equivalent_expr e1 e2 = true → only_true 2 e1 = only_true 2 e2) ∧
    holds (only_true 2) (.Disjunction_cons (atom 1) (atom 2)) = true ∧
    holds (only_true 2) (atom 1) = false := by
  refine ⟨rfl, rfl, rfl, ?_, rfl, rfl⟩
  intro e1 e2 h
  unfold only_true
  cases h1 : is_equivalent_expr e1 (.Reference_expr bool_type 2) with
  | true =>
    rw [is_equivalent_expr_symm] at h
    exact (is_equivalent_expr_trans _ _ _ h h1).symm
  | false =>
    cases h2 : is_equivalent_expr e2 (.Reference_expr bool_type 2) with
    | false => rfl
    | true => rw [is_equivalent_expr_trans _ _ _ h h2] at h1; cases h1

theorem subsumes_loop_incomplete_rounds (cxt : Context) :
    ∀ (k : Nat) (goals : Goal_list), incomplete_rounds cxt k goals = true →
      subsumes_loop cxt k goals = .error .unimplemented
  | 0, _, _ => rfl
  | k + 1, goals, h => by
      rw [incomplete_rounds] at h
      rw [subsumes_loop]
      cases hf : flatten goals with
      | error e => simp [hf] at h
      | ok goals1 =>
        simp only [hf] at h ⊢
        cases hv : validate_proof goals1 with
        | error e => simp [hv] at h
        | ok r =>
          obtain ⟨v, goals2⟩ := r
          cases v with
          | valid_proof => simp [hv] at h
          | invalid_proof => simp [hv] at h
          | incomplete_proof =>
            simp only [hv] at h ⊢
            cases he : expand cxt goals2 with
            | error e => simp [he] at h
            | ok goals3 =>
              simp only [he] at h ⊢
              exact subsumes_loop_incomplete_rounds cxt k goals3 h

/-- C6, as stated, fails: at `A = P1` and `C = P1 ∧ P2` every one of the 20
rounds ends with an incomplete validation, and `subsumes` does not return
false: the call ends in `lingo_unimplemented()`. -/
theorem subsumes_limit_counterexample :
    exceeds_limit 20 no_concepts (atom 1) (.Conjunction_cons (atom 1) (atom 2)) = true ∧
    subsumes no_concepts (atom 1) (.Conjunction_cons (atom 1) (atom 2))
      = .error .unimplemented :=
  ⟨rfl, rfl⟩

/-- C6 (amended): when the loop of `subsumes` runs its 20 rounds without any
validation having answered valid or invalid, `subsumes` returns no value: the
call ends in the fatal `lingo_unimplemented()`. -/
theorem subsumes_limit (cxt : Context) (a c : Cons)
    (h : exceeds_limit 20 cxt a c = true) :
    subsumes cxt a c = .error .unimplemented := by
  unfold exceeds_limit at h
  unfold subsumes subsumes_within
  cases hv : validate_implication a c with
  | valid_proof => simp [hv] at h
  | invalid_proof => simp [hv] at h
  | incomplete_proof =>
    simp only [hv] at h ⊢
    cases hs : Sequent.make a c with
    | error e => simp [hs] at h
    | ok s =>
      simp only [hs] at h ⊢
      exact subsumes_loop_incomplete_rounds cxt 20 [s] h

/-- C6 (amended) at `A = P1 ∨ P2` and `C = P3 ∧ P4`. -/
theorem subsumes_limit_witness :
    exceeds_limit 20 no_concepts (.Disjunction_cons (atom 1) (atom 2))
      (.Conjunction_cons (atom 3) (atom 4)) = true ∧
    subsumes no_concepts (.Disjunction_cons (atom 1) (atom 2))
      (.Conjunction_cons (atom 3) (atom 4)) = .error .unimplemented :=
  ⟨rfl, subsumes_limit no_concepts _ _ rfl⟩

/-! ## Concept expansion -/

theorem replace_single (c x : Cons) (cur : Nat) (hc : hashable c = true)
    (hx : hashable x = true) :
    Prop_list.replace ⟨[c], [c], cur⟩ 0 x = .ok (⟨[x], [x], cur⟩, 0, true) := by
  unfold Prop_list.replace
  have h := erase_of_hashable ⟨[c], [c], cur⟩ [] [] c rfl hc
  simp only [List.length_nil] at h
  rw [h]
  simp only
  rw [insert_at_of_hashable _ _ x hx]
  simp [is_equivalent_refl, list_insert]

theorem expand_single (cxt : Context) (s : Sequent) :
    expand cxt [s] =
      match expand_left cxt s with
      | .error e => .error e
      | .ok s1 => .ok [s1] := by
  simp only [expand]

/-- The flatten pass of a goal whose antecedent and consequent are a single
predicate or concept each only moves the cursors. -/
theorem flatten_leaves (a c : Cons) (ma mc : List Cons) (i j : Nat)
    (ha : is_leaf a = true) (hc : is_leaf c = true) :
    flatten [{ ants := ⟨ma, [a], i⟩, cons := ⟨mc, [c], j⟩ }]
      = .ok [{ ants := ⟨ma, [a], 1⟩, cons := ⟨mc, [c], 1⟩ }] := by
  rw [flatten_single, flatten_left_leaf _ a rfl ha]
  simp only
  rw [flatten_right_leaf _ c rfl hc]

/-- The validation of a goal with one antecedent that is a predicate and one
consequent that is a concept. -/
theorem validate_obligation_predicate_concept (d : Decl) (args : List Term) (e : Expr)
    (i j : Nat) (hc : hashable (.Concept_cons d args) = true) :
    validate_obligation { ants := ⟨[.Predicate_cons e], [.Predicate_cons e], i⟩,
                          cons := ⟨[.Concept_cons d args], [.Concept_cons d args], j⟩ }
      = .ok .incomplete_proof := by
  unfold validate_obligation
  simp only [validate_obligation_loop, validate_implication_list]
  rw [contains_of_hashable _ _ hc]
  simp [is_equivalent, validate_non_matching_list, validate_non_matching_loop,
    validate_non_matching, is_atomic]

/-- A round on `P ⊢ Concept(d, args)`, with the cursors past the elements:
nothing validates and nothing is expanded. -/
theorem subsumes_loop_predicate_concept (cxt : Context) (d : Decl) (args : List Term)
    (e : Expr) (hc : hashable (.Concept_cons d args) = true)
    (he : hashable (.Predicate_cons e) = true) :
    ∀ (k i j : Nat), subsumes_loop cxt k
        [{ ants := ⟨[.Predicate_cons e], [.Predicate_cons e], i⟩,
           cons := ⟨[.Concept_cons d args], [.Concept_cons d args], j⟩ }]
      = .error .unimplemented
  | 0, _, _ => rfl
  | k + 1, i, j => by
      rw [subsumes_loop,
        flatten_leaves (.Predicate_cons e) (.Concept_cons d args) _ _ _ _ rfl rfl]
      simp only
      rw [validate_proof_single_incomplete _
        (validate_obligation_predicate_concept d args e 1 1 hc)]
      simp only
      rw [expand_single]
      simp only [expand_left, min_element, min_element_loop, List.get?]
      exact subsumes_loop_predicate_concept cxt d args e hc he k 1 1

theorem validate_implication_predicate_concept (d : Decl) (args : List Term) (e : Expr) :
    validate_implication (.Predicate_cons e) (.Concept_cons d args) = .incomplete_proof := by
  simp [validate_implication, is_equivalent, validate_non_matching, is_atomic]

/-- The validation of a goal with one antecedent that is a concept and one
consequent that is a predicate or a concept not equivalent to it. -/
theorem validate_obligation_concept_leaf (d : Decl) (args : List Term) (n : Cons)
    (i j : Nat) (hn : hashable n = true)
    (hne : is_equivalent n (.Concept_cons d args) = false) :
    validate_obligation { ants := ⟨[.Concept_cons d args], [.Concept_cons d args], i⟩,
                          cons := ⟨[n], [n], j⟩ }
      = .ok .incomplete_proof := by
  unfold validate_obligation
  simp only [validate_obligation_loop, validate_implication_list]
  rw [contains_of_hashable _ _ hn]
  simp [hne, validate_non_matching_list, validate_non_matching_loop,
    validate_non_matching, is_atomic]

/-- The first round on `Concept(d, args) ⊢ N` with `N` a predicate or a concept
not equivalent to the antecedent: nothing validates, and the expansion replaces
the concept by its normalized definition `n`. -/
theorem subsumes_loop_concept_leaf_round (cxt : Context) (k : Nat) (d : Decl)
    (args : List Term) (c n : Cons) (hleaf : is_leaf c = true)
    (hexp : expand_concept cxt d args = .ok n)
    (hc : hashable (.Concept_cons d args) = true) (he : hashable c = true)
    (hn : hashable n = true) (hne : is_equivalent c (.Concept_cons d args) = false) :
    subsumes_loop cxt (k + 1)
        [{ ants := ⟨[.Concept_cons d args], [.Concept_cons d args], 0⟩,
           cons := ⟨[c], [c], 0⟩ }]
      = subsumes_loop cxt k [{ ants := ⟨[n], [n], 1⟩, cons := ⟨[c], [c], 1⟩ }] := by
  rw [subsumes_loop, flatten_leaves (.Concept_cons d args) c _ _ _ _ rfl hleaf]
  simp only
  rw [validate_proof_single_incomplete _ (validate_obligation_concept_leaf d args c 1 1 he hne)]
  simp only
  rw [expand_single]
  simp only [expand_left, min_element, min_element_loop, List.get?, hexp]
  rw [replace_single _ _ _ hc hn]

/-- C5 (counterexample): in the sample context the concept `E<>` is defined
as `P1`, so that `N = P1`, and `subsumes(N, Concept(E))` does not return
true: the consequent is never expanded, no round validates, and the call ends
in `lingo_unimplemented()` at the iteration limit.  The concept `D<int>` is
defined as `N = P1 ∧ P2`, and `subsumes(Concept(D, int), N)` does not return
true either: flatten-left splits the expansion into `P1, P2`, the consequent
`P1 ∧ P2` is kept whole, and no round validates. -/
theorem concept_transparency_counterexample :
    expand_concept sample_context 101 [] = .ok (atom 1) ∧
    subsumes sample_context (atom 1) (.Concept_cons 101 []) = .error .unimplemented ∧
    expand_concept sample_context 100 [.type int_type] =
      .ok (.Conjunction_cons (atom 1) (atom 2)) ∧
    subsumes sample_context (.Concept_cons 100 [.type int_type])
      (.Conjunction_cons (atom 1) (atom 2)) = .error .unimplemented :=
  ⟨rfl, rfl, rfl, rfl⟩

/-- C5 (amended): if the definition of the concept `D`, substituted with
`args` and normalized, is a predicate or a concept constraint `N`, and
`Concept(D, args)` and `N` have a hash code, then
`subsumes(Concept(D, args), N)` returns true, within two rounds of the loop;
when `N` is a predicate the converse query `subsumes(N, Concept(D, args))`
returns no value: consequents are not expanded, and the call ends in
`lingo_unimplemented()` at the iteration limit. -/
theorem concept_transparency (cxt : Context) (d : Decl) (args : List Term) (n : Cons)
    (hexp : expand_concept cxt d args = .ok n) (hleaf : is_leaf n = true)
    (hc : hashable (.Concept_cons d args) = true) (hn : hashable n = true) :
    subsumes cxt (.Concept_cons d args) n = .ok true ∧
    subsumes_within 2 cxt (.Concept_cons d args) n = .ok true ∧
    (∀ e, n = .Predicate_cons e →
      subsumes cxt n (.Concept_cons d args) = .error .unimplemented) := by
  have hfwd : ∀ k, subsumes_within (k + 2) cxt (.Concept_cons d args) n = .ok true := by
    intro k
    unfold subsumes_within
    cases heq : is_equivalent (.Concept_cons d args) n with
    | true => simp [validate_implication, heq]
    | false =>
      have hv : validate_implication (.Concept_cons d args) n = .incomplete_proof := by
        simp [validate_implication, heq, validate_non_matching, is_atomic]
      have hne : is_equivalent n (.Concept_cons d args) = false := by
        rw [is_equivalent_symm]; exact heq
      rw [hv, Sequent_make_ok _ _ hc hn]
      simp only
      rw [subsumes_loop_concept_leaf_round cxt (k + 1) d args n n hleaf hexp hc hn hn hne]
      apply subsumes_loop_valid cxt k _ { ants := ⟨[n], [n], 1⟩, cons := ⟨[n], [n], 1⟩ }
      · exact flatten_leaves _ _ _ _ _ _ hleaf hleaf
      · unfold validate_obligation
        exact validate_obligation_loop_valid _ _ _ (by simpa using hn)
          ⟨_, List.mem_cons_self _ _, has_of_mem _ _ hn (List.mem_cons_self _ _)⟩
  refine ⟨hfwd 18, hfwd 0, ?_⟩
  intro e hne
  subst hne
  unfold subsumes subsumes_within
  rw [validate_implication_predicate_concept, Sequent_make_ok _ _ hn hc]
  exact subsumes_loop_predicate_concept cxt d args e hc hn 20 0 0

/-- C5 (amended) at the concept `E<>` defined as `P1`, and at the concept `F<>`
defined as `E<>`. -/
theorem concept_transparency_witness :
    expand_concept sample_context 101 [] = .ok (atom 1) ∧
    hashable (.Concept_cons 101 []) = true ∧ hashable (atom 1) = true ∧
    subsumes sample_context (.Concept_cons 101 []) (atom 1) = .ok true ∧
    expand_concept alias_context 102 [] = .ok (.Concept_cons 101 []) ∧
    hashable (.Concept_cons 102 []) = true ∧
    subsumes alias_context (.Concept_cons 102 []) (.Concept_cons 101 []) = .ok true :=
  ⟨rfl, rfl, rfl,
   (concept_transparency sample_context 101 [] (atom 1) rfl rfl rfl rfl).1,
   rfl, rfl,
   (concept_transparency alias_context 102 [] (.Concept_cons 101 []) rfl rfl rfl rfl).1⟩

theorem get_qualified_type_exit (t : Type_) (q : Nat) :
    get_qualified_type t q ≠ .error .nontermination := by
  unfold get_qualified_type
  split
  · simp
  · split <;> simp

mutual
theorem substitute_type_exit (sub : Substitution) :
    ∀ t : Type_, substitute_type sub t ≠ .error .nontermination
  | .Void_type => by simp [substitute_type]
  | .Boolean_type => by simp [substitute_type]
  | .Integer_type _ _ => by simp [substitute_type]
  | .Float_type _ => by simp [substitute_type]
  | .Auto_type => by simp [substitute_type]
  | .Decltype_type => by simp [substitute_type]
  | .Declauto_type => by simp [substitute_type]
  | .Function_type ps r => by
      have h1 := substitute_type_list_exit sub ps
      have h2 := substitute_type_exit sub r
      simp only [substitute_type]
      cases hp : substitute_type_list sub ps with
      | error e => simp_all
      | ok v => cases hr : substitute_type sub r <;> simp_all
  | .Qualified_type t q => by
      have h1 := substitute_type_exit sub t
      simp only [substitute_type]
      cases ht : substitute_type sub t with
      | error e => simp_all
      | ok v => exact get_qualified_type_exit v q
  | .Pointer_type t => by
      have h1 := substitute_type_exit sub t
      simp only [substitute_type]
      cases ht : substitute_type sub t <;> simp_all
  | .Reference_type t => by
      have h1 := substitute_type_exit sub t
      simp only [substitute_type]
      cases ht : substitute_type sub t <;> simp_all
  | .Array_type _ _ => by simp [substitute_type]
  | .Sequence_type t => by
      have h1 := substitute_type_exit sub t
      simp only [substitute_type]
      cases ht : substitute_type sub t <;> simp_all
  | .Class_type _ => by simp [substitute_type]
  | .Union_type _ => by simp [substitute_type]
  | .Enum_type _ => by simp [substitute_type]
  | .Typename_type d => by
      simp only [substitute_type]
      split <;> simp
  | .Synthetic_type _ => by simp [substitute_type]
termination_by structural x => x
theorem substitute_type_list_exit (sub : Substitution) :
    ∀ ts : List Type_, substitute_type_list sub ts ≠ .error .nontermination
  | [] => by simp [substitute_type_list]
  | t :: ts => by
      have h1 := substitute_type_exit sub t
      have h2 := substitute_type_list_exit sub ts
      simp only [substitute_type_list]
      cases ht : substitute_type sub t with
      | error e => simp_all
      | ok v => cases hts : substitute_type_list sub ts <;> simp_all
termination_by structural x => x
end

mutual
theorem substitute_expr_exit (sub : Substitution) :
    ∀ e : Expr, substitute_expr sub e ≠ .error .nontermination
  | .Boolean_expr _ _ => by simp [substitute_expr]
  | .Integer_expr _ _ => by simp [substitute_expr]
  | .Reference_expr _ _ => by simp [substitute_expr]
  | .Unary_expr op _ a => by
      have h1 := substitute_expr_exit sub a
      cases op <;> simp only [substitute_expr] <;> try simp
      cases ha : substitute_expr sub a <;> simp_all
  | .Binary_expr op _ a b => by
      have h1 := substitute_expr_exit sub a
      have h2 := substitute_expr_exit sub b
      cases op <;> simp only [substitute_expr] <;> try simp
      all_goals
        cases ha : substitute_expr sub a with
        | error e => simp_all
        | ok va => cases hb : substitute_expr sub b <;> simp_all
  | .Call_expr _ f as => by
      have h1 := substitute_expr_exit sub f
      have h2 := substitute_expr_list_exit sub as
      simp only [substitute_expr]
      cases hf : substitute_expr sub f with
      | error e => simp_all
      | ok vf => cases ha : substitute_expr_list sub as <;> simp_all
  | .Conv _ _ _ => by simp [substitute_expr]
  | .Check_expr _ _ as => by
      have h1 := substitute_term_list_exit sub as
      simp only [substitute_expr]
      cases ha : substitute_term_list sub as <;> simp_all
  | .Requires_expr _ _ _ => by simp [substitute_expr]
  | .Synthetic_expr _ _ => by simp [substitute_expr]
termination_by structural x => x
theorem substitute_expr_list_exit (sub : Substitution) :
    ∀ es : List Expr, substitute_expr_list sub es ≠ .error .nontermination
  | [] => by simp [substitute_expr_list]
  | a :: as => by
      have h1 := substitute_expr_exit sub a
      have h2 := substitute_expr_list_exit sub as
      simp only [substitute_expr_list]
      cases ha : substitute_expr sub a with
      | error e => simp_all
      | ok v => cases has : substitute_expr_list sub as <;> simp_all
termination_by structural x => x
theorem substitute_term_exit (sub : Substitution) :
    ∀ t : Term, substitute_term sub t ≠ .error .nontermination
  | .type t => by
      have h1 := substitute_type_exit sub t
      simp only [substitute_term]
      cases ht : substitute_type sub t <;> simp_all
  | .expr a => by
      have h1 := substitute_expr_exit sub a
      simp only [substitute_term]
      cases ha : substitute_expr sub a <;> simp_all
termination_by structural x => x
theorem substitute_term_list_exit (sub : Substitution) :
    ∀ ts : List Term, substitute_term_list sub ts ≠ .error .nontermination
  | [] => by simp [substitute_term_list]
  | a :: as => by
      have h1 := substitute_term_exit sub a
      have h2 := substitute_term_list_exit sub as
      simp only [substitute_term_list]
      cases ha : substitute_term sub a with
      | error e => simp_all
      | ok v => cases has : substitute_term_list sub as <;> simp_all
termination_by structural x => x
end

theorem findIdx_any (p : Cons → Bool) : ∀ l : List Cons, l.any p = true →
    ∃ x, l.get? (l.findIdx p) = some x ∧ p x = true
  | [], h => by simp at h
  | a :: l, h => by
      rw [List.findIdx_cons]
      cases hp : p a with
      | true => exact ⟨a, by simp, hp⟩
      | false =>
        have : l.any p = true := by simpa [hp] using h
        obtain ⟨x, hx, hpx⟩ := findIdx_any p l this
        exact ⟨x, by simpa using hx, hpx⟩

theorem mem_of_get_some : ∀ (l : List Cons) (i : Nat) (x : Cons), l.get? i = some x → x ∈ l
  | [], _, _, h => by simp at h
  | a :: l, 0, x, h => by
      simp only [List.get?, Option.some.injEq] at h
      simp [h]
  | a :: l, i + 1, x, h => by
      simp only [List.get?] at h
      exact List.mem_cons_of_mem _ (mem_of_get_some l i x h)

theorem get_append_left (l t : List Cons) (i : Nat) (h : i < l.length) :
    (l ++ t).get? i = l.get? i := by
  induction l generalizing i with
  | nil => simp at h
  | cons a l ih =>
    cases i with
    | zero => rfl
    | succ n => simpa using ih n (by simpa using h)

theorem kind_equivalent (a b : Cons) (h : is_equivalent a b = true) : a.kind = b.kind := by
  cases a <;> cases b <;> simp_all [is_equivalent, Cons.kind]

/-- A call of `Hashed_unique_factory::make` returns an object equivalent to the
one described, keeps every object in place, and creates no object equivalent
to one of the factory. -/
theorem make_spec (f f1 : List Cons) (c : Cons) (i : Nat)
    (h : Hashed_unique_factory.make f c = .ok (i, f1)) :
    objects_kept f f1 ∧ (∃ x, f1.get? i = some x ∧ is_equivalent c x = true) ∧
    (distinct_objects f → distinct_objects f1) := by
  unfold Hashed_unique_factory.make at h
  cases hc : hash_value c with
  | error e => simp [hc] at h
  | ok hv =>
    simp only [hc] at h
    by_cases hany : f.any (key_equal hv c) = true
    · rw [if_pos hany] at h
      simp only [Except.ok.injEq, Prod.mk.injEq] at h
      obtain ⟨hi, hf⟩ := h
      subst hf
      obtain ⟨x, hx, hpx⟩ := findIdx_any _ f hany
      rw [key_equal_eq hv c x hc] at hpx
      exact ⟨fun _ _ h => h, ⟨x, by rw [← hi]; exact hx, hpx⟩, fun h => h⟩
    · rw [if_neg hany] at h
      simp only [Except.ok.injEq, Prod.mk.injEq] at h
      obtain ⟨hi, hf⟩ := h
      subst hf hi
      have hnew : ∀ x ∈ f, is_equivalent c x = false := by
        intro x hx
        cases he : is_equivalent c x with
        | false => rfl
        | true =>
          exfalso
          apply hany
          rw [List.any_eq_true]
          exact ⟨x, hx, by rw [key_equal_eq hv c x hc]; exact he⟩
      have hkept : objects_kept f (f ++ [c]) := by
        intro i x hx
        have hlt : i < f.length := by
          rcases Nat.lt_or_ge i f.length with h | h
          · exact h
          · rw [List.get?_eq_none.2 h] at hx; cases hx
        rw [get_append_left _ _ _ hlt]
        exact hx
      refine ⟨hkept, ⟨c, by simp, is_equivalent_refl c⟩, ?_⟩
      intro hd i j x y hx hy he
      have hcase : ∀ (n : Nat) (z : Cons), (f ++ [c]).get? n = some z →
          (n < f.length ∧ f.get? n = some z) ∨ (n = f.length ∧ z = c) := by
        intro n z hz
        rcases Nat.lt_or_ge n f.length with h | h
        · left; rw [get_append_left _ _ _ h] at hz; exact ⟨h, hz⟩
        · right
          rcases Nat.eq_or_lt_of_le h with h1 | h1
          · subst h1
            simp at hz
            exact ⟨rfl, hz.symm⟩
          · rw [List.get?_eq_none.2 (by simp; omega)] at hz; cases hz
      rcases hcase i x hx with ⟨hi, hxi⟩ | ⟨hi, hxc⟩ <;>
        rcases hcase j y hy with ⟨hj, hyj⟩ | ⟨hj, hyc⟩
      · exact hd i j x y hxi hyj he
      · subst hyc
        have := hnew x (mem_of_get_some _ _ _ hxi)
        rw [is_equivalent_symm, he] at this
        cases this
      · subst hxc
        have := hnew y (mem_of_get_some _ _ _ hyj)
        rw [he] at this
        cases this
      · omega

theorem distinct_objects_nil : distinct_objects [] := by
  intro i j x y hx
  simp at hx

/-- A call of a constraint maker returns an object of the factory of its
variant that is equivalent to the constraint described; every object stays in
place, and no factory gets two equivalent objects. -/
theorem call_spec (st st1 : Cons_factories) (m : Maker) (r : Interned)
    (h : m.call st = .ok (r, st1)) :
    r.factory = m.cons.kind ∧
    (∀ f, objects_kept (st.factory f) (st1.factory f)) ∧
    (∃ x, (st1.factory r.factory).get? r.index = some x ∧ is_equivalent m.cons x = true) ∧
    ((∀ f, distinct_objects (st.factory f)) → ∀ f, distinct_objects (st1.factory f)) := by
  cases m with
  | get_concept_constraint d ts =>
    simp only [Maker.call, get_concept_constraint] at h
    cases hm : Hashed_unique_factory.make st.concepts (.Concept_cons d ts) with
    | error e => simp [hm] at h
    | ok v =>
      obtain ⟨i, f1⟩ := v
      simp only [hm, Except.ok.injEq, Prod.mk.injEq] at h
      obtain ⟨hr, hst⟩ := h
      subst hr hst
      obtain ⟨hk, hx, hd⟩ := make_spec _ _ _ _ hm
      refine ⟨rfl, ?_, hx, ?_⟩
      · intro f
        match f with
        | 0 => exact hk
        | 1 => exact fun _ _ h => h
        | 2 => exact fun _ _ h => h
        | _ + 3 => exact fun _ _ h => h
      · intro hall f
        match f with
        | 0 => exact hd (hall 0)
        | 1 => exact hall 1
        | 2 => exact hall 2
        | n + 3 => exact hall (n + 3)
  | get_predicate_constraint e =>
    simp only [Maker.call, get_predicate_constraint] at h
    cases hm : Hashed_unique_factory.make st.predicates (.Predicate_cons e) with
    | error e => simp [hm] at h
    | ok v =>
      obtain ⟨i, f1⟩ := v
      simp only [hm, Except.ok.injEq, Prod.mk.injEq] at h
      obtain ⟨hr, hst⟩ := h
      subst hr hst
      obtain ⟨hk, hx, hd⟩ := make_spec _ _ _ _ hm
      refine ⟨rfl, ?_, hx, ?_⟩
      · intro f
        match f with
        | 0 => exact fun _ _ h => h
        | 1 => exact hk
        | 2 => exact fun _ _ h => h
        | _ + 3 => exact fun _ _ h => h
      · intro hall f
        match f with
        | 0 => exact hall 0
        | 1 => exact hd (hall 1)
        | 2 => exact hall 2
        | n + 3 => exact hall (n + 3)
  | get_conjunction_constraint c1 c2 =>
    simp only [Maker.call, get_conjunction_constraint] at h
    cases hm : Hashed_unique_factory.make st.conjunctions (.Conjunction_cons c1 c2) with
    | error e => simp [hm] at h
    | ok v =>
      obtain ⟨i, f1⟩ := v
      simp only [hm, Except.ok.injEq, Prod.mk.injEq] at h
      obtain ⟨hr, hst⟩ := h
      subst hr hst
      obtain ⟨hk, hx, hd⟩ := make_spec _ _ _ _ hm
      refine ⟨rfl, ?_, hx, ?_⟩
      · intro f
        match f with
        | 0 => exact fun _ _ h => h
        | 1 => exact fun _ _ h => h
        | 2 => exact hk
        | _ + 3 => exact fun _ _ h => h
      · intro hall f
        match f with
        | 0 => exact hall 0
        | 1 => exact hall 1
        | 2 => exact hd (hall 2)
        | n + 3 => exact hall (n + 3)
  | get_disjunction_constraint c1 c2 =>
    simp only [Maker.call, get_disjunction_constraint] at h
    cases hm : Hashed_unique_factory.make st.disjunctions (.Disjunction_cons c1 c2) with
    | error e => simp [hm] at h
    | ok v =>
      obtain ⟨i, f1⟩ := v
      simp only [hm, Except.ok.injEq, Prod.mk.injEq] at h
      obtain ⟨hr, hst⟩ := h
      subst hr hst
      obtain ⟨hk, hx, hd⟩ := make_spec _ _ _ _ hm
      refine ⟨rfl, ?_, hx, ?_⟩
      · intro f
        match f with
        | 0 => exact fun _ _ h => h
        | 1 => exact fun _ _ h => h
        | 2 => exact fun _ _ h => h
        | _ + 3 => exact hk
      · intro hall f
        match f with
        | 0 => exact hall 0
        | 1 => exact hall 1
        | 2 => exact hall 2
        | n + 3 => exact hd (hall 3)

/-- The objects a sequence of maker calls returns, in the final state. -/
theorem call_all_spec : ∀ (ms : List Maker) (st st2 : Cons_factories) (rs : List Interned),
    call_all st ms = .ok (rs, st2) → (∀ f, distinct_objects (st.factory f)) →
    (∀ f, distinct_objects (st2.factory f)) ∧
    (∀ f, objects_kept (st.factory f) (st2.factory f)) ∧
    ∀ i m r, ms.get? i = some m → rs.get? i = some r →
      r.factory = m.cons.kind ∧
      ∃ x, (st2.factory r.factory).get? r.index = some x ∧ is_equivalent m.cons x = true
  | [], st, st2, rs, h, hd => by
      simp only [call_all, Except.ok.injEq, Prod.mk.injEq] at h
      obtain ⟨h1, h2⟩ := h
      subst h1 h2
      exact ⟨hd, fun _ _ _ h => h, fun i m r hm => by simp at hm⟩
  | m0 :: ms, st, st2, rs, h, hd => by
      rw [call_all] at h
      cases hc : m0.call st with
      | error e => simp [hc] at h
      | ok v =>
        obtain ⟨r0, st1⟩ := v
        simp only [hc] at h
        cases hrest : call_all st1 ms with
        | error e => simp [hrest] at h
        | ok w =>
          obtain ⟨rs1, st3⟩ := w
          simp only [hrest, Except.ok.injEq, Prod.mk.injEq] at h
          obtain ⟨h1, h2⟩ := h
          subst h1 h2
          obtain ⟨hk0, hkept0, ⟨x0, hx0, he0⟩, hd1⟩ := call_spec st st1 m0 r0 hc
          obtain ⟨hd3, hkept3, hres⟩ := call_all_spec ms st1 st3 rs1 hrest (hd1 hd)
          refine ⟨hd3, fun f i x hx => hkept3 f i x (hkept0 f i x hx), ?_⟩
          intro i m r hm hr
          cases i with
          | zero =>
            simp only [List.get?] at hm hr
            cases hm
            cases hr
            exact ⟨hk0, x0, hkept3 _ _ _ hx0, he0⟩
          | succ n =>
            simp only [List.get?] at hm hr
            exact hres n m r hm hr

/-- C10: the constraint makers are canonical.  For every sequence of calls of
`get_concept_constraint`, `get_predicate_constraint`,
`get_conjunction_constraint` and `get_disjunction_constraint` that all return,
started before any constraint is made, two calls return the identical object
iff the constraints they describe are structurally equivalent, and no factory
ends up with two distinct equivalent objects: no call creates a second object
equivalent to one already interned. -/
theorem constraint_canonicalization (ms : List Maker) (rs : List Interned)
    (st : Cons_factories) (h : call_all Cons_factories.initial ms = .ok (rs, st)) :
    (∀ i j m1 m2 r1 r2, ms.get? i = some m1 → ms.get? j = some m2 →
      rs.get? i = some r1 → rs.get? j = some r2 →
      (r1 = r2 ↔ is_equivalent m1.cons m2.cons = true)) ∧
    (∀ f, distinct_objects (st.factory f)) := by
  have hinit : ∀ f, distinct_objects (Cons_factories.initial.factory f) := by
    intro f
    match f with
    | 0 => exact distinct_objects_nil
    | 1 => exact distinct_objects_nil
    | 2 => exact distinct_objects_nil
    | _ + 3 => exact distinct_objects_nil
  obtain ⟨hd, _, hres⟩ := call_all_spec ms _ st rs h hinit
  refine ⟨?_, hd⟩
  intro i j m1 m2 r1 r2 hm1 hm2 hr1 hr2
  obtain ⟨hk1, x1, hx1, he1⟩ := hres i m1 r1 hm1 hr1
  obtain ⟨hk2, x2, hx2, he2⟩ := hres j m2 r2 hm2 hr2
  constructor
  · intro heq
    subst heq
    rw [hx1] at hx2
    cases hx2
    rw [is_equivalent_symm] at he2
    exact is_equivalent_trans _ _ _ he1 he2
  · intro heq
    have hkind : r1.factory = r2.factory := by rw [hk1, hk2, kind_equivalent _ _ heq]
    have hx12 : is_equivalent x1 x2 = true := by
      have h1 : is_equivalent x1 m1.cons = true := by rw [is_equivalent_symm]; exact he1
      exact is_equivalent_trans _ _ _ (is_equivalent_trans _ _ _ h1 heq) he2
    rw [← hkind] at hx2
    have hidx := hd r1.factory r1.index r2.index x1 x2 hx1 hx2 hx12
    cases r1
    cases r2
    simp_all

/-- C10 at three calls: `get_predicate_constraint(P1)`,
`get_conjunction_constraint(P1, P2)` and `get_predicate_constraint(P1)` again,
whose expression differs from the first in its type only; the first and the
third call return the same object. -/
theorem constraint_canonicalization_witness :
    call_all Cons_factories.initial
      [.get_predicate_constraint (.Reference_expr bool_type 1),
       .get_conjunction_constraint (atom 1) (atom 2),
       .get_predicate_constraint (.Reference_expr int_type 1)]
      = .ok ([⟨1, 0⟩, ⟨2, 0⟩, ⟨1, 0⟩],
             { concepts := [], predicates := [atom 1],
               conjunctions := [.Conjunction_cons (atom 1) (atom 2)], disjunctions := [] }) ∧
    ((⟨1, 0⟩ : Interned) = ⟨1, 0⟩ ↔
      is_equivalent (Maker.get_predicate_constraint (.Reference_expr bool_type 1)).cons
        (Maker.get_predicate_constraint (.Reference_expr int_type 1)).cons = true) :=
  ⟨rfl, (constraint_canonicalization
      [.get_predicate_constraint (.Reference_expr bool_type 1),
       .get_conjunction_constraint (atom 1) (atom 2),
       .get_predicate_constraint (.Reference_expr int_type 1)]
      [⟨1, 0⟩, ⟨2, 0⟩, ⟨1, 0⟩]
      { concepts := [], predicates := [atom 1],
        conjunctions := [.Conjunction_cons (atom 1) (atom 2)], disjunctions := [] }
      rfl).1 0 2 _ _ _ _ rfl rfl rfl rfl⟩

/-! ## Qualified types -/

theorem get_qualified_type_of_qualified (t : Type_) (q qual : Qualifier_set) :
    get_qualified_type (.Qualified_type t q) qual = .ok (.Qualified_type t (q ||| qual)) := rfl

theorem get_qualified_type_of_unqualified (t : Type_) (qual : Qualifier_set)
    (ht : is_Qualified_type t = false) (hq : qual ≠ 0) :
    get_qualified_type t qual = .ok (.Qualified_type t qual) := by
  cases t <;> simp_all [get_qualified_type, is_Qualified_type]

theorem get_qualified_type_empty (t : Type_) (ht : is_Qualified_type t = false) :
    get_qualified_type t empty_qual = .error .undefined := by
  cases t <;> simp_all [get_qualified_type, is_Qualified_type, empty_qual]

theorem get_qualified_type_no_nested (t r : Type_) (qual : Qualifier_set)
    (ht : no_nested_qualified t = true) (h : get_qualified_type t qual = .ok r) :
    is_Qualified_type r = true ∧ is_Qualified_type (unqualified_type r) = false ∧
      no_nested_qualified r = true := by
  cases hq : is_Qualified_type t with
  | true =>
    cases t <;> simp [is_Qualified_type] at hq
    rename_i u q
    rw [get_qualified_type_of_qualified] at h
    cases h
    simp only [no_nested_qualified, Bool.and_eq_true, Bool.not_eq_true'] at ht
    refine ⟨rfl, ht.1, ?_⟩
    simp only [no_nested_qualified, ht.1, ht.2, Bool.not_false, Bool.and_self]
  | false =>
    by_cases h0 : qual = 0
    · subst h0
      have := get_qualified_type_empty t hq
      simp only [empty_qual] at this
      rw [this] at h
      cases h
    · rw [get_qualified_type_of_unqualified t qual hq h0] at h
      cases h
      refine ⟨rfl, hq, ?_⟩
      simp only [no_nested_qualified, hq, ht, Bool.not_false, Bool.and_self]

/-- C13 (counterexample): with `t` the type `const int` and `Q1 = Q2` the
volatile qualifier, `get_qualified_type(get_qualified_type(t, Q1), Q2)` is
`const volatile int`: its qualifier set is `total_qual` and not `Q1 ∪ Q2`,
which is `volatile_qual`.  With `t` the unqualified `int` and `Q1` empty the
first call fails the assertion of the constructor. -/
theorem qualifier_idempotence_counterexample :
    get_qualified_type (.Qualified_type int_type const_qual) volatile_qual =
        .ok (.Qualified_type int_type total_qual) ∧
      get_qualified_type (.Qualified_type int_type total_qual) volatile_qual =
        .ok (.Qualified_type int_type total_qual) ∧
      qualifier (.Qualified_type int_type total_qual) ≠ volatile_qual ||| volatile_qual ∧
      get_qualified_type int_type empty_qual = .error .undefined := by
  refine ⟨rfl, rfl, by decide, rfl⟩

/-- C13 (amended): for every type `t` and qualifier sets `Q1` and `Q2` such
that `t` is a qualified type or `Q1` is not empty, both calls of
`get_qualified_type(get_qualified_type(t, Q1), Q2)` return, and the result is
the qualified type whose inner type is the unqualified type of `t` and whose
qualifier set is the union of the qualifier set of `t`, `Q1` and `Q2`; this
set is `Q1 ∪ Q2` when `t` is not a qualified type. -/
theorem qualifier_idempotence (t : Type_) (q1 q2 : Qualifier_set)
    (h : is_Qualified_type t = true ∨ q1 ≠ empty_qual) :
    ∃ r1, get_qualified_type t q1 = .ok r1 ∧
      get_qualified_type r1 q2 =
        .ok (.Qualified_type (unqualified_type t) (qualifier t ||| q1 ||| q2)) ∧
      (is_Qualified_type t = false → qualifier t ||| q1 ||| q2 = q1 ||| q2) := by
  cases hq : is_Qualified_type t with
  | true =>
    cases t <;> simp [is_Qualified_type] at hq
    rename_i u q
    exact ⟨_, rfl, rfl, by simp⟩
  | false =>
    have h0 : q1 ≠ 0 := by
      rcases h with h | h
      · rw [hq] at h; cases h
      · exact h
    refine ⟨_, get_qualified_type_of_unqualified t q1 hq h0, ?_, fun _ => ?_⟩
    · have hu : unqualified_type t = t := by
        cases t <;> simp_all [unqualified_type, is_Qualified_type]
      have hz : qualifier t = 0 := by
        cases t <;> simp_all [qualifier, is_Qualified_type, empty_qual]
      rw [get_qualified_type_of_qualified, hu, hz, Nat.zero_or]
    · have hz : qualifier t = 0 := by
        cases t <;> simp_all [qualifier, is_Qualified_type, empty_qual]
      rw [hz, Nat.zero_or]

/-- C13 (amended) at `t = int`, `Q1` const and `Q2` volatile, and at
`t = const int` with `Q1 = Q2` volatile. -/
theorem qualifier_idempotence_witness :
    (∃ r1, get_qualified_type int_type const_qual = .ok r1 ∧
      get_qualified_type r1 volatile_qual =
        .ok (.Qualified_type (unqualified_type int_type)
          (qualifier int_type ||| const_qual ||| volatile_qual)) ∧
      (is_Qualified_type int_type = false →
        qualifier int_type ||| const_qual ||| volatile_qual = const_qual ||| volatile_qual)) ∧
    (∃ r1, get_qualified_type (.Qualified_type int_type const_qual) volatile_qual = .ok r1 ∧
      get_qualified_type r1 volatile_qual =
        .ok (.Qualified_type (unqualified_type (.Qualified_type int_type const_qual))
          (qualifier (.Qualified_type int_type const_qual) ||| volatile_qual ||| volatile_qual)) ∧
      (is_Qualified_type (.Qualified_type int_type const_qual) = false →
        qualifier (.Qualified_type int_type const_qual) ||| volatile_qual ||| volatile_qual
          = volatile_qual ||| volatile_qual)) :=
  ⟨qualifier_idempotence int_type const_qual volatile_qual (Or.inr (by decide)),
   qualifier_idempotence (.Qualified_type int_type const_qual) volatile_qual volatile_qual
     (Or.inl rfl)⟩

/-- C16: `get_qualified_type` does not reject a function type or an array
type.  For every function type and every array type and each of the three
non-empty qualifier sets the call returns the qualified type over that type,
and so do `get_const_type` and `get_volatile_type`: no call on such a type ends
in an assertion. -/
theorem get_qualified_type_function_or_array (ps : List Type_) (r t : Type_) (e : Expr) :
    get_qualified_type (.Function_type ps r) const_qual =
      .ok (.Qualified_type (.Function_type ps r) const_qual) ∧
    get_qualified_type (.Function_type ps r) volatile_qual =
      .ok (.Qualified_type (.Function_type ps r) volatile_qual) ∧
    get_qualified_type (.Function_type ps r) total_qual =
      .ok (.Qualified_type (.Function_type ps r) total_qual) ∧
    get_qualified_type (.Array_type t e) const_qual =
      .ok (.Qualified_type (.Array_type t e) const_qual) ∧
    get_qualified_type (.Array_type t e) volatile_qual =
      .ok (.Qualified_type (.Array_type t e) volatile_qual) ∧
    get_qualified_type (.Array_type t e) total_qual =
      .ok (.Qualified_type (.Array_type t e) total_qual) ∧
    get_const_type (.Function_type ps r) =
      .ok (.Qualified_type (.Function_type ps r) const_qual) ∧
    get_volatile_type (.Function_type ps r) =
      .ok (.Qualified_type (.Function_type ps r) volatile_qual) :=
  ⟨rfl, rfl, rfl, rfl, rfl, rfl, rfl, rfl⟩
/-! ## Types without nested qualified types -/

mutual
theorem build_no_nested : ∀ (m : Type_maker) (t : Type_),
    m.build = .ok t → no_nested_qualified t = true
  | .get_void_type, t, h => by cases h; rfl
  | .get_bool_type, t, h => by cases h; rfl
  | .get_integer_type _ _, t, h => by cases h; rfl
  | .get_int_type, t, h => by cases h; rfl
  | .get_uint_type, t, h => by cases h; rfl
  | .get_float_type, t, h => by cases h; rfl
  | .get_auto_type, t, h => by cases h; rfl
  | .get_decltype_type _, t, h => by cases h
  | .get_declauto_type, t, h => by cases h; rfl
  | .get_function_type ts r, t, h => by
      simp only [Type_maker.build] at h
      cases h1 : Type_maker.build_list ts with
      | error e => simp [h1] at h
      | ok ts1 =>
        cases h2 : r.build with
        | error e => simp [h1, h2] at h
        | ok r1 =>
          simp only [h1, h2, Except.ok.injEq] at h
          subst h
          simp only [no_nested_qualified, build_list_no_nested ts ts1 h1,
            build_no_nested r r1 h2, Bool.and_self]
  | .get_qualified_type m q, t, h => by
      simp only [Type_maker.build] at h
      cases h1 : m.build with
      | error e => simp [h1] at h
      | ok t1 =>
        simp only [h1] at h
        exact (get_qualified_type_no_nested t1 t q (build_no_nested m t1 h1) h).2.2
  | .get_const_type m, t, h => by
      simp only [Type_maker.build] at h
      cases h1 : m.build with
      | error e => simp [h1] at h
      | ok t1 =>
        simp only [h1] at h
        exact (get_qualified_type_no_nested t1 t _ (build_no_nested m t1 h1) h).2.2
  | .get_volatile_type m, t, h => by
      simp only [Type_maker.build] at h
      cases h1 : m.build with
      | error e => simp [h1] at h
      | ok t1 =>
        simp only [h1] at h
        exact (get_qualified_type_no_nested t1 t _ (build_no_nested m t1 h1) h).2.2
  | .get_pointer_type m, t, h => by
      simp only [Type_maker.build] at h
      cases h1 : m.build with
      | error e => simp [h1] at h
      | ok t1 =>
        simp only [h1, Except.ok.injEq] at h
        subst h
        simp only [no_nested_qualified, build_no_nested m t1 h1]
  | .get_reference_type m, t, h => by
      simp only [Type_maker.build] at h
      cases h1 : m.build with
      | error e => simp [h1] at h
      | ok t1 =>
        simp only [h1, Except.ok.injEq] at h
        subst h
        simp only [no_nested_qualified, build_no_nested m t1 h1]
  | .get_array_type _ _, t, h => by cases h
  | .get_sequence_type m, t, h => by
      simp only [Type_maker.build] at h
      cases h1 : m.build with
      | error e => simp [h1] at h
      | ok t1 =>
        simp only [h1, Except.ok.injEq] at h
        subst h
        simp only [no_nested_qualified, build_no_nested m t1 h1]
  | .get_class_type _, t, h => by cases h; rfl
  | .get_union_type _, t, h => by cases h
  | .get_enum_type _, t, h => by cases h
  | .get_typename_type _, t, h => by cases h; rfl
  | .synthesize_type _, t, h => by cases h; rfl
termination_by structural x => x
theorem build_list_no_nested : ∀ (ms : List Type_maker) (ts : List Type_),
    Type_maker.build_list ms = .ok ts → no_nested_qualified_list ts = true
  | [], ts, h => by cases h; rfl
  | m :: ms, ts, h => by
      simp only [Type_maker.build_list] at h
      cases h1 : m.build with
      | error e => simp [h1] at h
      | ok t1 =>
        cases h2 : Type_maker.build_list ms with
        | error e => simp [h1, h2] at h
        | ok ts1 =>
          simp only [h1, h2, Except.ok.injEq] at h
          subst h
          simp only [no_nested_qualified_list, build_no_nested m t1 h1,
            build_list_no_nested ms ts1 h2, Bool.and_self]
termination_by structural x => x
end

mutual
theorem substitute_type_no_nested (sub : Substitution)
    (hsub : Substitution.no_nested_qualified sub) : ∀ (t r : Type_),
    no_nested_qualified t = true → substitute_type sub t = .ok r →
    no_nested_qualified r = true
  | .Void_type, r, ht, h => by cases h; rfl
  | .Boolean_type, r, ht, h => by cases h; rfl
  | .Integer_type _ _, r, ht, h => by cases h; rfl
  | .Float_type _, r, ht, h => by cases h; rfl
  | .Auto_type, r, ht, h => by cases h
  | .Decltype_type, r, ht, h => by cases h
  | .Declauto_type, r, ht, h => by cases h
  | .Function_type ps x, r, ht, h => by
      simp only [substitute_type] at h
      simp only [no_nested_qualified, Bool.and_eq_true] at ht
      cases h1 : substitute_type_list sub ps with
      | error e => simp [h1] at h
      | ok ps1 =>
        cases h2 : substitute_type sub x with
        | error e => simp [h1, h2] at h
        | ok x1 =>
          simp only [h1, h2, Except.ok.injEq] at h
          subst h
          simp only [no_nested_qualified,
            substitute_type_list_no_nested sub hsub ps ps1 ht.1 h1,
            substitute_type_no_nested sub hsub x x1 ht.2 h2, Bool.and_self]
  | .Qualified_type x q, r, ht, h => by
      simp only [substitute_type] at h
      simp only [no_nested_qualified, Bool.and_eq_true] at ht
      cases h1 : substitute_type sub x with
      | error e => simp [h1] at h
      | ok x1 =>
        simp only [h1] at h
        exact (get_qualified_type_no_nested x1 r q
          (substitute_type_no_nested sub hsub x x1 ht.2 h1) h).2.2
  | .Pointer_type x, r, ht, h => by
      simp only [substitute_type] at h
      simp only [no_nested_qualified] at ht
      cases h1 : substitute_type sub x with
      | error e => simp [h1] at h
      | ok x1 =>
        simp only [h1, Except.ok.injEq] at h
        subst h
        simp only [no_nested_qualified, substitute_type_no_nested sub hsub x x1 ht h1]
  | .Reference_type x, r, ht, h => by
      simp only [substitute_type] at h
      simp only [no_nested_qualified] at ht
      cases h1 : substitute_type sub x with
      | error e => simp [h1] at h
      | ok x1 =>
        simp only [h1, Except.ok.injEq] at h
        subst h
        simp only [no_nested_qualified, substitute_type_no_nested sub hsub x x1 ht h1]
  | .Array_type _ _, r, ht, h => by cases h
  | .Sequence_type x, r, ht, h => by
      simp only [substitute_type] at h
      simp only [no_nested_qualified] at ht
      cases h1 : substitute_type sub x with
      | error e => simp [h1] at h
      | ok x1 =>
        simp only [h1, Except.ok.injEq] at h
        subst h
        simp only [no_nested_qualified, substitute_type_no_nested sub hsub x x1 ht h1]
  | .Class_type _, r, ht, h => by cases h; rfl
  | .Union_type _, r, ht, h => by cases h; rfl
  | .Enum_type _, r, ht, h => by cases h; rfl
  | .Typename_type d, r, ht, h => by
      simp only [substitute_type] at h
      cases h1 : Substitution.get_mapping sub d with
      | none => simp only [h1, Except.ok.injEq] at h; subst h; rfl
      | some a =>
        cases a with
        | type a => simp only [h1, Except.ok.injEq] at h; subst h; exact hsub d a h1
        | expr a => simp [h1] at h
  | .Synthetic_type _, r, ht, h => by cases h; rfl
termination_by structural x => x
theorem substitute_type_list_no_nested (sub : Substitution)
    (hsub : Substitution.no_nested_qualified sub) : ∀ (ts rs : List Type_),
    no_nested_qualified_list ts = true → substitute_type_list sub ts = .ok rs →
    no_nested_qualified_list rs = true
  | [], rs, ht, h => by cases h; rfl
  | t :: ts, rs, ht, h => by
      simp only [substitute_type_list] at h
      simp only [no_nested_qualified_list, Bool.and_eq_true] at ht
      cases h1 : substitute_type sub t with
      | error e => simp [h1] at h
      | ok t1 =>
        cases h2 : substitute_type_list sub ts with
        | error e => simp [h1, h2] at h
        | ok ts1 =>
          simp only [h1, h2, Except.ok.injEq] at h
          subst h
          simp only [no_nested_qualified_list,
            substitute_type_no_nested sub hsub t t1 ht.1 h1,
            substitute_type_list_no_nested sub hsub ts ts1 ht.2 h2, Bool.and_self]
termination_by structural x => x
end
/-! ## Substitution into types -/

/-- C17: substituting into a typename-type.  If the declaration of the type is
mapped by `sub` to a type, `substitute` returns exactly that type; if it is
mapped to a term that is not a type, the cast fails and nothing is returned;
if it has no mapping, `substitute` returns the typename-type itself.  On type
objects (last two parts): the object returned is the very object the
substitution maps to, or the typename-type object given, and no object is
created or changed. -/
theorem substitute_typename_type :
    (∀ (sub : Substitution) (d : Decl) (t : Type_), sub.get_mapping d = some (.type t) →
      substitute_type sub (.Typename_type d) = .ok t) ∧
    (∀ (sub : Substitution) (d : Decl) (e : Expr), sub.get_mapping d = some (.expr e) →
      substitute_type sub (.Typename_type d) = .error .undefined) ∧
    (∀ (sub : Substitution) (d : Decl), sub.has_mapping d = false →
      substitute_type sub (.Typename_type d) = .ok (.Typename_type d)) ∧
    (∀ (sub : Substitution_obj) (fuel : Nat) (ar : Arena) (t a : Type_ref) (d : Decl),
      ar.get? t = some (.Typename_type d) → sub.get_mapping d = some (some a) →
      substitute_obj sub (fuel + 1) ar t = .ok (a, ar)) ∧
    (∀ (sub : Substitution_obj) (fuel : Nat) (ar : Arena) (t : Type_ref) (d : Decl),
      ar.get? t = some (.Typename_type d) → sub.get_mapping d = none →
      substitute_obj sub (fuel + 1) ar t = .ok (t, ar)) := by
  refine ⟨fun sub d t h => ?_, fun sub d e h => ?_, fun sub d h => ?_,
    fun sub fuel ar t a d ht h => ?_, fun sub fuel ar t d ht h => ?_⟩
  · simp only [substitute_type, h]
  · simp only [substitute_type, h]
  · have hn : sub.get_mapping d = none := by
      simpa [Substitution.has_mapping] using h
    simp only [substitute_type, hn]
  · simp only [substitute_obj, ht, h]
  · simp only [substitute_obj, ht, h]

/-- C17 at the substitution that maps `T` to `int` and `N` to the literal
`0`: the typename-type of `T` becomes `int`, that of `N` is fatal, and that of
a third declaration is returned as it is; and on the arena of the examples,
where `T` is mapped to the object `const int`. -/
theorem substitute_typename_type_witness :
    substitute_type [(7, .type int_type), (8, .expr (.Integer_expr int_type 0))]
      (.Typename_type 7) = .ok int_type ∧
    substitute_type [(7, .type int_type), (8, .expr (.Integer_expr int_type 0))]
      (.Typename_type 8) = .error .undefined ∧
    substitute_type [(7, .type int_type), (8, .expr (.Integer_expr int_type 0))]
      (.Typename_type 9) = .ok (.Typename_type 9) ∧
    substitute_obj [(7, some 1)] (0 + 1) sample_arena 2 = .ok (1, sample_arena) ∧
    substitute_obj [(9, some 1)] (0 + 1) sample_arena 2 = .ok (2, sample_arena) :=
  ⟨substitute_typename_type.1
      [(7, .type int_type), (8, .expr (.Integer_expr int_type 0))] 7 int_type rfl,
   substitute_typename_type.2.1
      [(7, .type int_type), (8, .expr (.Integer_expr int_type 0))] 8 _ rfl,
   substitute_typename_type.2.2.1
      [(7, .type int_type), (8, .expr (.Integer_expr int_type 0))] 9 rfl,
   substitute_typename_type.2.2.2.1 [(7, some 1)] 0 sample_arena 2 1 7 rfl rfl,
   substitute_typename_type.2.2.2.2 [(9, some 1)] 0 sample_arena 2 7 rfl rfl⟩

mutual
theorem substitute_type_single (T : Decl) (a : Type_) : ∀ t : Type_,
    is_compound_of_typenames t = true →
    substitute_type (Substitution.single T a) t = .ok (replace_typename T a t)
  | .Void_type, h => rfl
  | .Boolean_type, h => rfl
  | .Integer_type _ _, h => rfl
  | .Float_type _, h => rfl
  | .Auto_type, h => by simp [is_compound_of_typenames] at h
  | .Decltype_type, h => by simp [is_compound_of_typenames] at h
  | .Declauto_type, h => by simp [is_compound_of_typenames] at h
  | .Function_type ps r, h => by
      simp only [is_compound_of_typenames, Bool.and_eq_true] at h
      simp only [substitute_type, replace_typename, substitute_type_list_single T a ps h.1,
        substitute_type_single T a r h.2]
  | .Qualified_type _ _, h => by simp [is_compound_of_typenames] at h
  | .Pointer_type t, h => by
      simp only [is_compound_of_typenames] at h
      simp only [substitute_type, replace_typename, substitute_type_single T a t h]
  | .Reference_type t, h => by
      simp only [is_compound_of_typenames] at h
      simp only [substitute_type, replace_typename, substitute_type_single T a t h]
  | .Array_type _ _, h => by simp [is_compound_of_typenames] at h
  | .Sequence_type t, h => by
      simp only [is_compound_of_typenames] at h
      simp only [substitute_type, replace_typename, substitute_type_single T a t h]
  | .Class_type _, h => by simp [is_compound_of_typenames] at h
  | .Union_type _, h => by simp [is_compound_of_typenames] at h
  | .Enum_type _, h => by simp [is_compound_of_typenames] at h
  | .Typename_type d, h => by
      by_cases hd : T = d
      · subst hd
        simp [substitute_type, replace_typename, Substitution.single, Substitution.get_mapping]
      · have hd2 : ¬ d = T := fun e => hd e.symm
        simp [substitute_type, replace_typename, Substitution.single, Substitution.get_mapping,
          hd, hd2]
  | .Synthetic_type _, h => by simp [is_compound_of_typenames] at h
termination_by structural x => x
theorem substitute_type_list_single (T : Decl) (a : Type_) : ∀ ts : List Type_,
    is_compound_of_typenames_list ts = true →
    substitute_type_list (Substitution.single T a) ts = .ok (replace_typename_list T a ts)
  | [], h => rfl
  | t :: ts, h => by
      simp only [is_compound_of_typenames_list, Bool.and_eq_true] at h
      simp only [substitute_type_list, replace_typename_list, substitute_type_single T a t h.1,
        substitute_type_list_single T a ts h.2]
termination_by structural x => x
end

/-- C18: substitution is a homomorphism on compound types.  For the
substitution `{T ↦ a}` and every type `t` built from typename-types, scalar
types, pointer, reference, sequence and function types, `substitute` returns
`t` with every occurrence of the typename-type of `T` replaced by `a` and all
other structure kept. -/
theorem substitution_homomorphism (T : Decl) (a t : Type_)
    (h : is_compound_of_typenames t = true) :
    substitute_type (Substitution.single T a) t = .ok (replace_typename T a t) :=
  substitute_type_single T a t h

/-- C18 at the scenario S2: `fn(ref(T), ptr(ptr(T))) -> int` becomes
`fn(ref(int), ptr(ptr(int))) -> int` under `{T ↦ int}`. -/
theorem substitution_homomorphism_witness :
    substitute_type (Substitution.single 7 int_type)
      (.Function_type
        [.Reference_type (.Typename_type 7), .Pointer_type (.Pointer_type (.Typename_type 7))]
        int_type) =
    .ok (.Function_type
        [.Reference_type int_type, .Pointer_type (.Pointer_type int_type)] int_type) :=
  substitution_homomorphism 7 int_type
    (.Function_type
      [.Reference_type (.Typename_type 7), .Pointer_type (.Pointer_type (.Typename_type 7))]
      int_type) rfl

/-! ## Hashing respects equivalence, on every sort -/

theorem hash_value_name_respects (a b : Name) (h : is_equivalent_name a b = true) :
    hash_value_name a = hash_value_name b := by
  cases a <;> cases b <;> simp_all [is_equivalent_name, hash_value_name]

/-- C12: hashing respects equivalence.  On names, types, expressions,
declarations and constraints, two structurally equivalent terms have the same
`hash_value`: the same code when the hash is defined on one of them, and
otherwise the same fatal exit on both. -/
theorem hashing_respects_equivalence :
    (∀ a b : Name, is_equivalent_name a b = true → hash_value_name a = hash_value_name b) ∧
    (∀ a b : Type_, is_equivalent_type a b = true → hash_value_type a = hash_value_type b) ∧
    (∀ a b : Expr, is_equivalent_expr a b = true → hash_value_expr a = hash_value_expr b) ∧
    (∀ a b : Decl, is_equivalent_decl a b = true → hash_value_decl a = hash_value_decl b) ∧
    (∀ a b : Cons, is_equivalent a b = true → hash_value a = hash_value b) := by
  refine ⟨hash_value_name_respects, hash_value_type_respects, hash_value_expr_respects,
    fun a b h => ?_, hash_value_respects⟩
  have : a = b := by simpa [is_equivalent_decl] using h
  rw [this]

/-- C12 at equivalent terms of each sort; the two expressions and the two
constraints are equivalent without being the same value, the expressions in
them carry different types. -/
theorem hashing_respects_equivalence_witness :
    hash_value_name (.Simple_id 3) = hash_value_name (.Simple_id 3) ∧
    hash_value_type (.Function_type [int_type] bool_type) =
      hash_value_type (.Function_type [int_type] bool_type) ∧
    hash_value_expr (.Reference_expr bool_type 1) = hash_value_expr (.Reference_expr int_type 1) ∧
    hash_value_decl 5 = hash_value_decl 5 ∧
    hash_value (.Conjunction_cons (atom 1) (.Predicate_cons (.Boolean_expr bool_type true))) =
      hash_value (.Conjunction_cons (.Predicate_cons (.Reference_expr int_type 1))
        (.Predicate_cons (.Boolean_expr int_type true))) :=
  ⟨hashing_respects_equivalence.1 _ _ rfl,
   hashing_respects_equivalence.2.1 _ _ rfl,
   hashing_respects_equivalence.2.2.1 _ _ rfl,
   hashing_respects_equivalence.2.2.2.1 _ _ rfl,
   hashing_respects_equivalence.2.2.2.2 _ _ rfl⟩

/-! ## Substitution into declarations -/

theorem get_concat_length (st : Decl_store) (x : Decl_object) :
    (st ++ [x]).get? st.length = some x := by
  induction st with
  | nil => rfl
  | cons a l ih => simp [ih]

theorem lt_of_get_some (st : Decl_store) (d : Decl) (x : Decl_object)
    (h : st.get? d = some x) : d < st.length := by
  by_contra hn
  rw [List.get?_eq_none.mpr (Nat.le_of_not_lt hn)] at h
  cases h

theorem substitute_decl_spec (sub : Substitution) (st : Decl_store) (d : Decl)
    (x : Decl_object) (t t1 : Type_) (hd : st.get? d = some x)
    (hc : x.cls = .Variable_decl ∨ x.cls = .Object_parm) (ht : x.type = some t)
    (h1 : substitute_type sub t = .ok t1) :
    ∃ x1, substitute_decl sub st d = .ok (st.length, st ++ [x1]) ∧
      x1.cls = x.cls ∧ x1.name = x.name ∧ x1.type = some t1 := by
  cases x with
  | Variable_decl o =>
    simp only [Decl_object.type, Option.some.injEq] at ht
    subst ht
    refine ⟨.Variable_decl (Object_decl.make o.first t1), ?_, rfl, rfl, rfl⟩
    simp only [substitute_decl, hd, h1, make_variable, Builder.make_decl]
  | Object_parm o =>
    simp only [Decl_object.type, Option.some.injEq] at ht
    subst ht
    refine ⟨.Object_parm (Object_decl.make o.first t1), ?_, rfl, rfl, rfl⟩
    simp only [substitute_decl, hd, h1, make_object_parm, Builder.make_decl]
  | _ => simp [Decl_object.cls] at hc

theorem substitute_decl_fatal (sub : Substitution) (st : Decl_store) (d : Decl)
    (x : Decl_object) (t : Type_) (e : Fatal) (hd : st.get? d = some x)
    (hc : x.cls = .Variable_decl ∨ x.cls = .Object_parm) (ht : x.type = some t)
    (h1 : substitute_type sub t = .error e) :
    substitute_decl sub st d = .error e := by
  cases x with
  | Variable_decl o =>
    simp only [Decl_object.type, Option.some.injEq] at ht
    subst ht
    simp only [substitute_decl, hd, h1]
  | Object_parm o =>
    simp only [Decl_object.type, Option.some.injEq] at ht
    subst ht
    simp only [substitute_decl, hd, h1]
  | _ => simp [Decl_object.cls] at hc

/-! ## Substitution into closed terms -/

theorem get_mapping_none_of_has_mapping (sub : Substitution) (d : Decl)
    (h : sub.has_mapping d = false) : sub.get_mapping d = none := by
  simpa [Substitution.has_mapping] using h

mutual
theorem substitute_type_closed (sub : Substitution) : ∀ t : Type_,
    is_substitutable_type t = true → occurs_in_type sub t = false →
    substitute_type sub t = .ok t
  | .Void_type, hs, ho => rfl
  | .Boolean_type, hs, ho => rfl
  | .Integer_type _ _, hs, ho => rfl
  | .Float_type _, hs, ho => rfl
  | .Auto_type, hs, ho => by simp [is_substitutable_type] at hs
  | .Decltype_type, hs, ho => by simp [is_substitutable_type] at hs
  | .Declauto_type, hs, ho => by simp [is_substitutable_type] at hs
  | .Function_type ps r, hs, ho => by
      simp only [is_substitutable_type, Bool.and_eq_true] at hs
      simp only [occurs_in_type, Bool.or_eq_false_iff] at ho
      simp only [substitute_type, substitute_type_list_closed sub ps hs.1 ho.1,
        substitute_type_closed sub r hs.2 ho.2]
  | .Qualified_type t q, hs, ho => by
      simp only [is_substitutable_type, Bool.and_eq_true, bne_iff_ne, ne_eq,
        Bool.not_eq_true'] at hs
      simp only [occurs_in_type] at ho
      simp only [substitute_type, substitute_type_closed sub t hs.2 ho]
      exact get_qualified_type_of_unqualified t q hs.1.2 hs.1.1
  | .Pointer_type t, hs, ho => by
      simp only [is_substitutable_type] at hs
      simp only [occurs_in_type] at ho
      simp only [substitute_type, substitute_type_closed sub t hs ho]
  | .Reference_type t, hs, ho => by
      simp only [is_substitutable_type] at hs
      simp only [occurs_in_type] at ho
      simp only [substitute_type, substitute_type_closed sub t hs ho]
  | .Array_type _ _, hs, ho => by simp [is_substitutable_type] at hs
  | .Sequence_type t, hs, ho => by
      simp only [is_substitutable_type] at hs
      simp only [occurs_in_type] at ho
      simp only [substitute_type, substitute_type_closed sub t hs ho]
  | .Class_type _, hs, ho => rfl
  | .Union_type _, hs, ho => rfl
  | .Enum_type _, hs, ho => rfl
  | .Typename_type d, hs, ho => by
      simp only [occurs_in_type] at ho
      simp only [substitute_type, get_mapping_none_of_has_mapping sub d ho]
  | .Synthetic_type _, hs, ho => rfl
termination_by structural x => x
theorem substitute_type_list_closed (sub : Substitution) : ∀ ts : List Type_,
    is_substitutable_type_list ts = true → occurs_in_type_list sub ts = false →
    substitute_type_list sub ts = .ok ts
  | [], hs, ho => rfl
  | t :: ts, hs, ho => by
      simp only [is_substitutable_type_list, Bool.and_eq_true] at hs
      simp only [occurs_in_type_list, Bool.or_eq_false_iff] at ho
      simp only [substitute_type_list, substitute_type_closed sub t hs.1 ho.1,
        substitute_type_list_closed sub ts hs.2 ho.2]
termination_by structural x => x
end

mutual
theorem substitute_expr_closed (sub : Substitution) : ∀ e : Expr,
    is_substitutable_expr e = true → occurs_in_expr sub e = false →
    ∃ e1, substitute_expr sub e = .ok e1 ∧ is_equivalent_expr e1 e = true
  | .Boolean_expr _ _, hs, ho => ⟨_, rfl, is_equivalent_expr_refl _⟩
  | .Integer_expr _ _, hs, ho => ⟨_, rfl, is_equivalent_expr_refl _⟩
  | .Reference_expr _ _, hs, ho => ⟨_, rfl, is_equivalent_expr_refl _⟩
  | .Unary_expr op ty a, hs, ho => by
      cases op with
      | Not_expr =>
        simp only [is_substitutable_expr] at hs
        simp only [occurs_in_expr, Bool.or_eq_false_iff] at ho
        obtain ⟨a1, h1, h2⟩ := substitute_expr_closed sub a hs ho.2
        refine ⟨.Unary_expr .Not_expr ty a1, by simp only [substitute_expr, h1], ?_⟩
        simp [is_equivalent_expr, h2]
      | _ => simp [is_substitutable_expr] at hs
  | .Binary_expr op ty a b, hs, ho => by
      cases op with
      | And_expr =>
        simp only [is_substitutable_expr, Bool.and_eq_true] at hs
        simp only [occurs_in_expr, Bool.or_eq_false_iff] at ho
        obtain ⟨a1, h1, h2⟩ := substitute_expr_closed sub a hs.1 ho.1.2
        obtain ⟨b1, h3, h4⟩ := substitute_expr_closed sub b hs.2 ho.2
        refine ⟨.Binary_expr .And_expr ty a1 b1, by simp only [substitute_expr, h1, h3], ?_⟩
        simp [is_equivalent_expr, h2, h4]
      | Or_expr =>
        simp only [is_substitutable_expr, Bool.and_eq_true] at hs
        simp only [occurs_in_expr, Bool.or_eq_false_iff] at ho
        obtain ⟨a1, h1, h2⟩ := substitute_expr_closed sub a hs.1 ho.1.2
        obtain ⟨b1, h3, h4⟩ := substitute_expr_closed sub b hs.2 ho.2
        refine ⟨.Binary_expr .Or_expr ty a1 b1, by simp only [substitute_expr, h1, h3], ?_⟩
        simp [is_equivalent_expr, h2, h4]
      | _ => simp [is_substitutable_expr] at hs
  | .Call_expr ty f as, hs, ho => by
      simp only [is_substitutable_expr, Bool.and_eq_true] at hs
      simp only [occurs_in_expr, Bool.or_eq_false_iff] at ho
      obtain ⟨f1, h1, h2⟩ := substitute_expr_closed sub f hs.1 ho.1.2
      obtain ⟨as1, h3, h4⟩ := substitute_expr_list_closed sub as hs.2 ho.2
      refine ⟨.Call_expr .Void_type f1 as1, by simp only [substitute_expr, h1, h3], ?_⟩
      simp [is_equivalent_expr, h2, h4]
  | .Conv _ _ _, hs, ho => by simp [is_substitutable_expr] at hs
  | .Check_expr ty d as, hs, ho => by
      simp only [is_substitutable_expr] at hs
      simp only [occurs_in_expr, Bool.or_eq_false_iff] at ho
      obtain ⟨as1, h3, h4⟩ := substitute_term_list_closed sub as hs ho.2
      refine ⟨.Check_expr .Boolean_type d as1, by simp only [substitute_expr, h3], ?_⟩
      simp [is_equivalent_expr, h4]
  | .Requires_expr _ _ _, hs, ho => by simp [is_substitutable_expr] at hs
  | .Synthetic_expr _ _, hs, ho => by simp [is_substitutable_expr] at hs
termination_by structural x => x
theorem substitute_expr_list_closed (sub : Substitution) : ∀ es : List Expr,
    is_substitutable_expr_list es = true → occurs_in_expr_list sub es = false →
    ∃ es1, substitute_expr_list sub es = .ok es1 ∧ is_equivalent_expr_list es1 es = true
  | [], hs, ho => ⟨[], rfl, rfl⟩
  | a :: as, hs, ho => by
      simp only [is_substitutable_expr_list, Bool.and_eq_true] at hs
      simp only [occurs_in_expr_list, Bool.or_eq_false_iff] at ho
      obtain ⟨a1, h1, h2⟩ := substitute_expr_closed sub a hs.1 ho.1
      obtain ⟨as1, h3, h4⟩ := substitute_expr_list_closed sub as hs.2 ho.2
      refine ⟨a1 :: as1, by simp only [substitute_expr_list, h1, h3], ?_⟩
      simp [is_equivalent_expr_list, h2, h4]
termination_by structural x => x
theorem substitute_term_closed (sub : Substitution) : ∀ t : Term,
    is_substitutable_term t = true → occurs_in_term sub t = false →
    ∃ t1, substitute_term sub t = .ok t1 ∧ is_equivalent_term t1 t = true
  | .type t, hs, ho => by
      simp only [is_substitutable_term] at hs
      simp only [occurs_in_term] at ho
      refine ⟨.type t, by simp only [substitute_term, substitute_type_closed sub t hs ho], ?_⟩
      simp [is_equivalent_term, is_equivalent_type_refl]
  | .expr e, hs, ho => by
      simp only [is_substitutable_term] at hs
      simp only [occurs_in_term] at ho
      obtain ⟨e1, h1, h2⟩ := substitute_expr_closed sub e hs ho
      refine ⟨.expr e1, by simp only [substitute_term, h1], ?_⟩
      simp [is_equivalent_term, h2]
termination_by structural x => x
theorem substitute_term_list_closed (sub : Substitution) : ∀ ts : List Term,
    is_substitutable_term_list ts = true → occurs_in_term_list sub ts = false →
    ∃ ts1, substitute_term_list sub ts = .ok ts1 ∧ is_equivalent_term_list ts1 ts = true
  | [], hs, ho => ⟨[], rfl, rfl⟩
  | a :: as, hs, ho => by
      simp only [is_substitutable_term_list, Bool.and_eq_true] at hs
      simp only [occurs_in_term_list, Bool.or_eq_false_iff] at ho
      obtain ⟨a1, h1, h2⟩ := substitute_term_closed sub a hs.1 ho.1
      obtain ⟨as1, h3, h4⟩ := substitute_term_list_closed sub as hs.2 ho.2
      refine ⟨a1 :: as1, by simp only [substitute_term_list, h1, h3], ?_⟩
      simp [is_equivalent_term_list, h2, h4]
termination_by structural x => x
end

mutual
theorem occurs_in_type_empty : ∀ t : Type_, occurs_in_type [] t = false
  | .Void_type => rfl
  | .Boolean_type => rfl
  | .Integer_type _ _ => rfl
  | .Float_type _ => rfl
  | .Auto_type => rfl
  | .Decltype_type => rfl
  | .Declauto_type => rfl
  | .Function_type ps r => by
      simp only [occurs_in_type, occurs_in_type_list_empty ps, occurs_in_type_empty r,
        Bool.or_self]
  | .Qualified_type t _ => by simp only [occurs_in_type, occurs_in_type_empty t]
  | .Pointer_type t => by simp only [occurs_in_type, occurs_in_type_empty t]
  | .Reference_type t => by simp only [occurs_in_type, occurs_in_type_empty t]
  | .Array_type t e => by
      simp only [occurs_in_type, occurs_in_type_empty t, occurs_in_expr_empty e, Bool.or_self]
  | .Sequence_type t => by simp only [occurs_in_type, occurs_in_type_empty t]
  | .Class_type _ => rfl
  | .Union_type _ => rfl
  | .Enum_type _ => rfl
  | .Typename_type _ => rfl
  | .Synthetic_type _ => rfl
termination_by structural x => x
theorem occurs_in_type_list_empty : ∀ ts : List Type_, occurs_in_type_list [] ts = false
  | [] => rfl
  | t :: ts => by
      simp only [occurs_in_type_list, occurs_in_type_empty t, occurs_in_type_list_empty ts,
        Bool.or_self]
termination_by structural x => x
theorem occurs_in_expr_empty : ∀ e : Expr, occurs_in_expr [] e = false
  | .Boolean_expr ty _ => by simp only [occurs_in_expr, occurs_in_type_empty ty]
  | .Integer_expr ty _ => by simp only [occurs_in_expr, occurs_in_type_empty ty]
  | .Reference_expr ty _ => by
      simp [occurs_in_expr, occurs_in_type_empty ty, Substitution.has_mapping,
        Substitution.get_mapping]
  | .Unary_expr _ ty a => by
      simp only [occurs_in_expr, occurs_in_type_empty ty, occurs_in_expr_empty a, Bool.or_self]
  | .Binary_expr _ ty a b => by
      simp only [occurs_in_expr, occurs_in_type_empty ty, occurs_in_expr_empty a,
        occurs_in_expr_empty b, Bool.or_self]
  | .Call_expr ty f as => by
      simp only [occurs_in_expr, occurs_in_type_empty ty, occurs_in_expr_empty f,
        occurs_in_expr_list_empty as, Bool.or_self]
  | .Conv _ ty a => by
      simp only [occurs_in_expr, occurs_in_type_empty ty, occurs_in_expr_empty a, Bool.or_self]
  | .Check_expr ty _ as => by
      simp [occurs_in_expr, occurs_in_type_empty ty, occurs_in_term_list_empty as,
        Substitution.has_mapping, Substitution.get_mapping]
  | .Requires_expr ty ps b => by
      simp [occurs_in_expr, occurs_in_type_empty ty, occurs_in_expr_empty b,
        Substitution.has_mapping, Substitution.get_mapping]
  | .Synthetic_expr ty _ => by
      simp [occurs_in_expr, occurs_in_type_empty ty, Substitution.has_mapping,
        Substitution.get_mapping]
termination_by structural x => x
theorem occurs_in_expr_list_empty : ∀ es : List Expr, occurs_in_expr_list [] es = false
  | [] => rfl
  | a :: as => by
      simp only [occurs_in_expr_list, occurs_in_expr_empty a, occurs_in_expr_list_empty as,
        Bool.or_self]
termination_by structural x => x
theorem occurs_in_term_empty : ∀ t : Term, occurs_in_term [] t = false
  | .type t => by simp only [occurs_in_term, occurs_in_type_empty t]
  | .expr e => by simp only [occurs_in_term, occurs_in_expr_empty e]
termination_by structural x => x
theorem occurs_in_term_list_empty : ∀ ts : List Term, occurs_in_term_list [] ts = false
  | [] => rfl
  | a :: as => by
      simp only [occurs_in_term_list, occurs_in_term_empty a, occurs_in_term_list_empty as,
        Bool.or_self]
termination_by structural x => x
end

/-- C20 (counterexample): with the empty substitution, `substitute` returns
no value on the auto type and on the sum `1 + 2` (`lingo_unimplemented()`),
nor on the type parameter `T` of the scenario S3; on the variable `v1` it
returns a new declaration, the fifth of the store, which is not the
declaration `v1` and so is not equivalent to it. -/
theorem substitution_fixpoint_counterexample :
    substitute_type [] .Auto_type = .error .unimplemented ∧
    substitute_expr []
      (.Binary_expr .Add_expr int_type (.Integer_expr int_type 1) (.Integer_expr int_type 2)) =
      .error .unimplemented ∧
    substitute_decl [] sample_store 0 = .error .unimplemented ∧
    substitute_decl [] sample_store 1 =
      .ok (4, sample_store ++
        [.Variable_decl (Object_decl.make (.Simple_id 1) (.Typename_type 0))]) ∧
    is_equivalent_decl 4 1 = false :=
  ⟨rfl, rfl, rfl, rfl, rfl⟩

/-- C20 (amended): the fixpoint of substitution on the closed terms it is
implemented on.  Let no parameter of `sub` occur in the term, which is the
case of every term when `sub` is empty.  For a type without auto, decltype,
declauto and array components, whose qualified components are well formed,
`substitute` returns a type with the same structure, equivalent to it.  For
an expression built from literals, references, logical not, and, or, calls
and concept checks over such types, `substitute` returns an equivalent
expression.  For a variable declaration or an object parameter with such a
type, `substitute` returns a new declaration of the same class, name and
type, which is not equivalent to the given one: declarations are equivalent
only to themselves. -/
theorem substitution_fixpoint :
    (∀ (sub : Substitution) (t : Type_), is_substitutable_type t = true →
      occurs_in_type sub t = false →
      ∃ r, substitute_type sub t = .ok r ∧ r = t ∧ is_equivalent_type r t = true) ∧
    (∀ (sub : Substitution) (e : Expr), is_substitutable_expr e = true →
      occurs_in_expr sub e = false →
      ∃ r, substitute_expr sub e = .ok r ∧ is_equivalent_expr r e = true) ∧
    (∀ (sub : Substitution) (st : Decl_store) (d : Decl) (x : Decl_object) (t : Type_),
      st.get? d = some x → (x.cls = .Variable_decl ∨ x.cls = .Object_parm) →
      x.type = some t → is_substitutable_type t = true → occurs_in_type sub t = false →
      ∃ d1 st1 x1, substitute_decl sub st d = .ok (d1, st1) ∧ st1.get? d1 = some x1 ∧
        is_equivalent_decl d1 d = false ∧
        x1.cls = x.cls ∧ x1.name = x.name ∧ x1.type = some t) ∧
    (∀ t : Type_, occurs_in_type [] t = false) ∧
    (∀ e : Expr, occurs_in_expr [] e = false) := by
  refine ⟨fun sub t hs ho => ⟨t, substitute_type_closed sub t hs ho, rfl,
      is_equivalent_type_refl t⟩,
    fun sub e hs ho => substitute_expr_closed sub e hs ho,
    fun sub st d x t hd hc ht hs ho => ?_, occurs_in_type_empty, occurs_in_expr_empty⟩
  obtain ⟨x1, h, h2⟩ :=
    substitute_decl_spec sub st d x t t hd hc ht (substitute_type_closed sub t hs ho)
  refine ⟨_, _, x1, h, get_concat_length st x1, ?_, h2⟩
  have hlt := lt_of_get_some st d x hd
  have hne : ¬ st.length = d := fun e => by rw [e] at hlt; exact Nat.lt_irrefl _ hlt
  simpa [is_equivalent_decl] using hne

/-- C20 (amended) under `{T ↦ int}` at the type `fn(ptr(U)) -> const int`, at
the concept check `C<U>() ∧ true` and at a variable `w : ptr(U)`, none of
which mentions `T`. -/
theorem substitution_fixpoint_witness :
    (∃ r, substitute_type (Substitution.single 0 int_type)
        (.Function_type [.Pointer_type (.Typename_type 5)]
          (.Qualified_type int_type const_qual)) = .ok r ∧
      r = .Function_type [.Pointer_type (.Typename_type 5)]
          (.Qualified_type int_type const_qual) ∧
      is_equivalent_type r (.Function_type [.Pointer_type (.Typename_type 5)]
          (.Qualified_type int_type const_qual)) = true) ∧
    (∃ r, substitute_expr (Substitution.single 0 int_type)
        (.Binary_expr .And_expr bool_type (.Check_expr bool_type 9 [.type (.Typename_type 5)])
          (.Boolean_expr bool_type true)) = .ok r ∧
      is_equivalent_expr r
        (.Binary_expr .And_expr bool_type (.Check_expr bool_type 9 [.type (.Typename_type 5)])
          (.Boolean_expr bool_type true)) = true) ∧
    (∃ d1 st1 x1, substitute_decl (Substitution.single 0 int_type)
        [.Variable_decl (Object_decl.make (.Simple_id 4) (.Pointer_type (.Typename_type 5)))] 0 =
        .ok (d1, st1) ∧ st1.get? d1 = some x1 ∧ is_equivalent_decl d1 0 = false ∧
        x1.cls = .Variable_decl ∧ x1.name = .Simple_id 4 ∧
        x1.type = some (.Pointer_type (.Typename_type 5))) :=
  ⟨substitution_fixpoint.1 (Substitution.single 0 int_type) _ rfl rfl,
   substitution_fixpoint.2.1 (Substitution.single 0 int_type) _ rfl rfl,
   substitution_fixpoint.2.2.1 (Substitution.single 0 int_type)
     [.Variable_decl (Object_decl.make (.Simple_id 4) (.Pointer_type (.Typename_type 5)))] 0
     (.Variable_decl (Object_decl.make (.Simple_id 4) (.Pointer_type (.Typename_type 5))))
     (.Pointer_type (.Typename_type 5)) rfl (Or.inl rfl) rfl rfl rfl⟩

/-! ## The arena of type objects -/

theorem get_some_append {α : Type} : ∀ (l t : List α) (i : Nat) (x : α),
    l.get? i = some x → (l ++ t).get? i = some x
  | [], t, i, x, h => by cases h
  | a :: l, t, 0, x, h => by simpa using h
  | a :: l, t, i + 1, x, h => by
      have := get_some_append l t i x (by simpa using h)
      simpa using this

theorem get_set_ne {α : Type} : ∀ (l : List α) (t i : Nat) (v : α), t ≠ i →
    (l.set t v).get? i = l.get? i
  | [], t, i, v, h => rfl
  | a :: l, 0, 0, v, h => absurd rfl h
  | a :: l, 0, i + 1, v, h => rfl
  | a :: l, t + 1, 0, v, h => rfl
  | a :: l, t + 1, i + 1, v, h => by
      have := get_set_ne l t i v (fun e => h (by rw [e]))
      simpa using this

theorem get_set_eq {α : Type} : ∀ (l : List α) (t : Nat) (v x : α), l.get? t = some x →
    (l.set t v).get? t = some v
  | [], t, v, x, h => by cases h
  | a :: l, 0, v, x, h => rfl
  | a :: l, t + 1, v, x, h => by
      have := get_set_eq l t v x (by simpa using h)
      simpa using this

theorem Type_node.widened_trans {a b c : Type_node} (h1 : a.widened b) (h2 : b.widened c) :
    a.widened c := by
  rcases h1 with h1 | ⟨ty, q, q1, ha, hb⟩
  · rw [h1] at h2; exact h2
  · rcases h2 with h2 | ⟨ty2, q2, q3, hb2, hc⟩
    · rw [h2]; exact Or.inr ⟨ty, q, q1, ha, hb⟩
    · rw [hb] at hb2
      cases hb2
      exact Or.inr ⟨ty, q, q1 ||| q3, ha, by rw [hc, Nat.lor_assoc]⟩

theorem Arena.kept_refl (ar : Arena) : ar.kept ar :=
  ⟨Nat.le_refl _, fun i n h => ⟨n, h, Or.inl rfl⟩⟩

theorem Arena.kept_trans {a b c : Arena} (h1 : a.kept b) (h2 : b.kept c) : a.kept c := by
  refine ⟨Nat.le_trans h1.1 h2.1, fun i n h => ?_⟩
  obtain ⟨n1, hn1, hw1⟩ := h1.2 i n h
  obtain ⟨n2, hn2, hw2⟩ := h2.2 i n1 hn1
  exact ⟨n2, hn2, Type_node.widened_trans hw1 hw2⟩

theorem Arena.kept_of_unchanged {a b : Arena} (hl : a.length ≤ b.length) (h : a.unchanged b) :
    a.kept b :=
  ⟨hl, fun i n hi => ⟨n, h i n hi, Or.inl rfl⟩⟩

theorem make_type_cases (ar : Arena) (n : Type_node) :
    (n ∈ ar ∧ Builder.make_type ar n = (ar.indexOf n, ar)) ∨
    (n ∉ ar ∧ Builder.make_type ar n = (ar.length, ar ++ [n])) := by
  by_cases h : n ∈ ar
  · exact Or.inl ⟨h, by simp [Builder.make_type, h]⟩
  · exact Or.inr ⟨h, by simp [Builder.make_type, h]⟩

theorem make_type_unchanged (ar : Arena) (n : Type_node) :
    ar.length ≤ (Builder.make_type ar n).2.length ∧ ar.unchanged (Builder.make_type ar n).2 := by
  rcases make_type_cases ar n with ⟨_, h⟩ | ⟨_, h⟩
  · rw [h]; exact ⟨Nat.le_refl _, fun i x hi => hi⟩
  · rw [h]; exact ⟨by simp, fun i x hi => get_some_append ar [n] i x hi⟩

theorem make_type_kept (ar : Arena) (n : Type_node) : ar.kept (Builder.make_type ar n).2 :=
  Arena.kept_of_unchanged (make_type_unchanged ar n).1 (make_type_unchanged ar n).2

theorem make_type_kept_eq (ar ar1 : Arena) (n : Type_node) (r : Type_ref)
    (h : Builder.make_type ar n = (r, ar1)) : ar.kept ar1 := by
  have := make_type_kept ar n
  rw [h] at this
  exact this

theorem get_qualified_type_not_qualified (ar : Arena) (t : Type_ref) (qual : Qualifier_set)
    (n : Type_node) (hn : ar.get? t = some n) (hq : ∀ ty q, n ≠ .Qualified_type ty q) :
    Builder.get_qualified_type ar t qual =
      if qual = empty_qual then .error .undefined
      else .ok (Builder.make_type ar (.Qualified_type t qual)) := by
  cases n <;> first
    | exact absurd rfl (hq _ _)
    | simp only [Builder.get_qualified_type, hn]

theorem get_qualified_type_qualified (ar : Arena) (t ty : Type_ref) (q qual : Qualifier_set)
    (hn : ar.get? t = some (.Qualified_type ty q)) :
    Builder.get_qualified_type ar t qual =
      .ok (t, ar.set t (.Qualified_type ty (q ||| qual))) := by
  simp only [Builder.get_qualified_type, hn]

theorem get_qualified_type_kept (ar ar1 : Arena) (t r : Type_ref) (qual : Qualifier_set)
    (h : Builder.get_qualified_type ar t qual = .ok (r, ar1)) : ar.kept ar1 := by
  cases hn : ar.get? t with
  | none =>
    simp only [Builder.get_qualified_type, hn] at h
    cases h
  | some n =>
    by_cases hq : ∃ ty q, n = .Qualified_type ty q
    · obtain ⟨ty, q, rfl⟩ := hq
      rw [get_qualified_type_qualified ar t ty q qual hn] at h
      simp only [Except.ok.injEq, Prod.mk.injEq] at h
      obtain ⟨_, rfl⟩ := h
      refine ⟨by simp, fun i x hi => ?_⟩
      by_cases hti : t = i
      · subst hti
        rw [hn] at hi
        cases hi
        exact ⟨_, get_set_eq _ _ _ _ hn, Or.inr ⟨ty, q, qual, rfl, rfl⟩⟩
      · exact ⟨x, by rw [get_set_ne _ _ _ _ hti]; exact hi, Or.inl rfl⟩
    · rw [get_qualified_type_not_qualified ar t qual n hn
        (fun ty q e => hq ⟨ty, q, e⟩)] at h
      by_cases h0 : qual = empty_qual
      · simp [h0] at h
      · simp only [h0, if_false, Except.ok.injEq] at h
        exact make_type_kept_eq ar ar1 _ r h

theorem get_qualified_type_unchanged (ar ar1 : Arena) (t r : Type_ref) (qual : Qualifier_set)
    (n : Type_node) (hn : ar.get? t = some n) (hq : ∀ ty q, n ≠ .Qualified_type ty q)
    (h : Builder.get_qualified_type ar t qual = .ok (r, ar1)) : ar.unchanged ar1 := by
  rw [get_qualified_type_not_qualified ar t qual n hn hq] at h
  by_cases h0 : qual = empty_qual
  · simp [h0] at h
  · simp only [h0, if_false, Except.ok.injEq] at h
    have := (make_type_unchanged ar (.Qualified_type t qual)).2
    rw [h] at this
    exact this

theorem run_kept (c : Type_call) (ar ar1 : Arena) (r : Type_ref)
    (h : c.run ar = .ok (r, ar1)) : ar.kept ar1 := by
  cases c <;> simp only [Type_call.run] at h <;> first
    | exact make_type_kept_eq ar ar1 _ r (Except.ok.inj h)
    | exact get_qualified_type_kept ar ar1 _ r _ h
    | cases h

theorem run_all_kept : ∀ (cs : List Type_call) (ar ar1 : Arena) (rs : List Type_ref),
    Type_call.run_all ar cs = .ok (rs, ar1) → ar.kept ar1
  | [], ar, ar1, rs, h => by
      simp only [Type_call.run_all, Except.ok.injEq, Prod.mk.injEq] at h
      rw [← h.2]
      exact Arena.kept_refl ar
  | c :: cs, ar, ar1, rs, h => by
      simp only [Type_call.run_all] at h
      cases h1 : c.run ar with
      | error e => simp [h1] at h
      | ok p =>
        obtain ⟨r, ar2⟩ := p
        cases h2 : Type_call.run_all ar2 cs with
        | error e => simp [h1, h2] at h
        | ok p2 =>
          obtain ⟨rs2, ar3⟩ := p2
          simp only [h1, h2, Except.ok.injEq, Prod.mk.injEq] at h
          rw [← h.2]
          exact Arena.kept_trans (run_kept c ar ar2 r h1) (run_all_kept cs ar2 ar3 rs2 h2)
theorem substitute_obj_list_kept (f : Arena → Type_ref → Except Fatal (Type_ref × Arena))
    (hf : ∀ ar t r ar1, f ar t = .ok (r, ar1) → ar.kept ar1) :
    ∀ (ts : List Type_ref) (ar ar1 : Arena) (rs : List Type_ref),
    substitute_obj_list f ar ts = .ok (rs, ar1) → ar.kept ar1
  | [], ar, ar1, rs, h => by
      simp only [substitute_obj_list, Except.ok.injEq, Prod.mk.injEq] at h
      rw [← h.2]
      exact Arena.kept_refl ar
  | t :: ts, ar, ar1, rs, h => by
      simp only [substitute_obj_list] at h
      cases h1 : f ar t with
      | error e => simp [h1] at h
      | ok p =>
        obtain ⟨r, ar2⟩ := p
        cases h2 : substitute_obj_list f ar2 ts with
        | error e => simp [h1, h2] at h
        | ok p2 =>
          obtain ⟨rs2, ar3⟩ := p2
          simp only [h1, h2, Except.ok.injEq, Prod.mk.injEq] at h
          rw [← h.2]
          exact Arena.kept_trans (hf ar t r ar2 h1)
            (substitute_obj_list_kept f hf ts ar2 ar3 rs2 h2)

theorem substitute_obj_unary (f : Arena → Type_ref → Except Fatal (Type_ref × Arena))
    (hf : ∀ ar t r ar1, f ar t = .ok (r, ar1) → ar.kept ar1)
    (g : Type_ref → Type_node) (ar ar1 : Arena) (x r : Type_ref)
    (h : (match f ar x with
      | .error e => .error e
      | .ok (s, ar2) => .ok (Builder.make_type ar2 (g s))) = Except.ok (r, ar1)) :
    ar.kept ar1 := by
  cases h1 : f ar x with
  | error e => simp [h1] at h
  | ok p =>
    obtain ⟨s, ar2⟩ := p
    simp only [h1, Except.ok.injEq] at h
    exact Arena.kept_trans (hf ar x s ar2 h1) (make_type_kept_eq ar2 ar1 _ r h)

theorem substitute_obj_kept (sub : Substitution_obj) :
    ∀ (fuel : Nat) (ar : Arena) (t r : Type_ref) (ar1 : Arena),
    substitute_obj sub fuel ar t = .ok (r, ar1) → ar.kept ar1
  | 0, ar, t, r, ar1, h => by simp [substitute_obj] at h
  | fuel + 1, ar, t, r, ar1, h => by
      have ih := substitute_obj_kept sub fuel
      simp only [substitute_obj] at h
      cases hn : ar.get? t with
      | none => simp only [hn] at h; cases h
      | some n =>
        simp only [hn] at h
        cases n with
        | Auto_type => cases h
        | Decltype_type => cases h
        | Declauto_type => cases h
        | Array_type x => cases h
        | Function_type ps x =>
          simp only at h
          cases h1 : substitute_obj_list (substitute_obj sub fuel) ar ps with
          | error e => simp [h1] at h
          | ok p =>
            obtain ⟨ps1, ar2⟩ := p
            cases h2 : substitute_obj sub fuel ar2 x with
            | error e => simp [h1, h2] at h
            | ok p2 =>
              obtain ⟨x1, ar3⟩ := p2
              simp only [h1, h2, Except.ok.injEq] at h
              exact Arena.kept_trans
                (substitute_obj_list_kept _ ih ps ar ar2 ps1 h1)
                (Arena.kept_trans (ih ar2 x x1 ar3 h2)
                  (make_type_kept_eq ar3 ar1 _ r h))
        | Reference_type x =>
          exact substitute_obj_unary _ ih Type_node.Reference_type ar ar1 x r h
        | Pointer_type x =>
          exact substitute_obj_unary _ ih Type_node.Pointer_type ar ar1 x r h
        | Sequence_type x =>
          exact substitute_obj_unary _ ih Type_node.Sequence_type ar ar1 x r h
        | Qualified_type x q =>
          simp only at h
          cases h1 : substitute_obj sub fuel ar x with
          | error e => simp [h1] at h
          | ok p =>
            obtain ⟨s, ar2⟩ := p
            simp only [h1] at h
            cases h2 : ar2.qualifier t with
            | none => simp [h2] at h
            | some q2 =>
              simp only [h2] at h
              exact Arena.kept_trans (ih ar x s ar2 h1)
                (get_qualified_type_kept ar2 ar1 s r q2 h)
        | Typename_type d =>
          simp only at h
          cases h1 : sub.get_mapping d with
          | none =>
            simp only [h1, Except.ok.injEq, Prod.mk.injEq] at h
            rw [← h.2]; exact Arena.kept_refl ar
          | some a =>
            cases a with
            | none => simp [h1] at h
            | some a =>
              simp only [h1, Except.ok.injEq, Prod.mk.injEq] at h
              rw [← h.2]; exact Arena.kept_refl ar
        | _ =>
          simp only [Except.ok.injEq, Prod.mk.injEq] at h
          rw [← h.2]; exact Arena.kept_refl ar

/-! ## Canonical integer types -/

theorem indexOf_concat (n : Type_node) : ∀ ar : Arena, n ∉ ar →
    (ar ++ [n]).indexOf n = ar.length
  | [], h => by simp
  | a :: l, h => by
      have h1 : a ≠ n := fun e => h (by rw [e]; exact List.mem_cons_self _ _)
      have h2 : n ∉ l := fun e => h (List.mem_cons_of_mem _ e)
      have := indexOf_concat n l h2
      simp only [List.cons_append, List.length_cons]
      rw [List.indexOf_cons_ne _ h1, this]

theorem get_indexOf (n : Type_node) : ∀ ar : Arena, n ∈ ar →
    ar.get? (ar.indexOf n) = some n
  | [], h => by cases h
  | a :: l, h => by
      by_cases h1 : a = n
      · subst h1; simp
      · have h2 : n ∈ l := by
          rcases List.mem_cons.mp h with e | e
          · exact absurd e.symm h1
          · exact e
        rw [List.indexOf_cons_ne _ h1]
        simpa using get_indexOf n l h2

theorem make_type_index (ar : Arena) (n : Type_node) :
    n ∈ (Builder.make_type ar n).2 ∧
    (Builder.make_type ar n).1 = (Builder.make_type ar n).2.indexOf n := by
  rcases make_type_cases ar n with ⟨hm, h⟩ | ⟨hm, h⟩
  · rw [h]; exact ⟨hm, rfl⟩
  · rw [h]; exact ⟨by simp, (indexOf_concat n ar hm).symm⟩

theorem make_type_of_mem (ar : Arena) (n : Type_node) (h : n ∈ ar) :
    Builder.make_type ar n = (ar.indexOf n, ar) := by
  simp [Builder.make_type, h]

theorem kept_tail (a b : Type_node) (l l2 : Arena) (h : Arena.kept (a :: l) (b :: l2)) :
    a.widened b ∧ Arena.kept l l2 := by
  refine ⟨?_, Nat.le_of_succ_le_succ h.1, fun i n hi => ?_⟩
  · obtain ⟨n1, h1, hw⟩ := h.2 0 a rfl
    cases h1
    exact hw
  · exact h.2 (i + 1) n (by simpa using hi)

theorem widened_not_qualified (n n1 : Type_node) (hq : ∀ ty q, n1 ≠ .Qualified_type ty q)
    (h : n.widened n1) : n1 = n := by
  rcases h with h | ⟨ty, q, q1, _, h⟩
  · exact h
  · exact absurd h (hq _ _)

theorem indexOf_kept (n : Type_node) (hq : ∀ ty q, n ≠ .Qualified_type ty q) :
    ∀ (ar ar2 : Arena), ar.kept ar2 → n ∈ ar → n ∈ ar2 ∧ ar2.indexOf n = ar.indexOf n
  | [], ar2, hk, hm => by cases hm
  | a :: l, [], hk, hm => by
      have := hk.1
      simp at this
  | a :: l, b :: l2, hk, hm => by
      obtain ⟨hw, hk2⟩ := kept_tail a b l l2 hk
      by_cases h1 : a = n
      · subst h1
        have hb : b = a := by
          rcases hw with h | ⟨ty, q, q1, ha, _⟩
          · exact h
          · exact absurd ha (hq _ _)
        subst hb
        exact ⟨List.mem_cons_self _ _, by simp⟩
      · have hb : b ≠ n := fun e => h1 ((widened_not_qualified a b (e ▸ hq) hw) ▸ e)
        have h2 : n ∈ l := by
          rcases List.mem_cons.mp hm with e | e
          · exact absurd e.symm h1
          · exact e
        obtain ⟨hm2, hi2⟩ := indexOf_kept n hq l l2 hk2 h2
        refine ⟨List.mem_cons_of_mem _ hm2, ?_⟩
        rw [List.indexOf_cons_ne _ hb, List.indexOf_cons_ne _ h1, hi2]

theorem make_type_canonical (ar ar2 : Arena) (n : Type_node)
    (hq : ∀ ty q, n ≠ .Qualified_type ty q) (hk : (Builder.make_type ar n).2.kept ar2) :
    Builder.make_type ar2 n = ((Builder.make_type ar n).1, ar2) ∧
    ar2.get? (Builder.make_type ar n).1 = some n := by
  obtain ⟨hm, hi⟩ := make_type_index ar n
  obtain ⟨hm2, hi2⟩ := indexOf_kept n hq _ ar2 hk hm
  rw [make_type_of_mem ar2 n hm2, hi2, ← hi]
  refine ⟨rfl, ?_⟩
  rw [hi, ← hi2]
  exact get_indexOf n ar2 hm2

/-- C11: `get_integer_type(sign, prec)` is canonical by its fields.  After a
call with a sign and a precision, and whatever calls of the type makers
follow it, a call with the same sign and precision returns the identical type
object and creates none; that object is the integer type of this sign and
precision. -/
theorem get_integer_type_canonical (ar ar2 : Arena) (s : Bool) (p : Int)
    (cs : List Type_call) (rs : List Type_ref)
    (h : Type_call.run_all (Builder.get_integer_type ar s p).2 cs = .ok (rs, ar2)) :
    Builder.get_integer_type ar2 s p = ((Builder.get_integer_type ar s p).1, ar2) ∧
    ar2.get? (Builder.get_integer_type ar s p).1 = some (.Integer_type s p) :=
  make_type_canonical ar ar2 (.Integer_type s p) (fun _ _ e => by cases e)
    (run_all_kept cs _ ar2 rs h)

/-- C11 at the scenario S1: `get_int_type()` twice from the empty arena, with
calls of `get_bool_type`, `get_pointer_type`, `get_const_type` and
`get_volatile_type` between the two, yields the same object, the first of the
arena. -/
theorem get_integer_type_canonical_witness :
    (Builder.get_int_type []).1 = 0 ∧
    Type_call.run_all (Builder.get_int_type []).2
      [.get_bool_type, .get_pointer_type 0, .get_const_type 0, .get_volatile_type 3] =
      .ok ([1, 2, 3, 3],
        [.Integer_type true 32, .Boolean_type, .Pointer_type 0,
         .Qualified_type 0 total_qual]) ∧
    Builder.get_int_type
      [.Integer_type true 32, .Boolean_type, .Pointer_type 0, .Qualified_type 0 total_qual] =
      (0, [.Integer_type true 32, .Boolean_type, .Pointer_type 0,
         .Qualified_type 0 total_qual]) :=
  ⟨rfl, rfl,
   (get_integer_type_canonical [] _ true 32
      [.get_bool_type, .get_pointer_type 0, .get_const_type 0, .get_volatile_type 3]
      [1, 2, 3, 3] rfl).1⟩
/-! ## The step budget of the substitution into type objects -/

theorem get_append_single {α : Type} : ∀ (l : List α) (a x : α) (i : Nat),
    (l ++ [a]).get? i = some x → l.get? i = some x ∨ (i = l.length ∧ x = a)
  | [], a, x, 0, h => by
      simp only [List.nil_append, List.get?_cons_zero, Option.some.injEq] at h
      exact Or.inr ⟨rfl, h.symm⟩
  | [], a, x, i + 1, h => by simp at h
  | b :: l, a, x, 0, h => Or.inl (by simpa using h)
  | b :: l, a, x, i + 1, h => by
      rcases get_append_single l a x i (by simpa using h) with h1 | ⟨h1, h2⟩
      · exact Or.inl (by simpa using h1)
      · exact Or.inr ⟨by simp [h1], h2⟩

theorem lt_length_of_get_some {α : Type} (l : List α) (i : Nat) (x : α)
    (h : l.get? i = some x) : i < l.length := by
  by_contra hn
  rw [List.get?_eq_none.mpr (Nat.le_of_not_lt hn)] at h
  cases h

theorem ordered_append (ar : Arena) (n : Type_node) (ho : ar.ordered)
    (hn : ∀ c ∈ n.refs, c < ar.length) : Arena.ordered (ar ++ [n]) := by
  intro i x hi c hc
  rcases get_append_single ar n x i hi with h | ⟨h1, h2⟩
  · exact ho i x h c hc
  · rw [h1]
    rw [h2] at hc
    exact hn c hc

theorem make_type_ordered (ar : Arena) (n : Type_node) (ho : ar.ordered)
    (hn : ∀ c ∈ n.refs, c < ar.length) :
    (Builder.make_type ar n).2.ordered ∧
    (Builder.make_type ar n).1 < (Builder.make_type ar n).2.length := by
  rcases make_type_cases ar n with ⟨hm, h⟩ | ⟨hm, h⟩
  · rw [h]
    exact ⟨ho, List.indexOf_lt_length.mpr hm⟩
  · rw [h]
    exact ⟨ordered_append ar n ho hn, by simp⟩

theorem make_type_ordered_eq (ar ar1 : Arena) (n : Type_node) (r : Type_ref) (ho : ar.ordered)
    (hn : ∀ c ∈ n.refs, c < ar.length) (h : Builder.make_type ar n = (r, ar1)) :
    ar1.ordered ∧ r < ar1.length := by
  have := make_type_ordered ar n ho hn
  rw [h] at this
  exact this

theorem get_qualified_type_obj_exit (ar : Arena) (t : Type_ref) (qual : Qualifier_set) :
    Builder.get_qualified_type ar t qual ≠ .error .nontermination := by
  cases hn : ar.get? t with
  | none => simp only [Builder.get_qualified_type, hn]; intro h; cases h
  | some n =>
    by_cases hq : ∃ ty q, n = .Qualified_type ty q
    · obtain ⟨ty, q, rfl⟩ := hq
      rw [get_qualified_type_qualified ar t ty q qual hn]
      intro h; cases h
    · rw [get_qualified_type_not_qualified ar t qual n hn (fun ty q e => hq ⟨ty, q, e⟩)]
      by_cases h0 : qual = empty_qual
      · simp only [h0, if_true]; intro h; cases h
      · simp only [h0, if_false]; intro h; cases h

theorem get_qualified_type_ordered (ar ar1 : Arena) (t r : Type_ref) (qual : Qualifier_set)
    (ho : ar.ordered) (h : Builder.get_qualified_type ar t qual = .ok (r, ar1)) :
    ar1.ordered ∧ r < ar1.length := by
  cases hn : ar.get? t with
  | none =>
    simp only [Builder.get_qualified_type, hn] at h
    cases h
  | some n =>
    have hlt := lt_length_of_get_some ar t n hn
    by_cases hq : ∃ ty q, n = .Qualified_type ty q
    · obtain ⟨ty, q, rfl⟩ := hq
      rw [get_qualified_type_qualified ar t ty q qual hn] at h
      simp only [Except.ok.injEq, Prod.mk.injEq] at h
      obtain ⟨rfl, rfl⟩ := h
      refine ⟨fun i x hi c hc => ?_, by simpa using hlt⟩
      by_cases hti : t = i
      · subst hti
        rw [get_set_eq ar t _ _ hn] at hi
        cases hi
        exact ho t _ hn c hc
      · rw [get_set_ne ar t i _ hti] at hi
        exact ho i x hi c hc
    · rw [get_qualified_type_not_qualified ar t qual n hn
        (fun ty q e => hq ⟨ty, q, e⟩)] at h
      by_cases h0 : qual = empty_qual
      · simp [h0] at h
      · simp only [h0, if_false, Except.ok.injEq] at h
        refine make_type_ordered_eq ar ar1 _ r ho (fun c hc => ?_) h
        simp only [Type_node.refs, List.mem_singleton] at hc
        rw [hc]; exact hlt

theorem within_kept (sub : Substitution_obj) (ar ar1 : Arena) (hs : sub.within ar)
    (hk : ar.kept ar1) : sub.within ar1 :=
  fun d a h => Nat.lt_of_lt_of_le (hs d a h) hk.1

theorem substitute_obj_list_returns (sub : Substitution_obj) (fuel : Nat)
    (hf : substitute_obj_spec sub fuel) :
    ∀ (ps : List Type_ref) (ar : Arena), (∀ c ∈ ps, c < fuel) → ar.ordered → sub.within ar →
    substitute_obj_list (substitute_obj sub fuel) ar ps ≠ .error .nontermination ∧
    ∀ rs ar1, substitute_obj_list (substitute_obj sub fuel) ar ps = .ok (rs, ar1) →
      ar1.ordered ∧ ∀ x ∈ rs, x < ar1.length
  | [], ar, hc, ho, hs => by
      refine ⟨by simp [substitute_obj_list], fun rs ar1 h => ?_⟩
      simp only [substitute_obj_list, Except.ok.injEq, Prod.mk.injEq] at h
      rw [← h.1, ← h.2]
      exact ⟨ho, fun x hx => by cases hx⟩
  | p :: ps, ar, hc, ho, hs => by
      obtain ⟨h1, h2⟩ := hf ar p ho hs (hc p (List.mem_cons_self _ _))
      simp only [substitute_obj_list]
      cases hp : substitute_obj sub fuel ar p with
      | error e =>
        refine ⟨?_, fun rs ar1 h => by cases h⟩
        intro h
        simp only [Except.error.injEq] at h
        rw [h] at hp
        exact h1 hp
      | ok q =>
        obtain ⟨p1, ar2⟩ := q
        obtain ⟨ho2, hp1⟩ := h2 p1 ar2 hp
        have hk2 := substitute_obj_kept sub fuel ar p p1 ar2 hp
        obtain ⟨h3, h4⟩ := substitute_obj_list_returns sub fuel hf ps ar2
          (fun c hcm => hc c (List.mem_cons_of_mem _ hcm)) ho2 (within_kept sub ar ar2 hs hk2)
        simp only
        cases hl : substitute_obj_list (substitute_obj sub fuel) ar2 ps with
        | error e =>
          refine ⟨?_, fun rs ar1 h => by cases h⟩
          intro h
          simp only [Except.error.injEq] at h
          rw [h] at hl
          exact h3 hl
        | ok q2 =>
          obtain ⟨ps1, ar3⟩ := q2
          obtain ⟨ho3, hx⟩ := h4 ps1 ar3 hl
          have hk3 := substitute_obj_list_kept _ (substitute_obj_kept sub fuel) ps ar2 ar3 ps1 hl
          refine ⟨(by intro h; cases h), fun rs ar1 h => ?_⟩
          simp only [Except.ok.injEq, Prod.mk.injEq] at h
          rw [← h.1, ← h.2]
          refine ⟨ho3, fun x hxm => ?_⟩
          rcases List.mem_cons.mp hxm with e | e
          · rw [e]; exact Nat.lt_of_lt_of_le hp1 hk3.1
          · exact hx x e

theorem substitute_obj_unary_returns (sub : Substitution_obj) (fuel : Nat)
    (hf : substitute_obj_spec sub fuel) (g : Type_ref → Type_node)
    (hg : ∀ s, (g s).refs = [s]) (ar : Arena) (x : Type_ref) (ho : ar.ordered)
    (hs : sub.within ar) (hx : x < fuel) :
    (match substitute_obj sub fuel ar x with
      | .error e => .error e
      | .ok (s, ar2) => .ok (Builder.make_type ar2 (g s))) ≠
      (.error .nontermination : Except Fatal (Type_ref × Arena)) ∧
    ∀ r ar1, (match substitute_obj sub fuel ar x with
      | .error e => .error e
      | .ok (s, ar2) => .ok (Builder.make_type ar2 (g s))) = Except.ok (r, ar1) →
      ar1.ordered ∧ r < ar1.length := by
  obtain ⟨h1, h2⟩ := hf ar x ho hs hx
  cases hp : substitute_obj sub fuel ar x with
  | error e =>
    refine ⟨?_, fun r ar1 h => by cases h⟩
    intro h
    simp only [Except.error.injEq] at h
    rw [h] at hp
    exact h1 hp
  | ok q =>
    obtain ⟨s, ar2⟩ := q
    obtain ⟨ho2, hs2⟩ := h2 s ar2 hp
    refine ⟨(by intro h; cases h), fun r ar1 h => ?_⟩
    simp only [Except.ok.injEq] at h
    refine make_type_ordered_eq ar2 ar1 _ r ho2 (fun c hc => ?_) h
    rw [hg s, List.mem_singleton] at hc
    rw [hc]; exact hs2

theorem substitute_obj_returns (sub : Substitution_obj) :
    ∀ fuel : Nat, substitute_obj_spec sub fuel
  | 0 => fun ar t ho hs ht => absurd ht (Nat.not_lt_zero _)
  | fuel + 1 => by
      have ih := substitute_obj_returns sub fuel
      intro ar t ho hs ht
      simp only [substitute_obj]
      cases hn : ar.get? t with
      | none => exact ⟨(by intro h; cases h), fun r ar1 h => by cases h⟩
      | some n =>
        have hlt := lt_length_of_get_some ar t n hn
        have hrefs : ∀ c ∈ n.refs, c < fuel := fun c hc =>
          Nat.lt_of_lt_of_le (ho t n hn c hc) (Nat.le_of_lt_succ ht)
        cases n with
        | Auto_type => exact ⟨(by intro h; cases h), fun r ar1 h => by cases h⟩
        | Decltype_type => exact ⟨(by intro h; cases h), fun r ar1 h => by cases h⟩
        | Declauto_type => exact ⟨(by intro h; cases h), fun r ar1 h => by cases h⟩
        | Array_type x => exact ⟨(by intro h; cases h), fun r ar1 h => by cases h⟩
        | Function_type ps x =>
          simp only
          obtain ⟨h1, h2⟩ := substitute_obj_list_returns sub fuel ih ps ar
            (fun c hc => hrefs c (List.mem_cons_of_mem _ hc)) ho hs
          cases hl : substitute_obj_list (substitute_obj sub fuel) ar ps with
          | error e =>
            refine ⟨?_, fun r ar1 h => by cases h⟩
            intro h
            simp only [Except.error.injEq] at h
            rw [h] at hl
            exact h1 hl
          | ok q =>
            obtain ⟨ps1, ar2⟩ := q
            obtain ⟨ho2, hps⟩ := h2 ps1 ar2 hl
            have hk2 := substitute_obj_list_kept _ (substitute_obj_kept sub fuel) ps ar ar2 ps1 hl
            obtain ⟨h3, h4⟩ := ih ar2 x ho2 (within_kept sub ar ar2 hs hk2)
              (hrefs x (List.mem_cons_self _ _))
            simp only
            cases hx : substitute_obj sub fuel ar2 x with
            | error e =>
              refine ⟨?_, fun r ar1 h => by cases h⟩
              intro h
              simp only [Except.error.injEq] at h
              rw [h] at hx
              exact h3 hx
            | ok q2 =>
              obtain ⟨x1, ar3⟩ := q2
              obtain ⟨ho3, hx1⟩ := h4 x1 ar3 hx
              have hk3 := substitute_obj_kept sub fuel ar2 x x1 ar3 hx
              refine ⟨(by intro h; cases h), fun r ar1 h => ?_⟩
              simp only [Except.ok.injEq] at h
              refine make_type_ordered_eq ar3 ar1 _ r ho3 (fun c hc => ?_) h
              rcases List.mem_cons.mp hc with e | e
              · rw [e]; exact hx1
              · exact Nat.lt_of_lt_of_le (hps c e) hk3.1
        | Reference_type x =>
          exact substitute_obj_unary_returns sub fuel ih Type_node.Reference_type
            (fun _ => rfl) ar x ho hs (hrefs x (List.mem_singleton_self _))
        | Pointer_type x =>
          exact substitute_obj_unary_returns sub fuel ih Type_node.Pointer_type
            (fun _ => rfl) ar x ho hs (hrefs x (List.mem_singleton_self _))
        | Sequence_type x =>
          exact substitute_obj_unary_returns sub fuel ih Type_node.Sequence_type
            (fun _ => rfl) ar x ho hs (hrefs x (List.mem_singleton_self _))
        | Qualified_type x q =>
          simp only
          obtain ⟨h1, h2⟩ := ih ar x ho hs (hrefs x (List.mem_singleton_self _))
          cases hx : substitute_obj sub fuel ar x with
          | error e =>
            refine ⟨?_, fun r ar1 h => by cases h⟩
            intro h
            simp only [Except.error.injEq] at h
            rw [h] at hx
            exact h1 hx
          | ok q2 =>
            obtain ⟨s, ar2⟩ := q2
            obtain ⟨ho2, hs2⟩ := h2 s ar2 hx
            simp only
            cases hq : ar2.qualifier t with
            | none => exact ⟨(by intro h; cases h), fun r ar1 h => by cases h⟩
            | some q3 =>
              exact ⟨get_qualified_type_obj_exit ar2 s q3, fun r ar1 h =>
                get_qualified_type_ordered ar2 ar1 s r q3 ho2 h⟩
        | Typename_type d =>
          simp only
          cases hm : sub.get_mapping d with
          | none =>
            refine ⟨(by intro h; cases h), fun r ar1 h => ?_⟩
            simp only [Except.ok.injEq, Prod.mk.injEq] at h
            rw [← h.1, ← h.2]; exact ⟨ho, hlt⟩
          | some a =>
            cases a with
            | none => exact ⟨(by intro h; cases h), fun r ar1 h => by cases h⟩
            | some a =>
              refine ⟨(by intro h; cases h), fun r ar1 h => ?_⟩
              simp only [Except.ok.injEq, Prod.mk.injEq] at h
              rw [← h.1, ← h.2]; exact ⟨ho, hs d a hm⟩
        | _ =>
          refine ⟨(by intro h; cases h), fun r ar1 h => ?_⟩
          simp only [Except.ok.injEq, Prod.mk.injEq] at h
          rw [← h.1, ← h.2]; exact ⟨ho, hlt⟩

theorem substitute_obj_exit (sub : Substitution_obj) (ar : Arena) (t : Type_ref)
    (ho : ar.ordered) (hs : sub.within ar) :
    substitute_obj sub (t + 1) ar t ≠ .error .nontermination :=
  (substitute_obj_returns sub (t + 1) ar t ho hs (Nat.lt_succ_self t)).1
/-! ## The fields of existing types -/

theorem run_unchanged (c : Type_call) (ar ar1 : Arena) (r : Type_ref)
    (hc : c.qualifies = false) (h : c.run ar = .ok (r, ar1)) : ar.unchanged ar1 := by
  have key : ∀ n, Builder.make_type ar n = (r, ar1) → ar.unchanged ar1 := fun n e => by
    have := (make_type_unchanged ar n).2
    rw [e] at this
    exact this
  cases c <;> simp only [Type_call.run] at h <;> first
    | exact key _ (Except.ok.inj h)
    | cases h
    | cases hc

/-- C15 (counterexample): `t` is the existing type `const int`.  The call
`get_qualified_type(t, volatile)` returns `t` itself and changes its qualifier
set from const to const volatile; and the substitution of `T` by `t` into
`volatile T` does the same to `t`, the type the substitution maps to. -/
theorem type_fields_kept_counterexample :
    sample_arena.qualifier 1 = some const_qual ∧
    Builder.get_qualified_type sample_arena 1 volatile_qual = .ok (1, sample_arena_widened) ∧
    substitute_obj [(7, some 1)] 2 sample_arena 3 = .ok (1, sample_arena_widened) ∧
    sample_arena_widened.qualifier 1 = some total_qual :=
  ⟨rfl, rfl, rfl, rfl⟩

/-- C15 (amended): what a call of a type maker of the builder and a
substitution into a type keep of the existing types.  Every existing type
keeps its identity, its class and its fields, but for the qualifier set of a
qualified type, which can grow (first and second part).  A maker other than
`get_qualified_type`, `get_const_type` and `get_volatile_type` changes no
existing type (third part), nor does `get_qualified_type(t, Q)` when `t` is
not a qualified type (fourth part).  When `t` is a qualified type with the
qualifier set `q`, `get_qualified_type(t, Q)` returns `t` itself, whose
qualifier set has become `q ∪ Q`, every other type being unchanged (fifth
part).  The substitution into the type `t` of an arena whose objects refer to
objects created before them does not exhaust the step budget `t + 1` (sixth
part). -/
theorem type_fields_kept :
    (∀ (c : Type_call) (ar ar1 : Arena) (r : Type_ref),
      c.run ar = .ok (r, ar1) → ar.kept ar1) ∧
    (∀ (sub : Substitution_obj) (fuel : Nat) (ar ar1 : Arena) (t r : Type_ref),
      substitute_obj sub fuel ar t = .ok (r, ar1) → ar.kept ar1) ∧
    (∀ (c : Type_call) (ar ar1 : Arena) (r : Type_ref),
      c.qualifies = false → c.run ar = .ok (r, ar1) → ar.unchanged ar1) ∧
    (∀ (ar ar1 : Arena) (t r : Type_ref) (qual : Qualifier_set) (n : Type_node),
      ar.get? t = some n → (∀ ty q, n ≠ .Qualified_type ty q) →
      Builder.get_qualified_type ar t qual = .ok (r, ar1) → ar.unchanged ar1) ∧
    (∀ (ar : Arena) (t ty : Type_ref) (q qual : Qualifier_set),
      ar.get? t = some (.Qualified_type ty q) →
      Builder.get_qualified_type ar t qual =
        .ok (t, ar.set t (.Qualified_type ty (q ||| qual))) ∧
      Arena.qualifier (ar.set t (.Qualified_type ty (q ||| qual))) t = some (q ||| qual) ∧
      ∀ i, i ≠ t → (ar.set t (.Qualified_type ty (q ||| qual))).get? i = ar.get? i) ∧
    (∀ (sub : Substitution_obj) (ar : Arena) (t : Type_ref), ar.ordered → sub.within ar →
      substitute_obj sub (t + 1) ar t ≠ .error .nontermination) := by
  refine ⟨run_kept, fun sub fuel ar ar1 t r h => substitute_obj_kept sub fuel ar t r ar1 h,
    run_unchanged, fun ar ar1 t r qual n hn hq h =>
      get_qualified_type_unchanged ar ar1 t r qual n hn hq h,
    fun ar t ty q qual hn => ⟨get_qualified_type_qualified ar t ty q qual hn, ?_,
      fun i hi => get_set_ne ar t i _ (fun e => hi e.symm)⟩,
    substitute_obj_exit⟩
  simp only [Arena.qualifier, get_set_eq ar t _ _ hn]

theorem sample_arena_ordered : sample_arena.ordered := by
  intro i n h c hc
  rcases i with _ | _ | _ | _ | i
  · simp only [sample_arena, List.get?_cons_zero, Option.some.injEq] at h
    subst h; simp [Type_node.refs] at hc
  · simp only [sample_arena, List.get?_cons_succ, List.get?_cons_zero, Option.some.injEq] at h
    subst h
    simp only [Type_node.refs, List.mem_singleton] at hc
    rw [hc]; decide
  · simp only [sample_arena, List.get?_cons_succ, List.get?_cons_zero, Option.some.injEq] at h
    subst h; simp [Type_node.refs] at hc
  · simp only [sample_arena, List.get?_cons_succ, List.get?_cons_zero, Option.some.injEq] at h
    subst h
    simp only [Type_node.refs, List.mem_singleton] at hc
    rw [hc]; decide
  · simp [sample_arena] at h

theorem sample_substitution_within :
    Substitution_obj.within [(7, some 1)] sample_arena := by
  intro d a h
  by_cases hd : 7 = d
  · simp only [Substitution_obj.get_mapping, hd, if_true, Option.some.injEq] at h
    subst h; decide
  · simp [Substitution_obj.get_mapping, hd] at h

/-- C15 (amended) on the arena of the examples: the call
`get_volatile_type(t)` on `t = const int` and the substitution of `T` by `t`
into `volatile T` keep every type up to the qualifiers of `t`; the calls
`get_pointer_type(t)` and `get_const_type(int)` change no existing type. -/
theorem type_fields_kept_witness :
    sample_arena.kept sample_arena_widened ∧
    sample_arena.kept sample_arena_widened ∧
    sample_arena.unchanged (sample_arena ++ [.Pointer_type 1]) ∧
    sample_arena.unchanged sample_arena ∧
    (Builder.get_qualified_type sample_arena 1 volatile_qual =
        .ok (1, sample_arena.set 1 (.Qualified_type 0 (const_qual ||| volatile_qual))) ∧
      Arena.qualifier (sample_arena.set 1 (.Qualified_type 0 (const_qual ||| volatile_qual))) 1 =
        some (const_qual ||| volatile_qual) ∧
      ∀ i, i ≠ 1 →
        (sample_arena.set 1 (.Qualified_type 0 (const_qual ||| volatile_qual))).get? i =
          sample_arena.get? i) ∧
    substitute_obj [(7, some 1)] (3 + 1) sample_arena 3 ≠ .error .nontermination :=
  ⟨type_fields_kept.1 (.get_volatile_type 1) sample_arena sample_arena_widened 1 rfl,
   type_fields_kept.2.1 [(7, some 1)] 2 sample_arena sample_arena_widened 3 1 rfl,
   type_fields_kept.2.2.1 (.get_pointer_type 1) sample_arena _ 4 rfl rfl,
   type_fields_kept.2.2.2.1 sample_arena sample_arena 0 1 const_qual (.Integer_type true 32)
     rfl (fun _ _ e => by cases e) rfl,
   type_fields_kept.2.2.2.2.1 sample_arena 1 0 const_qual volatile_qual rfl,
   type_fields_kept.2.2.2.2.2 [(7, some 1)] sample_arena 3 sample_arena_ordered
     sample_substitution_within⟩

/-! ## Arenas without nested qualified types -/

theorem make_type_invariant_eq (P : Arena → Prop)
    (hm : ∀ ar n, P ar → (∀ ty q, n ≠ .Qualified_type ty q) → P (Builder.make_type ar n).2)
    (ar ar1 : Arena) (n : Type_node) (r : Type_ref) (hp : P ar)
    (hn : ∀ ty q, n ≠ .Qualified_type ty q) (h : Builder.make_type ar n = (r, ar1)) : P ar1 := by
  have := hm ar n hp hn
  rw [h] at this
  exact this

theorem run_invariant (P : Arena → Prop)
    (hm : ∀ ar n, P ar → (∀ ty q, n ≠ .Qualified_type ty q) → P (Builder.make_type ar n).2)
    (hq : ∀ ar ar1 s r q, P ar → Builder.get_qualified_type ar s q = .ok (r, ar1) → P ar1)
    (c : Type_call) (ar ar1 : Arena) (r : Type_ref) (hp : P ar)
    (h : c.run ar = .ok (r, ar1)) : P ar1 := by
  cases c <;> simp only [Type_call.run] at h <;> first
    | exact make_type_invariant_eq P hm ar ar1 _ r hp (fun _ _ e => by cases e)
        (Except.ok.inj h)
    | exact hq ar ar1 _ r _ hp h
    | cases h

theorem substitute_obj_list_invariant (P : Arena → Prop)
    (f : Arena → Type_ref → Except Fatal (Type_ref × Arena))
    (hf : ∀ ar t r ar1, P ar → f ar t = .ok (r, ar1) → P ar1) :
    ∀ (ts : List Type_ref) (ar ar1 : Arena) (rs : List Type_ref), P ar →
    substitute_obj_list f ar ts = .ok (rs, ar1) → P ar1
  | [], ar, ar1, rs, hp, h => by
      simp only [substitute_obj_list, Except.ok.injEq, Prod.mk.injEq] at h
      rw [← h.2]
      exact hp
  | t :: ts, ar, ar1, rs, hp, h => by
      simp only [substitute_obj_list] at h
      cases h1 : f ar t with
      | error e => simp [h1] at h
      | ok p =>
        obtain ⟨r, ar2⟩ := p
        cases h2 : substitute_obj_list f ar2 ts with
        | error e => simp [h1, h2] at h
        | ok p2 =>
          obtain ⟨rs2, ar3⟩ := p2
          simp only [h1, h2, Except.ok.injEq, Prod.mk.injEq] at h
          rw [← h.2]
          exact substitute_obj_list_invariant P f hf ts ar2 ar3 rs2 (hf ar t r ar2 hp h1) h2

theorem substitute_obj_unary_invariant (P : Arena → Prop)
    (hm : ∀ ar n, P ar → (∀ ty q, n ≠ .Qualified_type ty q) → P (Builder.make_type ar n).2)
    (f : Arena → Type_ref → Except Fatal (Type_ref × Arena))
    (hf : ∀ ar t r ar1, P ar → f ar t = .ok (r, ar1) → P ar1)
    (g : Type_ref → Type_node) (hg : ∀ s ty q, g s ≠ .Qualified_type ty q)
    (ar ar1 : Arena) (x r : Type_ref) (hp : P ar)
    (h : (match f ar x with
      | .error e => .error e
      | .ok (s, ar2) => .ok (Builder.make_type ar2 (g s))) = Except.ok (r, ar1)) :
    P ar1 := by
  cases h1 : f ar x with
  | error e => simp [h1] at h
  | ok p =>
    obtain ⟨s, ar2⟩ := p
    simp only [h1, Except.ok.injEq] at h
    exact make_type_invariant_eq P hm ar2 ar1 _ r (hf ar x s ar2 hp h1) (hg s) h

theorem substitute_obj_invariant (P : Arena → Prop)
    (hm : ∀ ar n, P ar → (∀ ty q, n ≠ .Qualified_type ty q) → P (Builder.make_type ar n).2)
    (hq : ∀ ar ar1 s r q, P ar → Builder.get_qualified_type ar s q = .ok (r, ar1) → P ar1)
    (sub : Substitution_obj) :
    ∀ (fuel : Nat) (ar : Arena) (t r : Type_ref) (ar1 : Arena), P ar →
    substitute_obj sub fuel ar t = .ok (r, ar1) → P ar1
  | 0, ar, t, r, ar1, hp, h => by simp [substitute_obj] at h
  | fuel + 1, ar, t, r, ar1, hp, h => by
      have ih := substitute_obj_invariant P hm hq sub fuel
      simp only [substitute_obj] at h
      cases hn : ar.get? t with
      | none => simp only [hn] at h; cases h
      | some n =>
        simp only [hn] at h
        cases n with
        | Auto_type => cases h
        | Decltype_type => cases h
        | Declauto_type => cases h
        | Array_type x => cases h
        | Function_type ps x =>
          simp only at h
          cases h1 : substitute_obj_list (substitute_obj sub fuel) ar ps with
          | error e => simp [h1] at h
          | ok p =>
            obtain ⟨ps1, ar2⟩ := p
            cases h2 : substitute_obj sub fuel ar2 x with
            | error e => simp [h1, h2] at h
            | ok p2 =>
              obtain ⟨x1, ar3⟩ := p2
              simp only [h1, h2, Except.ok.injEq] at h
              exact make_type_invariant_eq P hm ar3 ar1 _ r
                (ih ar2 x x1 ar3 (substitute_obj_list_invariant P _ ih ps ar ar2 ps1 hp h1) h2)
                (fun _ _ e => by cases e) h
        | Reference_type x =>
          exact substitute_obj_unary_invariant P hm _ ih Type_node.Reference_type
            (fun _ _ _ e => by cases e) ar ar1 x r hp h
        | Pointer_type x =>
          exact substitute_obj_unary_invariant P hm _ ih Type_node.Pointer_type
            (fun _ _ _ e => by cases e) ar ar1 x r hp h
        | Sequence_type x =>
          exact substitute_obj_unary_invariant P hm _ ih Type_node.Sequence_type
            (fun _ _ _ e => by cases e) ar ar1 x r hp h
        | Qualified_type x q =>
          simp only at h
          cases h1 : substitute_obj sub fuel ar x with
          | error e => simp [h1] at h
          | ok p =>
            obtain ⟨s, ar2⟩ := p
            simp only [h1] at h
            cases h2 : ar2.qualifier t with
            | none => simp [h2] at h
            | some q2 =>
              simp only [h2] at h
              exact hq ar2 ar1 s r q2 (ih ar x s ar2 hp h1) h
        | Typename_type d =>
          simp only at h
          cases h1 : sub.get_mapping d with
          | none =>
            simp only [h1, Except.ok.injEq, Prod.mk.injEq] at h
            rw [← h.2]; exact hp
          | some a =>
            cases a with
            | none => simp [h1] at h
            | some a =>
              simp only [h1, Except.ok.injEq, Prod.mk.injEq] at h
              rw [← h.2]; exact hp
        | _ =>
          simp only [Except.ok.injEq, Prod.mk.injEq] at h
          rw [← h.2]; exact hp

theorem no_nested_append (ar : Arena) (n : Type_node) (h : ar.no_nested_qualified)
    (hn : ∀ ty q, n = .Qualified_type ty q →
      ∃ m, ar.get? ty = some m ∧ ∀ ty2 q2, m ≠ .Qualified_type ty2 q2) :
    Arena.no_nested_qualified (ar ++ [n]) := by
  intro i ty q hi
  have hex : ∃ m, ar.get? ty = some m ∧ ∀ ty2 q2, m ≠ .Qualified_type ty2 q2 := by
    rcases get_append_single ar n _ i hi with h1 | ⟨_, h2⟩
    · exact h i ty q h1
    · exact hn ty q h2.symm
  obtain ⟨m, hm, hm2⟩ := hex
  exact ⟨m, get_some_append ar [n] ty m hm, hm2⟩

theorem make_type_no_nested (ar : Arena) (n : Type_node) (h : ar.no_nested_qualified)
    (hn : ∀ ty q, n = .Qualified_type ty q →
      ∃ m, ar.get? ty = some m ∧ ∀ ty2 q2, m ≠ .Qualified_type ty2 q2) :
    (Builder.make_type ar n).2.no_nested_qualified := by
  rcases make_type_cases ar n with ⟨_, e⟩ | ⟨_, e⟩
  · rw [e]; exact h
  · rw [e]; exact no_nested_append ar n h hn

theorem get_qualified_type_obj_no_nested (ar ar1 : Arena) (t r : Type_ref)
    (qual : Qualifier_set) (ho : ar.no_nested_qualified)
    (h : Builder.get_qualified_type ar t qual = .ok (r, ar1)) : ar1.no_nested_qualified := by
  cases hn : ar.get? t with
  | none =>
    simp only [Builder.get_qualified_type, hn] at h
    cases h
  | some n =>
    by_cases hq : ∃ ty q, n = .Qualified_type ty q
    · obtain ⟨ty, q, rfl⟩ := hq
      rw [get_qualified_type_qualified ar t ty q qual hn] at h
      simp only [Except.ok.injEq, Prod.mk.injEq] at h
      obtain ⟨_, rfl⟩ := h
      intro i ty1 q1 hi
      have hex : ∃ m, ar.get? ty1 = some m ∧ ∀ ty2 q2, m ≠ .Qualified_type ty2 q2 := by
        by_cases hti : t = i
        · subst hti
          rw [get_set_eq ar t _ _ hn] at hi
          cases hi
          exact ho t _ _ hn
        · rw [get_set_ne ar t i _ hti] at hi
          exact ho i ty1 q1 hi
      obtain ⟨m, hm, hm2⟩ := hex
      have hne : t ≠ ty1 := fun e => by
        rw [← e, hn] at hm
        cases hm
        exact hm2 ty q rfl
      exact ⟨m, by rw [get_set_ne ar t ty1 _ hne]; exact hm, hm2⟩
    · rw [get_qualified_type_not_qualified ar t qual n hn
        (fun ty q e => hq ⟨ty, q, e⟩)] at h
      by_cases h0 : qual = empty_qual
      · simp [h0] at h
      · simp only [h0, if_false, Except.ok.injEq] at h
        have := make_type_no_nested ar (.Qualified_type t qual) ho (fun ty q e => by
          cases e
          exact ⟨n, hn, fun ty2 q2 e2 => hq ⟨ty2, q2, e2⟩⟩)
        rw [h] at this
        exact this

theorem make_type_no_nested_other (ar : Arena) (n : Type_node) (h : ar.no_nested_qualified)
    (hn : ∀ ty q, n ≠ .Qualified_type ty q) : (Builder.make_type ar n).2.no_nested_qualified :=
  make_type_no_nested ar n h (fun ty q e => absurd e (hn ty q))
theorem sample_arena_no_nested : sample_arena.no_nested_qualified := by
  intro i ty q h
  rcases i with _ | _ | _ | _ | i
  · simp [sample_arena] at h
  · simp only [sample_arena, List.get?_cons_succ, List.get?_cons_zero, Option.some.injEq,
      Type_node.Qualified_type.injEq] at h
    rw [← h.1]
    exact ⟨_, rfl, fun _ _ e => by cases e⟩
  · simp [sample_arena] at h
  · simp only [sample_arena, List.get?_cons_succ, List.get?_cons_zero, Option.some.injEq,
      Type_node.Qualified_type.injEq] at h
    rw [← h.1]
    exact ⟨_, rfl, fun _ _ e => by cases e⟩
  · simp [sample_arena] at h

/-- C14: no qualified type directly wraps a qualified type.  By value: for a
type `t` that has no such nesting and a non-empty qualifier set `Q`,
`get_qualified_type(t, Q)` returns a qualified type whose inner type is not a
qualified type; every type the type makers of the builder build has no such
nesting at any depth; and every type `substitute` returns from a type without
nesting has none, when the types `sub` maps to have none (qualified ones
included: their qualifiers are collapsed with those of the type they
replace the inner type of).  On type objects: the empty arena has no
qualified type whose inner type is a qualified type, and every call of a type
maker and every substitution leaves an arena without such a type when it is
given one, whatever objects are shared or changed in place. -/
theorem no_nested_qualified_types :
    (∀ (t : Type_) (q : Qualifier_set), no_nested_qualified t = true → q ≠ empty_qual →
      ∃ r, get_qualified_type t q = .ok r ∧ is_Qualified_type r = true ∧
        is_Qualified_type (unqualified_type r) = false ∧ no_nested_qualified r = true) ∧
    (∀ (m : Type_maker) (t : Type_), m.build = .ok t → no_nested_qualified t = true) ∧
    (∀ (sub : Substitution) (t r : Type_), Substitution.no_nested_qualified sub →
      no_nested_qualified t = true → substitute_type sub t = .ok r →
      no_nested_qualified r = true) ∧
    Arena.no_nested_qualified [] ∧
    (∀ (c : Type_call) (ar ar1 : Arena) (r : Type_ref), ar.no_nested_qualified →
      c.run ar = .ok (r, ar1) → ar1.no_nested_qualified) ∧
    (∀ (sub : Substitution_obj) (fuel : Nat) (ar ar1 : Arena) (t r : Type_ref),
      ar.no_nested_qualified → substitute_obj sub fuel ar t = .ok (r, ar1) →
      ar1.no_nested_qualified) := by
  refine ⟨fun t q ht hq => ?_, build_no_nested, fun sub t r hsub ht h =>
    substitute_type_no_nested sub hsub t r ht h, fun i ty q h => (by cases h),
    fun c ar ar1 r hp h => run_invariant Arena.no_nested_qualified
      make_type_no_nested_other
      (fun ar ar1 s r q hp h => get_qualified_type_obj_no_nested ar ar1 s r q hp h)
      c ar ar1 r hp h,
    fun sub fuel ar ar1 t r hp h => substitute_obj_invariant Arena.no_nested_qualified
      make_type_no_nested_other
      (fun ar ar1 s r q hp h => get_qualified_type_obj_no_nested ar ar1 s r q hp h)
      sub fuel ar t r ar1 hp h⟩
  have hr : ∃ r, get_qualified_type t q = .ok r := by
    cases h : is_Qualified_type t with
    | true =>
      cases t <;> simp [is_Qualified_type] at h
      exact ⟨_, rfl⟩
    | false => exact ⟨_, get_qualified_type_of_unqualified t q h hq⟩
  obtain ⟨r, hr⟩ := hr
  exact ⟨r, hr, get_qualified_type_no_nested t r q ht hr⟩

/-- C14 at `const int` qualified volatile, at a type built by the makers, at
the substitution of `T` by `const int` in `volatile T`, which returns
`const volatile int`, and at the same call and substitution on the arena of
the examples. -/
theorem no_nested_qualified_types_witness :
    (∃ r, get_qualified_type (.Qualified_type int_type const_qual) volatile_qual = .ok r ∧
      is_Qualified_type r = true ∧ is_Qualified_type (unqualified_type r) = false ∧
      no_nested_qualified r = true) ∧
    no_nested_qualified
      (.Pointer_type (.Qualified_type (.Integer_type true 32) total_qual)) = true ∧
    (substitute_type (Substitution.single 7 (.Qualified_type int_type const_qual))
        (.Qualified_type (.Typename_type 7) volatile_qual) =
        .ok (.Qualified_type int_type total_qual) ∧
      no_nested_qualified (.Qualified_type int_type total_qual) = true) ∧
    (Type_call.run sample_arena (.get_volatile_type 1) = .ok (1, sample_arena_widened) ∧
      sample_arena_widened.no_nested_qualified) ∧
    (substitute_obj [(7, some 1)] 2 sample_arena 3 = .ok (1, sample_arena_widened) ∧
      sample_arena_widened.no_nested_qualified) :=
  ⟨no_nested_qualified_types.1 (.Qualified_type int_type const_qual) volatile_qual rfl
      (by decide),
   no_nested_qualified_types.2.1
      (.get_pointer_type (.get_volatile_type (.get_const_type .get_int_type))) _ rfl,
   ⟨rfl,
    no_nested_qualified_types.2.2.1
      (Substitution.single 7 (.Qualified_type int_type const_qual))
      (.Qualified_type (.Typename_type 7) volatile_qual) _
      (by
        intro d a h
        by_cases hd : 7 = d
        · simp [Substitution.single, Substitution.get_mapping, hd] at h
          subst h; rfl
        · simp [Substitution.single, Substitution.get_mapping, hd] at h)
      rfl rfl⟩,
   ⟨rfl, no_nested_qualified_types.2.2.2.2.1 (.get_volatile_type 1) sample_arena
      sample_arena_widened 1 sample_arena_no_nested rfl⟩,
   ⟨rfl, no_nested_qualified_types.2.2.2.2.2 [(7, some 1)] 2 sample_arena
      sample_arena_widened 3 1 sample_arena_no_nested rfl⟩⟩

/-! ## Substitution into concept checks and logical connectives -/

theorem substitute_term_list_iff (sub : Substitution) :
    ∀ (as as1 : List Term), substitute_term_list sub as = .ok as1 ↔
      List.Forall₂ (fun a a1 => substitute_term sub a = .ok a1) as as1
  | [], as1 => by
      simp only [substitute_term_list, Except.ok.injEq]
      constructor
      · intro h; subst h; exact List.Forall₂.nil
      · intro h; cases h; rfl
  | a :: as, as1 => by
      simp only [substitute_term_list]
      cases h1 : substitute_term sub a with
      | error e =>
        constructor
        · intro h; cases h
        · intro h
          cases h with
          | cons ha _ => rw [h1] at ha; cases ha
      | ok a1 =>
        cases h2 : substitute_term_list sub as with
        | error e =>
          constructor
          · intro h; cases h
          · intro h
            cases h with
            | cons ha hr =>
              rw [← substitute_term_list_iff sub as _, h2] at hr
              cases hr
        | ok as2 =>
          simp only [Except.ok.injEq]
          constructor
          · intro h
            subst h
            exact List.Forall₂.cons h1 ((substitute_term_list_iff sub as as2).1 h2)
          · intro h
            cases h with
            | cons ha hr =>
              rw [h1] at ha
              cases ha
              rw [← substitute_term_list_iff sub as _, h2] at hr
              cases hr
              rfl

/-! ## Substitution on the objects of the store -/

theorem make_type_get (ar : Arena) (n : Type_node) :
    (Builder.make_type ar n).2.get? (Builder.make_type ar n).1 = some n := by
  obtain ⟨h1, h2⟩ := make_type_index ar n
  rw [h2]
  exact get_indexOf n _ h1

theorem settled_extends (sub : Substitution_obj) (ar ar1 : Arena) (h : ar.settled sub)
    (hl : ar.length ≤ ar1.length) (hu : ar.unchanged ar1) (hn : ar1.no_nested_qualified) :
    ar1.settled sub := by
  refine ⟨hn, fun d a hd => Nat.lt_of_lt_of_le (h.2.1 d a hd) hl, fun d a ty q hd hq => ?_⟩
  have hlt := h.2.1 d a hd
  have hg : ar.get? a = some (ar.get ⟨a, hlt⟩) := List.get?_eq_get hlt
  have h1 := hu a _ hg
  rw [h1] at hq
  rw [Option.some.injEq] at hq
  rw [hq] at hg
  exact h.2.2 d a ty q hd hg

/-- The making of a type that is not a qualified type, on a settled arena. -/
theorem make_type_settled (sub : Substitution_obj) (ar ar1 : Arena) (n : Type_node)
    (r : Type_ref) (hs : ar.settled sub) (hn : ∀ ty q, n ≠ .Qualified_type ty q)
    (h : Builder.make_type ar n = (r, ar1)) :
    ar.length ≤ ar1.length ∧ ar.unchanged ar1 ∧ ar1.settled sub ∧
      ∀ ty q, ar1.get? r ≠ some (.Qualified_type ty q) := by
  have h1 := make_type_unchanged ar n
  have h2 := make_type_no_nested_other ar n hs.1 hn
  have h3 := make_type_get ar n
  rw [h] at h1 h2 h3
  refine ⟨h1.1, h1.2, settled_extends sub ar ar1 hs h1.1 h1.2 h2, fun ty q hq => ?_⟩
  rw [h3, Option.some.injEq] at hq
  exact hn ty q hq

theorem substitute_obj_list_settled (sub : Substitution_obj)
    (f : Arena → Type_ref → Except Fatal (Type_ref × Arena))
    (hf : ∀ ar t r ar1, ar.settled sub → f ar t = .ok (r, ar1) →
      ar.length ≤ ar1.length ∧ ar.unchanged ar1 ∧ ar1.settled sub) :
    ∀ (ts : List Type_ref) (ar ar1 : Arena) (rs : List Type_ref), ar.settled sub →
    substitute_obj_list f ar ts = .ok (rs, ar1) →
    ar.length ≤ ar1.length ∧ ar.unchanged ar1 ∧ ar1.settled sub
  | [], ar, ar1, rs, hs, h => by
      simp only [substitute_obj_list, Except.ok.injEq, Prod.mk.injEq] at h
      rw [← h.2]
      exact ⟨Nat.le_refl _, fun i x hi => hi, hs⟩
  | t :: ts, ar, ar1, rs, hs, h => by
      simp only [substitute_obj_list] at h
      cases h1 : f ar t with
      | error e => simp [h1] at h
      | ok p =>
        obtain ⟨r, ar2⟩ := p
        cases h2 : substitute_obj_list f ar2 ts with
        | error e => simp [h1, h2] at h
        | ok p2 =>
          obtain ⟨rs2, ar3⟩ := p2
          simp only [h1, h2, Except.ok.injEq, Prod.mk.injEq] at h
          rw [← h.2]
          obtain ⟨a1, a2, a3⟩ := hf ar t r ar2 hs h1
          obtain ⟨b1, b2, b3⟩ := substitute_obj_list_settled sub f hf ts ar2 ar3 rs2 a3 h2
          exact ⟨Nat.le_trans a1 b1, fun i x hi => b2 i x (a2 i x hi), b3⟩

theorem substitute_obj_unary_settled (sub : Substitution_obj)
    (f : Arena → Type_ref → Except Fatal (Type_ref × Arena))
    (hf : ∀ ar t r ar1, ar.settled sub → f ar t = .ok (r, ar1) →
      ar.length ≤ ar1.length ∧ ar.unchanged ar1 ∧ ar1.settled sub)
    (g : Type_ref → Type_node) (hg : ∀ s ty q, g s ≠ .Qualified_type ty q)
    (ar ar1 : Arena) (x r : Type_ref) (hs : ar.settled sub)
    (h : (match f ar x with
      | .error e => .error e
      | .ok (s, ar2) => .ok (Builder.make_type ar2 (g s))) = Except.ok (r, ar1)) :
    ar.length ≤ ar1.length ∧ ar.unchanged ar1 ∧ ar1.settled sub ∧
      ∀ ty q, ar1.get? r ≠ some (.Qualified_type ty q) := by
  cases h1 : f ar x with
  | error e => simp [h1] at h
  | ok p =>
    obtain ⟨s, ar2⟩ := p
    simp only [h1, Except.ok.injEq] at h
    obtain ⟨a1, a2, a3⟩ := hf ar x s ar2 hs h1
    obtain ⟨b1, b2, b3, b4⟩ := make_type_settled sub ar2 ar1 (g s) r a3 (hg s) h
    exact ⟨Nat.le_trans a1 b1, fun i y hi => b2 i y (a2 i y hi), b3, b4⟩

/-- The substitution into a type object of a settled arena writes to no
object of the arena: every object is unchanged, the arena it leaves is settled,
and the result is no qualified type when the object is none. -/
theorem substitute_obj_settled (sub : Substitution_obj) :
    ∀ (fuel : Nat) (ar : Arena) (t r : Type_ref) (ar1 : Arena), ar.settled sub →
    substitute_obj sub fuel ar t = .ok (r, ar1) →
    ar.length ≤ ar1.length ∧ ar.unchanged ar1 ∧ ar1.settled sub ∧
      ((∀ ty q, ar.get? t ≠ some (.Qualified_type ty q)) →
        ∀ ty q, ar1.get? r ≠ some (.Qualified_type ty q))
  | 0, ar, t, r, ar1, hs, h => by simp [substitute_obj] at h
  | fuel + 1, ar, t, r, ar1, hs, h => by
      have ih := substitute_obj_settled sub fuel
      have ih3 : ∀ ar t r ar1, ar.settled sub → substitute_obj sub fuel ar t = .ok (r, ar1) →
          ar.length ≤ ar1.length ∧ ar.unchanged ar1 ∧ ar1.settled sub :=
        fun ar t r ar1 hs h => ⟨(ih ar t r ar1 hs h).1, (ih ar t r ar1 hs h).2.1,
          (ih ar t r ar1 hs h).2.2.1⟩
      have hsame : ∀ (n : Type_node), ar.get? t = some n →
          (Except.ok (t, ar) : Except Fatal (Type_ref × Arena)) = .ok (r, ar1) →
          ar.length ≤ ar1.length ∧ ar.unchanged ar1 ∧ ar1.settled sub ∧
            ((∀ ty q, (some n : Option Type_node) ≠ some (.Qualified_type ty q)) →
              ∀ ty q, ar1.get? r ≠ some (.Qualified_type ty q)) := by
        intro n hn1 e
        simp only [Except.ok.injEq, Prod.mk.injEq] at e
        obtain ⟨e1, e2⟩ := e
        subst e1; subst e2
        refine ⟨Nat.le_refl _, fun i x hi => hi, hs, fun hp ty q hq => ?_⟩
        rw [hn1] at hq
        exact hp ty q hq
      simp only [substitute_obj] at h
      cases hn : ar.get? t with
      | none => simp only [hn] at h; cases h
      | some n =>
        simp only [hn] at h
        cases n with
        | Auto_type => cases h
        | Decltype_type => cases h
        | Declauto_type => cases h
        | Array_type x => cases h
        | Function_type ps x =>
          simp only at h
          cases h1 : substitute_obj_list (substitute_obj sub fuel) ar ps with
          | error e => simp [h1] at h
          | ok p =>
            obtain ⟨ps1, ar2⟩ := p
            cases h2 : substitute_obj sub fuel ar2 x with
            | error e => simp [h1, h2] at h
            | ok p2 =>
              obtain ⟨x1, ar3⟩ := p2
              simp only [h1, h2, Except.ok.injEq] at h
              obtain ⟨a1, a2, a3⟩ := substitute_obj_list_settled sub _ ih3 ps ar ar2 ps1 hs h1
              obtain ⟨b1, b2, b3⟩ := ih3 ar2 x x1 ar3 a3 h2
              obtain ⟨c1, c2, c3, c4⟩ :=
                make_type_settled sub ar3 ar1 _ r b3 (fun _ _ e => by cases e) h
              exact ⟨Nat.le_trans a1 (Nat.le_trans b1 c1),
                fun i y hi => c2 i y (b2 i y (a2 i y hi)), c3, fun _ => c4⟩
        | Reference_type x =>
          obtain ⟨a1, a2, a3, a4⟩ := substitute_obj_unary_settled sub _ ih3
            Type_node.Reference_type (fun _ _ _ e => by cases e) ar ar1 x r hs h
          exact ⟨a1, a2, a3, fun _ => a4⟩
        | Pointer_type x =>
          obtain ⟨a1, a2, a3, a4⟩ := substitute_obj_unary_settled sub _ ih3
            Type_node.Pointer_type (fun _ _ _ e => by cases e) ar ar1 x r hs h
          exact ⟨a1, a2, a3, fun _ => a4⟩
        | Sequence_type x =>
          obtain ⟨a1, a2, a3, a4⟩ := substitute_obj_unary_settled sub _ ih3
            Type_node.Sequence_type (fun _ _ _ e => by cases e) ar ar1 x r hs h
          exact ⟨a1, a2, a3, fun _ => a4⟩
        | Qualified_type x q0 =>
          simp only at h
          cases h1 : substitute_obj sub fuel ar x with
          | error e => simp [h1] at h
          | ok p =>
            obtain ⟨s, ar2⟩ := p
            simp only [h1] at h
            obtain ⟨a1, a2, a3, a4⟩ := ih ar x s ar2 hs h1
            obtain ⟨m, hm, hmq⟩ := hs.1 t x q0 hn
            have hplain : ∀ ty q, ar2.get? s ≠ some (.Qualified_type ty q) :=
              a4 (fun ty q e => by rw [hm, Option.some.injEq] at e; exact hmq ty q e)
            cases hq : ar2.qualifier t with
            | none => simp [hq] at h
            | some q1 =>
              simp only [hq] at h
              cases hs2 : ar2.get? s with
              | none =>
                simp only [Builder.get_qualified_type, hs2] at h
                cases h
              | some n2 =>
                have hn2 : ∀ ty q, n2 ≠ .Qualified_type ty q := fun ty q e => by
                  rw [e] at hs2
                  exact hplain ty q hs2
                have b1 := (get_qualified_type_kept ar2 ar1 s r q1 h).1
                have b2 := get_qualified_type_unchanged ar2 ar1 s r q1 n2 hs2 hn2 h
                have b3 := get_qualified_type_obj_no_nested ar2 ar1 s r q1 a3.1 h
                exact ⟨Nat.le_trans a1 b1, fun i y hi => b2 i y (a2 i y hi),
                  settled_extends sub ar2 ar1 a3 b1 b2 b3,
                  fun hp => absurd rfl (hp x q0)⟩
        | Typename_type d =>
          simp only at h
          cases hmap : sub.get_mapping d with
          | none =>
            simp only [hmap] at h
            exact hsame _ hn h
          | some o =>
            cases o with
            | none => simp [hmap] at h
            | some a =>
              simp only [hmap, Except.ok.injEq, Prod.mk.injEq] at h
              obtain ⟨e1, e2⟩ := h
              subst e1; subst e2
              exact ⟨Nat.le_refl _, fun i x hi => hi, hs, fun _ ty q => hs.2.2 d a ty q hmap⟩
        | Void_type => exact hsame _ hn h
        | Boolean_type => exact hsame _ hn h
        | Integer_type _ _ => exact hsame _ hn h
        | Float_type _ => exact hsame _ hn h
        | Class_type _ => exact hsame _ hn h
        | Union_type _ => exact hsame _ hn h
        | Enum_type _ => exact hsame _ hn h
        | Synthetic_type _ => exact hsame _ hn h

theorem store_kept_refl (st : Store) : st.kept st :=
  ⟨Arena.kept_refl _, fun _ _ h => h⟩

theorem store_kept_trans {a b c : Store} (h1 : a.kept b) (h2 : b.kept c) : a.kept c :=
  ⟨Arena.kept_trans h1.1 h2.1, fun i y h => h2.2 i y (h1.2 i y h)⟩

theorem get_concat_node (l : List Decl_node) (x : Decl_node) :
    (l ++ [x]).get? l.length = some x := by
  induction l with
  | nil => rfl
  | cons a l ih => simp [ih]

theorem substitute_decl_obj_ok (sub : Substitution_obj) (fuel : Nat) (st : Store) (d : Decl)
    (x : Decl_node) (t t1 : Type_ref) (ar1 : Arena) (hd : st.decls.get? d = some x)
    (hc : x.cls = .Variable_decl ∨ x.cls = .Object_parm) (ht : x.type = some t)
    (h1 : substitute_obj sub fuel st.types t = .ok (t1, ar1)) :
    ∃ x1, substitute_decl_obj sub fuel st d =
        .ok (st.decls.length, { types := ar1, decls := st.decls ++ [x1] }) ∧
      x1.cls = x.cls ∧ x1.name = x.name ∧ x1.type = some t1 := by
  cases x with
  | Variable_decl n t0 =>
    simp only [Decl_node.type, Option.some.injEq] at ht
    subst ht
    refine ⟨.Variable_decl n t1, ?_, rfl, rfl, rfl⟩
    simp only [substitute_decl_obj, hd, h1, Builder.make_decl_node]
  | Object_parm n t0 =>
    simp only [Decl_node.type, Option.some.injEq] at ht
    subst ht
    refine ⟨.Object_parm n t1, ?_, rfl, rfl, rfl⟩
    simp only [substitute_decl_obj, hd, h1, Builder.make_decl_node]
  | other c n => simp [Decl_node.type] at ht

theorem substitute_decl_obj_error (sub : Substitution_obj) (fuel : Nat) (st : Store) (d : Decl)
    (x : Decl_node) (t : Type_ref) (e : Fatal) (hd : st.decls.get? d = some x)
    (ht : x.type = some t) (h1 : substitute_obj sub fuel st.types t = .error e) :
    substitute_decl_obj sub fuel st d = .error e := by
  cases x with
  | Variable_decl n t0 =>
    simp only [Decl_node.type, Option.some.injEq] at ht
    subst ht
    simp only [substitute_decl_obj, hd, h1]
  | Object_parm n t0 =>
    simp only [Decl_node.type, Option.some.injEq] at ht
    subst ht
    simp only [substitute_decl_obj, hd, h1]
  | other c n => simp [Decl_node.type] at ht

/-- What a substitution into a declaration that returns has done: it has
substituted into the declared type of a variable or object parameter and
appended one declaration to the store. -/
theorem substitute_decl_obj_cases (sub : Substitution_obj) (fuel : Nat) (st : Store) (d d1 : Decl)
    (st1 : Store) (h : substitute_decl_obj sub fuel st d = .ok (d1, st1)) :
    ∃ x t t1 ar1 x1, st.decls.get? d = some x ∧ x.type = some t ∧
      substitute_obj sub fuel st.types t = .ok (t1, ar1) ∧ d1 = st.decls.length ∧
      st1 = { types := ar1, decls := st.decls ++ [x1] } ∧
      x1.cls = x.cls ∧ x1.name = x.name ∧ x1.type = some t1 := by
  cases hd : st.decls.get? d with
  | none =>
    simp only [substitute_decl_obj, hd] at h
    cases h
  | some x =>
    cases x with
    | other c n =>
      simp only [substitute_decl_obj, hd] at h
      cases h
    | Variable_decl n t =>
      cases h1 : substitute_obj sub fuel st.types t with
      | error e =>
        simp only [substitute_decl_obj, hd, h1] at h
        cases h
      | ok p =>
        obtain ⟨t1, ar1⟩ := p
        simp only [substitute_decl_obj, hd, h1, Builder.make_decl_node, Except.ok.injEq,
          Prod.mk.injEq] at h
        exact ⟨_, t, t1, ar1, .Variable_decl n t1, rfl, rfl, h1, h.1.symm, h.2.symm,
          rfl, rfl, rfl⟩
    | Object_parm n t =>
      cases h1 : substitute_obj sub fuel st.types t with
      | error e =>
        simp only [substitute_decl_obj, hd, h1] at h
        cases h
      | ok p =>
        obtain ⟨t1, ar1⟩ := p
        simp only [substitute_decl_obj, hd, h1, Builder.make_decl_node, Except.ok.injEq,
          Prod.mk.injEq] at h
        exact ⟨_, t, t1, ar1, .Object_parm n t1, rfl, rfl, h1, h.1.symm, h.2.symm,
          rfl, rfl, rfl⟩

theorem get_some_append_node (l t : List Decl_node) (i : Nat) (x : Decl_node)
    (h : l.get? i = some x) : (l ++ t).get? i = some x :=
  get_some_append l t i x h

/-- A relation between stores that holds along every step of the substitution
holds between the store a substitution into a declaration is given and the
store it leaves. -/
theorem substitute_decl_obj_rel (sub : Substitution_obj) (fuel : Nat)
    (R : Store → Store → Prop) (htrans : ∀ a b c, R a b → R b c → R a c)
    (htype : ∀ (st : Store) t r ar1, substitute_obj sub fuel st.types t = .ok (r, ar1) →
      R st { st with types := ar1 })
    (hdecl : ∀ (st : Store) x, R st { st with decls := st.decls ++ [x] })
    (st : Store) (d d1 : Decl) (st1 : Store)
    (h : substitute_decl_obj sub fuel st d = .ok (d1, st1)) : R st st1 := by
  obtain ⟨x, t, t1, ar1, x1, _, _, h1, _, h2, _⟩ := substitute_decl_obj_cases sub fuel st d d1 st1 h
  rw [h2]
  exact htrans _ _ _ (htype st t t1 ar1 h1) (hdecl { st with types := ar1 } x1)

mutual
theorem substitute_expr_obj_rel (sub : Substitution_obj) (fuel : Nat)
    (R : Store → Store → Prop) (hrefl : ∀ s, R s s) (htrans : ∀ a b c, R a b → R b c → R a c)
    (htype : ∀ (st : Store) t r ar1, substitute_obj sub fuel st.types t = .ok (r, ar1) →
      R st { st with types := ar1 })
    (hmake : ∀ (st : Store) n, (∀ ty q, n ≠ .Qualified_type ty q) →
      R st { st with types := (Builder.make_type st.types n).2 })
    (hdecl : ∀ (st : Store) x, R st { st with decls := st.decls ++ [x] }) :
    ∀ (e : Expr_obj) (st : Store) (r : Expr_obj) (st1 : Store),
      substitute_expr_obj sub fuel e st = .ok (r, st1) → R st st1
  | .Boolean_expr ty v, st, r, st1, h => by
      simp only [substitute_expr_obj, Except.ok.injEq, Prod.mk.injEq] at h
      rw [← h.2]; exact hrefl st
  | .Integer_expr ty v, st, r, st1, h => by
      simp only [substitute_expr_obj, Except.ok.injEq, Prod.mk.injEq] at h
      rw [← h.2]; exact hrefl st
  | .Reference_expr ty d, st, r, st1, h => by
      simp only [substitute_expr_obj, Except.ok.injEq, Prod.mk.injEq] at h
      rw [← h.2]; exact hrefl st
  | .Unary_expr op ty a, st, r, st1, h => by
      cases op with
      | Not_expr =>
        simp only [substitute_expr_obj] at h
        cases h1 : substitute_expr_obj sub fuel a st with
        | error e => simp [h1] at h
        | ok p =>
          obtain ⟨a1, st2⟩ := p
          simp only [h1, Except.ok.injEq, Prod.mk.injEq] at h
          rw [← h.2]
          exact substitute_expr_obj_rel sub fuel R hrefl htrans htype hmake hdecl a st a1 st2 h1
      | _ => simp [substitute_expr_obj] at h
  | .Binary_expr op ty a b, st, r, st1, h => by
      have key : ∀ (f : Expr_obj → Expr_obj → Expr_obj),
          (match substitute_expr_obj sub fuel a st with
            | .error e => .error e
            | .ok (a1, st2) =>
              match substitute_expr_obj sub fuel b st2 with
              | .error e => .error e
              | .ok (b1, st3) => .ok (f a1 b1, st3)) = Except.ok (r, st1) → R st st1 := by
        intro f hf
        cases h1 : substitute_expr_obj sub fuel a st with
        | error e => simp [h1] at hf
        | ok p =>
          obtain ⟨a1, st2⟩ := p
          cases h2 : substitute_expr_obj sub fuel b st2 with
          | error e => simp [h1, h2] at hf
          | ok p2 =>
            obtain ⟨b1, st3⟩ := p2
            simp only [h1, h2, Except.ok.injEq, Prod.mk.injEq] at hf
            rw [← hf.2]
            exact htrans _ _ _
              (substitute_expr_obj_rel sub fuel R hrefl htrans htype hmake hdecl a st a1 st2 h1)
              (substitute_expr_obj_rel sub fuel R hrefl htrans htype hmake hdecl b st2 b1 st3 h2)
      cases op with
      | And_expr =>
        simp only [substitute_expr_obj] at h
        exact key _ h
      | Or_expr =>
        simp only [substitute_expr_obj] at h
        exact key _ h
      | _ => simp [substitute_expr_obj] at h
  | .Call_expr ty f as, st, r, st1, h => by
      simp only [substitute_expr_obj] at h
      cases h1 : substitute_expr_obj sub fuel f st with
      | error e => simp [h1] at h
      | ok p =>
        obtain ⟨f1, st2⟩ := p
        cases h2 : substitute_expr_list_obj sub fuel as st2 with
        | error e => simp [h1, h2] at h
        | ok p2 =>
          obtain ⟨as1, st3⟩ := p2
          simp only [h1, h2, Except.ok.injEq, Prod.mk.injEq] at h
          rw [← h.2]
          exact htrans _ _ _
            (substitute_expr_obj_rel sub fuel R hrefl htrans htype hmake hdecl f st f1 st2 h1)
            (htrans _ _ _
              (substitute_expr_list_obj_rel sub fuel R hrefl htrans htype hmake hdecl
                as st2 as1 st3 h2)
              (hmake st3 .Void_type (fun _ _ e => by cases e)))
  | .Conv _ _ _, st, r, st1, h => by simp [substitute_expr_obj] at h
  | .Check_expr ty d as, st, r, st1, h => by
      simp only [substitute_expr_obj] at h
      cases h1 : substitute_term_list_obj sub fuel as st with
      | error e => simp [h1] at h
      | ok p =>
        obtain ⟨as1, st2⟩ := p
        simp only [h1, Builder.make_check, Except.ok.injEq, Prod.mk.injEq] at h
        rw [← h.2]
        exact htrans _ _ _
          (substitute_term_list_obj_rel sub fuel R hrefl htrans htype hmake hdecl as st as1 st2 h1)
          (hmake st2 .Boolean_type (fun _ _ e => by cases e))
  | .Requires_expr _ _ _, st, r, st1, h => by simp [substitute_expr_obj] at h
  | .Synthetic_expr _ _, st, r, st1, h => by simp [substitute_expr_obj] at h
termination_by structural x => x
theorem substitute_expr_list_obj_rel (sub : Substitution_obj) (fuel : Nat)
    (R : Store → Store → Prop) (hrefl : ∀ s, R s s) (htrans : ∀ a b c, R a b → R b c → R a c)
    (htype : ∀ (st : Store) t r ar1, substitute_obj sub fuel st.types t = .ok (r, ar1) →
      R st { st with types := ar1 })
    (hmake : ∀ (st : Store) n, (∀ ty q, n ≠ .Qualified_type ty q) →
      R st { st with types := (Builder.make_type st.types n).2 })
    (hdecl : ∀ (st : Store) x, R st { st with decls := st.decls ++ [x] }) :
    ∀ (es : List Expr_obj) (st : Store) (rs : List Expr_obj) (st1 : Store),
      substitute_expr_list_obj sub fuel es st = .ok (rs, st1) → R st st1
  | [], st, rs, st1, h => by
      simp only [substitute_expr_list_obj, Except.ok.injEq, Prod.mk.injEq] at h
      rw [← h.2]; exact hrefl st
  | a :: as, st, rs, st1, h => by
      simp only [substitute_expr_list_obj] at h
      cases h1 : substitute_expr_obj sub fuel a st with
      | error e => simp [h1] at h
      | ok p =>
        obtain ⟨a1, st2⟩ := p
        cases h2 : substitute_expr_list_obj sub fuel as st2 with
        | error e => simp [h1, h2] at h
        | ok p2 =>
          obtain ⟨as1, st3⟩ := p2
          simp only [h1, h2, Except.ok.injEq, Prod.mk.injEq] at h
          rw [← h.2]
          exact htrans _ _ _
            (substitute_expr_obj_rel sub fuel R hrefl htrans htype hmake hdecl a st a1 st2 h1)
            (substitute_expr_list_obj_rel sub fuel R hrefl htrans htype hmake hdecl
              as st2 as1 st3 h2)
termination_by structural x => x
theorem substitute_term_obj_rel (sub : Substitution_obj) (fuel : Nat)
    (R : Store → Store → Prop) (hrefl : ∀ s, R s s) (htrans : ∀ a b c, R a b → R b c → R a c)
    (htype : ∀ (st : Store) t r ar1, substitute_obj sub fuel st.types t = .ok (r, ar1) →
      R st { st with types := ar1 })
    (hmake : ∀ (st : Store) n, (∀ ty q, n ≠ .Qualified_type ty q) →
      R st { st with types := (Builder.make_type st.types n).2 })
    (hdecl : ∀ (st : Store) x, R st { st with decls := st.decls ++ [x] }) :
    ∀ (a : Term_obj) (st : Store) (r : Term_obj) (st1 : Store),
      substitute_term_obj sub fuel a st = .ok (r, st1) → R st st1
  | .type t, st, r, st1, h => by
      simp only [substitute_term_obj] at h
      cases h1 : substitute_obj sub fuel st.types t with
      | error e => simp [h1] at h
      | ok p =>
        obtain ⟨t1, ar1⟩ := p
        simp only [h1, Except.ok.injEq, Prod.mk.injEq] at h
        rw [← h.2]
        exact htype st t t1 ar1 h1
  | .expr e, st, r, st1, h => by
      simp only [substitute_term_obj] at h
      cases h1 : substitute_expr_obj sub fuel e st with
      | error e => simp [h1] at h
      | ok p =>
        obtain ⟨e1, st2⟩ := p
        simp only [h1, Except.ok.injEq, Prod.mk.injEq] at h
        rw [← h.2]
        exact substitute_expr_obj_rel sub fuel R hrefl htrans htype hmake hdecl e st e1 st2 h1
  | .decl d, st, r, st1, h => by
      simp only [substitute_term_obj] at h
      cases h1 : substitute_decl_obj sub fuel st d with
      | error e => simp [h1] at h
      | ok p =>
        obtain ⟨d1, st2⟩ := p
        simp only [h1, Except.ok.injEq, Prod.mk.injEq] at h
        rw [← h.2]
        exact substitute_decl_obj_rel sub fuel R htrans htype hdecl st d d1 st2 h1
termination_by structural x => x
theorem substitute_term_list_obj_rel (sub : Substitution_obj) (fuel : Nat)
    (R : Store → Store → Prop) (hrefl : ∀ s, R s s) (htrans : ∀ a b c, R a b → R b c → R a c)
    (htype : ∀ (st : Store) t r ar1, substitute_obj sub fuel st.types t = .ok (r, ar1) →
      R st { st with types := ar1 })
    (hmake : ∀ (st : Store) n, (∀ ty q, n ≠ .Qualified_type ty q) →
      R st { st with types := (Builder.make_type st.types n).2 })
    (hdecl : ∀ (st : Store) x, R st { st with decls := st.decls ++ [x] }) :
    ∀ (as : List Term_obj) (st : Store) (rs : List Term_obj) (st1 : Store),
      substitute_term_list_obj sub fuel as st = .ok (rs, st1) → R st st1
  | [], st, rs, st1, h => by
      simp only [substitute_term_list_obj, Except.ok.injEq, Prod.mk.injEq] at h
      rw [← h.2]; exact hrefl st
  | a :: as, st, rs, st1, h => by
      simp only [substitute_term_list_obj] at h
      cases h1 : substitute_term_obj sub fuel a st with
      | error e => simp [h1] at h
      | ok p =>
        obtain ⟨a1, st2⟩ := p
        cases h2 : substitute_term_list_obj sub fuel as st2 with
        | error e => simp [h1, h2] at h
        | ok p2 =>
          obtain ⟨as1, st3⟩ := p2
          simp only [h1, h2, Except.ok.injEq, Prod.mk.injEq] at h
          rw [← h.2]
          exact htrans _ _ _
            (substitute_term_obj_rel sub fuel R hrefl htrans htype hmake hdecl a st a1 st2 h1)
            (substitute_term_list_obj_rel sub fuel R hrefl htrans htype hmake hdecl
              as st2 as1 st3 h2)
termination_by structural x => x
end

/-- Every object of the store a substitution into an expression is given is
an object of the store it leaves: the declarations unchanged, the types up to
the qualifiers `get_qualified_type` adds in place. -/
theorem substitute_expr_obj_kept (sub : Substitution_obj) (fuel : Nat) (e r : Expr_obj)
    (st st1 : Store) (h : substitute_expr_obj sub fuel e st = .ok (r, st1)) : st.kept st1 :=
  substitute_expr_obj_rel sub fuel Store.kept store_kept_refl
    (fun _ _ _ h1 h2 => store_kept_trans h1 h2)
    (fun st t r ar1 h => ⟨substitute_obj_kept sub fuel st.types t r ar1 h, fun _ _ h => h⟩)
    (fun st n _ => ⟨make_type_kept st.types n, fun _ _ h => h⟩)
    (fun st x => ⟨Arena.kept_refl _, fun i y h => get_some_append st.decls [x] i y h⟩)
    e st r st1 h

/-- A substitution into an expression over a settled arena writes to no
object of the store: the types and the declarations it is given are
unchanged. -/
theorem substitute_expr_obj_settled (sub : Substitution_obj) (fuel : Nat) (e r : Expr_obj)
    (st st1 : Store) (hs : st.types.settled sub)
    (h : substitute_expr_obj sub fuel e st = .ok (r, st1)) :
    st.types.length ≤ st1.types.length ∧ st.types.unchanged st1.types ∧
      st1.types.settled sub ∧ ∀ i y, st.decls.get? i = some y → st1.decls.get? i = some y := by
  have key := substitute_expr_obj_rel sub fuel
    (fun a b => a.types.settled sub →
      a.types.length ≤ b.types.length ∧ a.types.unchanged b.types ∧ b.types.settled sub ∧
        ∀ i y, a.decls.get? i = some y → b.decls.get? i = some y)
    (fun s hs => ⟨Nat.le_refl _, fun _ _ h => h, hs, fun _ _ h => h⟩)
    (fun a b c h1 h2 hs => by
      obtain ⟨a1, a2, a3, a4⟩ := h1 hs
      obtain ⟨b1, b2, b3, b4⟩ := h2 a3
      exact ⟨Nat.le_trans a1 b1, fun i y hi => b2 i y (a2 i y hi), b3,
        fun i y hi => b4 i y (a4 i y hi)⟩)
    (fun st t r ar1 h hs => by
      obtain ⟨a1, a2, a3, _⟩ := substitute_obj_settled sub fuel st.types t r ar1 hs h
      exact ⟨a1, a2, a3, fun _ _ h => h⟩)
    (fun st n hn hs => by
      obtain ⟨a1, a2, a3, _⟩ := make_type_settled sub st.types _ n _ hs hn rfl
      exact ⟨a1, a2, a3, fun _ _ h => h⟩)
    (fun st x hs => ⟨Nat.le_refl _, fun _ _ h => h, hs,
      fun i y h => get_some_append st.decls [x] i y h⟩)
    e st r st1 h
  exact key hs


theorem substitute_decl_obj_exit (sub : Substitution_obj) (fuel : Nat) (ds : List Decl_node)
    (st : Store) (d : Decl) (hs : st.sound sub ds)
    (hb : Term_obj.bounded fuel ds (.decl d) = true) :
    substitute_decl_obj sub fuel st d ≠ .error .nontermination ∧
    ∀ d1 st1, substitute_decl_obj sub fuel st d = .ok (d1, st1) → st1.sound sub ds := by
  rw [Term_obj.bounded] at hb
  cases hd : ds.get? d with
  | none =>
    rw [hd] at hb
    cases hb
  | some x =>
    rw [hd] at hb
    have hd1 := hs.2.2 d x hd
    have key : ∀ (t : Type_ref) (mk : Type_ref → Decl_node), t < fuel →
        (match substitute_obj sub fuel st.types t with
          | .error e => (.error e : Except Fatal (Decl × Store))
          | .ok (t1, ar1) => .ok (Builder.make_decl_node { st with types := ar1 } (mk t1))) ≠
            .error .nontermination ∧
        ∀ d1 st1, (match substitute_obj sub fuel st.types t with
          | .error e => (.error e : Except Fatal (Decl × Store))
          | .ok (t1, ar1) => .ok (Builder.make_decl_node { st with types := ar1 } (mk t1))) =
            .ok (d1, st1) → st1.sound sub ds := by
      intro t mk ht
      obtain ⟨h1, h2⟩ := substitute_obj_returns sub fuel st.types t hs.1 hs.2.1 ht
      cases h3 : substitute_obj sub fuel st.types t with
      | error e =>
        rw [h3] at h1
        exact ⟨(fun h => by cases h; exact h1 rfl), fun d1 st1 h => by cases h⟩
      | ok p =>
        obtain ⟨t1, ar1⟩ := p
        refine ⟨(fun h => by cases h), fun d1 st1 h => ?_⟩
        simp only [Builder.make_decl_node, Except.ok.injEq, Prod.mk.injEq] at h
        rw [← h.2]
        exact ⟨(h2 t1 ar1 h3).1,
          within_kept sub _ _ hs.2.1 (substitute_obj_kept sub fuel st.types t t1 ar1 h3),
          fun i y hi => get_some_append st.decls _ i y (hs.2.2 i y hi)⟩
    cases x with
    | other c n =>
      simp only [substitute_decl_obj, hd1]
      exact ⟨(fun h => by cases h), fun d1 st1 h => by cases h⟩
    | Variable_decl n t =>
      simp only [Decl_node.type, decide_eq_true_eq] at hb
      simp only [substitute_decl_obj, hd1]
      exact key t _ hb
    | Object_parm n t =>
      simp only [Decl_node.type, decide_eq_true_eq] at hb
      simp only [substitute_decl_obj, hd1]
      exact key t _ hb

theorem sound_make_type (sub : Substitution_obj) (ds : List Decl_node) (st : Store)
    (n : Type_node) (hs : st.sound sub ds) (hn : n.refs = []) :
    Store.sound { st with types := (Builder.make_type st.types n).2 } sub ds :=
  ⟨(make_type_ordered st.types n hs.1 (by rw [hn]; intro c hc; cases hc)).1,
    within_kept sub _ _ hs.2.1 (make_type_kept st.types n), hs.2.2⟩

mutual
theorem substitute_expr_obj_exit (sub : Substitution_obj) (fuel : Nat) (ds : List Decl_node) :
    ∀ (e : Expr_obj) (st : Store), st.sound sub ds → Expr_obj.bounded fuel ds e = true →
      substitute_expr_obj sub fuel e st ≠ .error .nontermination ∧
      ∀ r st1, substitute_expr_obj sub fuel e st = .ok (r, st1) → st1.sound sub ds
  | .Boolean_expr ty v, st, hs, hb => by
      simp only [substitute_expr_obj]
      refine ⟨(fun h => by cases h), fun r st1 h => ?_⟩
      simp only [Except.ok.injEq, Prod.mk.injEq] at h
      rw [← h.2]; exact hs
  | .Integer_expr ty v, st, hs, hb => by
      simp only [substitute_expr_obj]
      refine ⟨(fun h => by cases h), fun r st1 h => ?_⟩
      simp only [Except.ok.injEq, Prod.mk.injEq] at h
      rw [← h.2]; exact hs
  | .Reference_expr ty d, st, hs, hb => by
      simp only [substitute_expr_obj]
      refine ⟨(fun h => by cases h), fun r st1 h => ?_⟩
      simp only [Except.ok.injEq, Prod.mk.injEq] at h
      rw [← h.2]; exact hs
  | .Unary_expr op ty a, st, hs, hb => by
      simp only [Expr_obj.bounded] at hb
      obtain ⟨a1, a2⟩ := substitute_expr_obj_exit sub fuel ds a st hs hb
      cases op with
      | Not_expr =>
        simp only [substitute_expr_obj]
        cases h1 : substitute_expr_obj sub fuel a st with
        | error e =>
          rw [h1] at a1
          exact ⟨(fun h => by cases h; exact a1 rfl), fun r st1 h => by cases h⟩
        | ok p =>
          obtain ⟨r1, st2⟩ := p
          refine ⟨(fun h => by cases h), fun r st1 h => ?_⟩
          simp only [Except.ok.injEq, Prod.mk.injEq] at h
          rw [← h.2]
          exact a2 r1 st2 h1
      | _ =>
        simp only [substitute_expr_obj]
        exact ⟨(fun h => by cases h), fun r st1 h => by cases h⟩
  | .Binary_expr op ty a b, st, hs, hb => by
      simp only [Expr_obj.bounded, Bool.and_eq_true] at hb
      obtain ⟨a1, a2⟩ := substitute_expr_obj_exit sub fuel ds a st hs hb.1
      have key : ∀ (f : Expr_obj → Expr_obj → Expr_obj),
          (match substitute_expr_obj sub fuel a st with
            | .error e => (.error e : Except Fatal (Expr_obj × Store))
            | .ok (x1, st2) =>
              match substitute_expr_obj sub fuel b st2 with
              | .error e => .error e
              | .ok (b1, st3) => .ok (f x1 b1, st3)) ≠ .error .nontermination ∧
          ∀ r st1, (match substitute_expr_obj sub fuel a st with
            | .error e => (.error e : Except Fatal (Expr_obj × Store))
            | .ok (x1, st2) =>
              match substitute_expr_obj sub fuel b st2 with
              | .error e => .error e
              | .ok (b1, st3) => .ok (f x1 b1, st3)) = .ok (r, st1) → st1.sound sub ds := by
        intro f
        cases h1 : substitute_expr_obj sub fuel a st with
        | error e =>
          rw [h1] at a1
          exact ⟨(fun h => by cases h; exact a1 rfl), fun r st1 h => by cases h⟩
        | ok p =>
          obtain ⟨r1, st2⟩ := p
          obtain ⟨b1, b2⟩ := substitute_expr_obj_exit sub fuel ds b st2 (a2 r1 st2 h1) hb.2
          simp only
          cases h2 : substitute_expr_obj sub fuel b st2 with
          | error e =>
            rw [h2] at b1
            exact ⟨(fun h => by cases h; exact b1 rfl), fun r st1 h => by cases h⟩
          | ok p2 =>
            obtain ⟨r2, st3⟩ := p2
            refine ⟨(fun h => by cases h), fun r st1 h => ?_⟩
            simp only [Except.ok.injEq, Prod.mk.injEq] at h
            rw [← h.2]
            exact b2 r2 st3 h2
      cases op with
      | And_expr =>
        simp only [substitute_expr_obj]
        exact key _
      | Or_expr =>
        simp only [substitute_expr_obj]
        exact key _
      | _ =>
        simp only [substitute_expr_obj]
        exact ⟨(fun h => by cases h), fun r st1 h => by cases h⟩
  | .Call_expr ty f as, st, hs, hb => by
      simp only [Expr_obj.bounded, Bool.and_eq_true] at hb
      obtain ⟨a1, a2⟩ := substitute_expr_obj_exit sub fuel ds f st hs hb.1
      simp only [substitute_expr_obj]
      cases h1 : substitute_expr_obj sub fuel f st with
      | error e =>
        rw [h1] at a1
        exact ⟨(fun h => by cases h; exact a1 rfl), fun r st1 h => by cases h⟩
      | ok p =>
        obtain ⟨f1, st2⟩ := p
        obtain ⟨b1, b2⟩ := substitute_expr_list_obj_exit sub fuel ds as st2 (a2 f1 st2 h1) hb.2
        simp only
        cases h2 : substitute_expr_list_obj sub fuel as st2 with
        | error e =>
          rw [h2] at b1
          exact ⟨(fun h => by cases h; exact b1 rfl), fun r st1 h => by cases h⟩
        | ok p2 =>
          obtain ⟨as1, st3⟩ := p2
          refine ⟨(fun h => by cases h), fun r st1 h => ?_⟩
          simp only [Except.ok.injEq, Prod.mk.injEq] at h
          rw [← h.2]
          exact sound_make_type sub ds st3 .Void_type (b2 as1 st3 h2) rfl
  | .Conv _ _ _, st, hs, hb => by
      simp only [substitute_expr_obj]
      exact ⟨(fun h => by cases h), fun r st1 h => by cases h⟩
  | .Check_expr ty d as, st, hs, hb => by
      simp only [Expr_obj.bounded] at hb
      obtain ⟨a1, a2⟩ := substitute_term_list_obj_exit sub fuel ds as st hs hb
      simp only [substitute_expr_obj]
      cases h1 : substitute_term_list_obj sub fuel as st with
      | error e =>
        rw [h1] at a1
        exact ⟨(fun h => by cases h; exact a1 rfl), fun r st1 h => by cases h⟩
      | ok p =>
        obtain ⟨as1, st2⟩ := p
        refine ⟨(fun h => by cases h), fun r st1 h => ?_⟩
        simp only [Builder.make_check, Except.ok.injEq, Prod.mk.injEq] at h
        rw [← h.2]
        exact sound_make_type sub ds st2 .Boolean_type (a2 as1 st2 h1) rfl
  | .Requires_expr _ _ _, st, hs, hb => by
      simp only [substitute_expr_obj]
      exact ⟨(fun h => by cases h), fun r st1 h => by cases h⟩
  | .Synthetic_expr _ _, st, hs, hb => by
      simp only [substitute_expr_obj]
      exact ⟨(fun h => by cases h), fun r st1 h => by cases h⟩
termination_by structural x => x
theorem substitute_expr_list_obj_exit (sub : Substitution_obj) (fuel : Nat)
    (ds : List Decl_node) :
    ∀ (es : List Expr_obj) (st : Store), st.sound sub ds →
      Expr_obj.bounded_list fuel ds es = true →
      substitute_expr_list_obj sub fuel es st ≠ .error .nontermination ∧
      ∀ rs st1, substitute_expr_list_obj sub fuel es st = .ok (rs, st1) → st1.sound sub ds
  | [], st, hs, hb => by
      simp only [substitute_expr_list_obj]
      refine ⟨(fun h => by cases h), fun r st1 h => ?_⟩
      simp only [Except.ok.injEq, Prod.mk.injEq] at h
      rw [← h.2]; exact hs
  | a :: as, st, hs, hb => by
      simp only [Expr_obj.bounded_list, Bool.and_eq_true] at hb
      obtain ⟨a1, a2⟩ := substitute_expr_obj_exit sub fuel ds a st hs hb.1
      simp only [substitute_expr_list_obj]
      cases h1 : substitute_expr_obj sub fuel a st with
      | error e =>
        rw [h1] at a1
        exact ⟨(fun h => by cases h; exact a1 rfl), fun r st1 h => by cases h⟩
      | ok p =>
        obtain ⟨r1, st2⟩ := p
        obtain ⟨b1, b2⟩ := substitute_expr_list_obj_exit sub fuel ds as st2 (a2 r1 st2 h1) hb.2
        simp only
        cases h2 : substitute_expr_list_obj sub fuel as st2 with
        | error e =>
          rw [h2] at b1
          exact ⟨(fun h => by cases h; exact b1 rfl), fun r st1 h => by cases h⟩
        | ok p2 =>
          obtain ⟨rs2, st3⟩ := p2
          refine ⟨(fun h => by cases h), fun r st1 h => ?_⟩
          simp only [Except.ok.injEq, Prod.mk.injEq] at h
          rw [← h.2]
          exact b2 rs2 st3 h2
termination_by structural x => x
theorem substitute_term_obj_exit (sub : Substitution_obj) (fuel : Nat) (ds : List Decl_node) :
    ∀ (a : Term_obj) (st : Store), st.sound sub ds → Term_obj.bounded fuel ds a = true →
      substitute_term_obj sub fuel a st ≠ .error .nontermination ∧
      ∀ r st1, substitute_term_obj sub fuel a st = .ok (r, st1) → st1.sound sub ds
  | .type t, st, hs, hb => by
      simp only [Term_obj.bounded, decide_eq_true_eq] at hb
      obtain ⟨h1, h2⟩ := substitute_obj_returns sub fuel st.types t hs.1 hs.2.1 hb
      simp only [substitute_term_obj]
      cases h3 : substitute_obj sub fuel st.types t with
      | error e =>
        rw [h3] at h1
        exact ⟨(fun h => by cases h; exact h1 rfl), fun r st1 h => by cases h⟩
      | ok p =>
        obtain ⟨t1, ar1⟩ := p
        refine ⟨(fun h => by cases h), fun r st1 h => ?_⟩
        simp only [Except.ok.injEq, Prod.mk.injEq] at h
        rw [← h.2]
        exact ⟨(h2 t1 ar1 h3).1,
          within_kept sub _ _ hs.2.1 (substitute_obj_kept sub fuel st.types t t1 ar1 h3),
          hs.2.2⟩
  | .expr e, st, hs, hb => by
      simp only [Term_obj.bounded] at hb
      obtain ⟨a1, a2⟩ := substitute_expr_obj_exit sub fuel ds e st hs hb
      simp only [substitute_term_obj]
      cases h1 : substitute_expr_obj sub fuel e st with
      | error e =>
        rw [h1] at a1
        exact ⟨(fun h => by cases h; exact a1 rfl), fun r st1 h => by cases h⟩
      | ok p =>
        obtain ⟨r1, st2⟩ := p
        refine ⟨(fun h => by cases h), fun r st1 h => ?_⟩
        simp only [Except.ok.injEq, Prod.mk.injEq] at h
        rw [← h.2]
        exact a2 r1 st2 h1
  | .decl d, st, hs, hb => by
      obtain ⟨a1, a2⟩ := substitute_decl_obj_exit sub fuel ds st d hs hb
      simp only [substitute_term_obj]
      cases h1 : substitute_decl_obj sub fuel st d with
      | error e =>
        rw [h1] at a1
        exact ⟨(fun h => by cases h; exact a1 rfl), fun r st1 h => by cases h⟩
      | ok p =>
        obtain ⟨d1, st2⟩ := p
        refine ⟨(fun h => by cases h), fun r st1 h => ?_⟩
        simp only [Except.ok.injEq, Prod.mk.injEq] at h
        rw [← h.2]
        exact a2 d1 st2 h1
termination_by structural x => x
theorem substitute_term_list_obj_exit (sub : Substitution_obj) (fuel : Nat)
    (ds : List Decl_node) :
    ∀ (as : List Term_obj) (st : Store), st.sound sub ds →
      Term_obj.bounded_list fuel ds as = true →
      substitute_term_list_obj sub fuel as st ≠ .error .nontermination ∧
      ∀ rs st1, substitute_term_list_obj sub fuel as st = .ok (rs, st1) → st1.sound sub ds
  | [], st, hs, hb => by
      simp only [substitute_term_list_obj]
      refine ⟨(fun h => by cases h), fun r st1 h => ?_⟩
      simp only [Except.ok.injEq, Prod.mk.injEq] at h
      rw [← h.2]; exact hs
  | a :: as, st, hs, hb => by
      simp only [Term_obj.bounded_list, Bool.and_eq_true] at hb
      obtain ⟨a1, a2⟩ := substitute_term_obj_exit sub fuel ds a st hs hb.1
      simp only [substitute_term_list_obj]
      cases h1 : substitute_term_obj sub fuel a st with
      | error e =>
        rw [h1] at a1
        exact ⟨(fun h => by cases h; exact a1 rfl), fun r st1 h => by cases h⟩
      | ok p =>
        obtain ⟨r1, st2⟩ := p
        obtain ⟨b1, b2⟩ := substitute_term_list_obj_exit sub fuel ds as st2 (a2 r1 st2 h1) hb.2
        simp only
        cases h2 : substitute_term_list_obj sub fuel as st2 with
        | error e =>
          rw [h2] at b1
          exact ⟨(fun h => by cases h; exact b1 rfl), fun r st1 h => by cases h⟩
        | ok p2 =>
          obtain ⟨rs2, st3⟩ := p2
          refine ⟨(fun h => by cases h), fun r st1 h => ?_⟩
          simp only [Except.ok.injEq, Prod.mk.injEq] at h
          rw [← h.2]
          exact b2 rs2 st3 h2
termination_by structural x => x
end

theorem substituted_terms_iff (sub : Substitution_obj) (fuel : Nat) :
    ∀ (as : List Term_obj) (st : Store) (as1 : List Term_obj) (st1 : Store),
      substitute_term_list_obj sub fuel as st = .ok (as1, st1) ↔
        Substituted_terms sub fuel st as as1 st1
  | [], st, as1, st1 => by
      simp only [substitute_term_list_obj, Except.ok.injEq, Prod.mk.injEq]
      constructor
      · rintro ⟨h1, h2⟩
        subst h1; subst h2
        exact Substituted_terms.nil st
      · intro h
        cases h
        exact ⟨rfl, rfl⟩
  | a :: as, st, as1, st1 => by
      simp only [substitute_term_list_obj]
      cases h1 : substitute_term_obj sub fuel a st with
      | error e =>
        constructor
        · intro h; cases h
        · intro h
          cases h with
          | cons _ st2 _ _ a1 _ as2 ha hr =>
            rw [h1] at ha
            cases ha
      | ok p =>
        obtain ⟨a1, st2⟩ := p
        simp only
        cases h2 : substitute_term_list_obj sub fuel as st2 with
        | error e =>
          constructor
          · intro h; cases h
          · intro h
            cases h with
            | cons _ st3 _ _ a2 _ as2 ha hr =>
              rw [h1] at ha
              cases ha
              rw [← substituted_terms_iff sub fuel as st2 as2 st1, h2] at hr
              cases hr
        | ok p2 =>
          obtain ⟨as2, st3⟩ := p2
          simp only [Except.ok.injEq, Prod.mk.injEq]
          constructor
          · rintro ⟨e1, e2⟩
            subst e1; subst e2
            exact Substituted_terms.cons st st2 st3 a a1 as as2 h1
              ((substituted_terms_iff sub fuel as st2 as2 st3).1 h2)
          · intro h
            cases h with
            | cons _ st4 _ _ a2 _ as3 ha hr =>
              rw [h1] at ha
              cases ha
              rw [← substituted_terms_iff sub fuel as st2 as3 st1, h2] at hr
              cases hr
              exact ⟨rfl, rfl⟩

/-- C19: substituting into a variable declaration or an object parameter `d`
with name `n` and type `t`, on the objects of the store.  When
`substitute(t, sub)` returns the type object `t1`, `substitute(d, sub)` returns
a declaration that did not exist before, of the class of `d`, with the name
`n` and the type `t1`, in the store of the types `substitute(t, sub)` left;
every declaration of before is unchanged and every type of before is kept, up
to the qualifiers that `get_qualified_type` adds in place.  When
`substitute(t, sub)` is fatal, so is `substitute(d, sub)`, and with a step
budget above `t` on an arena in order the call ends. -/
theorem substitute_decl_rebuilds (sub : Substitution_obj) (fuel : Nat) (st : Store) (d : Decl)
    (x : Decl_node) (t : Type_ref) (hd : st.decls.get? d = some x)
    (hc : x.cls = .Variable_decl ∨ x.cls = .Object_parm) (ht : x.type = some t) :
    (∀ t1 ar1, substitute_obj sub fuel st.types t = .ok (t1, ar1) →
      ∃ d1 st1 x1, substitute_decl_obj sub fuel st d = .ok (d1, st1) ∧
        st.decls.get? d1 = none ∧ st1.decls.get? d1 = some x1 ∧
        x1.cls = x.cls ∧ x1.name = x.name ∧ x1.type = some t1 ∧
        st1.types = ar1 ∧ st.kept st1) ∧
    (∀ e, substitute_obj sub fuel st.types t = .error e →
      substitute_decl_obj sub fuel st d = .error e) ∧
    (st.types.ordered → sub.within st.types → t < fuel →
      substitute_decl_obj sub fuel st d ≠ .error .nontermination) := by
  refine ⟨fun t1 ar1 h1 => ?_, fun e h1 => substitute_decl_obj_error sub fuel st d x t e hd ht h1,
    fun ho hs hlt => ?_⟩
  · obtain ⟨x1, h, h2, h3, h4⟩ := substitute_decl_obj_ok sub fuel st d x t t1 ar1 hd hc ht h1
    exact ⟨_, _, x1, h, List.get?_eq_none.2 (Nat.le_refl _), get_concat_node st.decls x1, h2, h3,
      h4, rfl, substitute_obj_kept sub fuel st.types t t1 ar1 h1,
      fun i y hi => get_some_append st.decls [x1] i y hi⟩
  · have h0 := (substitute_obj_returns sub fuel st.types t ho hs hlt).1
    cases h1 : substitute_obj sub fuel st.types t with
    | error e =>
      rw [substitute_decl_obj_error sub fuel st d x t e hd ht h1]
      rw [h1] at h0
      intro h
      cases h
      exact h0 rfl
    | ok p =>
      obtain ⟨t1, ar1⟩ := p
      obtain ⟨x1, h, _⟩ := substitute_decl_obj_ok sub fuel st d x t t1 ar1 hd hc ht h1
      rw [h]
      intro h
      cases h

/-- C19 at the scenario S3: under the substitution of `T` by the type object
`int` the variable `v1 : T` yields a variable `v1` whose type is the object
`int`, and `v2 : ptr(T)` a variable `v2` whose type is a new object
`ptr(int)`.  Under the substitution of `T` by the object `const int`, the
variable `f : fn(volatile T) -> T` yields a variable `f` whose type is a new
object `fn(x) -> x`, with `x` the object that was `const int` and has become
`const volatile int`. -/
theorem substitute_decl_rebuilds_witness :
    substitute_decl_obj [(0, some 0)] 3 sample_objects 1 =
      .ok (3, { types := sample_objects.types,
                decls := sample_objects.decls ++ [.Variable_decl (.Simple_id 1) 0] }) ∧
    substitute_decl_obj [(0, some 0)] 3 sample_objects 2 =
      .ok (3, { types := sample_objects.types ++ [.Pointer_type 0],
                decls := sample_objects.decls ++ [.Variable_decl (.Simple_id 2) 3] }) ∧
    substitute_decl_obj [(7, some 1)] 5 shared_objects 0 =
      .ok (1, { types := sample_arena_widened ++ [.Function_type [3] 2, .Function_type [1] 1],
                decls := shared_objects.decls ++ [.Variable_decl (.Simple_id 9) 5] }) ∧
    (∃ d1 st1 x1, substitute_decl_obj [(7, some 1)] 5 shared_objects 0 = .ok (d1, st1) ∧
      shared_objects.decls.get? d1 = none ∧ st1.decls.get? d1 = some x1 ∧
      x1.cls = Decl_node.cls (.Variable_decl (.Simple_id 9) 4) ∧
      x1.name = Decl_node.name (.Variable_decl (.Simple_id 9) 4) ∧ x1.type = some 5 ∧
      st1.types = sample_arena_widened ++ [.Function_type [3] 2, .Function_type [1] 1] ∧
      shared_objects.kept st1) :=
  ⟨rfl, rfl, rfl,
   (substitute_decl_rebuilds [(7, some 1)] 5 shared_objects 0 (.Variable_decl (.Simple_id 9) 4) 4
      rfl (Or.inl rfl) rfl).1 5
      (sample_arena_widened ++ [Type_node.Function_type [3] 2, Type_node.Function_type [1] 1])
      rfl⟩

/-- C21: substitution commutes with concept checks and logical connectives, on
the objects of the store.  `substitute(check(D, args))` returns exactly when
the substitution into the arguments does, element by element in their order,
each on the store the one before left, and is then the check of the same
declaration `D`, of the type object `get_bool_type()` returns, on the
substituted arguments in the same order; `substitute(and(e1, e2))` returns
exactly when the substitution into `e1` and then into `e2` does and is then
`and(substitute e1, substitute e2)` with the type object of the original, and
likewise for `or` and `not`.  Every object of the store is kept, up to the
qualifiers `get_qualified_type` adds in place, and with a step budget above the
types of the terms on a store in order the call ends. -/
theorem substitution_commutes (sub : Substitution_obj) (fuel : Nat) (st st1 : Store)
    (ty : Type_ref) (d : Decl) (as : List Term_obj) (e1 e2 r : Expr_obj) :
    (substitute_expr_obj sub fuel (.Check_expr ty d as) st = .ok (r, st1) ↔
      ∃ as1 st0, Substituted_terms sub fuel st as as1 st0 ∧
        r = .Check_expr (Builder.get_bool_type st0.types).1 d as1 ∧
        st1 = { st0 with types := (Builder.get_bool_type st0.types).2 }) ∧
    (∀ ar, (Builder.get_bool_type ar).2.get? (Builder.get_bool_type ar).1 =
      some .Boolean_type) ∧
    (substitute_expr_obj sub fuel (.Binary_expr .And_expr ty e1 e2) st = .ok (r, st1) ↔
      ∃ r1 r2 st0, substitute_expr_obj sub fuel e1 st = .ok (r1, st0) ∧
        substitute_expr_obj sub fuel e2 st0 = .ok (r2, st1) ∧
        r = .Binary_expr .And_expr ty r1 r2) ∧
    (substitute_expr_obj sub fuel (.Binary_expr .Or_expr ty e1 e2) st = .ok (r, st1) ↔
      ∃ r1 r2 st0, substitute_expr_obj sub fuel e1 st = .ok (r1, st0) ∧
        substitute_expr_obj sub fuel e2 st0 = .ok (r2, st1) ∧
        r = .Binary_expr .Or_expr ty r1 r2) ∧
    (substitute_expr_obj sub fuel (.Unary_expr .Not_expr ty e1) st = .ok (r, st1) ↔
      ∃ r1, substitute_expr_obj sub fuel e1 st = .ok (r1, st1) ∧
        r = .Unary_expr .Not_expr ty r1) ∧
    (∀ e, substitute_expr_obj sub fuel e st = .ok (r, st1) → st.kept st1) ∧
    (∀ e, st.sound sub st.decls → Expr_obj.bounded fuel st.decls e = true →
      substitute_expr_obj sub fuel e st ≠ .error .nontermination) := by
  have hbin : ∀ (f : Expr_obj → Expr_obj → Expr_obj),
      ((match substitute_expr_obj sub fuel e1 st with
        | .error e => (.error e : Except Fatal (Expr_obj × Store))
        | .ok (a1, st2) =>
          match substitute_expr_obj sub fuel e2 st2 with
          | .error e => .error e
          | .ok (b1, st3) => .ok (f a1 b1, st3)) = .ok (r, st1) ↔
      ∃ r1 r2 st0, substitute_expr_obj sub fuel e1 st = .ok (r1, st0) ∧
        substitute_expr_obj sub fuel e2 st0 = .ok (r2, st1) ∧ r = f r1 r2) := by
    intro f
    cases h1 : substitute_expr_obj sub fuel e1 st with
    | error e =>
      simp only
      constructor
      · intro h; cases h
      · rintro ⟨_, _, _, h, _⟩; cases h
    | ok p =>
      obtain ⟨a1, st2⟩ := p
      simp only
      cases h2 : substitute_expr_obj sub fuel e2 st2 with
      | error e =>
        simp only
        constructor
        · intro h; cases h
        · rintro ⟨r1, r2, st0, h, h3, _⟩
          cases h
          rw [h2] at h3
          cases h3
      | ok p2 =>
        obtain ⟨b1, st3⟩ := p2
        simp only [Except.ok.injEq, Prod.mk.injEq]
        constructor
        · rintro ⟨e1, e2⟩
          exact ⟨a1, b1, st2, ⟨rfl, rfl⟩, by rw [h2, e2], e1.symm⟩
        · rintro ⟨r1, r2, st0, ⟨ha, hs⟩, h3, h4⟩
          subst ha; subst hs
          rw [h2] at h3
          cases h3
          exact ⟨h4.symm, rfl⟩
  refine ⟨?_, fun ar => make_type_get ar .Boolean_type, ?_, ?_, ?_,
    fun e h => substitute_expr_obj_kept sub fuel e r st st1 h,
    fun e hs hb => (substitute_expr_obj_exit sub fuel st.decls e st hs hb).1⟩
  · simp only [substitute_expr_obj]
    cases h : substitute_term_list_obj sub fuel as st with
    | error e =>
      simp only
      constructor
      · intro h1; cases h1
      · rintro ⟨as1, st0, h1, _⟩
        rw [← substituted_terms_iff, h] at h1
        cases h1
    | ok p =>
      obtain ⟨as1, st0⟩ := p
      simp only [Builder.make_check, Except.ok.injEq, Prod.mk.injEq]
      constructor
      · rintro ⟨h1, h2⟩
        exact ⟨as1, st0, (substituted_terms_iff sub fuel as st as1 st0).1 h, h1.symm, h2.symm⟩
      · rintro ⟨as2, st2, h1, h2, h3⟩
        rw [← substituted_terms_iff, h] at h1
        cases h1
        exact ⟨h2.symm, h3.symm⟩
  · simp only [substitute_expr_obj]
    exact hbin _
  · simp only [substitute_expr_obj]
    exact hbin _
  · simp only [substitute_expr_obj]
    cases h1 : substitute_expr_obj sub fuel e1 st with
    | error e =>
      simp only
      constructor
      · intro h; cases h
      · rintro ⟨_, h, _⟩; cases h
    | ok p =>
      obtain ⟨a1, st2⟩ := p
      simp only [Except.ok.injEq, Prod.mk.injEq]
      constructor
      · rintro ⟨h2, h3⟩
        exact ⟨a1, ⟨rfl, h3⟩, h2.symm⟩
      · rintro ⟨r1, ⟨ha, hs⟩, h3⟩
        subst ha
        exact ⟨h3.symm, hs⟩

/-- C21 at the check `D<volatile T, T>` under the substitution of `T` by the
type object `const int`: the first argument makes that object
`const volatile int` and is it, and so is the second, which is the same
object; and at `and(true, not(false))`, which is rebuilt as it is. -/
theorem substitution_commutes_witness :
    substitute_expr_obj [(7, some 1)] 5 (.Check_expr 0 5 [.type 3, .type 2])
        { types := sample_arena, decls := [] } =
      .ok (.Check_expr 4 5 [.type 1, .type 1],
           { types := sample_arena_widened ++ [.Boolean_type], decls := [] }) ∧
    substitute_expr_obj [(7, some 1)] 5
        (.Binary_expr .And_expr 0 (.Boolean_expr 0 true)
          (.Unary_expr .Not_expr 0 (.Boolean_expr 0 false)))
        { types := [.Boolean_type], decls := [] } =
      .ok (.Binary_expr .And_expr 0 (.Boolean_expr 0 true)
          (.Unary_expr .Not_expr 0 (.Boolean_expr 0 false)),
           { types := [.Boolean_type], decls := [] }) :=
  ⟨(substitution_commutes [(7, some 1)] 5 { types := sample_arena, decls := [] }
      { types := sample_arena_widened ++ [.Boolean_type], decls := [] } 0 5
      [.type 3, .type 2] (.Boolean_expr 0 true) (.Boolean_expr 0 true)
      (.Check_expr 4 5 [.type 1, .type 1])).1.2
      ⟨[.type 1, .type 1], { types := sample_arena_widened, decls := [] },
        Substituted_terms.cons _ { types := sample_arena_widened, decls := [] } _ _ _ _ _ rfl
          (Substituted_terms.cons _ { types := sample_arena_widened, decls := [] } _ _ _ _ _ rfl
            (Substituted_terms.nil _)),
        rfl, rfl⟩,
   (substitution_commutes [(7, some 1)] 5 { types := [.Boolean_type], decls := [] }
      { types := [.Boolean_type], decls := [] } 0 5 []
      (.Boolean_expr 0 true) (.Unary_expr .Not_expr 0 (.Boolean_expr 0 false))
      (.Binary_expr .And_expr 0 (.Boolean_expr 0 true)
        (.Unary_expr .Not_expr 0 (.Boolean_expr 0 false)))).2.2.1.2
      ⟨_, _, _, rfl, rfl, rfl⟩⟩

/-! ## Shapes substitution is not implemented on -/

/-- C22: unsupported shapes are fatal.  `substitute` ends in the
`unimplemented` error on the auto, decltype and declauto types, by value and
on the type objects of an arena, and on every declaration whose class is
neither `Variable_decl` nor `Object_parm`; no value is returned for them. -/
theorem substitute_unsupported (sub : Substitution) (st : Decl_store) (d : Decl)
    (o : Decl_object) (hd : st.get? d = some o)
    (hv : o.cls ≠ .Variable_decl) (hp : o.cls ≠ .Object_parm) :
    substitute_type sub .Auto_type = .error .unimplemented ∧
    substitute_type sub .Decltype_type = .error .unimplemented ∧
    substitute_type sub .Declauto_type = .error .unimplemented ∧
    (∀ (subo : Substitution_obj) (fuel : Nat) (ar : Arena) (t : Type_ref),
      ar.get? t = some .Auto_type ∨ ar.get? t = some .Decltype_type ∨
        ar.get? t = some .Declauto_type →
      substitute_obj subo (fuel + 1) ar t = .error .unimplemented) ∧
    substitute_decl sub st d = .error .unimplemented ∧
    (∀ r, substitute_decl sub st d ≠ .ok r) := by
  have hdecl : substitute_decl sub st d = .error .unimplemented := by
    unfold substitute_decl
    rw [hd]
    cases o with
    | Variable_decl x => exact absurd rfl hv
    | Object_parm x => exact absurd rfl hp
    | _ => rfl
  refine ⟨rfl, rfl, rfl, ?_, hdecl, ?_⟩
  · intro subo fuel ar t h
    rcases h with h | h | h <;> simp only [substitute_obj, h]
  · intro r hr
    rw [hdecl] at hr
    cases hr

/-- C22 on the type parameter `T` of the sample store and on a function
declaration. -/
theorem substitute_unsupported_witness :
    (substitute_type (Substitution.single 0 int_type) .Auto_type = .error .unimplemented ∧
    substitute_type (Substitution.single 0 int_type) .Decltype_type = .error .unimplemented ∧
    substitute_type (Substitution.single 0 int_type) .Declauto_type = .error .unimplemented ∧
    (∀ (subo : Substitution_obj) (fuel : Nat) (ar : Arena) (t : Type_ref),
      ar.get? t = some .Auto_type ∨ ar.get? t = some .Decltype_type ∨
        ar.get? t = some .Declauto_type →
      substitute_obj subo (fuel + 1) ar t = .error .unimplemented) ∧
    substitute_decl (Substitution.single 0 int_type) sample_store 0 = .error .unimplemented ∧
    (∀ r, substitute_decl (Substitution.single 0 int_type) sample_store 0 ≠ .ok r)) ∧
    substitute_decl (Substitution.single 0 int_type)
      [.Function_decl (.Simple_id 9) (.Function_type [] .Void_type) []] 0 =
        .error .unimplemented :=
  ⟨substitute_unsupported (Substitution.single 0 int_type) sample_store 0
      (.Type_parm (.Simple_id 0)) rfl (by decide) (by decide),
   (substitute_unsupported (Substitution.single 0 int_type)
      [.Function_decl (.Simple_id 9) (.Function_type [] .Void_type) []] 0
      (.Function_decl (.Simple_id 9) (.Function_type [] .Void_type) []) rfl
      (by decide) (by decide)).2.2.2.2.1⟩

/-! ## Normalization -/

theorem normalize_other (e : Expr) (h : is_connective e = false) :
    normalize e = .Predicate_cons e := by
  cases e with
  | Binary_expr op ty l r => cases op <;> first | rfl | simp [is_connective] at h
  | Check_expr ty d as => simp [is_connective] at h
  | Requires_expr ty ps b => simp [is_connective] at h
  | _ => rfl

/-- No predicate leaf of a normalized expression carries a logical and, a
logical or, a concept check or a requires-expression. -/
theorem normal_normalize : ∀ e : Expr, normal (normalize e) = true
  | .Binary_expr op ty l r => by
      cases op <;>
        simp [normalize, normal, is_connective, normal_normalize l, normal_normalize r]
  | .Requires_expr ty ps b => by
      simp only [normalize, normal, normal_normalize b]
  | .Check_expr _ _ _ => rfl
  | .Boolean_expr _ _ => rfl
  | .Integer_expr _ _ => rfl
  | .Reference_expr _ _ => rfl
  | .Unary_expr _ _ _ => rfl
  | .Call_expr _ _ _ => rfl
  | .Conv _ _ _ => rfl
  | .Synthetic_expr _ _ => rfl

/-- C23: normalization follows the shape of the expression.  `and` becomes the
conjunction of the normalized operands, `or` their disjunction, a concept
check the concept constraint of the same declaration and arguments and, by the
fourth rule of section 4.E, a requires-expression the parameterized constraint
of its parameters over its normalized body; every other expression, which is
what that section means by any other boolean expression, becomes the predicate
that carries it verbatim, so that no predicate leaf of a normalized expression
carries one of the four; `and(true, not(false))` normalizes to
`Conjunction(Predicate(true), Predicate(not(false)))`. -/
theorem normalize_shape :
    (∀ ty l r, normalize (.Binary_expr .And_expr ty l r) =
      .Conjunction_cons (normalize l) (normalize r)) ∧
    (∀ ty l r, normalize (.Binary_expr .Or_expr ty l r) =
      .Disjunction_cons (normalize l) (normalize r)) ∧
    (∀ ty d as, normalize (.Check_expr ty d as) = .Concept_cons d as) ∧
    (∀ ty ps b, normalize (.Requires_expr ty ps b) = .Parameterized_cons ps (normalize b)) ∧
    (∀ e, is_connective e = false → normalize e = .Predicate_cons e) ∧
    (∀ ty v, normalize (.Boolean_expr ty v) = .Predicate_cons (.Boolean_expr ty v)) ∧
    (∀ ty v, normalize (.Integer_expr ty v) = .Predicate_cons (.Integer_expr ty v)) ∧
    (∀ ty d, normalize (.Reference_expr ty d) = .Predicate_cons (.Reference_expr ty d)) ∧
    (∀ op ty a, normalize (.Unary_expr op ty a) = .Predicate_cons (.Unary_expr op ty a)) ∧
    (∀ op ty a b, op ≠ .And_expr → op ≠ .Or_expr →
      normalize (.Binary_expr op ty a b) = .Predicate_cons (.Binary_expr op ty a b)) ∧
    (∀ ty f as, normalize (.Call_expr ty f as) = .Predicate_cons (.Call_expr ty f as)) ∧
    (∀ k ty a, normalize (.Conv k ty a) = .Predicate_cons (.Conv k ty a)) ∧
    (∀ ty d, normalize (.Synthetic_expr ty d) = .Predicate_cons (.Synthetic_expr ty d)) ∧
    (∀ e, normal (normalize e) = true) ∧
    normalize (.Binary_expr .And_expr bool_type (.Boolean_expr bool_type true)
        (.Unary_expr .Not_expr bool_type (.Boolean_expr bool_type false))) =
      .Conjunction_cons (.Predicate_cons (.Boolean_expr bool_type true))
        (.Predicate_cons (.Unary_expr .Not_expr bool_type (.Boolean_expr bool_type false))) := by
  refine ⟨fun _ _ _ => rfl, fun _ _ _ => rfl, fun _ _ _ => rfl, fun _ _ _ => rfl,
    normalize_other, fun _ _ => rfl, fun _ _ => rfl, fun _ _ => rfl, fun _ _ _ => rfl, ?_,
    fun _ _ _ => rfl, fun _ _ _ => rfl, fun _ _ => rfl, normal_normalize, rfl⟩
  intro op ty a b h1 h2
  cases op <;> first | rfl | exact absurd rfl h1 | exact absurd rfl h2

/-- C23 at the comparison `1 = 2`, which is neither `and` nor `or`, and at the
negation of a concept check, which is none of the four. -/
theorem normalize_shape_witness :
    normalize (.Binary_expr .Eq_expr bool_type (.Integer_expr int_type 1)
        (.Integer_expr int_type 2)) =
      .Predicate_cons (.Binary_expr .Eq_expr bool_type (.Integer_expr int_type 1)
        (.Integer_expr int_type 2)) ∧
    normalize (.Unary_expr .Not_expr bool_type (.Check_expr bool_type 5 [])) =
      .Predicate_cons (.Unary_expr .Not_expr bool_type (.Check_expr bool_type 5 [])) :=
  ⟨normalize_shape.2.2.2.2.2.2.2.2.2.1 .Eq_expr bool_type (.Integer_expr int_type 1)
    (.Integer_expr int_type 2) (by decide) (by decide),
   normalize_shape.2.2.2.2.1 _ rfl⟩

/-! ## The constraints `hash_value` is defined on -/

theorem hashable_no_parameterized (c : Cons) (h : hashable c = true) :
    has_parameterized c = false := by
  induction c with
  | Concept_cons d as => rfl
  | Predicate_cons e => rfl
  | Parameterized_cons ps c _ => rw [hashable_parameterized] at h; cases h
  | Conjunction_cons l r ihl ihr =>
    rw [hashable_conjunction, Bool.and_eq_true] at h
    simp only [has_parameterized, ihl h.1, ihr h.2, Bool.or_self]
  | Disjunction_cons l r ihl ihr =>
    rw [hashable_disjunction, Bool.and_eq_true] at h
    simp only [has_parameterized, ihl h.1, ihr h.2, Bool.or_self]

theorem insert_of_not_hashable (ps : Prop_list) (c : Cons) (h : hashable c = false) :
    ∃ e, ps.insert c = .error e := by
  unfold hashable at h
  unfold Prop_list.insert
  cases hc : hash_value c with
  | error e => exact ⟨e, rfl⟩
  | ok v => rw [hc] at h; cases h

theorem insert_of_hashable (ps : Prop_list) (c : Cons) (h : hashable c = true) :
    ∃ r, ps.insert c = .ok r := by
  obtain ⟨v, hv⟩ := (hashable_iff c).1 h
  unfold Prop_list.insert
  rw [hv]
  simp only
  split
  · exact ⟨_, rfl⟩
  · exact ⟨_, rfl⟩

/-- C24 (counterexample): `hash_value` fails on the parameterized constraint
over the predicate `true`, whose inner constraint has a hash code, and the
constraint cannot be inserted into a prop-list, alone or as an operand. -/
theorem hash_value_parameterized_counterexample :
    hash_value (.Parameterized_cons [] (.Predicate_cons (.Boolean_expr bool_type true))) =
        .error .unimplemented ∧
      hashable (.Predicate_cons (.Boolean_expr bool_type true)) = true ∧
      Prop_list.empty.insert
          (.Parameterized_cons [] (.Predicate_cons (.Boolean_expr bool_type true))) =
        .error .unimplemented ∧
      Prop_list.empty.insert
          (.Conjunction_cons (.Predicate_cons (.Boolean_expr bool_type true))
            (.Parameterized_cons [] (.Predicate_cons (.Boolean_expr bool_type true)))) =
        .error .unimplemented :=
  ⟨rfl, rfl, rfl, rfl⟩

/-- C24 (amended): `hash_value` has an overload for predicate, concept,
conjunction and disjunction constraints, where it combines the variant tag
with the hash codes of the fields when those are defined.  A parameterized
constraint selects the `Cons const&` overload, which is
`lingo_unimplemented()`: a constraint with a hash code has no parameterized
part, and a prop-list accepts exactly the constraints that have a hash
code. -/
theorem hash_value_defined :
    (∀ ps c, hash_value (.Parameterized_cons ps c) = .error .unimplemented) ∧
    (∀ e he, hash_value_expr e = .ok he →
      hash_value (.Predicate_cons e) = .ok (hash_combine (hash_type .Predicate_cons) he)) ∧
    (∀ d as ha, hash_value_term_list as (.of_int as.length) = .ok ha →
      hash_value (.Concept_cons d as) =
        .ok (hash_combine (hash_combine (hash_type .Concept_cons) (hash_value_decl d)) ha)) ∧
    (∀ l r hl hr, hash_value l = .ok hl → hash_value r = .ok hr →
      hash_value (.Conjunction_cons l r) =
        .ok (hash_combine (hash_combine (hash_type .Conjunction_cons) hl) hr)) ∧
    (∀ l r hl hr, hash_value l = .ok hl → hash_value r = .ok hr →
      hash_value (.Disjunction_cons l r) =
        .ok (hash_combine (hash_combine (hash_type .Disjunction_cons) hl) hr)) ∧
    (∀ c, hashable c = true → has_parameterized c = false) ∧
    (∀ (ps : Prop_list) c, hashable c = true → ∃ r, ps.insert c = .ok r) ∧
    (∀ (ps : Prop_list) c, hashable c = false → ∃ e, ps.insert c = .error e) := by
  refine ⟨fun _ _ => rfl, ?_, ?_, ?_, ?_, hashable_no_parameterized, insert_of_hashable,
    insert_of_not_hashable⟩
  · intro e he h
    simp only [hash_value, h]
  · intro d as ha h
    simp only [hash_value, h]
  · intro l r hl hr h1 h2
    simp only [hash_value, h1, h2]
  · intro l r hl hr h1 h2
    simp only [hash_value, h1, h2]

/-- C24 (amended) on the conjunction of the predicates `true` and `false`. -/
theorem hash_value_defined_witness :
    hash_value (.Conjunction_cons (.Predicate_cons (.Boolean_expr bool_type true))
        (.Predicate_cons (.Boolean_expr bool_type false))) =
      .ok (hash_combine (hash_combine (hash_type .Conjunction_cons)
        (hash_combine (hash_type .Predicate_cons)
          (hash_combine (hash_type .Boolean_expr) (.of_bool true))))
        (hash_combine (hash_type .Predicate_cons)
          (hash_combine (hash_type .Boolean_expr) (.of_bool false)))) :=
  hash_value_defined.2.2.2.1 _ _ _ _ rfl rfl

/-! ## The type of a function declaration -/

theorem parm_types_ok (st : Decl_store) :
    ∀ ps : List Decl, (∀ d ∈ ps, ∃ p, st.get? d = some (.Object_parm p)) →
      ∃ ts, parm_types st ps = .ok ts ∧
        List.Forall₂ (fun d t => ∃ p, st.get? d = some (.Object_parm p) ∧ t = p.ty) ps ts
  | [], _ => ⟨[], rfl, List.Forall₂.nil⟩
  | d :: ds, h => by
      obtain ⟨p, hp⟩ := h d (List.mem_cons_self _ _)
      obtain ⟨ts, hts, hall⟩ := parm_types_ok st ds (fun x hx => h x (List.mem_cons_of_mem _ hx))
      refine ⟨p.ty :: ts, ?_, List.Forall₂.cons ⟨p, hp, rfl⟩ hall⟩
      simp only [parm_types, hp, hts]

/-- C25: for every name `n`, list `ps` of object parameters and return type
`r`, `make_function(n, ps, r)` returns a new function declaration of name `n`
and parameters `ps` whose type is the function type with return type `r` and
with the declared types of the parameters of `ps`, in the same order and
number, as parameter types. -/
theorem make_function_type (st : Decl_store) (n : Name) (ps : List Decl) (r : Type_)
    (hps : ∀ d ∈ ps, ∃ p, st.get? d = some (.Object_parm p)) :
    ∃ ts f st1, make_function st n ps r = .ok (f, st1) ∧
      st1.get? f = some (.Function_decl n (.Function_type ts r) ps) ∧
      (Decl_object.Function_decl n (.Function_type ts r) ps).function_type = some (ts, r) ∧
      ts.length = ps.length ∧
      List.Forall₂ (fun d t => ∃ p, st.get? d = some (.Object_parm p) ∧ t = p.ty) ps ts ∧
      (∀ i o, st.get? i = some o → st1.get? i = some o) := by
  obtain ⟨ts, hts, hall⟩ := parm_types_ok st ps hps
  refine ⟨ts, st.length, st ++ [.Function_decl n (.Function_type ts r) ps], ?_, ?_, rfl,
    hall.length_eq.symm, hall, ?_⟩
  · simp only [make_function, get_function_type_of_parms, hts, Builder.make_decl]
  · simp
  · intro i o h
    exact get_some_append st _ i o h

/-- C25 on the parameters `a : int` and `b : bool`: the function `f(a, b)` with
return type `void` has the type `(int, bool) -> void`. -/
theorem make_function_type_witness :
    ∃ ts f st1, make_function sample_parms (.Simple_id 9) [0, 1] .Void_type = .ok (f, st1) ∧
      st1.get? f = some (.Function_decl (.Simple_id 9) (.Function_type ts .Void_type) [0, 1]) ∧
      (Decl_object.Function_decl (.Simple_id 9) (.Function_type ts .Void_type)
        [0, 1]).function_type = some (ts, .Void_type) ∧
      ts.length = [0, 1].length ∧
      List.Forall₂ (fun d t => ∃ p, sample_parms.get? d = some (.Object_parm p) ∧ t = p.ty)
        [0, 1] ts ∧
      (∀ i o, sample_parms.get? i = some o → st1.get? i = some o) :=
  make_function_type sample_parms (.Simple_id 9) [0, 1] .Void_type (by
    intro d hd
    simp only [List.mem_cons, List.mem_singleton, List.not_mem_nil, or_false] at hd
    rcases hd with hd | hd
    · subst hd; exact ⟨_, rfl⟩
    · subst hd; exact ⟨_, rfl⟩)

/-! ## The type field of an expression -/

/-- C26 (counterexample): the equal-initializer built by the inherited
constructor `Copy_init(Expr& e)`, and the paren- and brace-initializers built
by `Direct_init(Expr_list const& a)`, have a null type field. -/
theorem expr_type_field_counterexample :
    (Expr_ctor.Equal_init (.Boolean_expr bool_type true)).ty = none ∧
      (Expr_ctor.Paren_init [.Boolean_expr bool_type true]).ty = none ∧
      (Expr_ctor.Brace_init []).ty = none :=
  ⟨rfl, rfl, rfl⟩

/-- C26 (amended): every expression that is not an initializer has a type
field that is not null after construction, and so has every initializer whose
constructor is given a type, the field being that type.  An initializer built
by a constructor without a type argument has a null type field: these are the
syntactic initializers (equal, paren, brace) built from the source expressions
only, and the object, reference and trivial initializers through the
constructors they inherit. -/
theorem expr_type_field (c : Expr_ctor) :
    (c.is_Init = false → ∃ t, c.ty = some t) ∧
    (∀ t, c.type_argument = some t → c.ty = some t) ∧
    (c.type_argument = none → c.ty = none ∧ c.is_Init = true) := by
  cases c <;> refine ⟨?_, ?_, ?_⟩ <;>
    simp [Expr_ctor.is_Init, Expr_ctor.ty, Expr_ctor.type_argument, Expr_ty_of, Expr_ty_default]

/-- C26 (amended) on the expression `and(true, false)` of type bool. -/
theorem expr_type_field_witness :
    ∃ t, (Expr_ctor.Binary_expr .And_expr bool_type (.Boolean_expr bool_type true)
      (.Boolean_expr bool_type false)).ty = some t :=
  (expr_type_field (.Binary_expr .And_expr bool_type (.Boolean_expr bool_type true)
    (.Boolean_expr bool_type false))).1 rfl

/-! ## The invariant of a list of propositions -/

theorem distinct_insert (pre post : List Cons) (c : Cons) (h : distinct_props (pre ++ post))
    (hc : ∀ y ∈ pre ++ post, is_equivalent c y = false) : distinct_props (pre ++ c :: post) := by
  unfold distinct_props at h ⊢
  rw [List.pairwise_append] at h ⊢
  obtain ⟨h1, h2, h3⟩ := h
  refine ⟨h1, List.pairwise_cons.2 ⟨fun y hy => hc y (by simp [hy]), h2⟩, ?_⟩
  intro a ha b hb
  rcases List.mem_cons.1 hb with hb | hb
  · subst hb
    rw [is_equivalent_symm]
    exact hc a (by simp [ha])
  · exact h3 a ha b hb

theorem distinct_erase (pre post : List Cons) (x : Cons) (h : distinct_props (pre ++ x :: post)) :
    distinct_props (pre ++ post) ∧ ∀ y ∈ pre ++ post, is_equivalent x y = false := by
  unfold distinct_props at h ⊢
  rw [List.pairwise_append] at h ⊢
  obtain ⟨h1, h2, h3⟩ := h
  rw [List.pairwise_cons] at h2
  refine ⟨⟨h1, h2.2, fun a ha b hb => h3 a ha b (List.mem_cons_of_mem _ hb)⟩, ?_⟩
  intro y hy
  rcases List.mem_append.1 hy with hy | hy
  · rw [is_equivalent_symm]
    exact h3 y hy x (List.mem_cons_self _ _)
  · exact h2.1 y hy

theorem list_split_at : ∀ (l : List Cons) (pos : Nat) (x : Cons), l.get? pos = some x →
    l = l.take pos ++ x :: l.drop (pos + 1) ∧ (l.take pos).length = pos
  | [], _, _, h => by simp at h
  | a :: l, 0, x, h => by
      simp only [List.get?_cons_zero, Option.some.injEq] at h
      simp [h]
  | a :: l, pos + 1, x, h => by
      have := list_split_at l pos x (by simpa using h)
      simp only [List.take_succ_cons, List.drop_succ_cons, List.cons_append, List.cons.injEq,
        true_and, List.length_cons, Nat.add_right_cancel_iff]
      exact this

theorem any_map_eq_seq (ps : Prop_list) (hwf : ps.wf) (c : Cons) :
    ps.map.any (is_equivalent c) = ps.seq.any (is_equivalent c) := by
  rw [Bool.eq_iff_iff]
  simp only [List.any_eq_true]
  constructor
  · rintro ⟨k, hk, he⟩; exact ⟨k, (hwf.2.1.mem_iff).1 hk, he⟩
  · rintro ⟨k, hk, he⟩; exact ⟨k, (hwf.2.1.mem_iff).2 hk, he⟩

theorem any_eq_false_iff (l : List Cons) (c : Cons) :
    l.any (is_equivalent c) = false ↔ ∀ y ∈ l, is_equivalent c y = false := by
  simp only [List.any_eq_false, Bool.not_eq_true]

theorem wf_empty : Prop_list.empty.wf :=
  ⟨List.Pairwise.nil, List.Perm.refl _, fun _ h => by cases h⟩

/-- The positional insertion into a list that satisfies the invariant, at the
position between `pre` and `post`. -/
theorem insert_at_spec (ps : Prop_list) (pre post : List Cons) (c : Cons) (hwf : ps.wf)
    (hseq : ps.seq = pre ++ post) (hc : hashable c = true) :
    ∃ ps1 b, ps.insert_at pre.length c = .ok (ps1, pre.length, b) ∧
      (b = true ↔ ∀ y ∈ pre ++ post, is_equivalent c y = false) ∧
      ps1.seq = pre ++ (if b = true then [c] else []) ++ post ∧ ps1.cur = ps.cur ∧ ps1.wf ∧
      (ps1.map = if b = true then c :: ps.map else ps.map) := by
  rw [insert_at_of_hashable ps _ c hc, any_map_eq_seq ps hwf c]
  cases hany : ps.seq.any (is_equivalent c) with
  | true =>
    refine ⟨ps, false, by simp, ?_, by simp [hseq], rfl, hwf, by simp⟩
    simp only [Bool.false_eq_true, false_iff]
    intro hall
    rw [← hseq, ← any_eq_false_iff, hany] at hall
    cases hall
  | false =>
    have hall : ∀ y ∈ pre ++ post, is_equivalent c y = false := by
      rw [← hseq]; exact (any_eq_false_iff _ _).1 hany
    refine ⟨{ ps with seq := list_insert ps.seq pre.length c, map := c :: ps.map }, true, ?_,
      ?_, ?_, rfl, ⟨?_, ?_, ?_⟩, ?_⟩
    · simp
    · simp only [true_iff]; exact hall
    · simp [hseq, list_insert_at]
    · simp only [hseq, list_insert_at]
      exact distinct_insert pre post c (by rw [← hseq]; exact hwf.1) hall
    · simp only [hseq, list_insert_at]
      exact (List.Perm.cons c (hseq ▸ hwf.2.1)).trans List.perm_middle.symm
    · intro x hx
      simp only [hseq, list_insert_at, List.mem_append, List.mem_cons] at hx
      rcases hx with hx | hx | hx
      · exact hwf.2.2 x (by simp [hseq, hx])
      · rw [hx]; exact hc
      · exact hwf.2.2 x (by simp [hseq, hx])
    · simp

/-- The erasure of the element `x` between `pre` and `post` from a list that
satisfies the invariant. -/
theorem erase_spec (ps : Prop_list) (pre post : List Cons) (x : Cons) (hwf : ps.wf)
    (hseq : ps.seq = pre ++ x :: post) :
    ∃ ps1, ps.erase pre.length = .ok (ps1, pre.length) ∧ ps1.seq = pre ++ post ∧
      ps1.cur = ps.cur ∧ ps1.wf ∧ (∀ y ∈ pre ++ post, is_equivalent x y = false) := by
  have hx : hashable x = true := hwf.2.2 x (by simp [hseq])
  have hd := distinct_erase pre post x (by rw [← hseq]; exact hwf.1)
  refine ⟨_, erase_of_hashable ps pre post x hseq hx, rfl, rfl, ⟨hd.1, ?_, ?_⟩, hd.2⟩
  · have hp : (ps.map.filter (fun k => !is_equivalent x k)).Perm
        ((pre ++ x :: post).filter (fun k => !is_equivalent x k)) :=
      (hseq ▸ hwf.2.1).filter _
    have hf : (pre ++ x :: post).filter (fun k => !is_equivalent x k) = pre ++ post := by
      rw [List.filter_append, List.filter_cons]
      simp only [is_equivalent_refl, Bool.not_true, Bool.false_eq_true, if_false]
      rw [← List.filter_append]
      exact List.filter_eq_self.2 (fun y hy => by simp [hd.2 y hy])
    rw [hf] at hp
    exact hp
  · intro y hy
    exact hwf.2.2 y (by
      rw [hseq]
      simp only [List.mem_append, List.mem_cons] at hy ⊢
      rcases hy with hy | hy
      · exact Or.inl hy
      · exact Or.inr (Or.inr hy))

theorem wf_insert (ps : Prop_list) (pre post : List Cons) (c : Cons) (hwf : ps.wf)
    (hseq : ps.seq = pre ++ post) (hc : hashable c = true)
    (hall : ∀ y ∈ ps.seq, is_equivalent c y = false) :
    Prop_list.wf { ps with seq := pre ++ c :: post, map := c :: ps.map } := by
  refine ⟨?_, ?_, ?_⟩
  · exact distinct_insert pre post c (by rw [← hseq]; exact hwf.1) (by rw [← hseq]; exact hall)
  · exact (List.Perm.cons c (hseq ▸ hwf.2.1)).trans List.perm_middle.symm
  · intro x hx
    simp only [List.mem_append, List.mem_cons] at hx
    rcases hx with hx | hx | hx
    · exact hwf.2.2 x (by simp [hseq, hx])
    · rw [hx]; exact hc
    · exact hwf.2.2 x (by simp [hseq, hx])

theorem insert_at_wf (ps : Prop_list) (pos : Nat) (c : Cons) (r : Prop_list × Nat × Bool)
    (hwf : ps.wf) (h : ps.insert_at pos c = .ok r) : r.1.wf := by
  have hc := insert_at_ok_hashable ps pos c r h
  rw [insert_at_of_hashable ps pos c hc, any_map_eq_seq ps hwf c] at h
  cases hany : ps.seq.any (is_equivalent c) with
  | true =>
    simp only [hany, if_true, Except.ok.injEq] at h
    rw [← h]; exact hwf
  | false =>
    simp only [hany, Bool.false_eq_true, if_false, Except.ok.injEq] at h
    rw [← h]
    exact wf_insert ps (ps.seq.take pos) (ps.seq.drop pos) c hwf
      (List.take_append_drop pos ps.seq).symm hc ((any_eq_false_iff _ _).1 hany)

theorem insert_wf (ps : Prop_list) (c : Cons) (r : Prop_list × Nat × Bool)
    (hwf : ps.wf) (h : ps.insert c = .ok r) : r.1.wf := by
  unfold Prop_list.insert at h
  cases hc : hash_value c with
  | error e => rw [hc] at h; cases h
  | ok v =>
    have hcb : hashable c = true := (hashable_iff c).2 ⟨v, hc⟩
    have hk : ps.map.any (key_equal v c) = ps.seq.any (is_equivalent c) := by
      rw [← any_map_eq_seq ps hwf c]
      congr 1
      funext k
      exact key_equal_eq v c k hc
    simp only [hc, hk] at h
    cases hany : ps.seq.any (is_equivalent c) with
    | true =>
      simp only [hany, if_true, Except.ok.injEq] at h
      rw [← h]; exact hwf
    | false =>
      simp only [hany, Bool.false_eq_true, if_false, Except.ok.injEq] at h
      rw [← h]
      exact wf_insert ps (ps.seq.take ps.seq.length) (ps.seq.drop ps.seq.length) c hwf
        (List.take_append_drop _ ps.seq).symm hcb ((any_eq_false_iff _ _).1 hany)

theorem erase_wf (ps : Prop_list) (pos : Nat) (r : Prop_list × Nat)
    (hwf : ps.wf) (h : ps.erase pos = .ok r) : r.1.wf := by
  cases hx : ps.seq.get? pos with
  | none =>
    unfold Prop_list.erase at h
    rw [hx] at h
    cases h
  | some x =>
    obtain ⟨hs, hl⟩ := list_split_at ps.seq pos x hx
    obtain ⟨ps1, h1, _, _, hwf1, _⟩ := erase_spec ps _ _ x hwf hs
    rw [hl, h] at h1
    cases h1
    exact hwf1

theorem erase_returns (ps : Prop_list) (pos : Nat) (hwf : ps.wf) (hpos : pos < ps.seq.length) :
    ∃ r, ps.erase pos = .ok r := by
  cases hx : ps.seq.get? pos with
  | none => exact absurd (List.get?_eq_none.1 hx) (Nat.not_le.2 hpos)
  | some x =>
    obtain ⟨hs, hl⟩ := list_split_at ps.seq pos x hx
    obtain ⟨ps1, h1, _⟩ := erase_spec ps _ _ x hwf hs
    rw [hl] at h1
    exact ⟨_, h1⟩

theorem replace_wf (ps : Prop_list) (pos : Nat) (c : Cons) (r : Prop_list × Nat × Bool)
    (hwf : ps.wf) (h : ps.replace pos c = .ok r) : r.1.wf := by
  unfold Prop_list.replace at h
  cases h1 : ps.erase pos with
  | error e => simp [h1] at h
  | ok x1 =>
    obtain ⟨ps1, pos1⟩ := x1
    have hwf1 := erase_wf ps pos _ hwf h1
    simp only [h1] at h
    cases h2 : ps1.insert_at pos1 c with
    | error e => simp [h2] at h
    | ok x2 =>
      obtain ⟨ps2, i, b⟩ := x2
      have hwf2 := insert_at_wf ps1 pos1 c _ hwf1 h2
      simp only [h2] at h
      cases b <;> simp only [Bool.false_eq_true, if_false, if_true, Except.ok.injEq] at h <;>
        (rw [← h]; exact hwf2)

theorem replace2_wf (ps : Prop_list) (pos : Nat) (c1 c2 : Cons) (r : Prop_list × Nat × Bool)
    (hwf : ps.wf) (h : ps.replace2 pos c1 c2 = .ok r) : r.1.wf := by
  unfold Prop_list.replace2 at h
  cases h1 : ps.erase pos with
  | error e => simp [h1] at h
  | ok x1 =>
    obtain ⟨ps1, pos1⟩ := x1
    have hwf1 := erase_wf ps pos _ hwf h1
    simp only [h1] at h
    cases h2 : ps1.insert_at pos1 c1 with
    | error e => simp [h2] at h
    | ok x2 =>
      obtain ⟨ps2, i1, b1⟩ := x2
      have hwf2 := insert_at_wf ps1 pos1 c1 _ hwf1 h2
      simp only [h2] at h
      cases h3 : ps2.insert_at (if b1 = true then pos1 + 1 else pos1) c2 with
      | error e => simp [h3] at h
      | ok x3 =>
        obtain ⟨ps3, i2, b2⟩ := x3
        have hwf3 := insert_at_wf ps2 _ c2 _ hwf2 h3
        simp only [h3] at h
        cases b1 <;> cases b2 <;>
          simp only [Bool.false_eq_true, if_false, if_true, Except.ok.injEq] at h <;>
          (rw [← h]; exact hwf3)

theorem contains_spec (ps : Prop_list) (c : Cons) (b : Bool) (hwf : ps.wf)
    (h : ps.contains c = .ok b) : (b = true ↔ ∃ x ∈ ps.seq, is_equivalent c x = true) := by
  unfold Prop_list.contains at h
  cases hc : hash_value c with
  | error e => rw [hc] at h; cases h
  | ok v =>
    simp only [hc, Except.ok.injEq] at h
    have hk : ps.map.any (key_equal v c) = ps.seq.any (is_equivalent c) := by
      rw [← any_map_eq_seq ps hwf c]
      congr 1
      funext k
      exact key_equal_eq v c k hc
    rw [← h, hk, List.any_eq_true]

/-- C27: the invariant of `Prop_list`.  The empty list satisfies it, and every
operation (insertion at the end, positional insertion, erasure, replacement by
one term, replacement by two terms) that is applied to a list that satisfies it
and returns, leaves a list in which no two elements are structurally
equivalent and whose side table holds exactly the elements of the sequence,
each with a hash code.  On such a list `contains(c)` answers true exactly when
some element of the sequence is equivalent to `c`.  The insertions and
`contains` return on every constraint that has a hash code, and the erasure at
every position of an element. -/
theorem prop_list_invariant (ps : Prop_list) (hwf : ps.wf) :
    Prop_list.empty.wf ∧
    (∀ c r, ps.insert c = .ok r → r.1.wf) ∧
    (∀ pos c r, ps.insert_at pos c = .ok r → r.1.wf) ∧
    (∀ pos r, ps.erase pos = .ok r → r.1.wf) ∧
    (∀ pos c r, ps.replace pos c = .ok r → r.1.wf) ∧
    (∀ pos c1 c2 r, ps.replace2 pos c1 c2 = .ok r → r.1.wf) ∧
    (∀ c b, ps.contains c = .ok b → (b = true ↔ ∃ x ∈ ps.seq, is_equivalent c x = true)) ∧
    (∀ c, hashable c = true →
      (∃ r, ps.insert c = .ok r) ∧ (∀ pos, ∃ r, ps.insert_at pos c = .ok r) ∧
        ∃ b, ps.contains c = .ok b) ∧
    (∀ pos, pos < ps.seq.length → ∃ r, ps.erase pos = .ok r) := by
  refine ⟨wf_empty, fun c r h => insert_wf ps c r hwf h,
    fun pos c r h => insert_at_wf ps pos c r hwf h, fun pos r h => erase_wf ps pos r hwf h,
    fun pos c r h => replace_wf ps pos c r hwf h,
    fun pos c1 c2 r h => replace2_wf ps pos c1 c2 r hwf h,
    fun c b h => contains_spec ps c b hwf h, ?_, fun pos h => erase_returns ps pos hwf h⟩
  intro c hc
  refine ⟨insert_of_hashable ps c hc, fun pos => ?_, _, contains_of_hashable ps c hc⟩
  rw [insert_at_of_hashable ps pos c hc]
  split
  · exact ⟨_, rfl⟩
  · exact ⟨_, rfl⟩

theorem sample_props_wf : sample_props.wf := by
  refine ⟨?_, ?_, ?_⟩
  · exact List.Pairwise.cons (fun y hy => by
      simp only [sample_props, List.mem_singleton] at hy
      subst hy; rfl) (List.Pairwise.cons (fun _ hy => by cases hy) List.Pairwise.nil)
  · exact List.Perm.swap _ _ _
  · intro x hx
    simp only [sample_props, List.mem_cons, List.mem_singleton, List.not_mem_nil, or_false] at hx
    rcases hx with hx | hx <;> (subst hx; rfl)

/-- C27 on the list of the predicates on the declarations 1 and 2. -/
theorem prop_list_invariant_witness :
    Prop_list.empty.wf ∧
    (∀ c r, sample_props.insert c = .ok r → r.1.wf) ∧
    (∀ pos c r, sample_props.insert_at pos c = .ok r → r.1.wf) ∧
    (∀ pos r, sample_props.erase pos = .ok r → r.1.wf) ∧
    (∀ pos c r, sample_props.replace pos c = .ok r → r.1.wf) ∧
    (∀ pos c1 c2 r, sample_props.replace2 pos c1 c2 = .ok r → r.1.wf) ∧
    (∀ c b, sample_props.contains c = .ok b →
      (b = true ↔ ∃ x ∈ sample_props.seq, is_equivalent c x = true)) ∧
    (∀ c, hashable c = true →
      (∃ r, sample_props.insert c = .ok r) ∧ (∀ pos, ∃ r, sample_props.insert_at pos c = .ok r) ∧
        ∃ b, sample_props.contains c = .ok b) ∧
    (∀ pos, pos < sample_props.seq.length → ∃ r, sample_props.erase pos = .ok r) :=
  prop_list_invariant sample_props sample_props_wf

/-! ## The replacement of a proposition by two -/

theorem list_get_head (pre post : List Cons) : (pre ++ post).get? pre.length = post.head? := by
  induction pre with
  | nil => cases post <;> rfl
  | cons a l ih => simpa using ih

theorem replace2_of_hashable (ps : Prop_list) (pre post : List Cons) (x c1 c2 : Cons)
    (hwf : ps.wf) (hseq : ps.seq = pre ++ x :: post)
    (h1 : hashable c1 = true) (h2 : hashable c2 = true) :
    ∃ ps1 b1 b2, ps.replace2 pre.length c1 c2 = .ok (ps1, pre.length, b1 || b2) ∧
      (b1 = true ↔ ∀ y ∈ pre ++ post, is_equivalent c1 y = false) ∧
      (b2 = true ↔
        ∀ y ∈ pre ++ (if b1 = true then [c1] else []) ++ post, is_equivalent c2 y = false) ∧
      ps1.seq = pre ++ (if b1 = true then [c1] else []) ++ (if b2 = true then [c2] else []) ++ post ∧
      ps1.cur = ps.cur ∧ ps1.wf ∧
      (∀ k ∈ ps1.map, k ∈ ps.map ∨ k = c1 ∨ k = c2) := by
  obtain ⟨q1, e1, s1, k1, w1, _⟩ := erase_spec ps pre post x hwf hseq
  obtain ⟨q2, b1, e2, hb1, s2, k2, w2, m2⟩ := insert_at_spec q1 pre post c1 w1 s1 h1
  obtain ⟨q3, b2, e3, hb2, s3, k3, w3, m3⟩ :=
    insert_at_spec q2 (pre ++ (if b1 = true then [c1] else [])) post c2 w2 s2 h2
  have hpos : (if b1 = true then pre.length + 1 else pre.length) =
      (pre ++ (if b1 = true then [c1] else [])).length := by
    cases b1 <;> simp
  have hm1 : ∀ k ∈ q1.map, k ∈ ps.map := by
    intro k hk
    have hk1 : k ∈ q1.seq := (w1.2.1.mem_iff).1 hk
    rw [s1] at hk1
    apply (hwf.2.1.mem_iff).2
    rw [hseq]
    simp only [List.mem_append, List.mem_cons] at hk1 ⊢
    rcases hk1 with hk1 | hk1
    · exact Or.inl hk1
    · exact Or.inr (Or.inr hk1)
  refine ⟨q3, b1, b2, ?_, hb1, hb2, s3, by rw [k3, k2, k1], w3, ?_⟩
  · unfold Prop_list.replace2
    rw [e1]
    simp only
    rw [e2]
    simp only
    rw [hpos, e3]
    cases b1 <;> cases b2 <;> simp
  · intro k hk
    rw [m3] at hk
    have hq2 : ∀ k ∈ q2.map, k ∈ ps.map ∨ k = c1 := by
      intro k hk
      rw [m2] at hk
      cases b1 with
      | false => exact Or.inl (hm1 k (by simpa using hk))
      | true =>
        simp only [if_true, List.mem_cons] at hk
        rcases hk with hk | hk
        · exact Or.inr hk
        · exact Or.inl (hm1 k hk)
    cases b2 with
    | false =>
      rcases hq2 k (by simpa using hk) with h | h
      · exact Or.inl h
      · exact Or.inr (Or.inl h)
    | true =>
      simp only [if_true, List.mem_cons] at hk
      rcases hk with hk | hk
      · exact Or.inr (Or.inr hk)
      · rcases hq2 k hk with h | h
        · exact Or.inl h
        · exact Or.inr (Or.inl h)

theorem replace2_ok_hashable (ps : Prop_list) (pos : Nat) (c1 c2 : Cons)
    (r : Prop_list × Nat × Bool) (h : ps.replace2 pos c1 c2 = .ok r) :
    hashable c1 = true ∧ hashable c2 = true := by
  unfold Prop_list.replace2 at h
  cases h1 : ps.erase pos with
  | error e => simp [h1] at h
  | ok x1 =>
    obtain ⟨ps1, pos1⟩ := x1
    simp only [h1] at h
    cases h2 : ps1.insert_at pos1 c1 with
    | error e => simp [h2] at h
    | ok x2 =>
      obtain ⟨ps2, i1, b1⟩ := x2
      simp only [h2] at h
      cases h3 : ps2.insert_at (if b1 = true then pos1 + 1 else pos1) c2 with
      | error e => simp [h3] at h
      | ok x3 =>
        exact ⟨insert_at_ok_hashable _ _ _ _ h2, insert_at_ok_hashable _ _ _ _ h3⟩

/-- C28: `Prop_list::replace(pos, c1, c2)` on a list that satisfies the
invariant, `pos` being the position of the element `x` between `pre` and
`post`.  The call returns exactly when `c1` and `c2` have a hash code.  The
list it leaves is the list with `x` removed and, at that same position and in
this order, `c1` and then `c2`, each inserted only if no element of the list
is equivalent to it at that moment (`b1` and `b2` say whether `c1` and `c2`
were inserted; `c2` meets `c1` in the list if `c1` was inserted).  The
returned pair is the position of `c1` and true if `c1` was inserted, otherwise
the position of `c2` and true if `c2` was inserted, otherwise the position of
the element that followed `x` (the end of the list if there is none) and
false.  The list satisfies the invariant again. -/
theorem replace2_spec (ps : Prop_list) (pre post : List Cons) (x c1 c2 : Cons)
    (hwf : ps.wf) (hseq : ps.seq = pre ++ x :: post) :
    ((∃ r, ps.replace2 pre.length c1 c2 = .ok r) ↔ hashable c1 = true ∧ hashable c2 = true) ∧
    ∀ ps1 i b, ps.replace2 pre.length c1 c2 = .ok (ps1, i, b) →
      ∃ b1 b2,
        (b1 = true ↔ ∀ y ∈ pre ++ post, is_equivalent c1 y = false) ∧
        (b2 = true ↔
          ∀ y ∈ pre ++ (if b1 = true then [c1] else []) ++ post, is_equivalent c2 y = false) ∧
        ps1.seq =
          pre ++ (if b1 = true then [c1] else []) ++ (if b2 = true then [c2] else []) ++ post ∧
        b = (b1 || b2) ∧ i = pre.length ∧
        ps1.seq.get? i =
          (if b1 = true then some c1 else if b2 = true then some c2 else post.head?) ∧
        ps1.wf := by
  constructor
  · constructor
    · rintro ⟨r, hr⟩
      exact replace2_ok_hashable ps _ c1 c2 r hr
    · rintro ⟨h1, h2⟩
      obtain ⟨ps1, b1, b2, h, _⟩ := replace2_of_hashable ps pre post x c1 c2 hwf hseq h1 h2
      exact ⟨_, h⟩
  · intro ps1 i b h
    obtain ⟨h1, h2⟩ := replace2_ok_hashable ps _ c1 c2 _ h
    obtain ⟨q, b1, b2, hq, hb1, hb2, hs, _, hw, _⟩ :=
      replace2_of_hashable ps pre post x c1 c2 hwf hseq h1 h2
    rw [hq] at h
    simp only [Except.ok.injEq, Prod.mk.injEq] at h
    obtain ⟨hq1, hi, hb⟩ := h
    subst hq1
    refine ⟨b1, b2, hb1, hb2, hs, hb.symm, hi.symm, ?_, hw⟩
    rw [hs, ← hi]
    cases b1 <;> cases b2 <;>
      simp only [Bool.false_eq_true, if_false, if_true, List.append_nil, List.append_assoc,
        List.singleton_append, list_get_at, list_get_head, List.head?_cons, List.cons_append]

/-- C28 on the list of the predicates on the declarations 1 and 2: the
replacement of the first by the predicates on 3 and 2 inserts the former only,
at the first position. -/
theorem replace2_spec_witness :
    ∃ b1 b2,
      (b1 = true ↔ ∀ y ∈ [] ++ [atom 2], is_equivalent (atom 3) y = false) ∧
      (b2 = true ↔
        ∀ y ∈ [] ++ (if b1 = true then [atom 3] else []) ++ [atom 2],
          is_equivalent (atom 2) y = false) ∧
      ([atom 3, atom 2] : List Cons) =
        [] ++ (if b1 = true then [atom 3] else []) ++ (if b2 = true then [atom 2] else []) ++
          [atom 2] ∧
      true = (b1 || b2) ∧ 0 = ([] : List Cons).length ∧
      ([atom 3, atom 2] : List Cons).get? 0 =
        (if b1 = true then some (atom 3) else if b2 = true then some (atom 2)
          else ([atom 2] : List Cons).head?) ∧
      Prop_list.wf { map := [atom 3, atom 2], seq := [atom 3, atom 2], cur := 0 } :=
  (replace2_spec sample_props [] [atom 2] (atom 1) (atom 3) (atom 2) sample_props_wf rfl).2
    { map := [atom 3, atom 2], seq := [atom 3, atom 2], cur := 0 } 0 true rfl

/-! ## The leaves a flatten pass leaves -/

theorem left_leaves_equivalent (a : Cons) : ∀ b : Cons, is_equivalent a b = true →
    ∀ y ∈ left_leaves a, ∃ z ∈ left_leaves b, is_equivalent y z = true := by
  induction a with
  | Concept_cons d as =>
    intro b h y hy
    cases b <;> simp only [is_equivalent, Bool.false_eq_true] at h
    simp only [left_leaves, List.mem_singleton] at hy
    subst hy
    exact ⟨_, List.mem_singleton.2 rfl, by simpa only [is_equivalent] using h⟩
  | Predicate_cons e =>
    intro b h y hy
    cases b <;> simp only [is_equivalent, Bool.false_eq_true] at h
    simp only [left_leaves, List.mem_singleton] at hy
    subst hy
    exact ⟨_, List.mem_singleton.2 rfl, by simpa only [is_equivalent] using h⟩
  | Parameterized_cons ps c ih =>
    intro b h y hy
    cases b <;> simp only [is_equivalent, Bool.false_eq_true, Bool.and_eq_true] at h
    exact ih _ h.2 y hy
  | Conjunction_cons l r ihl ihr =>
    intro b h y hy
    cases b <;> simp only [is_equivalent, Bool.false_eq_true, Bool.and_eq_true] at h
    simp only [left_leaves, List.mem_append] at hy ⊢
    rcases hy with hy | hy
    · obtain ⟨z, hz, he⟩ := ihl _ h.1 y hy
      exact ⟨z, Or.inl hz, he⟩
    · obtain ⟨z, hz, he⟩ := ihr _ h.2 y hy
      exact ⟨z, Or.inr hz, he⟩
  | Disjunction_cons l r _ _ =>
    intro b h y hy
    cases b <;> simp only [is_equivalent, Bool.false_eq_true] at h
    simp only [left_leaves, List.mem_singleton] at hy
    subst hy
    exact ⟨_, List.mem_singleton.2 rfl, by simpa only [is_equivalent] using h⟩

theorem right_leaves_equivalent (a : Cons) : ∀ b : Cons, is_equivalent a b = true →
    ∀ y ∈ right_leaves a, ∃ z ∈ right_leaves b, is_equivalent y z = true := by
  induction a with
  | Concept_cons d as =>
    intro b h y hy
    cases b <;> simp only [is_equivalent, Bool.false_eq_true] at h
    simp only [right_leaves, List.mem_singleton] at hy
    subst hy
    exact ⟨_, List.mem_singleton.2 rfl, by simpa only [is_equivalent] using h⟩
  | Predicate_cons e =>
    intro b h y hy
    cases b <;> simp only [is_equivalent, Bool.false_eq_true] at h
    simp only [right_leaves, List.mem_singleton] at hy
    subst hy
    exact ⟨_, List.mem_singleton.2 rfl, by simpa only [is_equivalent] using h⟩
  | Parameterized_cons ps c ih =>
    intro b h y hy
    cases b <;> simp only [is_equivalent, Bool.false_eq_true, Bool.and_eq_true] at h
    exact ih _ h.2 y hy
  | Disjunction_cons l r ihl ihr =>
    intro b h y hy
    cases b <;> simp only [is_equivalent, Bool.false_eq_true, Bool.and_eq_true] at h
    simp only [right_leaves, List.mem_append] at hy ⊢
    rcases hy with hy | hy
    · obtain ⟨z, hz, he⟩ := ihl _ h.1 y hy
      exact ⟨z, Or.inl hz, he⟩
    · obtain ⟨z, hz, he⟩ := ihr _ h.2 y hy
      exact ⟨z, Or.inr hz, he⟩
  | Conjunction_cons l r _ _ =>
    intro b h y hy
    cases b <;> simp only [is_equivalent, Bool.false_eq_true] at h
    simp only [right_leaves, List.mem_singleton] at hy
    subst hy
    exact ⟨_, List.mem_singleton.2 rfl, by simpa only [is_equivalent] using h⟩

theorem left_leaves_ne_nil (c : Cons) : left_leaves c ≠ [] := by
  induction c with
  | Concept_cons d as => simp [left_leaves]
  | Predicate_cons e => simp [left_leaves]
  | Parameterized_cons ps c ih => simpa [left_leaves] using ih
  | Conjunction_cons l r ihl _ => simp [left_leaves, ihl]
  | Disjunction_cons l r _ _ => simp [left_leaves]

theorem right_leaves_ne_nil (c : Cons) : right_leaves c ≠ [] := by
  induction c with
  | Concept_cons d as => simp [right_leaves]
  | Predicate_cons e => simp [right_leaves]
  | Parameterized_cons ps c ih => simpa [right_leaves] using ih
  | Conjunction_cons l r _ _ => simp [right_leaves]
  | Disjunction_cons l r ihl _ => simp [right_leaves, ihl]

theorem leaves_of_flat (flat : Cons → Bool) (leaves : Cons → List Cons)
    (hflat : ∀ c, flat c = true → leaves c = [c]) :
    ∀ l : List Cons, (∀ x ∈ l, flat x = true) → leaves_of leaves l = l
  | [], _ => rfl
  | c :: cs, h => by
      rw [leaves_of, hflat c (h c (List.mem_cons_self _ _)),
        leaves_of_flat flat leaves hflat cs (fun x hx => h x (List.mem_cons_of_mem _ hx))]
      rfl

/-- Stepping over a flat proposition keeps the state of a flatten pass. -/
theorem advance_inv (flat : Cons → Bool) (leaves : Cons → List Cons) (orig : List Cons)
    (as : Prop_list) (pre post : List Cons) (c : Cons)
    (hseq : as.seq = pre ++ c :: post) (hcur : as.cur = pre.length) (hflat : flat c = true)
    (hinv : flatten_inv flat leaves orig as pre) :
    ∃ as1 pre1 rest1 live1, advance as true = .ok (as1, pre1.length, live1) ∧
      as1.cur = pre1.length ∧
      as1.seq = pre1 ++ rest1 ∧ prop_weight rest1 < prop_weight (c :: post) ∧
      flatten_inv flat leaves orig as1 pre1 := by
  refine ⟨_, pre ++ [c], post, true, advance_at as pre post c hseq hcur, rfl, by simp [hseq], ?_,
    hinv.1, ?_, hinv.2.2.1, hinv.2.2.2⟩
  · have := Cons.size_pos c
    simp only [prop_weight]
    omega
  · intro x hx
    simp only [List.mem_append, List.mem_singleton] at hx
    rcases hx with hx | hx
    · exact hinv.2.1 x hx
    · rw [hx]; exact hflat

/-- The replacement of the current proposition `c` by its operands `l` and `r`
keeps the state of a flatten pass. -/
theorem replace2_inv (flat : Cons → Bool) (leaves : Cons → List Cons) (orig : List Cons)
    (as : Prop_list) (pre post : List Cons) (c l r : Cons)
    (hseq : as.seq = pre ++ c :: post) (hcur : as.cur = pre.length)
    (hsize : l.size + r.size < c.size) (hsub : hashable c = (hashable l && hashable r))
    (hleaves : leaves c = leaves l ++ leaves r)
    (hequiv : ∀ a b, is_equivalent a b = true →
      ∀ y ∈ leaves a, ∃ z ∈ leaves b, is_equivalent y z = true)
    (hinv : flatten_inv flat leaves orig as pre) :
    ∃ as1 pre1 rest1 live1, replace2 as true l r = .ok (as1, pre1.length, live1) ∧
      as1.cur = pre1.length ∧
      as1.seq = pre1 ++ rest1 ∧ prop_weight rest1 < prop_weight (c :: post) ∧
      flatten_inv flat leaves orig as1 pre1 := by
  obtain ⟨hwf, hpre, hsound, hcompl⟩ := hinv
  have hc : hashable c = true := hwf.2.2 c (by simp [hseq])
  rw [hc] at hsub
  have hlr := Bool.and_eq_true_iff.1 hsub.symm
  obtain ⟨q, b1, b2, hq, hb1, hb2, hs, hk, hw, _⟩ :=
    replace2_of_hashable as pre post c l r hwf hseq hlr.1 hlr.2
  have hmem : ∀ x, x ∈ pre ∨ x ∈ post → x ∈ q.seq := by
    intro x hx
    rw [hs]
    simp only [List.mem_append]
    rcases hx with hx | hx
    · exact Or.inl (Or.inl (Or.inl hx))
    · exact Or.inr hx
  have hasl : ∃ k ∈ q.seq, is_equivalent l k = true := by
    cases hb : b1 with
    | true => exact ⟨l, by rw [hs, hb]; simp, is_equivalent_refl l⟩
    | false =>
      rw [hb] at hb1
      have : ¬ ∀ y ∈ pre ++ post, is_equivalent l y = false := fun h => by
        have := hb1.2 h
        cases this
      simp only [not_forall, Bool.not_eq_false] at this
      obtain ⟨y, hy, he⟩ := this
      exact ⟨y, hmem y (List.mem_append.1 hy), he⟩
  have hasr : ∃ k ∈ q.seq, is_equivalent r k = true := by
    cases hb : b2 with
    | true => exact ⟨r, by rw [hs, hb]; simp, is_equivalent_refl r⟩
    | false =>
      rw [hb] at hb2
      have : ¬ ∀ y ∈ pre ++ (if b1 = true then [l] else []) ++ post,
          is_equivalent r y = false := fun h => by
        have := hb2.2 h
        cases this
      simp only [not_forall, Bool.not_eq_false] at this
      obtain ⟨y, hy, he⟩ := this
      refine ⟨y, ?_, he⟩
      rw [hs]
      simp only [List.mem_append] at hy ⊢
      rcases hy with (hy | hy) | hy
      · exact Or.inl (Or.inl (Or.inl hy))
      · exact Or.inl (Or.inl (Or.inr hy))
      · exact Or.inr hy
  refine ⟨q, pre, (if b1 = true then [l] else []) ++ (if b2 = true then [r] else []) ++ post,
    b1 || b2, ?_, by rw [hk, hcur], by simp [hs], ?_, hw, hpre, ?_, ?_⟩
  · rw [replace2_live, hcur, hq]
  · simp only [prop_weight_append, prop_weight]
    have : prop_weight ((if b1 = true then [l] else []) ++ (if b2 = true then [r] else [])) ≤
        l.size + r.size := by
      cases b1 <;> cases b2 <;> simp [prop_weight]
    simp only [prop_weight_append] at this
    omega
  · intro x hx y hy
    rw [hs] at hx
    simp only [List.mem_append] at hx
    have hcin : c ∈ as.seq := by simp [hseq]
    rcases hx with ((hx | hx) | hx) | hx
    · exact hsound x (by simp [hseq, hx]) y hy
    · have hxl : x = l := by
        cases b1 <;> simp at hx
        exact hx
      exact hsound c hcin y (by rw [hleaves, ← hxl]; exact List.mem_append_left _ hy)
    · have hxr : x = r := by
        cases b2 <;> simp at hx
        exact hx
      exact hsound c hcin y (by rw [hleaves, ← hxr]; exact List.mem_append_right _ hy)
    · exact hsound x (by simp [hseq, hx]) y hy
  · intro o ho y hy
    obtain ⟨x, hx, z, hz, he⟩ := hcompl o ho y hy
    rw [hseq] at hx
    simp only [List.mem_append, List.mem_cons] at hx
    rcases hx with hx | hx | hx
    · exact ⟨x, hmem x (Or.inl hx), z, hz, he⟩
    · subst hx
      rw [hleaves, List.mem_append] at hz
      rcases hz with hz | hz
      · obtain ⟨k, hk1, hk2⟩ := hasl
        obtain ⟨z1, hz1, he1⟩ := hequiv l k hk2 z hz
        exact ⟨k, hk1, z1, hz1, is_equivalent_trans y z z1 he he1⟩
      · obtain ⟨k, hk1, hk2⟩ := hasr
        obtain ⟨z1, hz1, he1⟩ := hequiv r k hk2 z hz
        exact ⟨k, hk1, z1, hz1, is_equivalent_trans y z z1 he he1⟩
    · exact ⟨x, hmem x (Or.inr hx), z, hz, he⟩

theorem flatten_left_prop_inv (orig : List Cons) (as : Prop_list) (pre post : List Cons)
    (c : Cons) (hseq : as.seq = pre ++ c :: post) (hcur : as.cur = pre.length)
    (hinv : flatten_inv left_flat left_leaves orig as pre) :
    ∃ as1 pre1 rest1 live1, flatten_left_prop as true c = .ok (as1, pre1.length, live1) ∧
      as1.cur = pre1.length ∧
      as1.seq = pre1 ++ rest1 ∧ prop_weight rest1 < prop_weight (c :: post) ∧
      flatten_inv left_flat left_leaves orig as1 pre1 := by
  cases c with
  | Concept_cons d args => exact advance_inv _ _ orig as pre post _ hseq hcur rfl hinv
  | Predicate_cons e => exact advance_inv _ _ orig as pre post _ hseq hcur rfl hinv
  | Disjunction_cons l r => exact advance_inv _ _ orig as pre post _ hseq hcur rfl hinv
  | Parameterized_cons ps c1 =>
    have := hinv.1.2.2 (.Parameterized_cons ps c1) (by simp [hseq])
    rw [hashable_parameterized] at this
    cases this
  | Conjunction_cons l r =>
    exact replace2_inv left_flat left_leaves orig as pre post _ l r hseq hcur
      (by simp [Cons.size]) (hashable_conjunction l r) rfl left_leaves_equivalent hinv

theorem flatten_right_prop_inv (orig : List Cons) (cs : Prop_list) (pre post : List Cons)
    (c : Cons) (hseq : cs.seq = pre ++ c :: post) (hcur : cs.cur = pre.length)
    (hinv : flatten_inv right_flat right_leaves orig cs pre) :
    ∃ cs1 pre1 rest1 live1, flatten_right_prop cs true c = .ok (cs1, pre1.length, live1) ∧
      cs1.cur = pre1.length ∧
      cs1.seq = pre1 ++ rest1 ∧ prop_weight rest1 < prop_weight (c :: post) ∧
      flatten_inv right_flat right_leaves orig cs1 pre1 := by
  cases c with
  | Concept_cons d args => exact advance_inv _ _ orig cs pre post _ hseq hcur rfl hinv
  | Predicate_cons e => exact advance_inv _ _ orig cs pre post _ hseq hcur rfl hinv
  | Conjunction_cons l r => exact advance_inv _ _ orig cs pre post _ hseq hcur rfl hinv
  | Parameterized_cons ps c1 =>
    have := hinv.1.2.2 (.Parameterized_cons ps c1) (by simp [hseq])
    rw [hashable_parameterized] at this
    cases this
  | Disjunction_cons l r =>
    exact replace2_inv right_flat right_leaves orig cs pre post _ l r hseq hcur
      (by simp [Cons.size]) (hashable_disjunction l r) rfl right_leaves_equivalent hinv

/-- A flatten-left pass from a state that satisfies the invariant, when it
returns, does so in a state that satisfies it with the cursor at the end. -/
theorem flatten_left_loop_inv (orig : List Cons) :
    ∀ (fuel : Nat) (as : Prop_list) (pre rest : List Cons) (live : Bool) (as2 : Prop_list),
    as.seq = pre ++ rest → as.cur = pre.length →
    flatten_inv left_flat left_leaves orig as pre →
    flatten_left_loop fuel as pre.length live = .ok as2 →
    flatten_inv left_flat left_leaves orig as2 as2.seq
  | 0, _, _, _, _, _, _, _, _, h => by simp [flatten_left_loop] at h
  | fuel + 1, as, pre, [], live, as2, hseq, _, hinv, h => by
      have hs : as.seq = pre := by simpa using hseq
      rw [flatten_left_loop_done fuel as pre live hs] at h
      cases h
      rw [hs]; exact hinv
  | fuel + 1, as, pre, c :: post, false, as2, hseq, _, _, h => by
      rw [flatten_left_loop_stale fuel as pre post c hseq] at h
      cases h
  | fuel + 1, as, pre, c :: post, true, as2, hseq, hcur, hinv, h => by
      rw [flatten_left_loop_unfold fuel as pre post c true hseq] at h
      obtain ⟨as1, pre1, rest1, live1, hok, hcur1, hseq1, _, hinv1⟩ :=
        flatten_left_prop_inv orig as pre post c hseq hcur hinv
      rw [hok] at h
      exact flatten_left_loop_inv orig fuel as1 pre1 rest1 live1 as2 hseq1 hcur1 hinv1 h

/-- A flatten-right pass from a state that satisfies the invariant, when it
returns, does so in a state that satisfies it with the cursor at the end. -/
theorem flatten_right_loop_inv (orig : List Cons) :
    ∀ (fuel : Nat) (cs : Prop_list) (pre rest : List Cons) (live : Bool) (cs2 : Prop_list),
    cs.seq = pre ++ rest → cs.cur = pre.length →
    flatten_inv right_flat right_leaves orig cs pre →
    flatten_right_loop fuel cs pre.length live = .ok cs2 →
    flatten_inv right_flat right_leaves orig cs2 cs2.seq
  | 0, _, _, _, _, _, _, _, _, h => by simp [flatten_right_loop] at h
  | fuel + 1, cs, pre, [], live, cs2, hseq, _, hinv, h => by
      have hs : cs.seq = pre := by simpa using hseq
      rw [flatten_right_loop_done fuel cs pre live hs] at h
      cases h
      rw [hs]; exact hinv
  | fuel + 1, cs, pre, c :: post, false, cs2, hseq, _, _, h => by
      rw [flatten_right_loop_stale fuel cs pre post c hseq] at h
      cases h
  | fuel + 1, cs, pre, c :: post, true, cs2, hseq, hcur, hinv, h => by
      rw [flatten_right_loop_unfold fuel cs pre post c true hseq] at h
      obtain ⟨cs1, pre1, rest1, live1, hok, hcur1, hseq1, _, hinv1⟩ :=
        flatten_right_prop_inv orig cs pre post c hseq hcur hinv
      rw [hok] at h
      exact flatten_right_loop_inv orig fuel cs1 pre1 rest1 live1 cs2 hseq1 hcur1 hinv1 h

theorem flatten_inv_start (flat : Cons → Bool) (leaves : Cons → List Cons) (ps : Prop_list)
    (hwf : ps.wf) : flatten_inv flat leaves ps.seq ps.start.1 [] :=
  ⟨hwf, (fun _ h => by cases h), fun x hx y hy => ⟨x, hx, hy⟩,
    fun o ho y hy => ⟨o, ho, y, hy, is_equivalent_refl y⟩⟩

/-- The state a flatten-left pass that returns leaves, on antecedents that
satisfy the invariant of the list. -/
theorem flatten_left_inv (s s1 : Sequent) (hwf : s.ants.wf) (h : flatten_left s = .ok s1) :
    flatten_inv left_flat left_leaves s.ants.seq s1.ants s1.ants.seq ∧ s1.cons = s.cons ∧
      s1.ants.cur = s1.ants.seq.length := by
  obtain ⟨hl, hc⟩ := flatten_left_eq s s1 h
  exact ⟨flatten_left_loop_inv s.ants.seq _ s.ants.start.1 [] s.ants.seq true s1.ants rfl rfl
    (flatten_inv_start _ _ s.ants hwf) hl, hc, (flatten_left_ok s s1 h).2.2.2.2⟩

/-- The state a flatten-right pass that returns leaves, on consequents that
satisfy the invariant of the list. -/
theorem flatten_right_inv (s s1 : Sequent) (hwf : s.cons.wf) (h : flatten_right s = .ok s1) :
    flatten_inv right_flat right_leaves s.cons.seq s1.cons s1.cons.seq ∧ s1.ants = s.ants ∧
      s1.cons.cur = s1.cons.seq.length := by
  obtain ⟨hl, hc⟩ := flatten_right_eq s s1 h
  exact ⟨flatten_right_loop_inv s.cons.seq _ s.cons.start.1 [] s.cons.seq true s1.cons rfl rfl
    (flatten_inv_start _ _ s.cons hwf) hl, hc, (flatten_right_ok s s1 h).2.2.2.2⟩

theorem sample_sequent_wf : sample_sequent.ants.wf ∧ sample_sequent.cons.wf := by
  refine ⟨⟨List.pairwise_singleton _ _, List.Perm.refl _, ?_⟩,
    ⟨List.pairwise_singleton _ _, List.Perm.refl _, ?_⟩⟩
  · intro x hx
    simp only [sample_sequent, List.mem_singleton] at hx
    subst hx; rfl
  · intro x hx
    simp only [sample_sequent, List.mem_singleton] at hx
    subst hx; rfl

theorem validate_non_matching_loop_spec (c : Cons) :
    ∀ (ants : List Cons) (r : Validation), r ≠ .valid_proof →
      validate_non_matching_loop c ants r ≠ .valid_proof ∧
      (validate_non_matching_loop c ants r = .invalid_proof ↔
        r = .invalid_proof ∧ ∀ a ∈ ants, is_atomic a = true ∧ is_atomic c = true)
  | [], r, hr => by
      simp only [validate_non_matching_loop]
      exact ⟨hr, fun h => ⟨h, fun _ h => by cases h⟩, fun h => h.1⟩
  | a :: ants, r, hr => by
      rw [validate_non_matching_loop]
      unfold validate_non_matching
      by_cases h : (is_atomic a && is_atomic c) = true
      · rw [if_pos h]
        simp only
        obtain ⟨h1, h2⟩ := validate_non_matching_loop_spec c ants r hr
        refine ⟨h1, h2.trans ?_⟩
        rw [Bool.and_eq_true] at h
        simp only [List.mem_cons, forall_eq_or_imp, h, and_self, true_and]
      · rw [if_neg h]
        simp only
        obtain ⟨h1, h2⟩ := validate_non_matching_loop_spec c ants .incomplete_proof (by simp)
        refine ⟨h1, ?_⟩
        constructor
        · intro hv
          have := h2.1 hv
          cases this.1
        · rintro ⟨_, hall⟩
          have := hall a (List.mem_cons_self _ _)
          rw [Bool.and_eq_true] at h
          exact absurd this h

theorem validate_implication_list_spec (as : Prop_list) (c : Cons) (hwf : as.wf)
    (hc : hashable c = true) :
    ∃ v, validate_implication_list as c = .ok v ∧
      (v = .valid_proof ↔ ∃ a ∈ as.seq, is_equivalent c a = true) ∧
      (v = .invalid_proof ↔ (¬ ∃ a ∈ as.seq, is_equivalent c a = true) ∧
        ∀ a ∈ as.seq, is_atomic a = true ∧ is_atomic c = true) := by
  unfold validate_implication_list
  rw [contains_of_hashable as c hc, any_map_eq_seq as hwf c]
  cases hany : as.seq.any (is_equivalent c) with
  | true =>
    have hex : ∃ a ∈ as.seq, is_equivalent c a = true := List.any_eq_true.1 hany
    refine ⟨.valid_proof, rfl, by simp [hex], ?_⟩
    constructor
    · intro h; cases h
    · rintro ⟨h, _⟩; exact absurd hex h
  | false =>
    have hno : ¬ ∃ a ∈ as.seq, is_equivalent c a = true := by
      intro h
      rw [← List.any_eq_true, hany] at h
      cases h
    obtain ⟨h1, h2⟩ := validate_non_matching_loop_spec c as.seq .invalid_proof (by simp)
    refine ⟨validate_non_matching_loop c as.seq .invalid_proof, rfl, ?_, ?_⟩
    · constructor
      · intro h; exact absurd h h1
      · intro h; exact absurd h hno
    · rw [h2]
      simp only [true_and, hno, not_false_eq_true]

theorem validate_obligation_loop_spec (as : Prop_list) (hwf : as.wf) :
    ∀ (cs : List Cons) (r : Validation), (∀ c ∈ cs, hashable c = true) → r ≠ .valid_proof →
      ∃ v, validate_obligation_loop as cs r = .ok v ∧
        (v = .valid_proof ↔ ∃ c ∈ cs, ∃ a ∈ as.seq, is_equivalent c a = true) ∧
        (v = .invalid_proof ↔ r = .invalid_proof ∧
          (¬ ∃ c ∈ cs, ∃ a ∈ as.seq, is_equivalent c a = true) ∧
          ∀ c ∈ cs, ∀ a ∈ as.seq, is_atomic a = true ∧ is_atomic c = true)
  | [], r, _, hr => by
      refine ⟨r, rfl, ?_, ?_⟩
      · simp only [List.not_mem_nil, false_and, exists_false, iff_false]
        exact hr
      · simp
  | c :: cs, r, hall, hr => by
      rw [validate_obligation_loop]
      obtain ⟨v, hv, hv1, hv2⟩ :=
        validate_implication_list_spec as c hwf (hall c (List.mem_cons_self _ _))
      have hall1 : ∀ x ∈ cs, hashable x = true := fun x hx => hall x (List.mem_cons_of_mem _ hx)
      rw [hv]
      cases v with
      | valid_proof =>
        have hex := hv1.1 rfl
        refine ⟨.valid_proof, rfl, ?_, ?_⟩
        · simp only [true_iff]
          exact ⟨c, List.mem_cons_self _ _, hex⟩
        · constructor
          · intro h; cases h
          · rintro ⟨_, h, _⟩
            exact absurd ⟨c, List.mem_cons_self _ _, hex⟩ h
      | invalid_proof =>
        obtain ⟨hno, hat⟩ := hv2.1 rfl
        obtain ⟨w, hw, hw1, hw2⟩ := validate_obligation_loop_spec as hwf cs r hall1 hr
        refine ⟨w, hw, ?_, ?_⟩
        · rw [hw1]
          simp only [List.mem_cons, exists_eq_or_imp, hno, false_or]
        · rw [hw2]
          simp only [List.mem_cons, exists_eq_or_imp, hno, false_or, forall_eq_or_imp]
          constructor
          · rintro ⟨h1, h2, h3⟩; exact ⟨h1, h2, hat, h3⟩
          · rintro ⟨h1, h2, _, h3⟩; exact ⟨h1, h2, h3⟩
      | incomplete_proof =>
        have hno : ¬ ∃ a ∈ as.seq, is_equivalent c a = true := by
          intro h
          have := hv1.2 h
          cases this
        have hnat : ¬ ∀ a ∈ as.seq, is_atomic a = true ∧ is_atomic c = true := by
          intro h
          have := hv2.2 ⟨hno, h⟩
          cases this
        obtain ⟨w, hw, hw1, hw2⟩ :=
          validate_obligation_loop_spec as hwf cs .incomplete_proof hall1 (by simp)
        refine ⟨w, hw, ?_, ?_⟩
        · rw [hw1]
          simp only [List.mem_cons, exists_eq_or_imp, hno, false_or]
        · constructor
          · intro h
            have := (hw2.1 h).1
            cases this
          · rintro ⟨_, _, h⟩
            exact absurd (h c (List.mem_cons_self _ _)) hnat

theorem validate_obligation_cases (s : Sequent) (hwf : s.wf) :
    ∃ v, validate_obligation s = .ok v ∧
      (v = .valid_proof ↔ ∃ c ∈ s.cons.seq, ∃ a ∈ s.ants.seq, is_equivalent c a = true) ∧
      (v = .invalid_proof ↔
        (¬ ∃ c ∈ s.cons.seq, ∃ a ∈ s.ants.seq, is_equivalent c a = true) ∧
        (∀ a ∈ s.ants.seq, is_atomic a = true) ∧ ∀ c ∈ s.cons.seq, is_atomic c = true) := by
  obtain ⟨hwa, hwc, hna, hnc⟩ := hwf
  obtain ⟨v, hv, hv1, hv2⟩ :=
    validate_obligation_loop_spec s.ants hwa s.cons.seq .invalid_proof hwc.2.2 (by simp)
  refine ⟨v, hv, hv1, hv2.trans ?_⟩
  simp only [true_and]
  obtain ⟨a0, ha0⟩ := List.exists_mem_of_ne_nil _ hna
  obtain ⟨c0, hc0⟩ := List.exists_mem_of_ne_nil _ hnc
  constructor
  · rintro ⟨h1, h2⟩
    exact ⟨h1, fun a ha => (h2 c0 hc0 a ha).1, fun c hc => (h2 c hc a0 ha0).2⟩
  · rintro ⟨h1, h2, h3⟩
    exact ⟨h1, fun c hc a ha => ⟨h2 a ha, h3 c hc⟩⟩

/-- C31: the three-valued validation of a sequent whose lists satisfy the
invariant and are not empty.  `validate_obligation` returns; it answers valid
exactly when some consequent is structurally equivalent to some antecedent;
otherwise it answers invalid exactly when every antecedent and every
consequent is an atomic predicate; otherwise it answers incomplete. -/
theorem validate_obligation_spec (s : Sequent) (hwf : s.wf) :
    ∃ v, validate_obligation s = .ok v ∧
      (v = .valid_proof ↔ ∃ c ∈ s.cons.seq, ∃ a ∈ s.ants.seq, is_equivalent c a = true) ∧
      (v = .invalid_proof ↔
        (¬ ∃ c ∈ s.cons.seq, ∃ a ∈ s.ants.seq, is_equivalent c a = true) ∧
        (∀ a ∈ s.ants.seq, is_atomic a = true) ∧ ∀ c ∈ s.cons.seq, is_atomic c = true) ∧
      (v = .incomplete_proof ↔
        (¬ ∃ c ∈ s.cons.seq, ∃ a ∈ s.ants.seq, is_equivalent c a = true) ∧
        ¬ ((∀ a ∈ s.ants.seq, is_atomic a = true) ∧ ∀ c ∈ s.cons.seq, is_atomic c = true)) := by
  obtain ⟨v, hv, hv1, hv2⟩ := validate_obligation_cases s hwf
  refine ⟨v, hv, hv1, hv2, ?_⟩
  cases v with
  | valid_proof =>
    have := hv1.1 rfl
    simp [this]
  | invalid_proof =>
    have := hv2.1 rfl
    constructor
    · intro h; cases h
    · rintro ⟨_, h⟩; exact absurd this.2 h
  | incomplete_proof =>
    simp only [true_iff]
    refine ⟨fun h => ?_, fun h => ?_⟩
    · have := hv1.2 h
      cases this
    · by_cases hm : ∃ c ∈ s.cons.seq, ∃ a ∈ s.ants.seq, is_equivalent c a = true
      · have := hv1.2 hm
        cases this
      · have := hv2.2 ⟨hm, h⟩
        cases this

theorem atom_goal_wf (p q : Decl) : (atom_goal p q).wf := by
  refine ⟨⟨List.pairwise_singleton _ _, List.Perm.refl _, ?_⟩,
    ⟨List.pairwise_singleton _ _, List.Perm.refl _, ?_⟩, by simp [atom_goal],
    by simp [atom_goal]⟩
  · intro x hx
    simp only [atom_goal, List.mem_singleton] at hx
    subst hx; rfl
  · intro x hx
    simp only [atom_goal, List.mem_singleton] at hx
    subst hx; rfl

/-- C31 on the sequent `P1 ⊢ P2`, which validates as invalid. -/
theorem validate_obligation_spec_witness :
    validate_obligation (atom_goal 1 2) = .ok .invalid_proof ∧
    ∃ v, validate_obligation (atom_goal 1 2) = .ok v ∧
      (v = .valid_proof ↔
        ∃ c ∈ (atom_goal 1 2).cons.seq, ∃ a ∈ (atom_goal 1 2).ants.seq,
          is_equivalent c a = true) ∧
      (v = .invalid_proof ↔
        (¬ ∃ c ∈ (atom_goal 1 2).cons.seq, ∃ a ∈ (atom_goal 1 2).ants.seq,
          is_equivalent c a = true) ∧
        (∀ a ∈ (atom_goal 1 2).ants.seq, is_atomic a = true) ∧
        ∀ c ∈ (atom_goal 1 2).cons.seq, is_atomic c = true) ∧
      (v = .incomplete_proof ↔
        (¬ ∃ c ∈ (atom_goal 1 2).cons.seq, ∃ a ∈ (atom_goal 1 2).ants.seq,
          is_equivalent c a = true) ∧
        ¬ ((∀ a ∈ (atom_goal 1 2).ants.seq, is_atomic a = true) ∧
          ∀ c ∈ (atom_goal 1 2).cons.seq, is_atomic c = true)) :=
  ⟨rfl, validate_obligation_spec (atom_goal 1 2) (atom_goal_wf 1 2)⟩

/-! ## The validation of a list of goals -/

/-- A single goal that validates as invalid stays: the proof is invalid. -/
theorem validate_proof_single_invalid (s : Sequent)
    (h : validate_obligation s = .ok .invalid_proof) :
    validate_proof [s] = .ok (.invalid_proof, [s]) := by
  simp [validate_proof, validate_proof_loop, h]

/-- The loop of `validate_proof` on lists of two goals, which `subsumes` does
not build: a `Goal_list` is made of one sequent and only `generate` adds one.
The `++iter` that follows a discharge steps over the goal after the discharged
one: of the goals `P1 ⊢ P1` and `P2 ⊢ P2`, which both validate as valid, the
second stays, and of `P1 ⊢ P1` and `P1 ⊢ P2` the second, which validates as
invalid, is not examined. -/
theorem validate_proof_two_goals :
    validate_obligation (atom_goal 1 1) = .ok .valid_proof ∧
    validate_obligation (atom_goal 2 2) = .ok .valid_proof ∧
    validate_proof [atom_goal 1 1, atom_goal 2 2] = .ok (.incomplete_proof, [atom_goal 2 2]) ∧
    validate_obligation (atom_goal 1 2) = .ok .invalid_proof ∧
    validate_proof [atom_goal 1 1, atom_goal 1 2] = .ok (.incomplete_proof, [atom_goal 1 2]) ∧
    validate_proof [atom_goal 1 2, atom_goal 1 1] = .ok (.invalid_proof,
      [atom_goal 1 2, atom_goal 1 1]) :=
  ⟨rfl, rfl, rfl, rfl, rfl, rfl⟩

theorem is_better_expansion_concept (x sm : Cons) (h : is_Concept_cons sm = true) :
    is_better_expansion x sm = false := by
  cases sm <;> simp [is_Concept_cons] at h
  cases x <;> simp [is_better_expansion, is_atomic]

theorem min_element_loop_concept : ∀ (xs : List Cons) (i : Nat) (sm : Cons) (si : Nat),
    is_Concept_cons sm = true → min_element_loop xs i sm si = si
  | [], _, _, _, _ => rfl
  | x :: xs, i, sm, si, h => by
      rw [min_element_loop, is_better_expansion_concept x sm h]
      simp only [Bool.false_eq_true, if_false]
      exact min_element_loop_concept xs (i + 1) sm si h

theorem min_element_loop_first_concept : ∀ (xs : List Cons) (i : Nat) (sm : Cons) (si : Nat),
    is_Concept_cons sm = false → (∃ x ∈ xs, is_Concept_cons x = true) →
    min_element_loop xs i sm si = i + xs.findIdx is_Concept_cons
  | [], _, _, _, _, h => by simp at h
  | x :: xs, i, sm, si, hsm, hex => by
      rw [min_element_loop, List.findIdx_cons]
      cases hx : is_Concept_cons x with
      | true =>
        have hb : is_better_expansion x sm = true := by
          cases x <;> simp [is_Concept_cons] at hx
          cases sm <;> simp [is_Concept_cons] at hsm <;> rfl
        rw [hb, if_pos rfl, min_element_loop_concept xs (i + 1) x i hx]
        simp
      | false =>
        have hex1 : ∃ y ∈ xs, is_Concept_cons y = true := by
          obtain ⟨y, hy, hc⟩ := hex
          rcases List.mem_cons.1 hy with h | h
          · rw [h, hx] at hc; cases hc
          · exact ⟨y, h, hc⟩
        simp only [cond_false]
        split
        · rw [min_element_loop_first_concept xs (i + 1) x i hx hex1]; omega
        · rw [min_element_loop_first_concept xs (i + 1) sm si hsm hex1]; omega

theorem min_element_loop_keep : ∀ (xs : List Cons) (i : Nat) (sm : Cons) (si : Nat),
    (∀ x ∈ xs, is_Concept_cons x = false) →
    (is_atomic sm = false ∨ ∀ x ∈ xs, is_Disjunction_cons x = false) →
    min_element_loop xs i sm si = si
  | [], _, _, _, _, _ => rfl
  | x :: xs, i, sm, si, hno, h => by
      have hb : is_better_expansion x sm = false := by
        have hx := hno x (List.mem_cons_self _ _)
        cases x <;> simp [is_Concept_cons] at hx <;> simp only [is_better_expansion]
        rcases h with h | h
        · exact h
        · have := h _ (List.mem_cons_self _ _)
          simp [is_Disjunction_cons] at this
      rw [min_element_loop, hb]
      simp only [Bool.false_eq_true, if_false]
      exact min_element_loop_keep xs (i + 1) sm si
        (fun y hy => hno y (List.mem_cons_of_mem _ hy))
        (h.imp id (fun h y hy => h y (List.mem_cons_of_mem _ hy)))

theorem min_element_loop_first_disjunction :
    ∀ (xs : List Cons) (i : Nat) (sm : Cons) (si : Nat),
    is_atomic sm = true → (∀ x ∈ xs, is_Concept_cons x = false) →
    (∃ x ∈ xs, is_Disjunction_cons x = true) →
    min_element_loop xs i sm si = i + xs.findIdx is_Disjunction_cons
  | [], _, _, _, _, _, h => by simp at h
  | x :: xs, i, sm, si, hsm, hno, hex => by
      have hno1 : ∀ y ∈ xs, is_Concept_cons y = false :=
        fun y hy => hno y (List.mem_cons_of_mem _ hy)
      rw [min_element_loop, List.findIdx_cons]
      cases hx : is_Disjunction_cons x with
      | true =>
        have hb : is_better_expansion x sm = true := by
          cases x <;> simp [is_Disjunction_cons] at hx
          simp only [is_better_expansion, hsm]
        have hxa : is_atomic x = false := by
          cases x <;> simp [is_Disjunction_cons] at hx
          rfl
        rw [hb, if_pos rfl, min_element_loop_keep xs (i + 1) x i hno1 (Or.inl hxa)]
        simp
      | false =>
        have hex1 : ∃ y ∈ xs, is_Disjunction_cons y = true := by
          obtain ⟨y, hy, hc⟩ := hex
          rcases List.mem_cons.1 hy with h | h
          · rw [h, hx] at hc; cases hc
          · exact ⟨y, h, hc⟩
        have hb : is_better_expansion x sm = false := by
          have hxc := hno x (List.mem_cons_self _ _)
          cases x <;> simp [is_Concept_cons] at hxc <;> simp [is_Disjunction_cons] at hx <;> rfl
        rw [hb]
        simp only [Bool.false_eq_true, if_false, cond_false]
        rw [min_element_loop_first_disjunction xs (i + 1) sm si hsm hno1 hex1]; omega

theorem min_element_first_concept (l : List Cons) (hex : ∃ x ∈ l, is_Concept_cons x = true) :
    min_element l = l.findIdx is_Concept_cons := by
  cases l with
  | nil => simp at hex
  | cons x xs =>
    rw [min_element, List.findIdx_cons]
    cases hx : is_Concept_cons x with
    | true => rw [min_element_loop_concept xs 1 x 0 hx]; rfl
    | false =>
      have hex1 : ∃ y ∈ xs, is_Concept_cons y = true := by
        obtain ⟨y, hy, hc⟩ := hex
        rcases List.mem_cons.1 hy with h | h
        · rw [h, hx] at hc; cases hc
        · exact ⟨y, h, hc⟩
      rw [min_element_loop_first_concept xs 1 x 0 hx hex1]
      simp only [cond_false]
      omega

theorem min_element_first_disjunction (x : Cons) (xs : List Cons)
    (hno : ∀ y ∈ x :: xs, is_Concept_cons y = false)
    (hex : ∃ y ∈ x :: xs, is_Disjunction_cons y = true)
    (hhead : is_atomic x = true ∨ is_Disjunction_cons x = true) :
    min_element (x :: xs) = (x :: xs).findIdx is_Disjunction_cons := by
  have hno1 : ∀ y ∈ xs, is_Concept_cons y = false :=
    fun y hy => hno y (List.mem_cons_of_mem _ hy)
  rw [min_element, List.findIdx_cons]
  cases hx : is_Disjunction_cons x with
  | true =>
    have hxa : is_atomic x = false := by
      cases x <;> simp [is_Disjunction_cons] at hx
      rfl
    rw [min_element_loop_keep xs 1 x 0 hno1 (Or.inl hxa)]
    rfl
  | false =>
    have hxa : is_atomic x = true := by
      rcases hhead with h | h
      · exact h
      · rw [hx] at h; cases h
    have hex1 : ∃ y ∈ xs, is_Disjunction_cons y = true := by
      obtain ⟨y, hy, hc⟩ := hex
      rcases List.mem_cons.1 hy with h | h
      · rw [h, hx] at hc; cases hc
      · exact ⟨y, h, hc⟩
    rw [min_element_loop_first_disjunction xs 1 x 0 hxa hno1 hex1]
    simp only [cond_false]
    omega

theorem min_element_head (x : Cons) (xs : List Cons)
    (hno : ∀ y ∈ x :: xs, is_Concept_cons y = false)
    (h : is_atomic x = false ∨ ∀ y ∈ x :: xs, is_Disjunction_cons y = false) :
    min_element (x :: xs) = 0 := by
  rw [min_element]
  exact min_element_loop_keep xs 1 x 0 (fun y hy => hno y (List.mem_cons_of_mem _ hy))
    (h.imp id (fun h y hy => h y (List.mem_cons_of_mem _ hy)))

theorem findIdx_at (p : Cons → Bool) (pre post : List Cons) (x : Cons)
    (hpre : ∀ y ∈ pre, p y = false) (hx : p x = true) :
    (pre ++ x :: post).findIdx p = pre.length := by
  induction pre with
  | nil => simp [List.findIdx_cons, hx]
  | cons a l ih =>
    have ha := hpre a (List.mem_cons_self _ _)
    simp only [List.cons_append, List.findIdx_cons, ha, cond_false, List.length_cons]
    rw [ih (fun y hy => hpre y (List.mem_cons_of_mem _ hy))]

theorem findIdx_get (p : Cons → Bool) : ∀ l : List Cons, (∃ y ∈ l, p y = true) →
    ∃ z, l.get? (l.findIdx p) = some z ∧ p z = true
  | [], h => by simp at h
  | a :: l, h => by
      rw [List.findIdx_cons]
      cases ha : p a with
      | true => exact ⟨a, rfl, ha⟩
      | false =>
        have h1 : ∃ y ∈ l, p y = true := by
          obtain ⟨y, hy, hp⟩ := h
          rcases List.mem_cons.1 hy with e | e
          · rw [e, ha] at hp; cases hp
          · exact ⟨y, e, hp⟩
        obtain ⟨z, hz, hp⟩ := findIdx_get p l h1
        exact ⟨z, by simpa using hz, hp⟩

/-- C33 (counterexample): the antecedents `P1 ∧ P2, P1 ∨ P2` hold no concept
and a disjunction, and `expand_left` leaves them unchanged: the disjunction is
compared with the conjunction, which is not atomic, and is not selected. -/
theorem expand_left_selection_counterexample :
    expand_left no_concepts
        { ants := { map := [.Disjunction_cons (atom 1) (atom 2),
                            .Conjunction_cons (atom 1) (atom 2)],
                    seq := [.Conjunction_cons (atom 1) (atom 2),
                            .Disjunction_cons (atom 1) (atom 2)], cur := 0 },
          cons := { map := [atom 3], seq := [atom 3], cur := 0 } } =
      .ok { ants := { map := [.Disjunction_cons (atom 1) (atom 2),
                              .Conjunction_cons (atom 1) (atom 2)],
                      seq := [.Conjunction_cons (atom 1) (atom 2),
                              .Disjunction_cons (atom 1) (atom 2)], cur := 0 },
            cons := { map := [atom 3], seq := [atom 3], cur := 0 } } ∧
    is_Disjunction_cons (.Disjunction_cons (atom 1) (atom 2)) = true ∧
    is_better_expansion (.Disjunction_cons (atom 1) (atom 2))
      (.Conjunction_cons (atom 1) (atom 2)) = false :=
  ⟨rfl, rfl, rfl⟩

/-- C33 (amended): the selection of `expand_left` on a non-empty antecedent
list.  If the list holds a concept, the first concept is selected and replaced
by its expansion.  Otherwise, if it holds a disjunction and its first element
is an atomic predicate or a disjunction (which is so after a flatten-left
pass), the first disjunction is selected and replaced by its operands.
Otherwise (no concept, and no disjunction or a first element that is neither
atomic nor a disjunction) the list is left unchanged: a disjunction is
preferred over an atomic predicate only, and an atomic predicate is never
expanded. -/
theorem expand_left_selection (cxt : Context) (s : Sequent) (x : Cons) (xs : List Cons)
    (hseq : s.ants.seq = x :: xs) :
    ((∃ y ∈ s.ants.seq, is_Concept_cons y = true) →
      min_element s.ants.seq = s.ants.seq.findIdx is_Concept_cons ∧
      ∃ d args, s.ants.seq.get? (s.ants.seq.findIdx is_Concept_cons) =
          some (.Concept_cons d args) ∧
        expand_left cxt s =
          match expand_concept cxt d args with
          | .error e => .error e
          | .ok r =>
            match s.ants.replace (s.ants.seq.findIdx is_Concept_cons) r with
            | .error e => .error e
            | .ok (ps, _) => .ok { s with ants := ps }) ∧
    ((∀ y ∈ s.ants.seq, is_Concept_cons y = false) →
      (∃ y ∈ s.ants.seq, is_Disjunction_cons y = true) →
      (is_atomic x = true ∨ is_Disjunction_cons x = true) →
      min_element s.ants.seq = s.ants.seq.findIdx is_Disjunction_cons ∧
      ∃ l r, s.ants.seq.get? (s.ants.seq.findIdx is_Disjunction_cons) =
          some (.Disjunction_cons l r) ∧
        expand_left cxt s =
          match s.ants.replace2 (s.ants.seq.findIdx is_Disjunction_cons) l r with
          | .error e => .error e
          | .ok (ps, _) => .ok { s with ants := ps }) ∧
    ((∀ y ∈ s.ants.seq, is_Concept_cons y = false) →
      (is_atomic x = false ∧ is_Disjunction_cons x = false ∨
        ∀ y ∈ s.ants.seq, is_Disjunction_cons y = false) →
      expand_left cxt s = .ok s) := by
  refine ⟨?_, ?_, ?_⟩
  · intro hex
    have hm := min_element_first_concept s.ants.seq hex
    obtain ⟨z, hz, hc⟩ := findIdx_get is_Concept_cons s.ants.seq hex
    cases z <;> simp [is_Concept_cons] at hc
    rename_i d args
    refine ⟨hm, d, args, hz, ?_⟩
    unfold expand_left
    simp only [hm, hz]
  · intro hno hex hhead
    have hm : min_element s.ants.seq = s.ants.seq.findIdx is_Disjunction_cons := by
      rw [hseq] at hno hex ⊢
      exact min_element_first_disjunction x xs hno hex hhead
    obtain ⟨z, hz, hc⟩ := findIdx_get is_Disjunction_cons s.ants.seq hex
    cases z <;> simp [is_Disjunction_cons] at hc
    rename_i l r
    refine ⟨hm, l, r, hz, ?_⟩
    unfold expand_left
    simp only [hm, hz]
  · intro hno h
    have hm : min_element s.ants.seq = 0 := by
      rw [hseq] at hno h ⊢
      exact min_element_head x xs hno (h.imp (fun h => h.1) id)
    have hxc : is_Concept_cons x = false := hno x (by simp [hseq])
    have hxd : is_Disjunction_cons x = false := by
      rcases h with h | h
      · exact h.2
      · exact h x (by simp [hseq])
    have hget : s.ants.seq.get? (min_element s.ants.seq) = some x := by
      rw [hm, hseq]; rfl
    unfold expand_left
    simp only [hget]
    cases x <;> simp [is_Concept_cons] at hxc <;> simp [is_Disjunction_cons] at hxd <;> rfl

/-- C33 (amended) on the antecedents `P1, P1 ∨ P2, D<>`, where the concept is
selected, and on `P1, P1 ∨ P2, P2 ∨ P1`, where the first disjunction is. -/
theorem expand_left_selection_witness :
    min_element [atom 1, .Disjunction_cons (atom 1) (atom 2), .Concept_cons 101 []] = 2 ∧
    min_element [atom 1, .Disjunction_cons (atom 1) (atom 2),
      .Disjunction_cons (atom 2) (atom 1)] = 1 ∧
    expand_left sample_context (atom_goal 1 2) = .ok (atom_goal 1 2) :=
  ⟨((expand_left_selection sample_context
      { ants := { map := [], seq := [atom 1, .Disjunction_cons (atom 1) (atom 2),
                                     .Concept_cons 101 []], cur := 0 },
        cons := Prop_list.empty } (atom 1) _ rfl).1
      ⟨.Concept_cons 101 [], by simp, rfl⟩).1,
   ((expand_left_selection sample_context
      { ants := { map := [], seq := [atom 1, .Disjunction_cons (atom 1) (atom 2),
                                     .Disjunction_cons (atom 2) (atom 1)], cur := 0 },
        cons := Prop_list.empty } (atom 1) _ rfl).2.1
      (by intro y hy; simp at hy; rcases hy with h | h | h <;> (subst h; rfl))
      ⟨.Disjunction_cons (atom 1) (atom 2), by simp, rfl⟩ (Or.inl rfl)).1,
   (expand_left_selection sample_context (atom_goal 1 2) (atom 1) [] rfl).2.2
      (by intro y hy; simp [atom_goal] at hy; subst hy; rfl)
      (Or.inr (by intro y hy; simp [atom_goal] at hy; subst hy; rfl))⟩

/-! ## The expansion of a concept and of a disjunction -/

theorem replace_of_hashable (ps : Prop_list) (pre post : List Cons) (x c : Cons)
    (hwf : ps.wf) (hseq : ps.seq = pre ++ x :: post) (hc : hashable c = true) :
    ∃ ps1 b, ps.replace pre.length c = .ok (ps1, pre.length, b) ∧
      (b = true ↔ ∀ y ∈ pre ++ post, is_equivalent c y = false) ∧
      ps1.seq = pre ++ (if b = true then [c] else []) ++ post ∧ ps1.cur = ps.cur ∧ ps1.wf := by
  obtain ⟨q1, e1, s1, k1, w1, _⟩ := erase_spec ps pre post x hwf hseq
  obtain ⟨q2, b, e2, hb, s2, k2, w2, _⟩ := insert_at_spec q1 pre post c w1 s1 hc
  refine ⟨q2, b, ?_, hb, s2, by rw [k2, k1], w2⟩
  unfold Prop_list.replace
  rw [e1]
  simp only
  rw [e2]
  cases b <;> simp

theorem make_get_mapping : ∀ (parms : List Decl) (args : List Term), parms.Nodup →
    ∀ (i : Nat) (p : Decl) (a : Term), parms.get? i = some p → args.get? i = some a →
      (Substitution.make parms args).get_mapping p = some a
  | [], _, _, i, p, a, hp, _ => by simp at hp
  | q :: ps, [], _, i, p, a, _, ha => by simp at ha
  | q :: ps, b :: as, hnd, 0, p, a, hp, ha => by
      simp only [List.get?_cons_zero, Option.some.injEq] at hp ha
      subst hp; subst ha
      simp [Substitution.make, Substitution.get_mapping]
  | q :: ps, b :: as, hnd, i + 1, p, a, hp, ha => by
      simp only [List.get?_cons_succ] at hp ha
      have hmem : p ∈ ps := List.get?_mem hp
      have hne : ¬ q = p := by
        intro h
        rw [h] at hnd
        exact (List.nodup_cons.1 hnd).1 hmem
      have ih := make_get_mapping ps as (List.nodup_cons.1 hnd).2 i p a hp ha
      simp only [Substitution.make] at ih ⊢
      simp only [List.zip_cons_cons, Substitution.get_mapping, if_neg hne]
      exact ih

theorem expand_length (cxt : Context) : ∀ (goals goals1 : Goal_list),
    expand cxt goals = .ok goals1 → goals1.length = goals.length
  | [], goals1, h => by
      simp only [expand, Except.ok.injEq] at h
      rw [← h]
  | s :: rest, goals1, h => by
      simp only [expand] at h
      cases h1 : expand_left cxt s with
      | error e => simp [h1] at h
      | ok s1 =>
        cases h2 : expand cxt rest with
        | error e => simp [h1, h2] at h
        | ok rest1 =>
          simp only [h1, h2, Except.ok.injEq] at h
          rw [← h]
          simp [expand_length cxt rest rest1 h2]

theorem hash_value_term_list_unqualified : ∀ (as : List Term) (h ha : Hash_code),
    hash_value_term_list as h = .ok ha → ∀ t q, Term.type (.Qualified_type t q) ∉ as
  | [], _, _, _, _, _, hm => by cases hm
  | a :: as, h, ha, hok, t, q, hm => by
      simp only [hash_value_term_list] at hok
      cases h1 : hash_value_term a with
      | error e => rw [h1] at hok; cases hok
      | ok v =>
        rw [h1] at hok
        rcases List.mem_cons.1 hm with e | e
        · rw [← e] at h1
          simp [hash_value_term, hash_value_type] at h1
        · exact hash_value_term_list_unqualified as _ ha hok t q e

theorem insert_at_not_hashable (ps : Prop_list) (pos : Nat) (c : Cons)
    (h : hashable c = false) : ∃ e, ps.insert_at pos c = .error e := by
  unfold hashable at h
  unfold Prop_list.insert_at
  cases hc : hash_value c with
  | error e => exact ⟨e, rfl⟩
  | ok v => rw [hc] at h; cases h

/-- No type argument of a concept constraint with a hash code is a qualified
type. -/
theorem hashable_concept_unqualified (d : Decl) (args : List Term)
    (h : hashable (.Concept_cons d args) = true) :
    ∀ t q, Term.type (.Qualified_type t q) ∉ args := by
  obtain ⟨v, hv⟩ := (hashable_iff _).1 h
  simp only [hash_value] at hv
  cases h1 : hash_value_term_list args (.of_int args.length) with
  | error e => rw [h1] at hv; cases hv
  | ok ha => exact hash_value_term_list_unqualified args _ ha h1

/-- C34 (counterexample): `expand_left` does not always put the expansion at
the position of the concept.  In the sample context `E<>` is defined as `P1`.
The query `subsumes(P1 ∧ E<>, P2)` builds the goal `P1 ∧ E<> ⊢ P2`, the flatten
pass leaves the antecedents `P1, E<>`, and `expand_left` selects `E<>`, whose
expansion `P1` is an antecedent already: the concept is removed and nothing
takes its place, the antecedents are `P1`.  With `G<>` defined as `E<int*>`
the expansion `E<int*>` has no hash code and `expand_left` on the goal of
`subsumes(G<>, P2)` is fatal. -/
theorem expand_concept_spec_counterexample :
    (Sequent.make (.Conjunction_cons (atom 1) (.Concept_cons 101 [])) (atom 2) =
        .ok { ants := ⟨[.Conjunction_cons (atom 1) (.Concept_cons 101 [])],
                       [.Conjunction_cons (atom 1) (.Concept_cons 101 [])], 0⟩,
              cons := ⟨[atom 2], [atom 2], 0⟩ } ∧
     flatten [{ ants := ⟨[.Conjunction_cons (atom 1) (.Concept_cons 101 [])],
                         [.Conjunction_cons (atom 1) (.Concept_cons 101 [])], 0⟩,
                cons := ⟨[atom 2], [atom 2], 0⟩ }] =
        .ok [{ ants := ⟨[.Concept_cons 101 [], atom 1], [atom 1, .Concept_cons 101 []], 2⟩,
               cons := ⟨[atom 2], [atom 2], 1⟩ }] ∧
     expand_concept sample_context 101 [] = .ok (atom 1) ∧
     expand_left sample_context
         { ants := ⟨[.Concept_cons 101 [], atom 1], [atom 1, .Concept_cons 101 []], 2⟩,
           cons := ⟨[atom 2], [atom 2], 1⟩ } =
        .ok { ants := ⟨[atom 1], [atom 1], 2⟩, cons := ⟨[atom 2], [atom 2], 1⟩ }) ∧
    (expand_concept alias_context 103 [] =
        .ok (.Concept_cons 101 [.type (.Pointer_type int_type)]) ∧
     hashable (.Concept_cons 101 [.type (.Pointer_type int_type)]) = false ∧
     flatten [{ ants := ⟨[.Concept_cons 103 []], [.Concept_cons 103 []], 0⟩,
                cons := ⟨[atom 2], [atom 2], 0⟩ }] =
        .ok [{ ants := ⟨[.Concept_cons 103 []], [.Concept_cons 103 []], 1⟩,
               cons := ⟨[atom 2], [atom 2], 1⟩ }] ∧
     expand_left alias_context
         { ants := ⟨[.Concept_cons 103 []], [.Concept_cons 103 []], 1⟩,
           cons := ⟨[atom 2], [atom 2], 1⟩ } = .error .unimplemented ∧
     subsumes alias_context (.Concept_cons 103 []) (atom 2) = .error .unimplemented) :=
  ⟨⟨rfl, rfl, rfl, rfl⟩, ⟨rfl, rfl, rfl, rfl, rfl⟩⟩

/-- C34 (amended): the expansion of a concept.  `expand(Concept(D, args))`
returns exactly when the substitution into the definition of `D` does, and is
then `normalize(substitute(definition(D), sub))`, where `sub` maps the i-th
parameter of `D` to the i-th argument.  The concept is an antecedent, so it has
a hash code and none of its type arguments is a qualified type; on the objects
of a store in which no qualified type wraps a qualified type, a substitution
that maps to no qualified type writes to no existing type or declaration: the
declaration and its definition are unchanged.  When `expand_left` selects the concept (the
first concept of the list): if the expansion has a hash code and no other
antecedent is equivalent to it, the expansion takes the position of the
concept; if it has a hash code and another antecedent is equivalent to it, the
concept is only removed; if it has no hash code, or if `expand` is fatal,
`expand_left` is fatal. -/
theorem expand_concept_spec (cxt : Context) (s : Sequent) (pre post : List Cons) (d : Decl)
    (args : List Term) (decl : Concept_decl) (hwf : s.ants.wf)
    (hseq : s.ants.seq = pre ++ .Concept_cons d args :: post)
    (hfirst : ∀ y ∈ pre, is_Concept_cons y = false) (hd : cxt.concepts d = some decl) :
    (∀ r, expand_concept cxt d args = .ok r ↔
      ∃ e, substitute_expr (Substitution.make decl.parameters args) decl.definition = .ok e ∧
        r = normalize e) ∧
    (decl.parameters.Nodup → ∀ i p a, decl.parameters.get? i = some p →
      args.get? i = some a →
      (Substitution.make decl.parameters args).get_mapping p = some a) ∧
    (∀ t q, Term.type (.Qualified_type t q) ∉ args) ∧
    (∀ (sub : Substitution_obj) (fuel : Nat) (e e1 : Expr_obj) (st st1 : Store),
      st.types.settled sub → substitute_expr_obj sub fuel e st = .ok (e1, st1) →
      st.types.unchanged st1.types ∧ ∀ i y, st.decls.get? i = some y → st1.decls.get? i = some y) ∧
    (∀ r, expand_concept cxt d args = .ok r → hashable r = true →
      ∃ ps1 b, expand_left cxt s = .ok { ants := ps1, cons := s.cons } ∧
        (b = true ↔ ∀ y ∈ pre ++ post, is_equivalent r y = false) ∧
        ps1.seq = pre ++ (if b = true then [r] else []) ++ post ∧ ps1.wf) ∧
    (∀ r, expand_concept cxt d args = .ok r → hashable r = false →
      ∃ e, expand_left cxt s = .error e) ∧
    (∀ e, expand_concept cxt d args = .error e → expand_left cxt s = .error e) := by
  have hidx : s.ants.seq.findIdx is_Concept_cons = pre.length := by
    rw [hseq]; exact findIdx_at _ pre post _ hfirst rfl
  have hm : min_element s.ants.seq = pre.length := by
    rw [min_element_first_concept s.ants.seq
      ⟨.Concept_cons d args, by rw [hseq]; simp, rfl⟩, hidx]
  have hget : s.ants.seq.get? pre.length = some (.Concept_cons d args) := by
    rw [hseq, list_get_at]
  refine ⟨?_, fun hnd i p a => make_get_mapping _ _ hnd i p a,
    hashable_concept_unqualified d args (hwf.2.2 _ (by rw [hseq]; simp)),
    fun sub fuel e e1 st st1 hs h =>
      ⟨(substitute_expr_obj_settled sub fuel e e1 st st1 hs h).2.1,
       (substitute_expr_obj_settled sub fuel e e1 st st1 hs h).2.2.2⟩, ?_, ?_, ?_⟩
  · intro r
    unfold expand_concept
    rw [hd]
    simp only
    cases h : substitute_expr (Substitution.make decl.parameters args) decl.definition with
    | error e =>
      constructor
      · intro h1; cases h1
      · rintro ⟨_, h1, _⟩; cases h1
    | ok e =>
      simp only [Except.ok.injEq]
      constructor
      · intro h1; exact ⟨e, rfl, h1.symm⟩
      · rintro ⟨e1, h1, h2⟩; subst h1; exact h2.symm
  · intro r hr hh
    obtain ⟨ps1, b, h1, hb, hs, _, hw⟩ := replace_of_hashable s.ants pre post _ r hwf hseq hh
    refine ⟨ps1, b, ?_, hb, hs, hw⟩
    unfold expand_left
    simp only [hm, hget, hr, h1]
  · intro r hr hh
    obtain ⟨q1, e1, s1, k1, w1, _⟩ := erase_spec s.ants pre post _ hwf hseq
    obtain ⟨e, he⟩ := insert_at_not_hashable q1 pre.length r hh
    refine ⟨e, ?_⟩
    unfold expand_left
    simp only [hm, hget, hr, Prop_list.replace, e1, he]
  · intro e he
    unfold expand_left
    simp only [hm, hget, he]

/-- The antecedents `P3, D<int>` with the concept `D<T> = P1 ∧ P2` of the sample
context. -/
theorem sample_concept_wf :
    Prop_list.wf { map := [atom 3, .Concept_cons 100 [.type int_type]],
                   seq := [atom 3, .Concept_cons 100 [.type int_type]], cur := 0 } := by
  refine ⟨?_, List.Perm.refl _, ?_⟩
  · exact List.Pairwise.cons (fun y hy => by
      simp only [List.mem_singleton] at hy
      subst hy; rfl) (List.pairwise_singleton _ _)
  · intro x hx
    simp only [List.mem_cons, List.mem_singleton, List.not_mem_nil, or_false] at hx
    rcases hx with hx | hx <;> (subst hx; rfl)

/-- C34 (amended) on the antecedents `P3, D<int>`: the expansion `P1 ∧ P2`
takes the place of the concept. -/
theorem expand_concept_spec_witness :
    expand_concept sample_context 100 [.type int_type] =
      .ok (.Conjunction_cons (atom 1) (atom 2)) ∧
    ∃ ps1 b, expand_left sample_context
        { ants := { map := [atom 3, .Concept_cons 100 [.type int_type]],
                    seq := [atom 3, .Concept_cons 100 [.type int_type]], cur := 0 },
          cons := Prop_list.empty } = .ok { ants := ps1, cons := Prop_list.empty } ∧
      (b = true ↔
        ∀ y ∈ [atom 3] ++ [], is_equivalent (.Conjunction_cons (atom 1) (atom 2)) y = false) ∧
      ps1.seq = [atom 3] ++ (if b = true then [.Conjunction_cons (atom 1) (atom 2)] else []) ++
        [] ∧ ps1.wf :=
  ⟨rfl, (expand_concept_spec sample_context
      { ants := { map := [atom 3, .Concept_cons 100 [.type int_type]],
                  seq := [atom 3, .Concept_cons 100 [.type int_type]], cur := 0 },
        cons := Prop_list.empty } [atom 3] [] 100 [.type int_type]
      { parameters := [7],
        definition := .Binary_expr .And_expr bool_type
          (.Reference_expr bool_type 1) (.Reference_expr bool_type 2) }
      sample_concept_wf rfl
      (by intro y hy; simp only [List.mem_singleton] at hy; subst hy; rfl) rfl).2.2.2.2.1
      (.Conjunction_cons (atom 1) (atom 2)) rfl rfl⟩

/-- C35: the expansion of a disjunction.  When `expand_left` selects the
antecedent `L ∨ R`, between `pre` and `post`, it returns, and the antecedent
list is the same list with `L ∨ R` replaced in place by `L` and then `R`, an
operand being skipped when an equivalent antecedent is in the list at that
moment; the consequents are untouched and the result is the same goal: no goal
is created, and `expand` leaves the number of goals unchanged. -/
theorem expand_disjunction_spec (cxt : Context) (s : Sequent) (pre post : List Cons)
    (l r : Cons) (hwf : s.ants.wf) (hseq : s.ants.seq = pre ++ .Disjunction_cons l r :: post)
    (hsel : min_element s.ants.seq = pre.length) :
    (∃ ps1 b1 b2, expand_left cxt s = .ok { ants := ps1, cons := s.cons } ∧
      (b1 = true ↔ ∀ y ∈ pre ++ post, is_equivalent l y = false) ∧
      (b2 = true ↔
        ∀ y ∈ pre ++ (if b1 = true then [l] else []) ++ post, is_equivalent r y = false) ∧
      ps1.seq =
        pre ++ (if b1 = true then [l] else []) ++ (if b2 = true then [r] else []) ++ post ∧
      ps1.wf) ∧
    (∀ goals goals1, expand cxt goals = .ok goals1 → goals1.length = goals.length) := by
  refine ⟨?_, expand_length cxt⟩
  have hh : hashable (.Disjunction_cons l r) = true := hwf.2.2 _ (by rw [hseq]; simp)
  rw [hashable_disjunction, Bool.and_eq_true] at hh
  obtain ⟨ps1, b1, b2, h1, hb1, hb2, hs, _, hw, _⟩ :=
    replace2_of_hashable s.ants pre post _ l r hwf hseq hh.1 hh.2
  refine ⟨ps1, b1, b2, ?_, hb1, hb2, hs, hw⟩
  have hget : s.ants.seq.get? pre.length = some (.Disjunction_cons l r) := by
    rw [hseq, list_get_at]
  unfold expand_left
  simp only [hsel, hget, h1]

theorem sample_disjunction_wf :
    Prop_list.wf { map := [atom 1, .Disjunction_cons (atom 1) (atom 2)],
                   seq := [atom 1, .Disjunction_cons (atom 1) (atom 2)], cur := 0 } := by
  refine ⟨?_, List.Perm.refl _, ?_⟩
  · exact List.Pairwise.cons (fun y hy => by
      simp only [List.mem_singleton] at hy
      subst hy; rfl) (List.pairwise_singleton _ _)
  · intro x hx
    simp only [List.mem_cons, List.mem_singleton, List.not_mem_nil, or_false] at hx
    rcases hx with hx | hx <;> (subst hx; rfl)

/-- C35 on the antecedents `P1, P1 ∨ P2`: the disjunction is replaced by `P2`
alone, `P1` being an antecedent already. -/
theorem expand_disjunction_spec_witness :
    (∃ ps1 b1 b2, expand_left no_concepts
        { ants := { map := [atom 1, .Disjunction_cons (atom 1) (atom 2)],
                    seq := [atom 1, .Disjunction_cons (atom 1) (atom 2)], cur := 0 },
          cons := Prop_list.empty } = .ok { ants := ps1, cons := Prop_list.empty } ∧
      (b1 = true ↔ ∀ y ∈ [atom 1] ++ [], is_equivalent (atom 1) y = false) ∧
      (b2 = true ↔
        ∀ y ∈ [atom 1] ++ (if b1 = true then [atom 1] else []) ++ [],
          is_equivalent (atom 2) y = false) ∧
      ps1.seq =
        [atom 1] ++ (if b1 = true then [atom 1] else []) ++
          (if b2 = true then [atom 2] else []) ++ [] ∧
      ps1.wf) ∧
    expand_left no_concepts
        { ants := { map := [atom 1, .Disjunction_cons (atom 1) (atom 2)],
                    seq := [atom 1, .Disjunction_cons (atom 1) (atom 2)], cur := 0 },
          cons := Prop_list.empty } =
      .ok { ants := { map := [atom 2, atom 1], seq := [atom 1, atom 2], cur := 0 },
            cons := Prop_list.empty } :=
  ⟨(expand_disjunction_spec no_concepts
      { ants := { map := [atom 1, .Disjunction_cons (atom 1) (atom 2)],
                  seq := [atom 1, .Disjunction_cons (atom 1) (atom 2)], cur := 0 },
        cons := Prop_list.empty } [atom 1] [] (atom 1) (atom 2) sample_disjunction_wf rfl rfl).1,
   rfl⟩

/-! ## Flattened sequents -/

theorem flatten_left_flat (s : Sequent) (hflat : ∀ x ∈ s.ants.seq, left_flat x = true) :
    flatten_left s = .ok { s with ants := { s.ants with cur := s.ants.seq.length } } := by
  unfold flatten_left
  have h := flatten_left_loop_flat s.ants.seq (prop_weight s.ants.seq + 1) s.ants.start.1 []
    rfl rfl hflat (by have := length_le_prop_weight s.ants.seq; omega)
  have e : s.ants.start.2 = ([] : List Cons).length := rfl
  rw [e, h]
  rfl

theorem flatten_right_flat (s : Sequent) (hflat : ∀ x ∈ s.cons.seq, right_flat x = true) :
    flatten_right s = .ok { s with cons := { s.cons with cur := s.cons.seq.length } } := by
  unfold flatten_right
  have h := flatten_right_loop_flat s.cons.seq (prop_weight s.cons.seq + 1) s.cons.start.1 []
    rfl rfl hflat (by have := length_le_prop_weight s.cons.seq; omega)
  have e : s.cons.start.2 = ([] : List Cons).length := rfl
  rw [e, h]
  rfl

/-- A flattened sequent is a fixed point of both passes. -/
theorem flatten_of_flat (s : Sequent) (h : s.flat) :
    flatten_left s = .ok s ∧ flatten_right s = .ok s ∧ flatten [s] = .ok [s] := by
  obtain ⟨h1, h2, h3, h4⟩ := h
  have e1 : flatten_left s = .ok s := by
    rw [flatten_left_flat s h1, ← h3]
  have e2 : flatten_right s = .ok s := by
    rw [flatten_right_flat s h2, ← h4]
  refine ⟨e1, e2, ?_⟩
  rw [flatten_single, e1]
  simp only
  rw [e2]

/-- The flatten pass over a single goal is fatal or leaves a single goal. -/
theorem flatten_single_cases (s : Sequent) :
    (∃ e, flatten [s] = .error e) ∨ ∃ s1, flatten [s] = .ok [s1] := by
  rw [flatten_single]
  cases flatten_left s with
  | error e => exact Or.inl ⟨e, rfl⟩
  | ok s0 =>
    simp only
    cases flatten_right s0 with
    | error e => exact Or.inl ⟨e, rfl⟩
    | ok s1 => exact Or.inr ⟨s1, rfl⟩

/-- A flatten pass over a single goal that returns is a flatten-left pass
followed by a flatten-right pass, both of which return. -/
theorem flatten_single_ok (s s1 : Sequent) (h : flatten [s] = .ok [s1]) :
    ∃ s0, flatten_left s = .ok s0 ∧ flatten_right s0 = .ok s1 := by
  rw [flatten_single] at h
  cases hl : flatten_left s with
  | error e => rw [hl] at h; cases h
  | ok s0 =>
    rw [hl] at h
    simp only at h
    cases hr : flatten_right s0 with
    | error e => rw [hr] at h; cases h
    | ok s2 =>
      rw [hr] at h
      simp only [Except.ok.injEq, List.cons.injEq, and_true] at h
      exact ⟨s0, rfl, by rw [← h]; exact hr⟩

/-- The result of a flatten pass that returns, over a sequent whose lists
satisfy the invariant: a flattened sequent whose lists satisfy it, and whose
antecedents and consequents are the leaves of those of the sequent. -/
theorem flatten_lists_result (s s1 : Sequent) (hwa : s.ants.wf) (hwc : s.cons.wf)
    (h : flatten [s] = .ok [s1]) :
    flatten_left s = .ok { ants := s1.ants, cons := s.cons } ∧
      flatten_right { ants := s1.ants, cons := s.cons } = .ok s1 ∧ s1.flat ∧
      flatten_inv left_flat left_leaves s.ants.seq s1.ants s1.ants.seq ∧
      flatten_inv right_flat right_leaves s.cons.seq s1.cons s1.cons.seq := by
  obtain ⟨s0, hl, hr⟩ := flatten_single_ok s s1 h
  obtain ⟨hi1, hc1, hk1⟩ := flatten_left_inv s s0 hwa hl
  obtain ⟨hi2, hc2, hk2⟩ := flatten_right_inv s0 s1 (by rw [hc1]; exact hwc) hr
  have e0 : s0 = { ants := s1.ants, cons := s.cons } := by
    cases s0
    simp only at hc1 hc2
    rw [hc1, hc2]
  rw [e0] at hl hr
  rw [hc1] at hi2
  rw [← hc2] at hi1 hk1
  exact ⟨hl, hr, ⟨hi1.2.1, hi2.2.1, hk1, hk2⟩, hi1, hi2⟩

/-- The result of a flatten pass that returns, over a sequent that satisfies
the invariant, satisfies it: no list becomes empty. -/
theorem flatten_result (s s1 : Sequent) (hwf : s.wf) (h : flatten [s] = .ok [s1]) :
    s1.wf ∧ s1.flat ∧
      flatten_inv left_flat left_leaves s.ants.seq s1.ants s1.ants.seq ∧
      flatten_inv right_flat right_leaves s.cons.seq s1.cons s1.cons.seq := by
  obtain ⟨hwa, hwc, hna, hnc⟩ := hwf
  obtain ⟨_, _, hflat, hi1, hi2⟩ := flatten_lists_result s s1 hwa hwc h
  have hne1 : s1.ants.seq ≠ [] := by
    obtain ⟨a0, ha0⟩ := List.exists_mem_of_ne_nil _ hna
    obtain ⟨y, hy⟩ := List.exists_mem_of_ne_nil _ (left_leaves_ne_nil a0)
    obtain ⟨x, hx, _⟩ := hi1.2.2.2 a0 ha0 y hy
    exact List.ne_nil_of_mem hx
  have hne2 : s1.cons.seq ≠ [] := by
    obtain ⟨c0, hc0⟩ := List.exists_mem_of_ne_nil _ hnc
    obtain ⟨y, hy⟩ := List.exists_mem_of_ne_nil _ (right_leaves_ne_nil c0)
    obtain ⟨x, hx, _⟩ := hi2.2.2.2 c0 hc0 y hy
    exact List.ne_nil_of_mem hx
  exact ⟨⟨hi1.1, hi2.1, hne1, hne2⟩, hflat, hi1, hi2⟩

theorem Sequent_make_wf (a c : Cons) (s : Sequent) (h : Sequent.make a c = .ok s) :
    s.wf ∧ s.ants.seq = [a] ∧ s.cons.seq = [c] := by
  have hboth : hashable a = true ∧ hashable c = true := by
    unfold hashable
    cases hxa : hash_value a with
    | error e => simp [Sequent.make, Prop_list.insert, hxa] at h
    | ok va =>
      cases hxc : hash_value c with
      | error e => simp [Sequent.make, Prop_list.insert, Prop_list.empty, hxa, hxc] at h
      | ok vc => exact ⟨rfl, rfl⟩
  obtain ⟨ha, hc⟩ := hboth
  rw [Sequent_make_ok a c ha hc] at h
  cases h
  refine ⟨⟨⟨List.pairwise_singleton _ _, List.Perm.refl _, ?_⟩,
    ⟨List.pairwise_singleton _ _, List.Perm.refl _, ?_⟩, by simp, by simp⟩, rfl, rfl⟩
  · intro x hx
    simp only [List.mem_singleton] at hx
    rw [hx]; exact ha
  · intro x hx
    simp only [List.mem_singleton] at hx
    rw [hx]; exact hc
/-! ## Rounds of the proof on a single goal -/

theorem replace_ok_hashable (ps : Prop_list) (pos : Nat) (c : Cons)
    (r : Prop_list × Nat × Bool) (h : ps.replace pos c = .ok r) :
    hashable c = true ∧ ∃ x, ps.seq.get? pos = some x := by
  unfold Prop_list.replace at h
  cases h1 : ps.erase pos with
  | error e => simp [h1] at h
  | ok x1 =>
    obtain ⟨ps1, pos1⟩ := x1
    simp only [h1] at h
    cases h2 : ps1.insert_at pos1 c with
    | error e => simp [h2] at h
    | ok x2 =>
      refine ⟨insert_at_ok_hashable _ _ _ _ h2, ?_⟩
      cases hx : ps.seq.get? pos with
      | none =>
        unfold Prop_list.erase at h1
        rw [hx] at h1
        cases h1
      | some x => exact ⟨x, rfl⟩

theorem replace2_ok_position (ps : Prop_list) (pos : Nat) (c1 c2 : Cons)
    (r : Prop_list × Nat × Bool) (h : ps.replace2 pos c1 c2 = .ok r) :
    ∃ x, ps.seq.get? pos = some x := by
  cases hx : ps.seq.get? pos with
  | none =>
    unfold Prop_list.replace2 Prop_list.erase at h
    rw [hx] at h
    cases h
  | some x => exact ⟨x, rfl⟩

theorem replace_nonempty (ps : Prop_list) (pos : Nat) (c : Cons) (r : Prop_list × Nat × Bool)
    (hwf : ps.wf) (h : ps.replace pos c = .ok r) : r.1.seq ≠ [] := by
  obtain ⟨hc, x, hx⟩ := replace_ok_hashable ps pos c r h
  obtain ⟨hs, hl⟩ := list_split_at ps.seq pos x hx
  obtain ⟨ps1, b, h1, hb, hseq, _, _⟩ := replace_of_hashable ps _ _ x c hwf hs hc
  rw [hl, h] at h1
  cases h1
  rw [hseq]
  cases hb1 : b with
  | true => simp
  | false =>
    intro hnil
    simp only [Bool.false_eq_true, if_false, List.append_nil, List.append_eq_nil] at hnil
    rw [hb1] at hb
    have := hb.2 (by rw [hnil.1, hnil.2]; intro y hy; cases hy)
    cases this

theorem replace2_nonempty (ps : Prop_list) (pos : Nat) (c1 c2 : Cons)
    (r : Prop_list × Nat × Bool) (hwf : ps.wf) (h : ps.replace2 pos c1 c2 = .ok r) :
    r.1.seq ≠ [] := by
  obtain ⟨hc1, hc2⟩ := replace2_ok_hashable ps pos c1 c2 r h
  obtain ⟨x, hx⟩ := replace2_ok_position ps pos c1 c2 r h
  obtain ⟨hs, hl⟩ := list_split_at ps.seq pos x hx
  obtain ⟨ps1, b1, b2, h1, hb1, _, hseq, _, _, _⟩ :=
    replace2_of_hashable ps _ _ x c1 c2 hwf hs hc1 hc2
  rw [hl, h] at h1
  cases h1
  rw [hseq]
  cases hb : b1 with
  | true => simp
  | false =>
    intro hnil
    simp only [Bool.false_eq_true, if_false, List.append_nil, List.append_eq_nil] at hnil
    rw [hb] at hb1
    have := hb1.2 (by rw [hnil.1.1, hnil.2]; intro y hy; cases hy)
    cases this

theorem expand_left_wf (cxt : Context) (s s1 : Sequent) (hwf : s.wf)
    (h : expand_left cxt s = .ok s1) : s1.wf ∧ s1.cons = s.cons := by
  obtain ⟨hwa, hwc, hna, hnc⟩ := hwf
  unfold expand_left at h
  cases hg : s.ants.seq.get? (min_element s.ants.seq) with
  | none =>
    simp only [hg] at h
    cases h
  | some x =>
    simp only [hg] at h
    cases x with
    | Concept_cons d args =>
      simp only at h
      cases he : expand_concept cxt d args with
      | error e => simp [he] at h
      | ok r =>
        simp only [he] at h
        cases hr : s.ants.replace (min_element s.ants.seq) r with
        | error e => simp [hr] at h
        | ok y =>
          obtain ⟨ps, i, b⟩ := y
          simp only [hr, Except.ok.injEq] at h
          rw [← h]
          exact ⟨⟨replace_wf _ _ _ _ hwa hr, hwc, replace_nonempty _ _ _ _ hwa hr, hnc⟩, rfl⟩
    | Disjunction_cons l r =>
      simp only at h
      cases hr : s.ants.replace2 (min_element s.ants.seq) l r with
      | error e => simp [hr] at h
      | ok y =>
        obtain ⟨ps, i, b⟩ := y
        simp only [hr, Except.ok.injEq] at h
        rw [← h]
        exact ⟨⟨replace2_wf _ _ _ _ _ hwa hr, hwc, replace2_nonempty _ _ _ _ _ hwa hr, hnc⟩, rfl⟩
    | Predicate_cons e =>
      simp only [Except.ok.injEq] at h
      rw [← h]; exact ⟨⟨hwa, hwc, hna, hnc⟩, rfl⟩
    | Parameterized_cons ps c =>
      simp only [Except.ok.injEq] at h
      rw [← h]; exact ⟨⟨hwa, hwc, hna, hnc⟩, rfl⟩
    | Conjunction_cons l r =>
      simp only [Except.ok.injEq] at h
      rw [← h]; exact ⟨⟨hwa, hwc, hna, hnc⟩, rfl⟩

theorem min_element_loop_lt : ∀ (xs : List Cons) (i : Nat) (sm : Cons) (si : Nat),
    si < i → min_element_loop xs i sm si < i + xs.length
  | [], i, _, si, h => by simp only [min_element_loop, List.length_nil]; omega
  | x :: xs, i, sm, si, h => by
      rw [min_element_loop]
      split
      · have := min_element_loop_lt xs (i + 1) x i (by omega)
        simp only [List.length_cons]; omega
      · have := min_element_loop_lt xs (i + 1) sm si (by omega)
        simp only [List.length_cons]; omega

theorem min_element_lt (l : List Cons) (h : l ≠ []) : min_element l < l.length := by
  cases l with
  | nil => exact absurd rfl h
  | cons x xs =>
    have := min_element_loop_lt xs 1 x 0 (by omega)
    simp only [min_element, List.length_cons]
    omega

/-- One round of the loop of `subsumes` on a single goal that satisfies the
invariant, when the flatten pass returns the goal `s1`: `s1` is flattened and
satisfies the invariant, its validation returns, and the round answers true if
it is valid, false if it is invalid, and otherwise goes on with the expansion
of `s1`. -/
theorem subsumes_round (cxt : Context) (k : Nat) (s s1 : Sequent) (hwf : s.wf)
    (hf : flatten [s] = .ok [s1]) :
    ∃ v, s1.wf ∧ s1.flat ∧ validate_obligation s1 = .ok v ∧
      subsumes_loop cxt (k + 1) [s] =
        match v with
        | .valid_proof => .ok true
        | .invalid_proof => .ok false
        | .incomplete_proof =>
          match expand_left cxt s1 with
          | .error e => .error e
          | .ok s3 => subsumes_loop cxt k [s3] := by
  obtain ⟨hw1, hflat, _, _⟩ := flatten_result s s1 hwf hf
  obtain ⟨v, hv, _, _⟩ := validate_obligation_cases s1 hw1
  refine ⟨v, hw1, hflat, hv, ?_⟩
  rw [subsumes_loop, hf]
  simp only
  cases v with
  | valid_proof => rw [validate_proof_single_valid s1 hv]
  | invalid_proof => rw [validate_proof_single_invalid s1 hv]
  | incomplete_proof =>
    rw [validate_proof_single_incomplete s1 hv]
    simp only
    rw [expand_single]
    cases expand_left cxt s1 <;> rfl

/-- A round whose flatten pass is fatal ends the loop with that exit. -/
theorem subsumes_round_error (cxt : Context) (k : Nat) (s : Sequent) (e : Fatal)
    (hf : flatten [s] = .error e) : subsumes_loop cxt (k + 1) [s] = .error e := by
  rw [subsumes_loop, hf]

theorem flatten_cons_keep (s s1 : Sequent) (hwa : s.ants.wf) (hwc : s.cons.wf)
    (hcf : ∀ x ∈ s.cons.seq, right_flat x = true) (hcur : s.cons.cur = s.cons.seq.length)
    (h : flatten [s] = .ok [s1]) : s1.cons = s.cons := by
  obtain ⟨_, e2, _⟩ := flatten_lists_result s s1 hwa hwc h
  have e3 := flatten_right_flat { ants := s1.ants, cons := s.cons } hcf
  rw [e3] at e2
  simp only [Except.ok.injEq] at e2
  rw [← e2]
  simp only
  rw [← hcur]

theorem expand_left_cons (cxt : Context) (s s1 : Sequent) (h : expand_left cxt s = .ok s1) :
    s1.cons = s.cons := by
  unfold expand_left at h
  cases hg : s.ants.seq.get? (min_element s.ants.seq) with
  | none =>
    simp only [hg] at h
    cases h
  | some x =>
    simp only [hg] at h
    cases x with
    | Concept_cons d args =>
      simp only at h
      cases he : expand_concept cxt d args with
      | error e => simp [he] at h
      | ok r =>
        simp only [he] at h
        cases hr : s.ants.replace (min_element s.ants.seq) r with
        | error e => simp [hr] at h
        | ok y =>
          simp only [hr, Except.ok.injEq] at h
          rw [← h]
    | Disjunction_cons l r =>
      simp only at h
      cases hr : s.ants.replace2 (min_element s.ants.seq) l r with
      | error e => simp [hr] at h
      | ok y =>
        simp only [hr, Except.ok.injEq] at h
        rw [← h]
    | Predicate_cons e =>
      simp only [Except.ok.injEq] at h
      rw [← h]
    | Parameterized_cons ps c =>
      simp only [Except.ok.injEq] at h
      rw [← h]
    | Conjunction_cons l r =>
      simp only [Except.ok.injEq] at h
      rw [← h]

/-- A goal after the flatten pass of a round exists only when the first
flatten pass returns. -/
theorem flattened_goal_flatten (cxt : Context) (k : Nat) (s s2 : Sequent)
    (h : flattened_goal cxt k [s] s2) : ∃ s1, flatten [s] = .ok [s1] := by
  cases k with
  | zero => simp [flattened_goal] at h
  | succ k =>
    rcases flatten_single_cases s with ⟨e, he⟩ | hs
    · simp only [flattened_goal, he] at h
    · exact hs

/-- The goals after the flatten passes of the rounds from a goal that
satisfies the invariant: each satisfies it and is flattened, and its
consequent list is the one the first flatten pass left. -/
theorem flattened_goal_inv (cxt : Context) : ∀ (k : Nat) (s s1 s2 : Sequent), s.wf →
    flatten [s] = .ok [s1] → flattened_goal cxt k [s] s2 →
    s2.wf ∧ s2.flat ∧ s2.cons = s1.cons
  | 0, _, _, _, _, _, h => by simp [flattened_goal] at h
  | k + 1, s, s1, s2, hwf, hf, h => by
      obtain ⟨hwt, hflat, _, _⟩ := flatten_result s s1 hwf hf
      obtain ⟨v, hv, _, _⟩ := validate_obligation_cases s1 hwt
      simp only [flattened_goal, hf] at h
      rcases h with h | h
      · simp only [List.cons.injEq, and_true] at h
        subst h
        exact ⟨hwt, hflat, rfl⟩
      · cases v with
        | valid_proof =>
          rw [validate_proof_single_valid s1 hv] at h
          exact absurd h id
        | invalid_proof =>
          rw [validate_proof_single_invalid s1 hv] at h
          exact absurd h id
        | incomplete_proof =>
          rw [validate_proof_single_incomplete s1 hv] at h
          simp only [expand_single] at h
          cases he : expand_left cxt s1 with
          | error e =>
            rw [he] at h
            exact absurd h id
          | ok s3 =>
            rw [he] at h
            simp only at h
            obtain ⟨hw3, hc3⟩ := expand_left_wf cxt s1 s3 hwt he
            obtain ⟨s4, hf4⟩ := flattened_goal_flatten cxt k s3 s2 h
            obtain ⟨h1, h2, h3⟩ := flattened_goal_inv cxt k s3 s4 s2 hw3 hf4 h
            refine ⟨h1, h2, ?_⟩
            rw [h3, flatten_cons_keep s3 s4 hw3.1 hw3.2.1 (by rw [hc3]; exact hflat.2.1)
              (by rw [hc3]; exact hflat.2.2.2) hf4, hc3]

/-! ## The conjunctive and disjunctive fragment -/

theorem subsumes_while_loop (cxt : Context) : ∀ (k : Nat) (goals : Goal_list),
    subsumes_while cxt .incomplete_proof k goals =
      match subsumes_loop cxt k goals with
      | .error e => .error e
      | .ok b => .ok (b, true)
  | 0, _ => rfl
  | k + 1, goals => by
      rw [subsumes_while, subsumes_loop]
      cases hf : flatten goals with
      | error e => rfl
      | ok goals1 =>
        simp only
        cases hv : validate_proof goals1 with
        | error e => rfl
        | ok r =>
          obtain ⟨v, goals2⟩ := r
          cases v with
          | valid_proof => rfl
          | invalid_proof => rfl
          | incomplete_proof =>
            simp only
            cases he : expand cxt goals2 with
            | error e => rfl
            | ok goals3 => exact subsumes_while_loop cxt k goals3

theorem flattened_goal_first (cxt : Context) (k : Nat) (s s1 : Sequent)
    (hf : flatten [s] = .ok [s1]) : flattened_goal cxt (k + 1) [s] s1 := by
  rw [flattened_goal, hf]
  exact Or.inl rfl

theorem flattened_goal_next (cxt : Context) (k : Nat) (s s1 s3 s2 : Sequent)
    (hf : flatten [s] = .ok [s1]) (hv : validate_obligation s1 = .ok .incomplete_proof)
    (he : expand_left cxt s1 = .ok s3) (h : flattened_goal cxt k [s3] s2) :
    flattened_goal cxt (k + 1) [s] s2 := by
  rw [flattened_goal, hf]
  simp only
  rw [validate_proof_single_incomplete s1 hv]
  simp only
  rw [expand_single, he]
  exact Or.inr h

theorem subsumes_loop_false (cxt : Context) : ∀ (k : Nat) (s : Sequent), s.wf →
    subsumes_loop cxt k [s] = .ok false →
    ∃ s1, flattened_goal cxt k [s] s1 ∧ s1.wf ∧ validate_obligation s1 = .ok .invalid_proof
  | 0, _, _, h => by simp [subsumes_loop] at h
  | k + 1, s, hwf, h => by
      rcases flatten_single_cases s with ⟨e, hfe⟩ | ⟨s1, hf⟩
      · rw [subsumes_round_error cxt k s e hfe] at h
        cases h
      obtain ⟨v, hw1, _, hv, hloop⟩ := subsumes_round cxt k s s1 hwf hf
      rw [hloop] at h
      cases v with
      | valid_proof => simp at h
      | invalid_proof => exact ⟨s1, flattened_goal_first cxt k s s1 hf, hw1, hv⟩
      | incomplete_proof =>
        simp only at h
        cases he : expand_left cxt s1 with
        | error e => rw [he] at h; cases h
        | ok s3 =>
          rw [he] at h
          simp only at h
          obtain ⟨s2, hg, hw2, hv2⟩ :=
            subsumes_loop_false cxt k s3 (expand_left_wf cxt s1 s3 hw1 he).1 h
          exact ⟨s2, flattened_goal_next cxt k s s1 s3 s2 hf hv he hg, hw2, hv2⟩

/-- C37: whenever `subsumes(A, C)` returns false, a validation answered
invalid.  Either the initial check did, `A` and `C` being non-equivalent atomic
predicates, or the goal `s1` left by the flatten pass of some round did: every
antecedent and every consequent of `s1` is an atomic predicate and no
consequent is equivalent to an antecedent.  The value is returned from the body
of the loop; the `return false` after the loop is not reached, also for other
results of the loop. -/
theorem subsumes_false_invalid (limit : Nat) (cxt : Context) (a c : Cons)
    (h : subsumes_within limit cxt a c = .ok false) :
    ((validate_implication a c = .invalid_proof ∧ is_atomic a = true ∧ is_atomic c = true ∧
        is_equivalent a c = false) ∨
     (validate_implication a c = .incomplete_proof ∧
       ∃ s0 s1, Sequent.make a c = .ok s0 ∧ flattened_goal cxt limit [s0] s1 ∧
         validate_proof [s1] = .ok (.invalid_proof, [s1]) ∧
         (∀ x ∈ s1.ants.seq, is_atomic x = true) ∧ (∀ y ∈ s1.cons.seq, is_atomic y = true) ∧
         (¬ ∃ y ∈ s1.cons.seq, ∃ x ∈ s1.ants.seq, is_equivalent y x = true) ∧
         subsumes_while cxt .incomplete_proof limit [s0] = .ok (false, true))) ∧
    (∀ (k : Nat) (goals : Goal_list) (r : Bool × Bool),
      subsumes_while cxt .incomplete_proof k goals = .ok r → r.2 = true) := by
  constructor
  · unfold subsumes_within at h
    cases hv : validate_implication a c with
    | valid_proof => rw [hv] at h; simp at h
    | invalid_proof =>
      left
      refine ⟨rfl, ?_⟩
      unfold validate_implication at hv
      by_cases he : is_equivalent a c = true
      · simp [he] at hv
      · simp only [he, Bool.false_eq_true, if_false, validate_non_matching] at hv
        by_cases hat : (is_atomic a && is_atomic c) = true
        · simp only [Bool.and_eq_true] at hat
          simp only [Bool.not_eq_true] at he
          exact ⟨hat.1, hat.2, he⟩
        · simp [hat] at hv
    | incomplete_proof =>
      right
      refine ⟨rfl, ?_⟩
      rw [hv] at h
      simp only at h
      cases hm : Sequent.make a c with
      | error e => rw [hm] at h; cases h
      | ok s0 =>
        rw [hm] at h
        simp only at h
        obtain ⟨hwf0, _, _⟩ := Sequent_make_wf a c s0 hm
        obtain ⟨s1, hg, hw1, hv1⟩ := subsumes_loop_false cxt limit s0 hwf0 h
        obtain ⟨v, hv2, _, hinv⟩ := validate_obligation_cases s1 hw1
        rw [hv1] at hv2
        have hv3 : v = .invalid_proof := by cases hv2; rfl
        obtain ⟨hno, ha1, hc1⟩ := hinv.1 hv3
        refine ⟨s0, s1, rfl, hg, validate_proof_single_invalid s1 hv1, ha1, hc1, hno, ?_⟩
        rw [subsumes_while_loop, h]
  · intro k goals r hr
    rw [subsumes_while_loop] at hr
    cases hl : subsumes_loop cxt k goals with
    | error e => rw [hl] at hr; cases hr
    | ok b => rw [hl] at hr; cases hr; rfl

/-- C37 on `A = P1 ∧ P2` and `C = P3`: `subsumes` returns false after the first
flatten pass. -/
theorem subsumes_false_invalid_witness :
    subsumes no_concepts (.Conjunction_cons (atom 1) (atom 2)) (atom 3) = .ok false ∧
    ((validate_implication (.Conjunction_cons (atom 1) (atom 2)) (atom 3) = .invalid_proof ∧
        is_atomic (.Conjunction_cons (atom 1) (atom 2)) = true ∧ is_atomic (atom 3) = true ∧
        is_equivalent (.Conjunction_cons (atom 1) (atom 2)) (atom 3) = false) ∨
     (validate_implication (.Conjunction_cons (atom 1) (atom 2)) (atom 3) = .incomplete_proof ∧
       ∃ s0 s1, Sequent.make (.Conjunction_cons (atom 1) (atom 2)) (atom 3) = .ok s0 ∧
         flattened_goal no_concepts 20 [s0] s1 ∧
         validate_proof [s1] = .ok (.invalid_proof, [s1]) ∧
         (∀ x ∈ s1.ants.seq, is_atomic x = true) ∧ (∀ y ∈ s1.cons.seq, is_atomic y = true) ∧
         (¬ ∃ y ∈ s1.cons.seq, ∃ x ∈ s1.ants.seq, is_equivalent y x = true) ∧
         subsumes_while no_concepts .incomplete_proof 20 [s0] = .ok (false, true))) ∧
    (∀ (k : Nat) (goals : Goal_list) (r : Bool × Bool),
      subsumes_while no_concepts .incomplete_proof k goals = .ok r → r.2 = true) :=
  ⟨rfl, subsumes_false_invalid 20 no_concepts (.Conjunction_cons (atom 1) (atom 2)) (atom 3) rfl⟩

/-! ## Flattening a flattened sequent -/

/-- C38: flattening is idempotent.  On a sequent that is flattened already,
one whose antecedents hold no conjunction or parameterized constraint and whose
consequents no disjunction or parameterized constraint, `flatten`
(`flatten_left` then `flatten_right`) returns the sequent with the antecedent
list and the consequent list it was given, elements and order included, and
the cursors at the end.  So the sequent `s1` that a `flatten` over lists that
satisfy the invariant of the prop-list returns is returned again by `flatten`,
`flatten_left` and `flatten_right` applied to `s1`. -/
theorem flatten_idempotent (s : Sequent) :
    ((∀ x ∈ s.ants.seq, left_flat x = true) → (∀ x ∈ s.cons.seq, right_flat x = true) →
      flatten [s] = .ok [{ ants := { s.ants with cur := s.ants.seq.length },
                           cons := { s.cons with cur := s.cons.seq.length } }]) ∧
    (∀ s1, s.ants.wf → s.cons.wf → flatten [s] = .ok [s1] →
      (∀ x ∈ s1.ants.seq, left_flat x = true) ∧ (∀ x ∈ s1.cons.seq, right_flat x = true) ∧
      flatten [s1] = .ok [s1] ∧ flatten_left s1 = .ok s1 ∧ flatten_right s1 = .ok s1) := by
  constructor
  · intro h1 h2
    rw [flatten_single, flatten_left_flat s h1]
    simp only
    have e := flatten_right_flat
      { ants := { map := s.ants.map, seq := s.ants.seq, cur := s.ants.seq.length },
        cons := s.cons } h2
    rw [e]
  · intro s1 hwa hwc h
    obtain ⟨_, _, hflat, _, _⟩ := flatten_lists_result s s1 hwa hwc h
    obtain ⟨e1, e2, e3⟩ := flatten_of_flat s1 hflat
    exact ⟨hflat.1, hflat.2.1, e3, e1, e2⟩

/-- C38 on the flattened sequent `P2, P1 ∨ P3 ⊢ P1, P2 ∧ P3`, with the cursors
at the start, and on the sequent that the flatten pass over
`(P1 ∧ P2) ∧ P1 ⊢ P1 ∨ (P2 ∨ P1)` returns. -/
theorem flatten_idempotent_witness :
    flatten [{ ants := ⟨[.Disjunction_cons (atom 1) (atom 3), atom 2],
                        [atom 2, .Disjunction_cons (atom 1) (atom 3)], 0⟩,
               cons := ⟨[.Conjunction_cons (atom 2) (atom 3), atom 1],
                        [atom 1, .Conjunction_cons (atom 2) (atom 3)], 0⟩ }] =
      .ok [{ ants := ⟨[.Disjunction_cons (atom 1) (atom 3), atom 2],
                      [atom 2, .Disjunction_cons (atom 1) (atom 3)], 2⟩,
             cons := ⟨[.Conjunction_cons (atom 2) (atom 3), atom 1],
                      [atom 1, .Conjunction_cons (atom 2) (atom 3)], 2⟩ }] ∧
    flatten [{ ants := { map := [atom 2, atom 1], seq := [atom 2, atom 1], cur := 2 },
               cons := { map := [atom 2, atom 1], seq := [atom 1, atom 2], cur := 2 } }] =
      .ok [{ ants := { map := [atom 2, atom 1], seq := [atom 2, atom 1], cur := 2 },
             cons := { map := [atom 2, atom 1], seq := [atom 1, atom 2], cur := 2 } }] :=
  ⟨(flatten_idempotent
      { ants := ⟨[.Disjunction_cons (atom 1) (atom 3), atom 2],
                 [atom 2, .Disjunction_cons (atom 1) (atom 3)], 0⟩,
        cons := ⟨[.Conjunction_cons (atom 2) (atom 3), atom 1],
                 [atom 1, .Conjunction_cons (atom 2) (atom 3)], 0⟩ }).1
      (by intro x hx; simp only [List.mem_cons, List.mem_singleton, List.not_mem_nil, or_false] at hx
          rcases hx with h | h <;> subst h <;> rfl)
      (by intro x hx; simp only [List.mem_cons, List.mem_singleton, List.not_mem_nil, or_false] at hx
          rcases hx with h | h <;> subst h <;> rfl),
   ((flatten_idempotent sample_sequent).2
      { ants := { map := [atom 2, atom 1], seq := [atom 2, atom 1], cur := 2 },
        cons := { map := [atom 2, atom 1], seq := [atom 1, atom 2], cur := 2 } }
      sample_sequent_wf.1 sample_sequent_wf.2 rfl).2.2.1⟩

/-! ## The consequents during the proof -/

/-- C39: consequents are never expanded.  Let `s1` be the goal after the first
flatten pass on `s0`.  Every goal `s2` left by the flatten pass of a later
round has the consequent list of `s1`, `expand_left` returns a goal with the
consequent list it was given, and `flatten_right` on `s2` returns `s2`; so
every consequent of `s1`, a concept or a conjunction included, is a consequent
of `s2`. -/
theorem consequents_fixed (cxt : Context) (s0 s1 : Sequent) (hwf : s0.wf)
    (hf : flatten [s0] = .ok [s1]) :
    (∀ k s2, flattened_goal cxt k [s0] s2 → s2.cons = s1.cons) ∧
    (∀ s s3, expand_left cxt s = .ok s3 → s3.cons = s.cons) ∧
    (∀ k s2, flattened_goal cxt k [s0] s2 → flatten_right s2 = .ok s2) ∧
    (∀ k s2 x, flattened_goal cxt k [s0] s2 → (x ∈ s2.cons.seq ↔ x ∈ s1.cons.seq)) := by
  refine ⟨?_, ?_, ?_, ?_⟩
  · intro k s2 h
    exact (flattened_goal_inv cxt k s0 s1 s2 hwf hf h).2.2
  · intro s s3 h
    exact expand_left_cons cxt s s3 h
  · intro k s2 h
    exact (flatten_of_flat s2 (flattened_goal_inv cxt k s0 s1 s2 hwf hf h).2.1).2.1
  · intro k s2 x h
    rw [(flattened_goal_inv cxt k s0 s1 s2 hwf hf h).2.2]

theorem concept_goal_wf : concept_goal.wf :=
  (Sequent_make_wf (.Concept_cons 100 [.type int_type]) (.Conjunction_cons (atom 1) (atom 2))
    concept_goal rfl).1

/-- C39 on `D<int> ⊢ P1 ∧ P2` in the sample context: the second round has the
goal `P1, P2 ⊢ P1 ∧ P2`, and the conjunction stays the only consequent. -/
theorem consequents_fixed_witness :
    flattened_goal sample_context 2 [concept_goal]
      { ants := { map := [atom 2, atom 1], seq := [atom 1, atom 2], cur := 2 },
        cons := { map := [.Conjunction_cons (atom 1) (atom 2)],
                  seq := [.Conjunction_cons (atom 1) (atom 2)], cur := 1 } } ∧
    ((∀ k s2, flattened_goal sample_context k [concept_goal] s2 →
      s2.cons = { map := [.Conjunction_cons (atom 1) (atom 2)],
                  seq := [.Conjunction_cons (atom 1) (atom 2)], cur := 1 }) ∧
    (∀ s s3, expand_left sample_context s = .ok s3 → s3.cons = s.cons) ∧
    (∀ k s2, flattened_goal sample_context k [concept_goal] s2 → flatten_right s2 = .ok s2) ∧
    (∀ k s2 x, flattened_goal sample_context k [concept_goal] s2 →
      (x ∈ s2.cons.seq ↔ x ∈ [Cons.Conjunction_cons (atom 1) (atom 2)]))) :=
  ⟨Or.inr (Or.inl rfl),
   consequents_fixed sample_context concept_goal
    { ants := { concept_goal.ants with cur := 1 },
      cons := { map := [.Conjunction_cons (atom 1) (atom 2)],
                seq := [.Conjunction_cons (atom 1) (atom 2)], cur := 1 } }
    concept_goal_wf rfl⟩

/-! ## Prop-lists stay non-empty -/

theorem get_min_element (l : List Cons) (h : l ≠ []) : ∃ x, l.get? (min_element l) = some x := by
  cases hg : l.get? (min_element l) with
  | some x => exact ⟨x, rfl⟩
  | none =>
    have h1 := List.get?_eq_none.1 hg
    have h2 := min_element_lt l h
    omega

/-- C40: a prop-list never becomes empty through rewriting.  On a list that
satisfies the invariant of the prop-list, a `replace(pos, c)` and a
`replace(pos, c1, c2)` that return leave a non-empty list, they return at
every position of the list when the new constraints have a hash code, and
`min_element` on a non-empty list is the position of an element.  The sequent `Sequent(a, c)`
has one antecedent and one consequent, and every goal `s2` that a flatten pass
of `subsumes` leaves has a non-empty antecedent list and a non-empty
consequent list; the antecedent `expand_left` selects in it exists, and the
goal `expand_left` returns has non-empty lists again. -/
theorem prop_list_never_empty (ps : Prop_list) (hwf : ps.wf) :
    (∀ pos c r, ps.replace pos c = .ok r → r.1.seq ≠ []) ∧
    (∀ pos c1 c2 r, ps.replace2 pos c1 c2 = .ok r → r.1.seq ≠ []) ∧
    (∀ pos c, pos < ps.seq.length → hashable c = true → ∃ r, ps.replace pos c = .ok r) ∧
    (∀ pos c1 c2, pos < ps.seq.length → hashable c1 = true → hashable c2 = true →
      ∃ r, ps.replace2 pos c1 c2 = .ok r) ∧
    (ps.seq ≠ [] → min_element ps.seq < ps.seq.length ∧
      ∃ x, ps.seq.get? (min_element ps.seq) = some x) ∧
    (∀ a c s0, Sequent.make a c = .ok s0 → s0.ants.seq = [a] ∧ s0.cons.seq = [c]) ∧
    (∀ cxt a c s0 k s2, Sequent.make a c = .ok s0 → flattened_goal cxt k [s0] s2 →
      s2.ants.seq ≠ [] ∧ s2.cons.seq ≠ [] ∧
      (∃ x, s2.ants.seq.get? (min_element s2.ants.seq) = some x) ∧
      ∀ s3, expand_left cxt s2 = .ok s3 → s3.ants.seq ≠ [] ∧ s3.cons.seq ≠ []) := by
  refine ⟨?_, ?_, ?_, ?_, ?_, ?_, ?_⟩
  · intro pos c r h
    exact replace_nonempty ps pos c r hwf h
  · intro pos c1 c2 r h
    exact replace2_nonempty ps pos c1 c2 r hwf h
  · intro pos c hpos hc
    obtain ⟨hs, hl⟩ := list_split_at ps.seq pos _ (List.get?_eq_get hpos)
    obtain ⟨ps1, b, h1, _⟩ := replace_of_hashable ps _ _ _ c hwf hs hc
    rw [hl] at h1
    exact ⟨_, h1⟩
  · intro pos c1 c2 hpos hc1 hc2
    obtain ⟨hs, hl⟩ := list_split_at ps.seq pos _ (List.get?_eq_get hpos)
    obtain ⟨ps1, b1, b2, h1, _⟩ := replace2_of_hashable ps _ _ _ c1 c2 hwf hs hc1 hc2
    rw [hl] at h1
    exact ⟨_, h1⟩
  · intro h
    exact ⟨min_element_lt ps.seq h, get_min_element ps.seq h⟩
  · intro a c s0 h
    exact (Sequent_make_wf a c s0 h).2
  · intro cxt a c s0 k s2 hm hg
    obtain ⟨hwf0, _, _⟩ := Sequent_make_wf a c s0 hm
    obtain ⟨s1, hf⟩ := flattened_goal_flatten cxt k s0 s2 hg
    obtain ⟨hw2, _, _⟩ := flattened_goal_inv cxt k s0 s1 s2 hwf0 hf hg
    refine ⟨hw2.2.2.1, hw2.2.2.2, get_min_element _ hw2.2.2.1, ?_⟩
    intro s3 h3
    obtain ⟨hw3, _⟩ := expand_left_wf cxt s2 s3 hw2 h3
    exact ⟨hw3.2.2.1, hw3.2.2.2⟩

/-- C40 on the list `P1, P2`: replacing `P1` by `P2`, which the list holds
already, leaves `P2`. -/
theorem prop_list_never_empty_witness :
    (sample_props.replace 0 (atom 2)).map (fun r => r.1.seq) = .ok [atom 2] ∧
    ((∀ pos c r, sample_props.replace pos c = .ok r → r.1.seq ≠ []) ∧
    (∀ pos c1 c2 r, sample_props.replace2 pos c1 c2 = .ok r → r.1.seq ≠ []) ∧
    (∀ pos c, pos < sample_props.seq.length → hashable c = true → ∃ r, sample_props.replace pos c = .ok r) ∧
    (∀ pos c1 c2, pos < sample_props.seq.length → hashable c1 = true → hashable c2 = true →
      ∃ r, sample_props.replace2 pos c1 c2 = .ok r) ∧
    (sample_props.seq ≠ [] → min_element sample_props.seq < sample_props.seq.length ∧
      ∃ x, sample_props.seq.get? (min_element sample_props.seq) = some x) ∧
    (∀ a c s0, Sequent.make a c = .ok s0 → s0.ants.seq = [a] ∧ s0.cons.seq = [c]) ∧
    (∀ cxt a c s0 k s2, Sequent.make a c = .ok s0 → flattened_goal cxt k [s0] s2 →
      s2.ants.seq ≠ [] ∧ s2.cons.seq ≠ [] ∧
      (∃ x, s2.ants.seq.get? (min_element s2.ants.seq) = some x) ∧
      ∀ s3, expand_left cxt s2 = .ok s3 → s3.ants.seq ≠ [] ∧ s3.cons.seq ≠ [])) :=
  ⟨rfl, prop_list_never_empty sample_props sample_props_wf⟩

end banjo
